import Mathlib

/-!
# tboot: EFI memory map manager and ACM validator

Shallow embedding of `tboot/common/efi_memmap.c` and `tboot/txt/acmod.c`.

Conventions of the embedding:

* machine integers are natural numbers; every operation that can wrap in the C
  code carries an explicit `% U32` or `% U64`;
* tboot is a 32-bit program (the sources cast pointers to `uint32_t`), so
  pointers, `size_t` and `unsigned long` are 32 bits wide;
* a pointer into the descriptor storage `efi_mmap->descr` is represented by its
  byte offset from `efi_mmap->descr`; `NULL` is `none`;
* a result of `none` means that the execution left the model: a division by
  zero, a dereference of `NULL`, an access in front of the descriptor storage,
  or an exhausted iteration budget.
-/

namespace Tboot

/-- Number of values of a `uint32_t` (also of a pointer and of `unsigned long`). -/
def U32 : Nat := 2 ^ 32

/-- Number of values of a `uint64_t`. -/
def U64 : Nat := 2 ^ 64

/-! ## efi_memmap.h (not among the sources) -/

/-- Modelled from the spec: `EFI_PAGE_SHIFT` is declared in `efi_memmap.h`, which is
not among the sources; the spec fixes the page size as a power of two and its
scenarios split at multiples of `0x1000`, the 4 KiB page of UEFI. -/
def EFI_PAGE_SHIFT : Nat := 12

/-- Modelled from the spec: `EFI_RESERVED_TYPE` is declared in `efi_memmap.h`; the spec
puts the reserved type outside the contiguous range of free types (UEFI numbering). -/
def EFI_RESERVED_TYPE : Nat := 0

/-- Modelled from the spec: `EFI_LOADER_CODE`, lower end of the contiguous range of
free types (UEFI numbering). -/
def EFI_LOADER_CODE : Nat := 1

/-- Modelled from the spec: `EFI_LOADER_DATA`, a free type (UEFI numbering). -/
def EFI_LOADER_DATA : Nat := 2

/-- Modelled from the spec: `EFI_CONVENTIONAL_MEMORY`, upper end of the contiguous
range of free types (UEFI numbering). -/
def EFI_CONVENTIONAL_MEMORY : Nat := 7

/-- Modelled from the spec: `sizeof(efi_mem_descr_t)`. The type is declared in
`efi_memmap.h`, which is not among the sources; it is the memory descriptor of UEFI,
which the spec has stepped by `descr_size` and "not by the struct's natural size": a
32-bit `type` at byte 0, four bytes of padding, and the 64-bit members
`physical_start` at byte 8, `virtual_start` at byte 16, `num_pages` at byte 24 and
`attribute` at byte 32. -/
def SIZEOF_EFI_MEM_DESCR : Nat := 40

/-- One slot of `descr_size` bytes of the descriptor storage, read as an
`efi_mem_descr_t`. The source uses the members `type`, `physical_start`,
`num_pages` and `attribute` (here `attr`); `other` stands for every remaining byte of the slot
(padding, `virtual_start`, and the bytes beyond the structure when `descr_size`
exceeds its size). A slot holds the whole descriptor when `SIZEOF_EFI_MEM_DESCR <=
descr_size`; in a shorter slot the last members of a descriptor are bytes of the next
slot, and the storage is to be read byte by byte, as the definitions `Bytes.*` below
do. -/
structure efi_mem_descr_t where
  type : Nat
  physical_start : Nat
  num_pages : Nat
  attr : Nat
  other : Nat
deriving DecidableEq, Repr

/-- The structure `efi_memmap_t`: `size` bytes in use, `descr_size` bytes per entry,
and the storage `descr`, keyed by the byte offset of a slot. The storage extends
beyond `size`; what lies there is whatever the memory holds. One record per slot is
the memory of the code for slots that hold a whole descriptor, `SIZEOF_EFI_MEM_DESCR <=
descr_size`, and that do not overlap: the offsets in use are multiples of
`descr_size`. -/
structure efi_memmap_t where
  size : Nat
  descr_size : Nat
  descr : Nat → efi_mem_descr_t

/-- The two file-scope variables of `efi_memmap.c`. -/
structure efi_state where
  efi_mmap_available : Bool
  efi_mmap : efi_memmap_t

/-! ## efi_memmap.c -/

/-- The function `efi_memmap_walk` (lines 114-137). `prev` and the result are byte
offsets from `efi_mmap->descr`. The test `(uint32_t)prev < (uint32_t)efi_mmap->descr`
is false for every pointer formed as `descr + offset`. -/
def efi_memmap_walk (s : efi_state) (prev : Option Nat) : Option Nat :=
  if !s.efi_mmap_available then none
  else
    match prev with
    | none => some 0
    | some p =>
      let next := (p + s.efi_mmap.descr_size) % U32
      if next < s.efi_mmap.size then some next else none

/-- The copy loop of `insert_after_region` (lines 335-340):
`for (i = size; i > pos; i -= descr_size) memcpy(descr + i, descr + i - bytes, bytes)`.
`pos` is the byte position. -/
def shift_up (ds pos : Nat) :
    Nat → Nat → (Nat → efi_mem_descr_t) → Option (Nat → efi_mem_descr_t)
  | 0, _, _ => none
  | fuel + 1, i, d =>
    if i > pos then
      if i < ds then none
      else shift_up ds pos fuel (i - ds) (Function.update d i (d (i - ds)))
    else some d

/-- The function `insert_after_region` (lines 325-352). `maxEntries` is
`EFI_MEMMAP_MAX_ENTRIES`, declared in `efi_memmap.h`. `pos *= descr_size` is a 32-bit
multiplication, and the address `descr + pos + descr_size` of the new entry is formed
in 32-bit pointer arithmetic: its offset from `descr` is `(pos + descr_size) % U32`.
`tb_memcpy` and `tb_memset` move and clear the `descr_size` bytes of a slot, here its
record; with `SIZEOF_EFI_MEM_DESCR <= descr_size` the four members stored lie in the
slot. `Bytes.insert_after_region` is the function for every `descr_size`, and
`insert_after_region_agree` has the two agree in slots that hold a descriptor. -/
def insert_after_region (maxEntries : Nat) (m : efi_memmap_t)
    (pos addr size type attr : Nat) : Option (Bool × efi_memmap_t) :=
  if m.descr_size = 0 then none
  else if (m.size / m.descr_size + 1) % U32 > maxEntries then some (false, m)
  else
    let pos := (pos * m.descr_size) % U32
    match shift_up m.descr_size pos (m.size + 1) m.size m.descr with
    | none => none
    | some d =>
      let desc := (pos + m.descr_size) % U32
      some (true,
        { size := (m.size + m.descr_size) % U32
          descr_size := m.descr_size
          descr := Function.update d desc
            { type := type, physical_start := addr,
              num_pages := size >>> EFI_PAGE_SHIFT, attr := attr, other := 0 } })

/-- The function `region_is_free` (lines 354-362). -/
def region_is_free (region_type : Nat) : Bool :=
  region_type == EFI_LOADER_CODE || region_type == EFI_LOADER_DATA ||
    region_type == EFI_CONVENTIONAL_MEMORY

/-- The constant `mask = ~((1ULL << EFI_PAGE_SHIFT) - 1ULL)` of line 159. -/
def page_mask : Nat := (U64 - 1) ^^^ ((1 <<< EFI_PAGE_SHIFT) % U64 + U64 - 1) % U64

/-- The value `~mask` of line 161. -/
def page_mask_compl : Nat := (U64 - 1) ^^^ page_mask

/-- The value of `base` after line 160. -/
def reserve_base (base : Nat) : Nat := base &&& page_mask

/-- The value of `length` after lines 161-164. -/
def reserve_length (length : Nat) : Nat :=
  if length &&& page_mask_compl ≠ 0 then
    ((length &&& page_mask) + (1 <<< EFI_PAGE_SHIFT) % U64) % U64
  else length

/-- The value of `end` at line 166. -/
def reserve_end (base length : Nat) : Nat :=
  (reserve_base base + reserve_length length) % U64

/-- Stores `e` in the slot at byte offset `off`. -/
def efi_memmap_t.store (m : efi_memmap_t) (off : Nat) (e : efi_mem_descr_t) : efi_memmap_t :=
  { m with descr := Function.update m.descr off e }

/-- The scan loop of `efi_memmap_reserve` (lines 170-253); `base`, `length` and
`end_` are the rounded values, `desc` the cursor before the call of
`efi_memmap_walk` in the loop condition, `i` the loop index. The members of `desc` are
read from and stored in the record of its slot, which is where they lie with
`SIZEOF_EFI_MEM_DESCR <= descr_size`. `Bytes.reserve_loop` is the loop for every
`descr_size`, and `reserve_loop_agree` has the two agree on well-formed maps. -/
def reserve_loop (maxEntries base length end_ : Nat) :
    Nat → efi_state → Option Nat → Nat → Option (Bool × efi_state)
  | 0, _, _, _ => none
  | fuel + 1, s, desc, i =>
    match efi_memmap_walk s desc with
    | none => some (true, s)
    | some d =>
      let e := s.efi_mmap.descr d
      let desc_base := e.physical_start
      let desc_length := (e.num_pages <<< EFI_PAGE_SHIFT) % U64
      let desc_end := (desc_base + desc_length) % U64
      if e.type < EFI_LOADER_CODE ∨ e.type > EFI_CONVENTIONAL_MEMORY then
        reserve_loop maxEntries base length end_ fuel s (some d) ((i + 1) % U32)
      else if end_ ≤ desc_base then
        reserve_loop maxEntries base length end_ fuel s (some d) ((i + 1) % U32)
      else if base ≥ desc_end then
        reserve_loop maxEntries base length end_ fuel s (some d) ((i + 1) % U32)
      else if base ≤ desc_base ∧ desc_end ≤ end_ then
        -- case 1
        let s1 := { s with efi_mmap := s.efi_mmap.store d ({ e with type := EFI_RESERVED_TYPE }) }
        reserve_loop maxEntries base length end_ fuel s1 (some d) ((i + 1) % U32)
      else if desc_base ≥ base ∧ end_ > desc_base ∧ desc_end > end_ then
        -- case 2
        match insert_after_region maxEntries s.efi_mmap ((i + U32 - 1) % U32) desc_base
            (end_ - desc_base) EFI_RESERVED_TYPE e.attr with
        | none => none
        | some (false, m1) => some (false, { s with efi_mmap := m1 })
        | some (true, m1) =>
          let s1 := { s with efi_mmap := m1 }
          match efi_memmap_walk s1 (some d) with
          | none => none
          | some d1 =>
            let e1 := m1.descr d1
            let m2 := m1.store d1 { e1 with physical_start := end_,
                                            num_pages := (desc_end - end_) >>> EFI_PAGE_SHIFT }
            some (true, { s1 with efi_mmap := m2 })
      else if base > desc_base ∧ desc_end > base ∧ end_ ≥ desc_end then
        -- case 3
        let m0 := s.efi_mmap.store d ({ e with num_pages := (base - desc_base) >>> EFI_PAGE_SHIFT })
        match insert_after_region maxEntries m0 i base (desc_end - base)
            EFI_RESERVED_TYPE (m0.descr d).attr with
        | none => none
        | some (false, m1) => some (false, { s with efi_mmap := m1 })
        | some (true, m1) =>
          let s1 := { s with efi_mmap := m1 }
          reserve_loop maxEntries base length end_ fuel s1 (efi_memmap_walk s1 (some d))
            ((i + 1 + 1) % U32)
      else if base > desc_base ∧ desc_end > end_ then
        -- case 4
        let m0 := s.efi_mmap.store d ({ e with num_pages := (base - desc_base) >>> EFI_PAGE_SHIFT })
        match insert_after_region maxEntries m0 i base length
            EFI_RESERVED_TYPE (m0.descr d).attr with
        | none => none
        | some (false, m1) => some (false, { s with efi_mmap := m1 })
        | some (true, m1) =>
          match insert_after_region maxEntries m1 ((i + 1) % U32) end_ (desc_end - end_)
              (m1.descr d).type (m1.descr d).attr with
          | none => none
          | some (false, m2) => some (false, { s with efi_mmap := m2 })
          | some (true, m2) => some (true, { s with efi_mmap := m2 })
      else some (false, s)

/-- The function `efi_memmap_reserve` (lines 152-256). `fuel` bounds the number of
evaluations of the loop condition; the C loop has no bound of its own. -/
def efi_memmap_reserve (maxEntries fuel : Nat) (s : efi_state) (base length : Nat) :
    Option (Bool × efi_state) :=
  if length = 0 ∨ !s.efi_mmap_available then some (true, s)
  else
    reserve_loop maxEntries (reserve_base base) (reserve_length length)
      (reserve_end base length) fuel s none 0

/-- The entries of the map: the slots at byte offsets `0, descr_size, ...` below
`size / descr_size` entries. -/
def efi_memmap_t.entries (m : efi_memmap_t) : List efi_mem_descr_t :=
  (List.range (m.size / m.descr_size)).map (fun k => m.descr (k * m.descr_size))

/-- Sum of `num_pages` over the entries of the map. -/
def efi_memmap_t.total_pages (m : efi_memmap_t) : Nat :=
  (m.entries.map (fun e => e.num_pages)).sum

/-! ## uuid.h, misc.h, txt/acmod.h, txt/config_regs.h (not among the sources) -/

/-- The structure `uuid_t`; its members are the ones `custom_elt.c` assigns. -/
structure uuid_t where
  data1 : Nat
  data2 : Nat
  data3 : Nat
  data4 : Nat
  data5 : List Nat
deriving DecidableEq, Repr

/-- Modelled from the spec: `are_uuids_equal` is defined in `uuid.h`, which is not among
the sources; the spec has the identity of an info table "equal" the fixed constant. -/
def are_uuids_equal (uuid1 uuid2 : uuid_t) : Bool := decide (uuid1 = uuid2)

/-- Modelled from the spec: `plus_overflow_u32` is defined in `misc.h`, which is not
among the sources; the spec calls it overflow-checked addition: true when the sum
does not fit 32 bits. -/
def plus_overflow_u32 (x y : Nat) : Bool := decide (U32 ≤ x + y)

/-- Modelled from the spec: `multiply_overflow_u32` is defined in `misc.h`, which is not
among the sources; the spec calls it overflow-checked multiplication: true when the
product does not fit 32 bits. -/
def multiply_overflow_u32 (x y : Nat) : Bool := decide (U32 ≤ x * y)

/-- Modelled from the spec: `plus_overflow_ul` is defined in `misc.h`, which is not among
the sources; true when the sum does not fit an `unsigned long` (the address
computation "overflows the address space"). -/
def plus_overflow_ul (x y : Nat) : Bool := decide (U32 ≤ x + y)

/-- What `txt/acmod.h` (not among the sources) declares and `acmod.c` uses: the sizes
of three structures, the offset of the flexible array `chipset_ids` in
`acm_chipset_id_list_t` (the size of its `count` member), and the identity constants. -/
structure acmod_h where
  sizeof_acm_hdr_t : Nat
  sizeof_acm_info_table_t : Nat
  sizeof_acm_chipset_id_t : Nat
  sizeof_count : Nat
  ACM_TYPE_CHIPSET : Nat
  ACM_VENDOR_INTEL : Nat
  ACM_UUID_V3 : uuid_t
  ACM_CHIPSET_TYPE_BIOS : Nat
  ACM_CHIPSET_TYPE_SINIT : Nat

/-- The members of `acm_hdr_t` that the validator reads. -/
structure acm_hdr_t where
  module_type : Nat
  header_len : Nat
  module_vendor : Nat
  date : Nat
  size : Nat
  gdt_limit : Nat
  seg_sel : Nat
  entry_point : Nat
  scratch_size : Nat
deriving DecidableEq, Repr

/-- The members of `acm_info_table_t` that the validator reads; `capabilities` is the
`_raw` word of `txt_caps_t`. -/
structure acm_info_table_t where
  uuid : uuid_t
  chipset_acm_type : Nat
  version : Nat
  chipset_id_list : Nat
  os_sinit_data_ver : Nat
  min_mle_hdr_ver : Nat
  capabilities : Nat
deriving DecidableEq, Repr

/-- The structure `acm_chipset_id_t`. -/
structure acm_chipset_id_t where
  flags : Nat
  vendor_id : Nat
  device_id : Nat
  revision_id : Nat
  extended_id : Nat
deriving DecidableEq, Repr

/-- The structure `acm_chipset_id_list_t`: `count` and the flexible array `chipset_ids`. -/
structure acm_chipset_id_list_t where
  count : Nat
  chipset_ids : Nat → acm_chipset_id_t

/-- The members of `txt_didvid_t`, the value of the register `TXTCR_DIDVID`. -/
structure txt_didvid_t where
  vendor_id : Nat
  device_id : Nat
  revision_id : Nat
deriving DecidableEq, Repr

/-- The memory an `acm_hdr_t *` points to: `addr` is `(unsigned long)hdr`, `hdr` the
header read there, `info_table_at off` and `chipset_list_at off` what the bytes at
byte offset `off` from `hdr` give when read as an info table or as a chipset list. -/
structure acm_blob where
  addr : Nat
  hdr : acm_hdr_t
  info_table_at : Nat → acm_info_table_t
  chipset_list_at : Nat → acm_chipset_id_list_t

/-! ## acmod.c -/

/-- The function `get_acmod_info_table` (lines 57-97). The result is the byte offset
of the table from `hdr`: the C function returns `hdr + user_area_off`. -/
def get_acmod_info_table (L : acmod_h) (b : acm_blob) : Option Nat :=
  if plus_overflow_u32 b.hdr.header_len b.hdr.scratch_size then none
  else if multiply_overflow_u32 ((b.hdr.header_len + b.hdr.scratch_size) % U32) 4 then none
  else
    let user_area_off := ((b.hdr.header_len + b.hdr.scratch_size) % U32 * 4) % U32
    if plus_overflow_u32 user_area_off L.sizeof_acm_info_table_t then none
    else if (user_area_off + L.sizeof_acm_info_table_t) % U32 > (b.hdr.size * 4) % U32 then none
    else if plus_overflow_ul b.addr user_area_off then none
    else some user_area_off

/-- The function `get_acmod_chipset_list` (lines 99-157). The result is the byte offset
of the list from `hdr`: the C function returns `hdr + id_list_off`. -/
def get_acmod_chipset_list (L : acmod_h) (b : acm_blob) : Option Nat :=
  match get_acmod_info_table L b with
  | none => none
  | some t =>
    let info_table := b.info_table_at t
    let id_list_off := info_table.chipset_id_list
    let size := (b.hdr.size * 4) % U32
    if plus_overflow_u32 id_list_off L.sizeof_acm_chipset_id_t then none
    else if (id_list_off + L.sizeof_acm_chipset_id_t) % U32 > size then none
    else if plus_overflow_ul b.addr id_list_off then none
    else
      let chipset_id_list := b.chipset_list_at id_list_off
      if multiply_overflow_u32 chipset_id_list.count L.sizeof_acm_chipset_id_t then none
      else if plus_overflow_u32 ((id_list_off + L.sizeof_acm_chipset_id_t) % U32)
          ((chipset_id_list.count * L.sizeof_acm_chipset_id_t) % U32) then none
      else if ((id_list_off + L.sizeof_acm_chipset_id_t) % U32 +
          (chipset_id_list.count * L.sizeof_acm_chipset_id_t) % U32) % U32 > size then none
      else some id_list_off

/-- The function `is_acmod` (lines 267-328). The second component is the value stored
through `type` (for a `type` that is not `NULL`), `none` when nothing is stored. -/
def is_acmod (L : acmod_h) (b : acm_blob) (acmod_size : Nat) : Bool × Option Nat :=
  if acmod_size < L.sizeof_acm_hdr_t then (false, none)
  else if multiply_overflow_u32 b.hdr.size 4 then (false, none)
  else if acmod_size ≠ (b.hdr.size * 4) % U32 then (false, none)
  else if b.hdr.module_type ≠ L.ACM_TYPE_CHIPSET ∨
      b.hdr.module_vendor ≠ L.ACM_VENDOR_INTEL then (false, none)
  else
    match get_acmod_info_table L b with
    | none => (false, none)
    | some t =>
      let info_table := b.info_table_at t
      if !are_uuids_equal info_table.uuid L.ACM_UUID_V3 then (false, none)
      else if info_table.version < 3 then (false, some info_table.chipset_acm_type)
      else (true, some info_table.chipset_acm_type)

/-- The condition of the `if` in the loop of `does_acmod_match_chipset` (lines 370-375). -/
def chipset_id_matches (didvid : txt_didvid_t) (chipset_id : acm_chipset_id_t) : Bool :=
  didvid.vendor_id == chipset_id.vendor_id &&
  didvid.device_id == chipset_id.device_id &&
  ((chipset_id.flags &&& 0x1 == 0 && didvid.revision_id == chipset_id.revision_id) ||
   (chipset_id.flags &&& 0x1 == 1 && (didvid.revision_id &&& chipset_id.revision_id) != 0))

/-- The loop `for (i = ...; i < count; i++)` of `does_acmod_match_chipset` (lines 363-377),
entered at index `i` with `remaining = count - i` iterations to go. The second component
lists the indices of the entries the loop has read (each one is printed). The list
has passed `count * sizeof(acm_chipset_id_t) < 2^32`, which keeps `int i` from
overflowing for entries of two bytes or more. -/
def chipset_id_scan (didvid : txt_didvid_t) (chipset_ids : Nat → acm_chipset_id_t) :
    Nat → Nat → Bool × List Nat
  | 0, _ => (false, [])
  | remaining + 1, i =>
    if chipset_id_matches didvid (chipset_ids i) then (true, [i])
    else
      let r := chipset_id_scan didvid chipset_ids remaining (i + 1)
      (r.1, i :: r.2)

/-- The function `does_acmod_match_chipset` (lines 345-382), with the indices of the
entries it has read; `didvid` is the value read from `TXTCR_DIDVID`. -/
def does_acmod_match_chipset_run (L : acmod_h) (b : acm_blob) (didvid : txt_didvid_t) :
    Bool × List Nat :=
  match get_acmod_chipset_list L b with
  | none => (false, [])
  | some id_list_off =>
    let chipset_id_list := b.chipset_list_at id_list_off
    chipset_id_scan didvid chipset_id_list.chipset_ids chipset_id_list.count 0

/-- The value `does_acmod_match_chipset` returns. -/
def does_acmod_match_chipset (L : acmod_h) (b : acm_blob) (didvid : txt_didvid_t) : Bool :=
  (does_acmod_match_chipset_run L b didvid).1

/-- The chipset-list loop of `print_acm_hdr` (lines 225-242): the indices of the entries
it prints. -/
def print_acm_hdr_entries (L : acmod_h) (b : acm_blob) : List Nat :=
  match get_acmod_info_table L b with
  | none => []
  | some _ =>
    match get_acmod_chipset_list L b with
    | none => []
    | some id_list_off => List.range (b.chipset_list_at id_list_off).count

/-! ## Vocabulary of the statements -/

/-- The byte address one past an entry, as a natural number (no wrap). -/
def efi_mem_descr_t.end_addr (e : efi_mem_descr_t) : Nat :=
  e.physical_start + e.num_pages * 2 ^ EFI_PAGE_SHIFT

/-- An entry has a free type: it lies in `[EFI_LOADER_CODE, EFI_CONVENTIONAL_MEMORY]`,
the negation of the test of lines 176-177. -/
def efi_mem_descr_t.is_free (e : efi_mem_descr_t) : Prop :=
  EFI_LOADER_CODE ≤ e.type ∧ e.type ≤ EFI_CONVENTIONAL_MEMORY

instance (e : efi_mem_descr_t) : Decidable e.is_free := by
  unfold efi_mem_descr_t.is_free; infer_instance

/-- An entry covers a byte of the interval `[lo, hi)`. -/
def efi_mem_descr_t.intersects (e : efi_mem_descr_t) (lo hi : Nat) : Prop :=
  e.physical_start < hi ∧ lo < e.end_addr ∧ e.physical_start < e.end_addr

instance (e : efi_mem_descr_t) (lo hi : Nat) : Decidable (e.intersects lo hi) := by
  unfold efi_mem_descr_t.intersects; infer_instance

/-- Every entry starts on a page boundary and ends below `2^64`. -/
def efi_memmap_t.aligned (m : efi_memmap_t) : Prop :=
  ∀ e ∈ m.entries, e.physical_start % 2 ^ EFI_PAGE_SHIFT = 0 ∧ e.end_addr < U64

instance (m : efi_memmap_t) : Decidable m.aligned := by
  unfold efi_memmap_t.aligned; infer_instance

/-- The entries are sorted by ascending `physical_start` and pairwise non-overlapping. -/
def efi_memmap_t.sorted (m : efi_memmap_t) : Prop :=
  m.entries.Pairwise (fun a b => a.physical_start ≤ b.physical_start ∧
    a.end_addr ≤ b.physical_start)

instance (m : efi_memmap_t) : Decidable m.sorted := by
  unfold efi_memmap_t.sorted; infer_instance

/-! ## Concrete inputs -/

/-- A map of two free entries, `[0x0, 0x10000)` conventional and `[0x10000, 0x20000)`
loader data, in slots of 48 bytes; the storage beyond the map is zero. -/
def two_entry_state : efi_state :=
  { efi_mmap_available := true
    efi_mmap :=
      { size := 96
        descr_size := 48
        descr := fun off =>
          if off = 0 then ⟨EFI_CONVENTIONAL_MEMORY, 0x0, 16, 0xf, 0⟩
          else if off = 48 then ⟨EFI_LOADER_DATA, 0x10000, 16, 0xf, 0⟩
          else ⟨0, 0, 0, 0, 0⟩ } }

/-- The same map, where the slot behind the map still holds an old descriptor
(a conventional page at `0x0`). -/
def stale_slot_state : efi_state :=
  { efi_mmap_available := true
    efi_mmap :=
      { size := 96
        descr_size := 48
        descr := fun off =>
          if off = 0 then ⟨EFI_CONVENTIONAL_MEMORY, 0x0, 16, 0xf, 0⟩
          else if off = 48 then ⟨EFI_LOADER_DATA, 0x10000, 16, 0xf, 0⟩
          else if off = 96 then ⟨EFI_CONVENTIONAL_MEMORY, 0x0, 1, 0xf, 0⟩
          else ⟨0, 0, 0, 0, 0⟩ } }

/-- A layout of `txt/acmod.h`: packed structures of the TXT ACM format and its
identity constants. -/
def sample_acmod_h : acmod_h :=
  { sizeof_acm_hdr_t := 128
    sizeof_acm_info_table_t := 44
    sizeof_acm_chipset_id_t := 16
    sizeof_count := 4
    ACM_TYPE_CHIPSET := 0x02
    ACM_VENDOR_INTEL := 0x8086
    ACM_UUID_V3 := ⟨0x7fc03aaa, 0x46a7, 0x18db, 0xac2e, [0x69, 0x8f, 0x8d, 0x41, 0x7f, 0x5a]⟩
    ACM_CHIPSET_TYPE_BIOS := 0x00
    ACM_CHIPSET_TYPE_SINIT := 0x01 }

/-- A header of a module of 4096 bytes whose user area starts at byte 1216. -/
def sample_hdr : acm_hdr_t :=
  { module_type := 0x02, header_len := 161, module_vendor := 0x8086, date := 0x20200101,
    size := 1024, gdt_limit := 0x3f, seg_sel := 0x8, entry_point := 0x10,
    scratch_size := 143 }

/-- A module of 4096 bytes at address `0x800000`: info table at byte 1216, chipset list
at byte 1260 with `count` entries, each the entry of the spec's scenario. -/
def sample_blob (count : Nat) : acm_blob :=
  { addr := 0x800000
    hdr := sample_hdr
    info_table_at := fun _ =>
      { uuid := sample_acmod_h.ACM_UUID_V3, chipset_acm_type := 0x01, version := 3,
        chipset_id_list := 1260, os_sinit_data_ver := 6, min_mle_hdr_ver := 0x20000,
        capabilities := 0x7 }
    chipset_list_at := fun _ =>
      { count := count
        chipset_ids := fun _ => ⟨0x1, 0x8086, 0x1234, 0x0c, 0⟩ } }

/-- The same module with the vendor of the header changed. -/
def foreign_vendor_blob : acm_blob :=
  { sample_blob 1 with hdr := { sample_hdr with module_vendor := 0x1022 } }

/-- The same module with a `header_len` that makes `header_len + scratch_size`
overflow 32 bits. -/
def sum_overflow_blob : acm_blob :=
  { sample_blob 1 with hdr := { sample_hdr with header_len := 0xffffffff } }

/-- The same module with a `header_len` that makes `(header_len + scratch_size) * 4`
overflow 32 bits while the sum does not. -/
def product_overflow_blob : acm_blob :=
  { sample_blob 1 with hdr := { sample_hdr with header_len := 0x40000000, scratch_size := 0 } }

/-! ## mle.h, txt/smx.h, txt/heap.h (not among the sources) -/

/-- What `mle.h` (not among the sources) declares and `verify_acmod` uses. -/
structure mle_h where
  MLE_HDR_VER : Nat
  MLE_HDR_CAPS : Nat

/-- The bit positions of the members of `txt_caps_t` that `verify_acmod` uses; the type
is declared in a header that is not among the sources. -/
structure txt_caps_h where
  rlp_wake_getsec : Nat
  rlp_wake_monitor : Nat
  ecx_pgtbl : Nat

/-- The member of `getsec_parameters_t` that `verify_acmod` reads. -/
structure getsec_parameters_t where
  acm_max_size : Nat
deriving DecidableEq, Repr

/-! ## acmod.c, continued -/

/-- The function `is_sinit_acmod` (lines 330-343). `type0` is the value the local
variable `type` holds before the call of `is_acmod`. -/
def is_sinit_acmod (L : acmod_h) (b : acm_blob) (acmod_size : Nat) (type0 : Nat) : Bool :=
  let r := is_acmod L b acmod_size
  let type := r.2.getD type0
  if !r.1 then false
  else if type ≠ L.ACM_CHIPSET_TYPE_SINIT then false
  else true

/-- The value of `caps_mask._raw` at line 545: the bits of `rlp_wake_getsec` and of
`rlp_wake_monitor`. -/
def caps_mask (C : txt_caps_h) : Nat :=
  (1 <<< C.rlp_wake_getsec) ||| (1 <<< C.rlp_wake_monitor)

/-- The function `verify_acmod` (lines 457-574). `get_parameters` is what the call
`get_parameters(&params)` gives: `none` when it returns -1. The dump of the header
and the messages have no part in the result. -/
def verify_acmod (L : acmod_h) (M : mle_h) (C : txt_caps_h) (b : acm_blob)
    (get_parameters : Option getsec_parameters_t) : Bool :=
  let size := (b.hdr.size * 4) % U32
  if b.addr &&& 0xfff ≠ 0 then false
  else if size = 0 ∨ size % 64 ≠ 0 then false
  else
    match get_parameters with
    | none => false
    | some params =>
      if size > params.acm_max_size then false
      else if b.hdr.entry_point ≥ size then false
      else if plus_overflow_u32 b.hdr.seg_sel 8 then false
      else if b.hdr.seg_sel = 0 ∨ b.hdr.seg_sel &&& 0x07 ≠ 0 ∨
          (b.hdr.seg_sel + 8) % U32 > b.hdr.gdt_limit then false
      else
        match get_acmod_info_table L b with
        | none => false
        | some t =>
          let info_table := b.info_table_at t
          if info_table.min_mle_hdr_ver > M.MLE_HDR_VER then false
          else if (M.MLE_HDR_CAPS &&& caps_mask C) &&&
              (info_table.capabilities &&& caps_mask C) = 0 then false
          else if info_table.os_sinit_data_ver < 4 then false
          else true

/-! ## efi_memmap.c, continued -/

/-- The scan loop of `efi_memmap_get_highest_sized_ram` (lines 297-311); the result is
`(last_fit_base, last_fit_size)` at the end of the loop. -/
def highest_loop (size limit : Nat) :
    Nat → efi_state → Option Nat → Nat → Nat → Option (Nat × Nat)
  | 0, _, _, _, _ => none
  | fuel + 1, s, desc, last_fit_base, last_fit_size =>
    match efi_memmap_walk s desc with
    | none => some (last_fit_base, last_fit_size)
    | some d =>
      let e := s.efi_mmap.descr d
      if region_is_free e.type then
        let base := e.physical_start
        let length := (e.num_pages * (1 <<< EFI_PAGE_SHIFT)) % U64
        if (base + length) % U64 > limit then some (last_fit_base, last_fit_size)
        else if size ≤ length then highest_loop size limit fuel s (some d) base length
        else highest_loop size limit fuel s (some d) last_fit_base last_fit_size
      else highest_loop size limit fuel s (some d) last_fit_base last_fit_size

/-- The function `efi_memmap_get_highest_sized_ram` (lines 288-323). `ram_base` and
`ram_size` tell whether the two pointers are not `NULL`; the second component of the
result is what the function stores through them, `none` when it stores nothing.
`fuel` bounds the number of evaluations of the loop condition. -/
def efi_memmap_get_highest_sized_ram (fuel : Nat) (s : efi_state) (size limit : Nat)
    (ram_base ram_size : Bool) : Option (Bool × Option (Nat × Nat)) :=
  if !ram_base || !ram_size || !s.efi_mmap_available then some (false, none)
  else
    match highest_loop size limit fuel s none 0 0 with
    | none => none
    | some (last_fit_base, last_fit_size) =>
      if last_fit_size = 0 then some (false, none)
      else some (true, some (last_fit_base, last_fit_size))

/-! ## Vocabulary of the statements, continued -/

/-- The arguments of one call of `insert_after_region`. -/
structure insert_request where
  pos : Nat
  addr : Nat
  size : Nat
  type : Nat
  attr : Nat

/-- A sequence of calls of `insert_after_region`, each on the map the one before has
left; the sequence ends where a call leaves the model. -/
def insert_seq (maxEntries : Nat) : efi_memmap_t → List insert_request → efi_memmap_t
  | m, [] => m
  | m, r :: rs =>
    match insert_after_region maxEntries m r.pos r.addr r.size r.type r.attr with
    | none => m
    | some (_, m1) => insert_seq maxEntries m1 rs

/-- The value `desc_end` of lines 172-173 for an entry. -/
def efi_mem_descr_t.desc_end (e : efi_mem_descr_t) : Nat :=
  (e.physical_start + (e.num_pages <<< EFI_PAGE_SHIFT) % U64) % U64

/-- The scan loop passes over an entry: its type is not free (lines 176-179), or the
range ends before it (line 182), or the range starts after it (line 186). -/
def efi_mem_descr_t.passed_over (e : efi_mem_descr_t) (base end_ : Nat) : Prop :=
  ¬ e.is_free ∨ end_ ≤ e.physical_start ∨ base ≥ e.desc_end

instance (e : efi_mem_descr_t) (base end_ : Nat) : Decidable (e.passed_over base end_) := by
  unfold efi_mem_descr_t.passed_over; infer_instance

/-- The condition of case 1 (line 192). -/
def efi_mem_descr_t.within (e : efi_mem_descr_t) (base end_ : Nat) : Prop :=
  base ≤ e.physical_start ∧ e.desc_end ≤ end_

instance (e : efi_mem_descr_t) (base end_ : Nat) : Decidable (e.within base end_) := by
  unfold efi_mem_descr_t.within; infer_instance

/-- The condition of case 2 (line 197). -/
def efi_mem_descr_t.left_overlap (e : efi_mem_descr_t) (base end_ : Nat) : Prop :=
  e.physical_start ≥ base ∧ end_ > e.physical_start ∧ e.desc_end > end_

instance (e : efi_mem_descr_t) (base end_ : Nat) : Decidable (e.left_overlap base end_) := by
  unfold efi_mem_descr_t.left_overlap; infer_instance

/-- The map is stored as the code expects it: entries of `descr_size > 0` bytes, `size`
a multiple of `descr_size`, neither the map with one more entry nor a map of
`maxEntries + 1` entries reaches the end of the 32-bit address space, and a slot holds
a whole descriptor, `sizeof(efi_mem_descr_t) <= descr_size`. -/
def efi_memmap_t.well_formed (m : efi_memmap_t) (maxEntries : Nat) : Prop :=
  0 < m.descr_size ∧ m.size % m.descr_size = 0 ∧ m.size + m.descr_size < U32 ∧
    (maxEntries + 1) * m.descr_size < U32 ∧ SIZEOF_EFI_MEM_DESCR ≤ m.descr_size

instance (m : efi_memmap_t) (maxEntries : Nat) : Decidable (m.well_formed maxEntries) := by
  unfold efi_memmap_t.well_formed; infer_instance

/-- The entries of the map are the list `L`: `size` is the length of `L` in slots, and
the slot of index `k` holds the `k`-th element. -/
def efi_memmap_t.holds (m : efi_memmap_t) (L : List efi_mem_descr_t) : Prop :=
  m.size = L.length * m.descr_size ∧
    ∀ k e, L[k]? = some e → m.descr (k * m.descr_size) = e

/-- The cursor of the scan loop in front of the entry of index `j`: `NULL` before the
first entry, else the entry of index `j - 1`. -/
def scan_cursor (descr_size j : Nat) : Option Nat :=
  if j = 0 then none else some ((j - 1) * descr_size)

/-- No entry of the map reaches `2^64`. -/
def efi_memmap_t.bounded (m : efi_memmap_t) : Prop :=
  ∀ e ∈ m.entries, e.end_addr < U64

instance (m : efi_memmap_t) : Decidable m.bounded := by
  unfold efi_memmap_t.bounded; infer_instance

/-- The scan loop of `efi_memmap_reserve` read on the list of entries: `done` are the
entries behind the cursor, the second list the entries from the cursor on. The result
is the value returned and the entries of the map left behind. It describes the loop
on a well-formed map once the cursor is past the first entry, and on the first entry
when case 2 does not apply to it. -/
def reserve_entries (maxEntries base length end_ : Nat) :
    List efi_mem_descr_t → List efi_mem_descr_t → Bool × List efi_mem_descr_t
  | done, [] => (true, done)
  | done, e :: rest =>
    let desc_base := e.physical_start
    let desc_end := e.desc_end
    let count := done.length + (rest.length + 1)
    if e.type < EFI_LOADER_CODE ∨ e.type > EFI_CONVENTIONAL_MEMORY then
      reserve_entries maxEntries base length end_ (done ++ [e]) rest
    else if end_ ≤ desc_base then
      reserve_entries maxEntries base length end_ (done ++ [e]) rest
    else if base ≥ desc_end then
      reserve_entries maxEntries base length end_ (done ++ [e]) rest
    else if base ≤ desc_base ∧ desc_end ≤ end_ then
      reserve_entries maxEntries base length end_
        (done ++ [{ e with type := EFI_RESERVED_TYPE }]) rest
    else if desc_base ≥ base ∧ end_ > desc_base ∧ desc_end > end_ then
      if count + 1 > maxEntries then (false, done ++ e :: rest)
      else
        (true, done ++
          [⟨EFI_RESERVED_TYPE, desc_base, (end_ - desc_base) >>> EFI_PAGE_SHIFT, e.attr, 0⟩,
           { e with physical_start := end_,
                    num_pages := (desc_end - end_) >>> EFI_PAGE_SHIFT }] ++ rest)
    else if base > desc_base ∧ desc_end > base ∧ end_ ≥ desc_end then
      let e0 := { e with num_pages := (base - desc_base) >>> EFI_PAGE_SHIFT }
      if count + 1 > maxEntries then (false, done ++ e0 :: rest)
      else
        reserve_entries maxEntries base length end_
          (done ++ [e0, ⟨EFI_RESERVED_TYPE, base, (desc_end - base) >>> EFI_PAGE_SHIFT,
            e.attr, 0⟩]) rest
    else if base > desc_base ∧ desc_end > end_ then
      let e0 := { e with num_pages := (base - desc_base) >>> EFI_PAGE_SHIFT }
      let e1 : efi_mem_descr_t :=
        ⟨EFI_RESERVED_TYPE, base, length >>> EFI_PAGE_SHIFT, e.attr, 0⟩
      let e2 : efi_mem_descr_t :=
        ⟨e.type, end_, (desc_end - end_) >>> EFI_PAGE_SHIFT, e.attr, 0⟩
      if count + 1 > maxEntries then (false, done ++ e0 :: rest)
      else if count + 2 > maxEntries then (false, done ++ [e0, e1] ++ rest)
      else (true, done ++ [e0, e1, e2] ++ rest)
    else (false, done ++ e :: rest)

/-- What case 1 leaves of an entry: an entry the scan passes over is kept, another one
is retyped `EFI_RESERVED_TYPE` (line 193). -/
def efi_mem_descr_t.retyped (e : efi_mem_descr_t) (base end_ : Nat) : efi_mem_descr_t :=
  if e.passed_over base end_ then e else { e with type := EFI_RESERVED_TYPE }

/-! ## Concrete inputs, continued -/

/-- Constants of `mle.h`: header version 2.3, capabilities with both wake mechanisms. -/
def sample_mle_h : mle_h := { MLE_HDR_VER := 0x20003, MLE_HDR_CAPS := 0x227 }

/-- The lowest three bits of `txt_caps_t`. -/
def sample_txt_caps_h : txt_caps_h :=
  { rlp_wake_getsec := 0, rlp_wake_monitor := 1, ecx_pgtbl := 2 }

/-- The sample module with the chipset ACM type of a BIOS module. -/
def bios_blob : acm_blob :=
  { sample_blob 1 with
    info_table_at := fun _ =>
      { uuid := sample_acmod_h.ACM_UUID_V3, chipset_acm_type := 0x00, version := 3,
        chipset_id_list := 1260, os_sinit_data_ver := 6, min_mle_hdr_ver := 0x20000,
        capabilities := 0x7 } }

/-- The sample module with `rlp_wake_getsec` and `rlp_wake_monitor` clear. -/
def no_wake_blob : acm_blob :=
  { sample_blob 1 with
    info_table_at := fun _ =>
      { uuid := sample_acmod_h.ACM_UUID_V3, chipset_acm_type := 0x01, version := 3,
        chipset_id_list := 1260, os_sinit_data_ver := 6, min_mle_hdr_ver := 0x20000,
        capabilities := 0x4 } }

/-- An available map without entries (`size = 0`) in slots of 48 bytes; the first slot
of the storage holds an old descriptor, 16 conventional pages at `0x100000`. -/
def empty_stale_state : efi_state :=
  { efi_mmap_available := true
    efi_mmap :=
      { size := 0
        descr_size := 48
        descr := fun off =>
          if off = 0 then ⟨EFI_CONVENTIONAL_MEMORY, 0x100000, 16, 0xf, 0⟩
          else ⟨0, 0, 0, 0, 0⟩ } }

/-- A map of a conventional entry `[0x0, 0x10000)` followed by a memory-mapped I/O
entry (type 11, not free) `[0x10000, 0x20000)`; the storage beyond the map is zero. -/
def free_then_mmio_state : efi_state :=
  { efi_mmap_available := true
    efi_mmap :=
      { size := 96
        descr_size := 48
        descr := fun off =>
          if off = 0 then ⟨EFI_CONVENTIONAL_MEMORY, 0x0, 16, 0xf, 0⟩
          else if off = 48 then ⟨11, 0x10000, 16, 0x1, 0⟩
          else ⟨0, 0, 0, 0, 0⟩ } }

/-- A map of one conventional entry of `num_pages` pages at `0x0`. -/
def single_entry_state (num_pages : Nat) : efi_state :=
  { efi_mmap_available := true
    efi_mmap :=
      { size := 48
        descr_size := 48
        descr := fun off =>
          if off = 0 then ⟨EFI_CONVENTIONAL_MEMORY, 0x0, num_pages, 0xf, 0⟩
          else ⟨0, 0, 0, 0, 0⟩ } }

/-- A map of two adjacent conventional entries, `[0x0, 0x2000)` and `[0x2000, 0x3000)`. -/
def adjacent_free_state : efi_state :=
  { efi_mmap_available := true
    efi_mmap :=
      { size := 96
        descr_size := 48
        descr := fun off =>
          if off = 0 then ⟨EFI_CONVENTIONAL_MEMORY, 0x0, 2, 0xf, 0⟩
          else if off = 48 then ⟨EFI_CONVENTIONAL_MEMORY, 0x2000, 1, 0xf, 0⟩
          else ⟨0, 0, 0, 0, 0⟩ } }

/-- A map that is not sorted: a reserved entry `[0x8000, 0x9000)`, then the conventional
entries `[0x4000, 0x8000)` and `[0x0, 0x4000)`. The entries do not overlap. -/
def unsorted_state : efi_state :=
  { efi_mmap_available := true
    efi_mmap :=
      { size := 144
        descr_size := 48
        descr := fun off =>
          if off = 0 then ⟨EFI_RESERVED_TYPE, 0x8000, 1, 0xf, 0⟩
          else if off = 48 then ⟨EFI_CONVENTIONAL_MEMORY, 0x4000, 4, 0xf, 0⟩
          else if off = 96 then ⟨EFI_CONVENTIONAL_MEMORY, 0x0, 4, 0xf, 0⟩
          else ⟨0, 0, 0, 0, 0⟩ } }

/-! ## Vocabulary and inputs of the later claims on the ACM validator -/

/-- The modules `b` and `b1` have the same contents except for the bit `ecx_pgtbl` of
the capabilities of their info tables: the same address, the same header, the same
chipset lists, and info tables equal in every member but `capabilities`, which are
equal once the bit `ecx_pgtbl` is set in both. -/
def acm_blob.same_but_ecx_pgtbl (C : txt_caps_h) (b b1 : acm_blob) : Prop :=
  b1.addr = b.addr ∧ b1.hdr = b.hdr ∧ b1.chipset_list_at = b.chipset_list_at ∧
    ∀ off,
      b1.info_table_at off =
        { b.info_table_at off with capabilities := (b1.info_table_at off).capabilities } ∧
      (b1.info_table_at off).capabilities ||| (1 <<< C.ecx_pgtbl) =
        (b.info_table_at off).capabilities ||| (1 <<< C.ecx_pgtbl)

/-- The sample module with `ecx_pgtbl` clear: capabilities `0x3`. -/
def no_ecx_pgtbl_blob : acm_blob :=
  { sample_blob 1 with
    info_table_at := fun _ =>
      { uuid := sample_acmod_h.ACM_UUID_V3, chipset_acm_type := 0x01, version := 3,
        chipset_id_list := 1260, os_sinit_data_ver := 6, min_mle_hdr_ver := 0x20000,
        capabilities := 0x3 } }

/-- The sample module with a chipset list of one entry whose `count` member and entry
end exactly at the end of the blob: the list is at byte `4096 - 4 - 16 = 4076`. -/
def tail_list_blob : acm_blob :=
  { sample_blob 1 with
    info_table_at := fun _ =>
      { uuid := sample_acmod_h.ACM_UUID_V3, chipset_acm_type := 0x01, version := 3,
        chipset_id_list := 4076, os_sinit_data_ver := 6, min_mle_hdr_ver := 0x20000,
        capabilities := 0x7 } }

/-! ## Vocabulary and inputs of the later claims on the memory map -/

/-- The chain of tests of the loop body of `efi_memmap_reserve` on a free-type entry
(lines 181-249), in the order tested: 0 when one of the two skip tests holds, the
number of the case whose condition is the first to hold, 5 for the branch "we should
never get here". -/
def reserve_case (base end_ desc_base desc_end : Nat) : Nat :=
  if end_ ≤ desc_base then 0
  else if base ≥ desc_end then 0
  else if base ≤ desc_base ∧ desc_end ≤ end_ then 1
  else if desc_base ≥ base ∧ end_ > desc_base ∧ desc_end > end_ then 2
  else if base > desc_base ∧ desc_end > base ∧ end_ ≥ desc_end then 3
  else if base > desc_base ∧ desc_end > end_ then 4
  else 5

/-- The scan loop of `efi_memmap_get_highest_sized_ram` (lines 297-311) read on the list
of the entries from the cursor on; `fit` is `(last_fit_base, last_fit_size)`. -/
def highest_entries (size limit : Nat) : List efi_mem_descr_t → Nat × Nat → Nat × Nat
  | [], fit => fit
  | e :: rest, fit =>
    if region_is_free e.type then
      let base := e.physical_start
      let length := (e.num_pages * (1 <<< EFI_PAGE_SHIFT)) % U64
      if (base + length) % U64 > limit then fit
      else if size ≤ length then highest_entries size limit rest (base, length)
      else highest_entries size limit rest fit
    else highest_entries size limit rest fit

/-- The length of an entry in bytes, as a natural number (no wrap). -/
def efi_mem_descr_t.length (e : efi_mem_descr_t) : Nat := e.num_pages * 2 ^ EFI_PAGE_SHIFT

/-- The entries below the ceiling: the entries, in map order, in front of the first
free-type entry whose end `physical_start + length` exceeds `limit`; all of them when
there is no such entry. -/
def below_ceiling (limit : Nat) (L : List efi_mem_descr_t) : List efi_mem_descr_t :=
  L.takeWhile (fun e => !(region_is_free e.type && decide (e.end_addr > limit)))

/-- The last fit below the ceiling: the last free-type entry below the ceiling whose
length is at least `size`. -/
def last_fit (size limit : Nat) (L : List efi_mem_descr_t) : Option efi_mem_descr_t :=
  ((below_ceiling limit L).filter
    (fun e => region_is_free e.type && decide (size ≤ e.length))).getLast?

/-- A map of three conventional entries: `[0x0, 0x4000)`, `[0x100000, 0x200000)` whose
end exceeds the limit `0x180000`, and `[0x8000, 0xc000)`, which lies below that limit
but behind the second entry. -/
def ceiling_state : efi_state :=
  { efi_mmap_available := true
    efi_mmap :=
      { size := 144
        descr_size := 48
        descr := fun off =>
          if off = 0 then ⟨EFI_CONVENTIONAL_MEMORY, 0x0, 4, 0xf, 0⟩
          else if off = 48 then ⟨EFI_CONVENTIONAL_MEMORY, 0x100000, 256, 0xf, 0⟩
          else if off = 96 then ⟨EFI_CONVENTIONAL_MEMORY, 0x8000, 4, 0xf, 0⟩
          else ⟨0, 0, 0, 0, 0⟩ } }

/-- A map of two adjacent conventional entries, `[0x0, 0x2000)` and `[0x2000, 0x4000)`. -/
def adjacent_pair_state : efi_state :=
  { efi_mmap_available := true
    efi_mmap :=
      { size := 96
        descr_size := 48
        descr := fun off =>
          if off = 0 then ⟨EFI_CONVENTIONAL_MEMORY, 0x0, 2, 0xf, 0⟩
          else if off = 48 then ⟨EFI_CONVENTIONAL_MEMORY, 0x2000, 2, 0xf, 0⟩
          else ⟨0, 0, 0, 0, 0⟩ } }

/-! ## sha2.h (not among the sources) -/

/-- Modelled from the spec: `SHA512_BLOCK_SIZE` of `sha2.h`, the 128 bytes of a block
of SHA-512; the array `buf` of the hash state has this size. -/
def SHA512_BLOCK_SIZE : Nat := 128

/-- Modelled from the spec: the member `sha512` of `hash_state`, declared in `sha2.h`:
`length` is a 64-bit count of bits, `state` the eight 64-bit words, `curlen` an
`unsigned long`, `buf` an array of `SHA512_BLOCK_SIZE` bytes. -/
structure sha512_state where
  length : Nat
  state : List Nat
  curlen : Nat
  buf : List Nat
deriving DecidableEq, Repr

/-- Modelled from the spec: the macro `LOAD64H(x, y)` of `sha2.h`, which loads the
eight bytes at `y` as a big-endian 64-bit word; `off` is the offset of `y` in the
bytes `b`. -/
def LOAD64H (b : List Nat) (off : Nat) : Nat :=
  ((List.range 8).map (fun j => b.getD (off + j) 0)).foldl (fun acc x => acc * 256 + x % 256) 0

/-- Modelled from the spec: the bytes that the macro `STORE64H(x, y)` of `sha2.h`
stores at `y`, the 64-bit word `x` in big-endian order. -/
def STORE64H (x : Nat) : List Nat :=
  (List.range 8).map (fun j => (x >>> (8 * (7 - j))) % 256)

/-- Modelled from the spec: `tb_memcpy(dst + off, src, n)`. -/
def tb_memcpy (dst : List Nat) (off : Nat) (src : List Nat) (n : Nat) : List Nat :=
  dst.take off ++ src.take n ++ dst.drop (off + n)

/-! ## sha512.c -/

/-- Modelled from the spec: the macro `CONST64` of `sha2.h`, which writes a constant of
type `u64`. -/
def CONST64 (x : Nat) : Nat := x

/-- The array `K` (lines 14-55). -/
def K : List Nat :=
  [
   CONST64 0x428a2f98d728ae22, CONST64 0x7137449123ef65cd,
   CONST64 0xb5c0fbcfec4d3b2f, CONST64 0xe9b5dba58189dbbc,
   CONST64 0x3956c25bf348b538, CONST64 0x59f111f1b605d019,
   CONST64 0x923f82a4af194f9b, CONST64 0xab1c5ed5da6d8118,
   CONST64 0xd807aa98a3030242, CONST64 0x12835b0145706fbe,
   CONST64 0x243185be4ee4b28c, CONST64 0x550c7dc3d5ffb4e2,
   CONST64 0x72be5d74f27b896f, CONST64 0x80deb1fe3b1696b1,
   CONST64 0x9bdc06a725c71235, CONST64 0xc19bf174cf692694,
   CONST64 0xe49b69c19ef14ad2, CONST64 0xefbe4786384f25e3,
   CONST64 0x0fc19dc68b8cd5b5, CONST64 0x240ca1cc77ac9c65,
   CONST64 0x2de92c6f592b0275, CONST64 0x4a7484aa6ea6e483,
   CONST64 0x5cb0a9dcbd41fbd4, CONST64 0x76f988da831153b5,
   CONST64 0x983e5152ee66dfab, CONST64 0xa831c66d2db43210,
   CONST64 0xb00327c898fb213f, CONST64 0xbf597fc7beef0ee4,
   CONST64 0xc6e00bf33da88fc2, CONST64 0xd5a79147930aa725,
   CONST64 0x06ca6351e003826f, CONST64 0x142929670a0e6e70,
   CONST64 0x27b70a8546d22ffc, CONST64 0x2e1b21385c26c926,
   CONST64 0x4d2c6dfc5ac42aed, CONST64 0x53380d139d95b3df,
   CONST64 0x650a73548baf63de, CONST64 0x766a0abb3c77b2a8,
   CONST64 0x81c2c92e47edaee6, CONST64 0x92722c851482353b,
   CONST64 0xa2bfe8a14cf10364, CONST64 0xa81a664bbc423001,
   CONST64 0xc24b8b70d0f89791, CONST64 0xc76c51a30654be30,
   CONST64 0xd192e819d6ef5218, CONST64 0xd69906245565a910,
   CONST64 0xf40e35855771202a, CONST64 0x106aa07032bbd1b8,
   CONST64 0x19a4c116b8d2d0c8, CONST64 0x1e376c085141ab53,
   CONST64 0x2748774cdf8eeb99, CONST64 0x34b0bcb5e19b48a8,
   CONST64 0x391c0cb3c5c95a63, CONST64 0x4ed8aa4ae3418acb,
   CONST64 0x5b9cca4f7763e373, CONST64 0x682e6ff3d6b2b8a3,
   CONST64 0x748f82ee5defb2fc, CONST64 0x78a5636f43172f60,
   CONST64 0x84c87814a1f0ab72, CONST64 0x8cc702081a6439ec,
   CONST64 0x90befffa23631e28, CONST64 0xa4506cebde82bde9,
   CONST64 0xbef9a3f7b2c67915, CONST64 0xc67178f2e372532b,
   CONST64 0xca273eceea26619c, CONST64 0xd186b8c721c0c207,
   CONST64 0xeada7dd6cde0eb1e, CONST64 0xf57d4f7fee6ed178,
   CONST64 0x06f067aa72176fba, CONST64 0x0a637dc5a2c898a6,
   CONST64 0x113f9804bef90dae, CONST64 0x1b710b35131c471b,
   CONST64 0x28db77f523047d84, CONST64 0x32caab7b40c72493,
   CONST64 0x3c9ebe0a15c9bebc, CONST64 0x431d67c49c100d4c,
   CONST64 0x4cc5d4becb3e42b6, CONST64 0x597f299cfc657e2a,
   CONST64 0x5fcb6fab3ad6faec, CONST64 0x6c44198c4a475817]

/-- The macro `ROR64c(x, y)` (lines 58-60) on a 64-bit `x`. -/
def ROR64c (x y : Nat) : Nat :=
  (((x &&& 0xFFFFFFFFFFFFFFFF) >>> (y % U64 &&& 63)) |||
    (x <<< ((64 + U64 - (y &&& 63)) % U64 &&& 63)) % U64) &&& 0xFFFFFFFFFFFFFFFF

/-- The macro `Ch` (line 62). -/
def Ch (x y z : Nat) : Nat := z ^^^ (x &&& (y ^^^ z))

/-- The macro `Maj` (line 63). -/
def Maj (x y z : Nat) : Nat := ((x ||| y) &&& z) ||| (x &&& y)

/-- The macro `R(x, n)` (line 65). -/
def R (x n : Nat) : Nat := (x &&& 0xFFFFFFFFFFFFFFFF) >>> (n % U64)

/-- The macro `Sigma0` (line 66). -/
def Sigma0 (x : Nat) : Nat := ROR64c x 28 ^^^ ROR64c x 34 ^^^ ROR64c x 39

/-- The macro `Sigma1` (line 67). -/
def Sigma1 (x : Nat) : Nat := ROR64c x 14 ^^^ ROR64c x 18 ^^^ ROR64c x 41

/-- The macro `Gamma0` (line 68). -/
def Gamma0 (x : Nat) : Nat := ROR64c x 1 ^^^ ROR64c x 8 ^^^ R x 7

/-- The macro `Gamma1` (line 69). -/
def Gamma1 (x : Nat) : Nat := ROR64c x 19 ^^^ ROR64c x 61 ^^^ R x 6

/-- The loop `for (i = 16; i < 80; i++) W[i] = ...` of `sha512_compress` (lines
89-91): `W` holds the words `W[0..i-1]`, and the first argument counts the words
still to fill. -/
def fill_W : Nat → List Nat → List Nat
  | 0, W => W
  | n + 1, W =>
    let i := W.length
    fill_W n (W ++ [(Gamma1 (W.getD (i - 2) 0) + W.getD (i - 7) 0 +
      Gamma0 (W.getD (i - 15) 0) + W.getD (i - 16) 0) % U64])

/-- The macro `RND(a,b,c,d,e,f,g,h,i)` (lines 94-98): the new values of `d` and
of `h`. -/
def RND (W : List Nat) (a b c d e f g h i : Nat) : Nat × Nat :=
  let t0 := (h + Sigma1 e + Ch e f g + K.getD i 0 + W.getD i 0) % U64
  let t1 := (Sigma0 a + Maj a b c) % U64
  ((d + t0) % U64, (t0 + t1) % U64)

/-- The array `S` of `sha512_compress`. -/
structure sha512_S where
  s0 : Nat
  s1 : Nat
  s2 : Nat
  s3 : Nat
  s4 : Nat
  s5 : Nat
  s6 : Nat
  s7 : Nat
deriving DecidableEq, Repr

/-- The body of the loop of lines 100-109, eight rounds. -/
def compress_rounds8 (W : List Nat) (S : sha512_S) (i : Nat) : sha512_S :=
  let r := RND W S.s0 S.s1 S.s2 S.s3 S.s4 S.s5 S.s6 S.s7 (i + 0)
  let S : sha512_S := { S with s3 := r.1, s7 := r.2 }
  let r := RND W S.s7 S.s0 S.s1 S.s2 S.s3 S.s4 S.s5 S.s6 (i + 1)
  let S : sha512_S := { S with s2 := r.1, s6 := r.2 }
  let r := RND W S.s6 S.s7 S.s0 S.s1 S.s2 S.s3 S.s4 S.s5 (i + 2)
  let S : sha512_S := { S with s1 := r.1, s5 := r.2 }
  let r := RND W S.s5 S.s6 S.s7 S.s0 S.s1 S.s2 S.s3 S.s4 (i + 3)
  let S : sha512_S := { S with s0 := r.1, s4 := r.2 }
  let r := RND W S.s4 S.s5 S.s6 S.s7 S.s0 S.s1 S.s2 S.s3 (i + 4)
  let S : sha512_S := { S with s7 := r.1, s3 := r.2 }
  let r := RND W S.s3 S.s4 S.s5 S.s6 S.s7 S.s0 S.s1 S.s2 (i + 5)
  let S : sha512_S := { S with s6 := r.1, s2 := r.2 }
  let r := RND W S.s2 S.s3 S.s4 S.s5 S.s6 S.s7 S.s0 S.s1 (i + 6)
  let S : sha512_S := { S with s5 := r.1, s1 := r.2 }
  let r := RND W S.s1 S.s2 S.s3 S.s4 S.s5 S.s6 S.s7 S.s0 (i + 7)
  { S with s4 := r.1, s0 := r.2 }

/-- The loop `for (i = 0; i < 80; i += 8)` of lines 100-109; the first argument counts
the iterations still to run. -/
def compress_loop (W : List Nat) : Nat → sha512_S → Nat → sha512_S
  | 0, S, _ => S
  | n + 1, S, i => compress_loop W n (compress_rounds8 W S i) (i + 8)

/-- The function `sha512_compress` (lines 72-116); `buf` are the bytes from the pointer
`buf` on. It returns 0 in every case. -/
def sha512_compress (md : sha512_state) (buf : List Nat) : Int × sha512_state :=
  let S : sha512_S :=
    ⟨md.state.getD 0 0, md.state.getD 1 0, md.state.getD 2 0, md.state.getD 3 0,
     md.state.getD 4 0, md.state.getD 5 0, md.state.getD 6 0, md.state.getD 7 0⟩
  let W := fill_W 64 ((List.range 16).map (fun i => LOAD64H buf (8 * i)))
  let S := compress_loop W 10 S 0
  (0, { md with state :=
    [(md.state.getD 0 0 + S.s0) % U64, (md.state.getD 1 0 + S.s1) % U64,
     (md.state.getD 2 0 + S.s2) % U64, (md.state.getD 3 0 + S.s3) % U64,
     (md.state.getD 4 0 + S.s4) % U64, (md.state.getD 5 0 + S.s5) % U64,
     (md.state.getD 6 0 + S.s6) % U64, (md.state.getD 7 0 + S.s7) % U64] })

/-- The function `sha512_init` (lines 123-141) for an `md` that is not `NULL`. -/
def sha512_init (md : sha512_state) : Int × sha512_state :=
  (0, { md with
    curlen := 0
    length := 0
    state := [CONST64 0x6a09e667f3bcc908, CONST64 0xbb67ae8584caa73b,
      CONST64 0x3c6ef372fe94f82b, CONST64 0xa54ff53a5f1d36f1, CONST64 0x510e527fade682d1,
      CONST64 0x9b05688c2b3e6c1f, CONST64 0x1f83d9abfb41bd6b, CONST64 0x5be0cd19137e2179] })

/-- The loop `while (inlen > 0)` of `sha512_process` (lines 165-187); `inp` are the
bytes from the pointer `in` on. `fuel` bounds the number of evaluations of the loop
condition. -/
def process_loop : Nat → sha512_state → List Nat → Nat → Option (Int × sha512_state)
  | 0, _, _, _ => none
  | fuel + 1, md, inp, inlen =>
    if inlen > 0 then
      if md.curlen = 0 ∧ inlen ≥ SHA512_BLOCK_SIZE then
        let r := sha512_compress md inp
        if r.1 ≠ 0 then some (r.1, r.2)
        else
          let md := { r.2 with length := (r.2.length + SHA512_BLOCK_SIZE * 8) % U64 }
          process_loop fuel md (inp.drop SHA512_BLOCK_SIZE)
            ((inlen + U32 - SHA512_BLOCK_SIZE) % U32)
      else
        let n := min inlen ((SHA512_BLOCK_SIZE + U32 - md.curlen) % U32)
        let md := { md with buf := tb_memcpy md.buf md.curlen inp n }
        let md := { md with curlen := (md.curlen + n) % U32 }
        let inp := inp.drop n
        let inlen := (inlen + U32 - n) % U32
        if md.curlen = SHA512_BLOCK_SIZE then
          let r := sha512_compress md md.buf
          if r.1 ≠ 0 then some (r.1, r.2)
          else
            let md := { r.2 with length := (r.2.length + 8 * SHA512_BLOCK_SIZE) % U64 }
            let md := { md with curlen := 0 }
            process_loop fuel md inp inlen
        else process_loop fuel md inp inlen
    else some (0, md)

/-- The function `sha512_process` (lines 150-189) for an `md` that is not `NULL`;
`inp` is `none` for an `in` that is `NULL`, else the bytes from `in` on. -/
def sha512_process (fuel : Nat) (md : sha512_state) (inp : Option (List Nat))
    (inlen : Nat) : Option (Int × sha512_state) :=
  match inp with
  | none => some (-1, md)
  | some inp =>
    if md.curlen > SHA512_BLOCK_SIZE then some (-1, md)
    else if (md.length + inlen) % U64 < md.length then some (-1, md)
    else process_loop fuel md inp inlen

/-- The loops `while (md->sha512.curlen < limit) md->sha512.buf[md->sha512.curlen++] = 0`
of `sha512_done` (lines 218-220 and 228-230); the first argument counts the bytes up to
`limit`, which bounds the iterations. -/
def zero_fill_loop (limit : Nat) : Nat → List Nat → Nat → List Nat × Nat
  | 0, buf, curlen => (buf, curlen)
  | k + 1, buf, curlen =>
    if curlen < limit then zero_fill_loop limit k (buf.set curlen 0) (curlen + 1)
    else (buf, curlen)

/-- The function `sha512_done` (lines 197-244) for `md` and `out` that are not `NULL`;
the third component holds the 64 bytes stored at `out`, `none` when nothing is
stored. -/
def sha512_done (md : sha512_state) : Int × sha512_state × Option (List Nat) :=
  if md.curlen ≥ SHA512_BLOCK_SIZE then (-1, md, none)
  else
    let md := { md with length := (md.length + (md.curlen * 8) % U64) % U64 }
    let md := { md with buf := md.buf.set md.curlen 0x80, curlen := md.curlen + 1 }
    let md :=
      if md.curlen > 112 then
        let z := zero_fill_loop 128 (128 - md.curlen) md.buf md.curlen
        let md := { md with buf := z.1, curlen := z.2 }
        let md := (sha512_compress md md.buf).2
        { md with curlen := 0 }
      else md
    let z := zero_fill_loop 120 (120 - md.curlen) md.buf md.curlen
    let md := { md with buf := z.1, curlen := z.2 }
    let md := { md with buf := tb_memcpy md.buf 120 (STORE64H md.length) 8 }
    let md := (sha512_compress md md.buf).2
    (0, md, some ((List.range 8).flatMap (fun i => STORE64H (md.state.getD i 0))))

/-- The function `sha512_buffer` (lines 246-257) for a `hash` that is not `NULL`: `md0`
is what the local variable `md` holds at entry, `buffer` is `none` for `NULL`. The
second component holds the 64 bytes stored in `hash`. `fuel` bounds the loop of
`sha512_process`. -/
def sha512_buffer (fuel : Nat) (md0 : sha512_state) (buffer : Option (List Nat)) (len : Nat) :
    Option (Int × Option (List Nat)) :=
  let r1 := sha512_init md0
  match sha512_process fuel r1.2 buffer (len % U32) with
  | none => none
  | some r2 =>
    let r3 := sha512_done r2.2
    some (Int.lor (Int.lor (Int.lor 0 r1.1) r2.1) r3.1, r3.2.2)

/-! ## SHA-512 as FIPS 180-4 defines it -/

/-- FIPS 180-4, section 3.2: the rotation `ROTR^n(x) = (x >> n) | (x << 64 - n)` of a
64-bit word. -/
def fips_ROTR (n x : Nat) : Nat := (x >>> n) ||| (x <<< (64 - n)) % U64

/-- FIPS 180-4, section 3.2: the shift `SHR^n(x) = x >> n`. -/
def fips_SHR (n x : Nat) : Nat := x >>> n

/-- FIPS 180-4, (4.8): `Ch(x, y, z) = (x and y) xor (not x and z)` on 64-bit words. -/
def fips_Ch (x y z : Nat) : Nat := (x &&& y) ^^^ (((U64 - 1) ^^^ x) &&& z)

/-- FIPS 180-4, (4.9): `Maj(x, y, z) = (x and y) xor (x and z) xor (y and z)`. -/
def fips_Maj (x y z : Nat) : Nat := (x &&& y) ^^^ (x &&& z) ^^^ (y &&& z)

/-- FIPS 180-4, (4.10): the function written as a capital sigma with index 0. -/
def fips_Sigma0 (x : Nat) : Nat := fips_ROTR 28 x ^^^ fips_ROTR 34 x ^^^ fips_ROTR 39 x

/-- FIPS 180-4, (4.11): the function written as a capital sigma with index 1. -/
def fips_Sigma1 (x : Nat) : Nat := fips_ROTR 14 x ^^^ fips_ROTR 18 x ^^^ fips_ROTR 41 x

/-- FIPS 180-4, (4.12): the function written as a small sigma with index 0. -/
def fips_sigma0 (x : Nat) : Nat := fips_ROTR 1 x ^^^ fips_ROTR 8 x ^^^ fips_SHR 7 x

/-- FIPS 180-4, (4.13): the function written as a small sigma with index 1. -/
def fips_sigma1 (x : Nat) : Nat := fips_ROTR 19 x ^^^ fips_ROTR 61 x ^^^ fips_SHR 6 x

/-- FIPS 180-4, section 5.1.2: the padded message. For a message of `l` bits, the bit
1, then `k` zero bits with `k` the smallest solution of `l + 1 + k = 896 mod 1024`,
then `l` as a 128-bit big-endian number. The message is a string of bytes, so the bit 1
and the first seven zero bits are the byte `0x80`. -/
def fips_pad (M : List Nat) : List Nat :=
  let l := 8 * M.length
  let k := (896 + 1024 - (l + 1) % 1024) % 1024
  M ++ 0x80 :: List.replicate ((k + 1) / 8 - 1) 0 ++
    (List.range 16).map (fun j => (l >>> (8 * (15 - j))) % 256)

/-- FIPS 180-4, section 6.4.2, step 1: the message schedule `W_t` of the block `M`,
whose words `M_0, ..., M_15` are big-endian. -/
def fips_W (M : List Nat) (t : Nat) : Nat :=
  if h : t < 16 then LOAD64H M (8 * t)
  else
    (fips_sigma1 (fips_W M (t - 2)) + fips_W M (t - 7) + fips_sigma0 (fips_W M (t - 15)) +
      fips_W M (t - 16)) % U64
termination_by t
decreasing_by all_goals omega

/-- FIPS 180-4, section 6.4.2: the eight working variables. -/
structure fips_vars where
  a : Nat
  b : Nat
  c : Nat
  d : Nat
  e : Nat
  f : Nat
  g : Nat
  h : Nat
deriving DecidableEq, Repr

/-- FIPS 180-4, section 6.4.2, step 3: the round `t`, with the constants `K_t` of
section 4.2.3. -/
def fips_round (W : Nat → Nat) (v : fips_vars) (t : Nat) : fips_vars :=
  let T1 := (v.h + fips_Sigma1 v.e + fips_Ch v.e v.f v.g + K.getD t 0 + W t) % U64
  let T2 := (fips_Sigma0 v.a + fips_Maj v.a v.b v.c) % U64
  ⟨(T1 + T2) % U64, v.a, v.b, v.c, (v.d + T1) % U64, v.e, v.f, v.g⟩

/-- The rounds `0, ..., t - 1`. -/
def fips_rounds (W : Nat → Nat) : Nat → fips_vars → fips_vars
  | 0, v => v
  | t + 1, v => fips_round W (fips_rounds W t v) t

/-- FIPS 180-4, section 6.4.2: the hash value after the block `M`, from the hash value
`H` before it. -/
def fips_block (H : List Nat) (M : List Nat) : List Nat :=
  let v := fips_rounds (fips_W M) 80
    ⟨H.getD 0 0, H.getD 1 0, H.getD 2 0, H.getD 3 0, H.getD 4 0, H.getD 5 0, H.getD 6 0,
      H.getD 7 0⟩
  [(v.a + H.getD 0 0) % U64, (v.b + H.getD 1 0) % U64, (v.c + H.getD 2 0) % U64,
   (v.d + H.getD 3 0) % U64, (v.e + H.getD 4 0) % U64, (v.f + H.getD 5 0) % U64,
   (v.g + H.getD 6 0) % U64, (v.h + H.getD 7 0) % U64]

/-- FIPS 180-4, section 5.3.5: the initial hash value of SHA-512. -/
def fips_H0 : List Nat :=
  [0x6a09e667f3bcc908, 0xbb67ae8584caa73b, 0x3c6ef372fe94f82b, 0xa54ff53a5f1d36f1,
   0x510e527fade682d1, 0x9b05688c2b3e6c1f, 0x1f83d9abfb41bd6b, 0x5be0cd19137e2179]

/-- FIPS 180-4, section 6.4.2: the hash value after the first `N` blocks of 128 bytes of
`M`, from the hash value `H`. -/
def fips_hash : Nat → List Nat → List Nat → List Nat
  | 0, H, _ => H
  | N + 1, H, M => fips_hash N (fips_block H (M.take 128)) (M.drop 128)

/-- FIPS 180-4, section 6.4: the SHA-512 digest of the byte string `M`, the eight words
of the final hash value in big-endian order. -/
def fips_sha512 (M : List Nat) : List Nat :=
  (fips_hash ((fips_pad M).length / 128) fips_H0 (fips_pad M)).flatMap STORE64H

/-- A hash state that holds nothing of use: what `sha512_buffer` may find in its local
variable. -/
def stale_md : sha512_state :=
  { length := 0xdeadbeef, state := [1, 2, 3], curlen := 77, buf := List.replicate 128 0xa5 }

/-- A hash state with an empty buffer whose bit count is one block below `2^64`. -/
def near_wrap_md : sha512_state :=
  { length := U64 - 1024, state := fips_H0, curlen := 0, buf := List.replicate 128 0 }

/-! ## Vocabulary of the statements on SHA-512 -/

/-- The array `S` of `sha512_compress` read as the working variables `a, ..., h`. -/
def sha512_S.vars (S : sha512_S) : fips_vars :=
  ⟨S.s0, S.s1, S.s2, S.s3, S.s4, S.s5, S.s6, S.s7⟩

/-- The working variables `a, ..., h` as an array `S`. -/
def fips_vars.S (v : fips_vars) : sha512_S := ⟨v.a, v.b, v.c, v.d, v.e, v.f, v.g, v.h⟩

/-- The working variables are 64-bit words. -/
def fips_vars.bounded (v : fips_vars) : Prop :=
  v.a < U64 ∧ v.b < U64 ∧ v.c < U64 ∧ v.d < U64 ∧ v.e < U64 ∧ v.f < U64 ∧ v.g < U64 ∧
    v.h < U64

/-- One use of the macro `RND` on the variables `a, ..., h`, which then take the places
of `b, ..., h, a`: the code rotates the arguments of the macro where FIPS 180-4 rotates
the variables. -/
def RND_round (W : List Nat) (v : fips_vars) (i : Nat) : fips_vars :=
  let r := RND W v.a v.b v.c v.d v.e v.f v.g v.h i
  ⟨r.2, v.a, v.b, v.c, r.1, v.e, v.f, v.g⟩

/-- The words of a hash state are 64-bit words, the bit count is a 64-bit number, and
the buffer has `SHA512_BLOCK_SIZE` bytes. -/
def sha512_state.well_formed (md : sha512_state) : Prop :=
  (∀ x ∈ md.state, x < U64) ∧ md.length < U64 ∧ md.buf.length = SHA512_BLOCK_SIZE

/-- The bytes that `sha512_done` compresses for a buffer that holds `tail` and a bit
count `bits`: `tail`, the byte `0x80`, zero bytes up to byte 120 of the block (of the
next block when `tail` has more than 111 bytes), and the bit count in big-endian
order. -/
def final_blocks (tail : List Nat) (bits : Nat) : List Nat :=
  tail ++ 0x80 ::
    List.replicate (if tail.length + 1 > 112 then 247 - tail.length else 119 - tail.length) 0 ++
    STORE64H bits

/-! ## ctype.h, stdlib.h (the C library) -/

/-- Modelled from the spec: the C library function `isspace` in the "C" locale (ISO C,
7.4.1.10): space, and the control characters from horizontal tab to carriage return. -/
def isspace (c : Char) : Bool :=
  c == ' ' || c == '\t' || c == '\n' || c == '\x0b' || c == '\x0c' || c == '\r'

/-- The value of a hexadecimal digit, as `strtoul` reads it in base 16. -/
def hexval (c : Char) : Option Nat :=
  if '0' ≤ c ∧ c ≤ '9' then some (c.toNat - '0'.toNat)
  else if 'a' ≤ c ∧ c ≤ 'f' then some (c.toNat - 'a'.toNat + 10)
  else if 'A' ≤ c ∧ c ≤ 'F' then some (c.toNat - 'A'.toNat + 10)
  else none

/-- The number that a string of hexadecimal digits denotes. -/
def hexnum (digits : List Char) : Nat :=
  digits.foldl (fun acc c => acc * 16 + (hexval c).getD 0) 0

/-- Modelled from the spec: the C library function `strtoul(s, &next, 16)` (ISO C,
7.22.1.4). A C string is held as the list of its characters in front of the
terminator. The function passes over white space, an optional sign and an optional
`0x` or `0X` that a hexadecimal digit follows, and converts the longest run of
hexadecimal digits; the result is the value and `next`. Without a digit nothing is
converted: the value is 0 and `next` is `s`. `ULONG` is `ULONG_MAX + 1`: a number that
does not fit gives `ULONG_MAX`, and a minus sign negates in `unsigned long`. -/
def strtoul16 (ULONG : Nat) (s : List Char) : Nat × List Char :=
  let t := s.dropWhile isspace
  let neg := t.head? == some '-'
  let t := if t.head? == some '-' || t.head? == some '+' then t.tail else t
  let t :=
    match t with
    | '0' :: x :: h :: r => if (x == 'x' || x == 'X') && (hexval h).isSome then h :: r else t
    | _ => t
  let digits := t.takeWhile (fun c => (hexval c).isSome)
  if digits = [] then (0, s)
  else
    let v := hexnum digits
    let v := if v ≥ ULONG then ULONG - 1 else if neg then (ULONG - v) % ULONG else v
    (v, t.dropWhile (fun c => (hexval c).isSome))

/-! ## lcptools/custom_elt.c -/

/-- The character `*s` of a C string held as the list of its characters in front of the
terminator: the terminator when the list is empty. -/
def cstr_head (s : List Char) : Char := s.headD '\x00'

/-- The function `skipspace` (lines 60-65). -/
def skipspace : List Char → List Char
  | [] => []
  | c :: s => if c ≠ '\x00' ∧ isspace c then skipspace s else c :: s

/-- The loop `for (i = 0; i < 6; i++)` of `string_to_uuid` (lines 127-149); the first
argument counts the iterations still to run. The result is false when the loop returns
false from the function, else the string `s` and the uuid behind the loop. -/
def string_to_uuid_data5 (ULONG : Nat) :
    Nat → Nat → List Char → uuid_t → Bool × List Char × uuid_t
  | 0, _, s, uuid => (true, s, uuid)
  | k + 1, i, s, uuid =>
    let r := strtoul16 ULONG s
    let uuid := { uuid with data5 := uuid.data5.set i (r.1 % 256) }
    if r.2 = s then (false, s, uuid)
    else
      let s := skipspace r.2
      if i < 5 then
        if cstr_head s ≠ ',' then (false, s, uuid)
        else string_to_uuid_data5 ULONG k (i + 1) (skipspace s.tail) uuid
      else
        if cstr_head s ≠ '\x7d' then (false, s, uuid)
        else
          let s := skipspace s.tail
          if cstr_head s ≠ '\x7d' then (false, s, uuid)
          else string_to_uuid_data5 ULONG k (i + 1) (skipspace s.tail) uuid

/-- The function `string_to_uuid` (lines 67-155): the value returned and what `*uuid`
holds on return. `next == s` compares two pointers into the same string, which are
equal when the rests of the string from them on are. -/
def string_to_uuid (ULONG : Nat) (s : List Char) : Bool × uuid_t :=
  let uuid : uuid_t := ⟨0x3aa86d4a, 0xa35d, 0x453d, 0x7a9a, [0x1b, 0xb4, 0xa3, 0xe3, 0xa4, 0x9f]⟩
  let s := skipspace s
  if cstr_head s ≠ '\x7b' then (false, uuid)
  else
    let s := skipspace s.tail
    let r := strtoul16 ULONG s
    let uuid := { uuid with data1 := r.1 % U32 }
    if r.2 = s then (false, uuid)
    else
      let s := skipspace r.2
      if cstr_head s ≠ ',' then (false, uuid)
      else
        let s := skipspace s.tail
        let r := strtoul16 ULONG s
        let uuid := { uuid with data2 := r.1 % 2 ^ 16 }
        if r.2 = s then (false, uuid)
        else
          let s := skipspace r.2
          if cstr_head s ≠ ',' then (false, uuid)
          else
            let s := skipspace s.tail
            let r := strtoul16 ULONG s
            let uuid := { uuid with data3 := r.1 % 2 ^ 16 }
            if r.2 = s then (false, uuid)
            else
              let s := skipspace r.2
              if cstr_head s ≠ ',' then (false, uuid)
              else
                let s := skipspace s.tail
                let r := strtoul16 ULONG s
                let uuid := { uuid with data4 := r.1 % 2 ^ 16 }
                if r.2 = s then (false, uuid)
                else
                  let s := skipspace r.2
                  if cstr_head s ≠ ',' then (false, uuid)
                  else
                    let s := skipspace s.tail
                    if cstr_head s ≠ '\x7b' then (false, uuid)
                    else
                      let s := skipspace s.tail
                      let l := string_to_uuid_data5 ULONG 6 0 s uuid
                      if !l.1 then (false, l.2.2)
                      else if cstr_head l.2.1 ≠ '\x00' then (false, l.2.2)
                      else (true, l.2.2)

/-! ## Vocabulary of the statements on `string_to_uuid` -/

/-- An item of a text format: a character, or a field that `strtoul` reads. -/
inductive fmt_item where
  | lit (c : Char)
  | hex
deriving DecidableEq, Repr

/-- The items that `string_to_uuid` reads, in their order: the text format
`{data1, data2, data3, data4, {b0, b1, b2, b3, b4, b5}}`. -/
def uuid_fmt : List fmt_item :=
  [.lit '\x7b', .hex, .lit ',', .hex, .lit ',', .hex, .lit ',', .hex, .lit ',',
   .lit '\x7b', .hex, .lit ',', .hex, .lit ',', .hex, .lit ',', .hex, .lit ',', .hex,
   .lit ',', .hex, .lit '\x7d', .lit '\x7d']

/-- Reading the items of a format from a string as `string_to_uuid` does: `skipspace`
in front of each item, then the character itself, or `strtoul` and the test `next ==
s`. The result is the values of the fields and the rest of the string, `none` where
`string_to_uuid` returns false. -/
def parse_fmt (ULONG : Nat) : List fmt_item → List Char → Option (List Nat × List Char)
  | [], s => some ([], s)
  | .lit c :: fs, s =>
    if cstr_head (skipspace s) ≠ c then none else parse_fmt ULONG fs (skipspace s).tail
  | .hex :: fs, s =>
    if (strtoul16 ULONG (skipspace s)).2 = skipspace s then none
    else
      match parse_fmt ULONG fs (strtoul16 ULONG (skipspace s)).2 with
      | none => none
      | some r => some ((strtoul16 ULONG (skipspace s)).1 :: r.1, r.2)

/-- The uuid that `string_to_uuid` stores for the values of the ten fields. -/
def uuid_of_fields (vs : List Nat) : uuid_t :=
  ⟨vs.getD 0 0 % U32, vs.getD 1 0 % 2 ^ 16, vs.getD 2 0 % 2 ^ 16, vs.getD 3 0 % 2 ^ 16,
    [vs.getD 4 0 % 256, vs.getD 5 0 % 256, vs.getD 6 0 % 256, vs.getD 7 0 % 256,
     vs.getD 8 0 % 256, vs.getD 9 0 % 256]⟩

/-- The function `string_to_uuid` read on the format: the uuid stored when it returns
true, `none` when it returns false. -/
def string_to_uuid_fmt (ULONG : Nat) (s : List Char) : Option uuid_t :=
  match parse_fmt ULONG uuid_fmt s with
  | none => none
  | some r => if cstr_head (skipspace r.2) ≠ '\x00' then none else some (uuid_of_fields r.1)

/-- The text of a format: in front of each item a run of characters from `ws`, for each
field a text from `ns`. -/
def render_fmt : List fmt_item → List (List Char) → List (List Char) → List Char
  | [], _, _ => []
  | .lit c :: fs, ws, ns => ws.headD [] ++ c :: render_fmt fs ws.tail ns
  | .hex :: fs, ws, ns => ws.headD [] ++ (ns.headD [] ++ render_fmt fs ws.tail ns.tail)

/-- The number of fields of a format. -/
def fmt_item.fields (fs : List fmt_item) : Nat := fs.count .hex

/-- A run of white space. -/
def is_blank (w : List Char) : Bool := w.all isspace

/-- A run of hexadecimal digits, at least one. -/
def is_hex_digits (d : List Char) : Bool := !d.isEmpty && d.all (fun c => (hexval c).isSome)

/-- The text of a number as `strtoul` takes it: hexadecimal digits, at least one, with
nothing else but a sign and the `x` of `0x`. -/
def is_numeral (n : List Char) : Bool :=
  n.any (fun c => (hexval c).isSome) &&
    n.all (fun c => (hexval c).isSome || c == 'x' || c == 'X' || c == '+' || c == '-')

/-- The text `0x<digits>`. -/
def hex_text (d : List Char) : List Char := '0' :: 'x' :: d

/-- A format whose fields end where their digits end: a character of the format is no
hexadecimal digit, no white space and not the terminator, and no field follows a field
directly. -/
def fmt_item.separated : List fmt_item → Bool
  | [] => true
  | .lit c :: fs => (hexval c).isNone && !isspace c && c != '\x00' && fmt_item.separated fs
  | .hex :: fs => fs.head? != some .hex && fmt_item.separated fs

/-- The sizes that the compiler fixes for `custom_elt.c`: `lcp2.h` and `uuid.h`, which
declare the types, are not among the sources, so `sizeof` of each is a parameter.
`SIZE` is `SIZE_MAX + 1`: the arithmetic of `size_t` is modulo `SIZE`. -/
structure host_sizes where
  sizeof_lcp_policy_element_t : Nat
  sizeof_lcp_mle_element_t : Nat
  sizeof_uuid_t : Nat
  SIZE : Nat
deriving DecidableEq, Repr

/-- The constant `NULL_UUID` (lines 52-53). -/
def NULL_UUID : uuid_t := ⟨0x00000000, 0x0000, 0x0000, 0x0000, [0x00, 0x00, 0x00, 0x00, 0x00, 0x00]⟩

/-- The variables `uuid`, `data_len` and `data` of the file (lines 55-57); `data` is
`none` for the pointer NULL and the bytes of the buffer else. -/
structure custom_state where
  uuid : uuid_t
  data_len : Nat
  data : Option (List Nat)
deriving DecidableEq, Repr

/-- The state at program start: `uuid = NULL_UUID`, and the zero initialisation of
`data_len` and `data`. -/
def custom_state.init : custom_state := ⟨NULL_UUID, 0, none⟩

/-- Modelled from the spec: a policy element as `create` and `display` use it. The types
`lcp_policy_element_t` and `lcp_custom_element_t` are declared in `lcp2.h`, which is not
among the sources; the spec has the plugin a "flat buffer packer". The element is the
field `size`, of 32 bits, and behind the header the custom element: its `uuid` and the
bytes `data` of the allocation behind the uuid. -/
structure lcp_policy_element_t where
  size : Nat
  uuid : uuid_t
  data : List Nat
deriving DecidableEq, Repr

/-- The function `cmdline_handler` (lines 157-183). `read_file` is the function of
`lcputils2.h`, not among the sources: a parameter that gives the bytes of a file, `none`
where it returns NULL. `string_to_uuid` writes to `uuid` also where it fails. -/
def cmdline_handler (ULONG : Nat) (read_file : List Char → Option (List Nat))
    (st : custom_state) (c : Int) (opt : List Char) : Bool × custom_state :=
  if c = ('u'.toNat : Int) then
    let r := string_to_uuid ULONG opt
    if !r.1 then (false, { st with uuid := r.2 })
    else (true, { st with uuid := r.2 })
  else if c ≠ 0 then (false, st)
  else
    match read_file opt with
    | none => (false, { st with data := none })
    | some d => (true, { st with data := some d, data_len := d.length })

/-- The function `create` (lines 185-213): `some none` where it returns NULL, `some (some
elt)` for the element, `none` where the execution leaves the model (`memcpy` reads
`data_len` bytes from NULL or from a shorter buffer, or writes behind the allocation
after the sizes wrapped). `malloc_ok` says whether `malloc` gives memory. `memset` puts
zero in every byte of the allocation, `memcpy` the first `data_len` bytes of `data`
behind the uuid. -/
def create (hs : host_sizes) (malloc_ok : Bool) (st : custom_state) :
    Option (Option lcp_policy_element_t) :=
  if are_uuids_equal st.uuid NULL_UUID then some none
  else
    let data_size := (hs.sizeof_lcp_mle_element_t + hs.sizeof_uuid_t + st.data_len) % hs.SIZE
    let alloc := (hs.sizeof_lcp_policy_element_t + data_size) % hs.SIZE
    if !malloc_ok then some none
    else if alloc < hs.sizeof_lcp_policy_element_t + hs.sizeof_uuid_t + st.data_len then none
    else
      match st.data with
      | none => none
      | some d =>
        if d.length < st.data_len then none
        else
          some (some
            { size := alloc % U32
              uuid := st.uuid
              data :=
                tb_memcpy
                  (List.replicate (alloc - hs.sizeof_lcp_policy_element_t - hs.sizeof_uuid_t) 0)
                  0 d st.data_len })

/-- The length that `display` hands to `print_hex` (lines 223-224):
`elt->size - sizeof(*elt) - sizeof(custom->uuid)` in `size_t`. -/
def display_len (hs : host_sizes) (elt : lcp_policy_element_t) : Nat :=
  (elt.size + (hs.SIZE - hs.sizeof_lcp_policy_element_t % hs.SIZE) +
    (hs.SIZE - hs.sizeof_uuid_t % hs.SIZE)) % hs.SIZE

/-- The function `display` (lines 215-225): the uuid that `print_uuid` gets and the
bytes that `print_hex` gets, `none` where the length reaches behind the allocation.
`print_uuid` and `print_hex` are functions of `lcputils2.h`, not among the sources; they
print what they get. -/
def display (hs : host_sizes) (elt : lcp_policy_element_t) : Option (uuid_t × List Nat) :=
  if elt.data.length < display_len hs elt then none
  else some (elt.uuid, elt.data.take (display_len hs elt))

/-- The sizes under `gcc` on a 64-bit host with the packed declarations of `lcp2.h`:
a header of three 32-bit fields, an MLE element header of four bytes, a uuid of
sixteen. -/
def lcp_host : host_sizes := ⟨12, 4, 16, U64⟩

/-- A file system with the one file `data.bin` of two bytes. -/
def one_file (name : List Char) : Option (List Nat) :=
  if name = "data.bin".toList then some [0xaa, 0xbb] else none

/-! ## Vocabulary of the statements on the streaming of SHA-512 -/

/-- The hash state that holds the bytes `m` processed so far: the words of the state are
the hash value of FIPS 180-4 after the full blocks of `m`, `length` counts the bits of
these blocks, and the buffer holds the `curlen` bytes of `m` behind them. -/
def sha512_state.holds (md : sha512_state) (m : List Nat) : Prop :=
  md.state = fips_hash (m.length / 128) fips_H0 m ∧
  md.length = 1024 * (m.length / 128) ∧
  md.curlen = m.length % 128 ∧
  md.buf.length = SHA512_BLOCK_SIZE ∧
  md.buf.take md.curlen = m.drop (128 * (m.length / 128))

/-! ## The descriptor storage as bytes

The definitions of `efi_memmap.c` above keep one record per slot of `descr_size`
bytes. That is the memory of the code when a slot holds a whole descriptor,
`SIZEOF_EFI_MEM_DESCR <= descr_size`. `efi_memmap_copy` takes `descr_size` from the
loader without a test (lines 67-76), and in shorter slots the members of one
descriptor lie in the bytes of the next. The definitions of this section keep the
storage byte by byte and are the code for every `descr_size`. The theorem
`efi_memmap_reserve_on_records` has the two readings of `efi_memmap_reserve` agree on
every well-formed map that is not empty. -/

/-- The value of `n` bytes at the address `addr`, little-endian (tboot runs on x86);
addresses are byte offsets from `efi_mmap->descr` in 32-bit pointer arithmetic. -/
def Bytes.load (mem : Nat → Nat) (addr n : Nat) : Nat :=
  ((List.range n).map (fun j => mem ((addr + j) % U32) % 256 * 256 ^ j)).sum

/-- The storage after `n` bytes at `addr` have been given the value `v`. -/
def Bytes.store (mem : Nat → Nat) (addr n v : Nat) : Nat → Nat :=
  fun a =>
    if (a + U32 - addr % U32) % U32 < n then v / 256 ^ ((a + U32 - addr % U32) % U32) % 256
    else mem a

/-- The storage after `tb_memcpy(dst, src, n)`. -/
def Bytes.memcpy (mem : Nat → Nat) (dst src n : Nat) : Nat → Nat :=
  fun a =>
    if (a + U32 - dst % U32) % U32 < n then mem ((src + (a + U32 - dst % U32) % U32) % U32)
    else mem a

/-- The storage after `tb_memset(dst, 0, n)`. -/
def Bytes.memset0 (mem : Nat → Nat) (dst n : Nat) : Nat → Nat :=
  fun a => if (a + U32 - dst % U32) % U32 < n then 0 else mem a

/-- The structure `efi_memmap_t` with the storage `descr` as bytes. -/
structure Bytes.efi_memmap_t where
  size : Nat
  descr_size : Nat
  descr : Nat → Nat

/-- The two file-scope variables of `efi_memmap.c`, the storage as bytes. -/
structure Bytes.efi_state where
  efi_mmap_available : Bool
  efi_mmap : Bytes.efi_memmap_t

/-- The member `desc->type` of the descriptor at byte offset `desc`. -/
def Bytes.efi_memmap_t.type (m : Bytes.efi_memmap_t) (desc : Nat) : Nat :=
  Bytes.load m.descr desc 4

/-- The member `desc->physical_start`. -/
def Bytes.efi_memmap_t.physical_start (m : Bytes.efi_memmap_t) (desc : Nat) : Nat :=
  Bytes.load m.descr (desc + 8) 8

/-- The member `desc->num_pages`. -/
def Bytes.efi_memmap_t.num_pages (m : Bytes.efi_memmap_t) (desc : Nat) : Nat :=
  Bytes.load m.descr (desc + 24) 8

/-- The member `desc->attribute`. -/
def Bytes.efi_memmap_t.attribute (m : Bytes.efi_memmap_t) (desc : Nat) : Nat :=
  Bytes.load m.descr (desc + 32) 8

/-- The assignment `desc->type = v`. -/
def Bytes.efi_memmap_t.set_type (m : Bytes.efi_memmap_t) (desc v : Nat) :
    Bytes.efi_memmap_t :=
  { m with descr := Bytes.store m.descr desc 4 v }

/-- The assignment `desc->physical_start = v`. -/
def Bytes.efi_memmap_t.set_physical_start (m : Bytes.efi_memmap_t) (desc v : Nat) :
    Bytes.efi_memmap_t :=
  { m with descr := Bytes.store m.descr (desc + 8) 8 v }

/-- The assignment `desc->num_pages = v`. -/
def Bytes.efi_memmap_t.set_num_pages (m : Bytes.efi_memmap_t) (desc v : Nat) :
    Bytes.efi_memmap_t :=
  { m with descr := Bytes.store m.descr (desc + 24) 8 v }

/-- The assignment `desc->attribute = v`. -/
def Bytes.efi_memmap_t.set_attribute (m : Bytes.efi_memmap_t) (desc v : Nat) :
    Bytes.efi_memmap_t :=
  { m with descr := Bytes.store m.descr (desc + 32) 8 v }

/-- The function `efi_memmap_walk` (lines 114-137) on the byte storage. -/
def Bytes.efi_memmap_walk (s : Bytes.efi_state) (prev : Option Nat) : Option Nat :=
  if !s.efi_mmap_available then none
  else
    match prev with
    | none => some 0
    | some p =>
      let next := (p + s.efi_mmap.descr_size) % U32
      if next < s.efi_mmap.size then some next else none

/-- The copy loop of `insert_after_region` (lines 335-340) on the byte storage. -/
def Bytes.shift_up (ds pos : Nat) : Nat → Nat → (Nat → Nat) → Option (Nat → Nat)
  | 0, _, _ => none
  | fuel + 1, i, d =>
    if i > pos then
      if i < ds then none
      else Bytes.shift_up ds pos fuel (i - ds) (Bytes.memcpy d i (i - ds) ds)
    else some d

/-- The function `insert_after_region` (lines 325-352) on the byte storage. -/
def Bytes.insert_after_region (maxEntries : Nat) (m : Bytes.efi_memmap_t)
    (pos addr size type attr : Nat) : Option (Bool × Bytes.efi_memmap_t) :=
  if m.descr_size = 0 then none
  else if (m.size / m.descr_size + 1) % U32 > maxEntries then some (false, m)
  else
    let pos := (pos * m.descr_size) % U32
    match Bytes.shift_up m.descr_size pos (m.size + 1) m.size m.descr with
    | none => none
    | some d =>
      let desc := (pos + m.descr_size) % U32
      let m1 : Bytes.efi_memmap_t := { m with descr := Bytes.memset0 d desc m.descr_size }
      let m1 := m1.set_type desc type
      let m1 := m1.set_physical_start desc addr
      let m1 := m1.set_num_pages desc (size >>> EFI_PAGE_SHIFT)
      let m1 := m1.set_attribute desc attr
      some (true, { m1 with size := (m.size + m.descr_size) % U32 })

/-- The scan loop of `efi_memmap_reserve` (lines 170-253) on the byte storage. -/
def Bytes.reserve_loop (maxEntries base length end_ : Nat) :
    Nat → Bytes.efi_state → Option Nat → Nat → Option (Bool × Bytes.efi_state)
  | 0, _, _, _ => none
  | fuel + 1, s, desc, i =>
    match Bytes.efi_memmap_walk s desc with
    | none => some (true, s)
    | some d =>
      let m := s.efi_mmap
      let desc_base := m.physical_start d
      let desc_length := (m.num_pages d <<< EFI_PAGE_SHIFT) % U64
      let desc_end := (desc_base + desc_length) % U64
      if m.type d < EFI_LOADER_CODE ∨ m.type d > EFI_CONVENTIONAL_MEMORY then
        Bytes.reserve_loop maxEntries base length end_ fuel s (some d) ((i + 1) % U32)
      else if end_ ≤ desc_base then
        Bytes.reserve_loop maxEntries base length end_ fuel s (some d) ((i + 1) % U32)
      else if base ≥ desc_end then
        Bytes.reserve_loop maxEntries base length end_ fuel s (some d) ((i + 1) % U32)
      else if base ≤ desc_base ∧ desc_end ≤ end_ then
        -- case 1
        let s1 := { s with efi_mmap := m.set_type d EFI_RESERVED_TYPE }
        Bytes.reserve_loop maxEntries base length end_ fuel s1 (some d) ((i + 1) % U32)
      else if desc_base ≥ base ∧ end_ > desc_base ∧ desc_end > end_ then
        -- case 2
        match Bytes.insert_after_region maxEntries m ((i + U32 - 1) % U32) desc_base
            (end_ - desc_base) EFI_RESERVED_TYPE (m.attribute d) with
        | none => none
        | some (false, m1) => some (false, { s with efi_mmap := m1 })
        | some (true, m1) =>
          let s1 := { s with efi_mmap := m1 }
          match Bytes.efi_memmap_walk s1 (some d) with
          | none => none
          | some d1 =>
            let m2 := m1.set_physical_start d1 end_
            let m2 := m2.set_num_pages d1 ((desc_end - end_) >>> EFI_PAGE_SHIFT)
            some (true, { s1 with efi_mmap := m2 })
      else if base > desc_base ∧ desc_end > base ∧ end_ ≥ desc_end then
        -- case 3
        let m0 := m.set_num_pages d ((base - desc_base) >>> EFI_PAGE_SHIFT)
        match Bytes.insert_after_region maxEntries m0 i base (desc_end - base)
            EFI_RESERVED_TYPE (m0.attribute d) with
        | none => none
        | some (false, m1) => some (false, { s with efi_mmap := m1 })
        | some (true, m1) =>
          let s1 := { s with efi_mmap := m1 }
          Bytes.reserve_loop maxEntries base length end_ fuel s1
            (Bytes.efi_memmap_walk s1 (some d)) ((i + 1 + 1) % U32)
      else if base > desc_base ∧ desc_end > end_ then
        -- case 4
        let m0 := m.set_num_pages d ((base - desc_base) >>> EFI_PAGE_SHIFT)
        match Bytes.insert_after_region maxEntries m0 i base length
            EFI_RESERVED_TYPE (m0.attribute d) with
        | none => none
        | some (false, m1) => some (false, { s with efi_mmap := m1 })
        | some (true, m1) =>
          match Bytes.insert_after_region maxEntries m1 ((i + 1) % U32) end_ (desc_end - end_)
              (m1.type d) (m1.attribute d) with
          | none => none
          | some (false, m2) => some (false, { s with efi_mmap := m2 })
          | some (true, m2) => some (true, { s with efi_mmap := m2 })
      else some (false, s)

/-- The function `efi_memmap_reserve` (lines 152-256) on the byte storage. -/
def Bytes.efi_memmap_reserve (maxEntries fuel : Nat) (s : Bytes.efi_state)
    (base length : Nat) : Option (Bool × Bytes.efi_state) :=
  if length = 0 ∨ !s.efi_mmap_available then some (true, s)
  else
    Bytes.reserve_loop maxEntries (reserve_base base) (reserve_length length)
      (reserve_end base length) fuel s none 0

/-- The descriptor at the byte offset `desc`, member by member; `other` holds the
padding, `virtual_start` and the bytes of the slot behind the structure. -/
def Bytes.efi_memmap_t.entry (m : Bytes.efi_memmap_t) (desc : Nat) : efi_mem_descr_t :=
  { type := m.type desc
    physical_start := m.physical_start desc
    num_pages := m.num_pages desc
    attr := m.attribute desc
    other := Bytes.load m.descr (desc + 4) 4 + 2 ^ 32 * Bytes.load m.descr (desc + 16) 8 +
      2 ^ 96 * Bytes.load m.descr (desc + 40) (m.descr_size - 40) }

/-- The entries of the map: the descriptors at the byte offsets `0, descr_size, ...`. -/
def Bytes.efi_memmap_t.entries (m : Bytes.efi_memmap_t) : List efi_mem_descr_t :=
  (List.range (m.size / m.descr_size)).map (fun k => m.entry (k * m.descr_size))

/-- The storage after the members of `e` have been stored in the descriptor at the
byte offset `desc`, in the order of lines 345-348. -/
def Bytes.put (mem : Nat → Nat) (desc : Nat) (e : efi_mem_descr_t) : Nat → Nat :=
  Bytes.store (Bytes.store (Bytes.store (Bytes.store mem desc 4 e.type) (desc + 8) 8
    e.physical_start) (desc + 24) 8 e.num_pages) (desc + 32) 8 e.attr

/-- The storage after the descriptors of `L` have been stored one after the other, in
ascending order, in slots of `ds` bytes from the slot of index `k` on. -/
def Bytes.put_list (ds : Nat) : List efi_mem_descr_t → Nat → (Nat → Nat) → Nat → Nat
  | [], _, mem => mem
  | e :: L, k, mem => Bytes.put_list ds L (k + 1) (Bytes.put mem (k * ds) e)

/-- Storage that is zero but for the descriptors of `L`, stored one after the other in
slots of `ds` bytes. -/
def Bytes.of_list (ds : Nat) (L : List efi_mem_descr_t) : Nat → Nat :=
  Bytes.put_list ds L 0 (fun _ => 0)

/-- An available map in slots of 32 bytes, shorter than a descriptor: 16 KiB of
conventional memory at `0x0` and at `0x4000` and 16 KiB of loader data at `0x8000`,
stored one after the other. The member `attribute` of a descriptor lies in the first
bytes of the next slot, where the next descriptor has its `type`. -/
def short_slots_state : Bytes.efi_state :=
  { efi_mmap_available := true
    efi_mmap :=
      { size := 96
        descr_size := 32
        descr := Bytes.of_list 32
          [⟨EFI_CONVENTIONAL_MEMORY, 0x0, 4, 0xf, 0⟩, ⟨EFI_CONVENTIONAL_MEMORY, 0x4000, 4, 0xf, 0⟩,
           ⟨EFI_LOADER_DATA, 0x8000, 4, 0xf, 0⟩] } }

/-- An available map of one entry in slots of 16 bytes: 8 KiB of conventional memory at
`0x0`. The slot holds the members `type` and `physical_start`; `num_pages` (bytes 24 to
31) and `attribute` (bytes 32 to 39) lie behind it, where a second and a third entry
have their `physical_start` and `type`. -/
def half_slot_state : Bytes.efi_state :=
  { efi_mmap_available := true
    efi_mmap :=
      { size := 16
        descr_size := 16
        descr := Bytes.of_list 16 [⟨EFI_CONVENTIONAL_MEMORY, 0x0, 2, 0xf, 0⟩] } }

/-- The byte storage `bd` and the slot records `d` hold the same descriptors: the
descriptor read member by member at the byte offset of every slot of `ds` bytes that
ends inside the 32-bit address space is the record of that slot. -/
def slots_agree (ds : Nat) (bd : Nat → Nat) (d : Nat → efi_mem_descr_t) : Prop :=
  ∀ k, (k + 1) * ds ≤ U32 →
    Bytes.efi_memmap_t.entry { size := 0, descr_size := ds, descr := bd } (k * ds) = d (k * ds)

/-- The map `bm` on byte storage and the map `m` on slot records are one map: the same
`size` and `descr_size`, and the same descriptor in every slot. -/
def maps_agree (bm : Bytes.efi_memmap_t) (m : efi_memmap_t) : Prop :=
  bm.size = m.size ∧ bm.descr_size = m.descr_size ∧ slots_agree m.descr_size bm.descr m.descr

/-- The states `bs` and `s` are one state. -/
def states_agree (bs : Bytes.efi_state) (s : efi_state) : Prop :=
  bs.efi_mmap_available = s.efi_mmap_available ∧ maps_agree bs.efi_mmap s.efi_mmap

/-- Two runs end alike: both leave the model, or both return the same value in states
that `R` relates. -/
def same_outcome {α β : Type} (R : β → α → Prop) :
    Option (Bool × β) → Option (Bool × α) → Prop
  | none, none => True
  | some (b, x), some (c, y) => b = c ∧ R x y
  | _, _ => False

/-- The map on slot records that the bytes of `bm` hold: the record of a slot is the
descriptor read member by member at its byte offset. -/
def Bytes.efi_memmap_t.records (bm : Bytes.efi_memmap_t) : Tboot.efi_memmap_t :=
  { size := bm.size, descr_size := bm.descr_size, descr := fun off => bm.entry off }

/-- The state on slot records that the bytes of `bs` hold. -/
def Bytes.efi_state.records (bs : Bytes.efi_state) : Tboot.efi_state :=
  { efi_mmap_available := bs.efi_mmap_available, efi_mmap := bs.efi_mmap.records }

/-- The map of `short_slots_state` in slots of 48 bytes, which hold a descriptor: 16 KiB
of conventional memory at `0x0` and at `0x4000` and 16 KiB of loader data at `0x8000`,
each with the attribute `0xf`. -/
def whole_slots_state : Bytes.efi_state :=
  { efi_mmap_available := true
    efi_mmap :=
      { size := 144
        descr_size := 48
        descr := Bytes.of_list 48
          [⟨EFI_CONVENTIONAL_MEMORY, 0x0, 4, 0xf, 0⟩, ⟨EFI_CONVENTIONAL_MEMORY, 0x4000, 4, 0xf, 0⟩,
           ⟨EFI_LOADER_DATA, 0x8000, 4, 0xf, 0⟩] } }

/-! # Theorems -/

/-! ## Page rounding -/

theorem page_mask_eq : page_mask = 2 ^ 64 - (4095 + 1) := by decide

theorem page_mask_compl_eq : page_mask_compl = 2 ^ 12 - 1 := by decide

theorem land_page_mask_compl (x : Nat) : x &&& page_mask_compl = x % 4096 := by
  rw [page_mask_compl_eq, Nat.and_pow_two_sub_one_eq_mod]

theorem land_page_mask (x : Nat) (hx : x < U64) : x &&& page_mask = x - x % 4096 := by
  have h1 : x - x % 4096 = 2 ^ 12 * (x / 2 ^ 12) := by
    have := Nat.div_add_mod x 4096
    norm_num
    omega
  rw [h1, page_mask_eq]
  apply Nat.eq_of_testBit_eq
  intro i
  rw [Nat.testBit_and, Nat.testBit_two_pow_sub_succ (by norm_num), Nat.testBit_mul_pow_two,
    ← Nat.shiftRight_eq_div_pow, Nat.testBit_shiftRight]
  have h4095 : (4095 : Nat) = 2 ^ 12 - 1 := by norm_num
  rw [h4095, Nat.testBit_two_pow_sub_one]
  by_cases h12 : 12 ≤ i
  · have e : 12 + (i - 12) = i := by omega
    rw [e]
    by_cases h64 : i < 64
    · simp [h12, h64]
    · have : x.testBit i = false := by
        apply Nat.testBit_lt_two_pow
        calc x < 2 ^ 64 := hx
          _ ≤ 2 ^ i := Nat.pow_le_pow_right (by norm_num) (by omega)
      simp [this]
  · have : i < 12 := by omega
    simp [h12, this]


theorem reserve_base_eq (base : Nat) (hb : base < U64) :
    reserve_base base = base - base % 4096 := by
  unfold reserve_base
  exact land_page_mask base hb

theorem reserve_length_eq (length : Nat) (hl : length + 4096 < U64) :
    reserve_length length =
      if length % 4096 = 0 then length else length - length % 4096 + 4096 := by
  unfold reserve_length
  have hl2 : length < U64 := by omega
  rw [land_page_mask_compl, land_page_mask length hl2]
  have hs : (1 <<< EFI_PAGE_SHIFT) % U64 = 4096 := by decide
  rw [hs]
  by_cases h : length % 4096 = 0
  · simp [h]
  · simp only [h, ne_eq, not_false_eq_true, if_true, if_false]
    apply Nat.mod_eq_of_lt
    have := Nat.mod_lt length (show 0 < 4096 by norm_num)
    omega

/-- C3 (as amended): the page rounding of `efi_memmap_reserve` rounds `base` down and
`length` up. For `length > 0` and `base + length + 4096 < 2^64`: `base' <= base`,
`base'` and `end'` are multiples of the page size, `end' = base' + length'` without
wrap with `length' >= length`, and the requested range `[base, base + length)` lies
inside `[base', end')` when `base` is page-aligned. -/
theorem reserve_rounding (base length : Nat) (hpos : 0 < length)
    (hno : base + length + 2 ^ EFI_PAGE_SHIFT < U64) :
    reserve_base base ≤ base ∧
    2 ^ EFI_PAGE_SHIFT ∣ reserve_base base ∧
    2 ^ EFI_PAGE_SHIFT ∣ reserve_end base length ∧
    reserve_end base length = reserve_base base + reserve_length length ∧
    length ≤ reserve_length length ∧
    reserve_base base + length ≤ reserve_end base length ∧
    (base % 2 ^ EFI_PAGE_SHIFT = 0 → base + length ≤ reserve_end base length) := by
  have hP : 2 ^ EFI_PAGE_SHIFT = 4096 := by decide
  have hU : U64 = 18446744073709551616 := by decide
  rw [hP] at hno ⊢
  have hb : base < U64 := by omega
  have hl : length + 4096 < U64 := by omega
  have hbm := Nat.mod_lt base (show 0 < 4096 by norm_num)
  have hlm := Nat.mod_lt length (show 0 < 4096 by norm_num)
  have hbd := Nat.div_add_mod base 4096
  have hld := Nat.div_add_mod length 4096
  have hbase := reserve_base_eq base hb
  have hlen := reserve_length_eq length hl
  have hlen_ge : length ≤ reserve_length length := by
    rw [hlen]; split <;> omega
  have hlen_le : reserve_length length ≤ length + 4095 := by
    rw [hlen]; split <;> omega
  have hend : reserve_end base length = reserve_base base + reserve_length length := by
    unfold reserve_end
    apply Nat.mod_eq_of_lt
    omega
  have hdb : 4096 ∣ reserve_base base := by
    rw [hbase]; exact ⟨base / 4096, by omega⟩
  have hdl : 4096 ∣ reserve_length length := by
    rw [hlen]; split
    · exact Nat.dvd_of_mod_eq_zero (by assumption)
    · exact ⟨length / 4096 + 1, by omega⟩
  refine ⟨by omega, hdb, ?_, hend, hlen_ge, by omega, ?_⟩
  · rw [hend]; exact Nat.dvd_add hdb hdl
  · intro h0; rw [hend, hbase, h0]; omega

/-- C3 (as amended) at a concrete input: `base = 0x2000`, `length = 0x1234` give the
interval `[0x2000, 0x4000)`, which contains `[0x2000, 0x3234)`. -/
theorem reserve_rounding_witness :
    reserve_base 0x2000 ≤ 0x2000 ∧
    2 ^ EFI_PAGE_SHIFT ∣ reserve_base 0x2000 ∧
    2 ^ EFI_PAGE_SHIFT ∣ reserve_end 0x2000 0x1234 ∧
    reserve_end 0x2000 0x1234 = reserve_base 0x2000 + reserve_length 0x1234 ∧
    0x1234 ≤ reserve_length 0x1234 ∧
    reserve_base 0x2000 + 0x1234 ≤ reserve_end 0x2000 0x1234 ∧
    (0x2000 % 2 ^ EFI_PAGE_SHIFT = 0 → 0x2000 + 0x1234 ≤ reserve_end 0x2000 0x1234) :=
  reserve_rounding 0x2000 0x1234 (by decide) (by decide)

/-- C3 (as stated) fails: for `base = 0x1800`, `length = 0x1000` the hypotheses hold
(`length > 0`, no overflow), yet the interval computed is `[0x1000, 0x2000)`, whose end
lies below `base + length = 0x2800`. -/
theorem reserve_rounding_misses_tail :
    0 < 0x1000 ∧ 0x1800 + 0x1000 + 2 ^ EFI_PAGE_SHIFT < U64 ∧
    reserve_base 0x1800 = 0x1000 ∧ reserve_end 0x1800 0x1000 = 0x2000 ∧
    ¬ (0x1800 + 0x1000 ≤ reserve_end 0x1800 0x1000) := by decide

/-! ## ACM validator -/

theorem plus_overflow_u32_false {x y : Nat} (h : plus_overflow_u32 x y = false) : x + y < U32 := by
  simpa [plus_overflow_u32] using h

theorem multiply_overflow_u32_false {x y : Nat} (h : multiply_overflow_u32 x y = false) :
    x * y < U32 := by
  simpa [multiply_overflow_u32] using h

theorem plus_overflow_ul_false {x y : Nat} (h : plus_overflow_ul x y = false) : x + y < U32 := by
  simpa [plus_overflow_ul] using h

/-- What a successful `get_acmod_info_table` has checked, in natural numbers. -/
theorem get_acmod_info_table_some {L : acmod_h} {b : acm_blob} {t : Nat}
    (h : get_acmod_info_table L b = some t) :
    b.hdr.header_len + b.hdr.scratch_size < U32 ∧
    (b.hdr.header_len + b.hdr.scratch_size) * 4 < U32 ∧
    t = (b.hdr.header_len + b.hdr.scratch_size) * 4 ∧
    t + L.sizeof_acm_info_table_t < U32 ∧
    t + L.sizeof_acm_info_table_t ≤ (b.hdr.size * 4) % U32 ∧
    b.addr + t < U32 := by
  unfold get_acmod_info_table at h
  split at h
  · exact absurd h (by simp)
  rename_i h1
  split at h
  · exact absurd h (by simp)
  rename_i h2
  simp only at h
  split at h
  · exact absurd h (by simp)
  rename_i h3
  split at h
  · exact absurd h (by simp)
  rename_i h4
  split at h
  · exact absurd h (by simp)
  rename_i h5
  have e1 := plus_overflow_u32_false ((Bool.not_eq_true _).mp h1)
  rw [Nat.mod_eq_of_lt e1] at h2 h3 h4 h5 h
  have e2 := multiply_overflow_u32_false ((Bool.not_eq_true _).mp h2)
  rw [Nat.mod_eq_of_lt e2] at h3 h4 h5 h
  have e3 := plus_overflow_u32_false ((Bool.not_eq_true _).mp h3)
  rw [Nat.mod_eq_of_lt e3] at h4
  have e5 := plus_overflow_ul_false ((Bool.not_eq_true _).mp h5)
  have ht : (b.hdr.header_len + b.hdr.scratch_size) * 4 = t := by simpa using h
  subst ht
  exact ⟨e1, e2, rfl, e3, by omega, e5⟩

/-- The converse: the checks, in natural numbers, make `get_acmod_info_table` succeed. -/
theorem get_acmod_info_table_of_checks {L : acmod_h} {b : acm_blob}
    (h2 : (b.hdr.header_len + b.hdr.scratch_size) * 4 < U32)
    (h3 : (b.hdr.header_len + b.hdr.scratch_size) * 4 + L.sizeof_acm_info_table_t < U32)
    (h4 : (b.hdr.header_len + b.hdr.scratch_size) * 4 + L.sizeof_acm_info_table_t ≤
      (b.hdr.size * 4) % U32)
    (h5 : b.addr + (b.hdr.header_len + b.hdr.scratch_size) * 4 < U32) :
    get_acmod_info_table L b = some ((b.hdr.header_len + b.hdr.scratch_size) * 4) := by
  have h1 : b.hdr.header_len + b.hdr.scratch_size < U32 := by omega
  unfold get_acmod_info_table
  simp only [plus_overflow_u32, multiply_overflow_u32, plus_overflow_ul,
    Nat.mod_eq_of_lt h1, Nat.mod_eq_of_lt h2, Nat.mod_eq_of_lt h3, decide_eq_true_eq]
  rw [if_neg (by omega), if_neg (by omega), if_neg (by omega), if_neg (by omega),
    if_neg (by omega)]

/-- An overflow of the sum or of the product by 4 makes `get_acmod_info_table` fail. -/
theorem get_acmod_info_table_none_of_overflow {L : acmod_h} {b : acm_blob}
    (h : U32 ≤ b.hdr.header_len + b.hdr.scratch_size ∨
      U32 ≤ (b.hdr.header_len + b.hdr.scratch_size) * 4) :
    get_acmod_info_table L b = none := by
  cases hg : get_acmod_info_table L b with
  | none => rfl
  | some t =>
    have := get_acmod_info_table_some hg
    omega

/-- What a successful `get_acmod_chipset_list` has checked, in natural numbers. -/
theorem get_acmod_chipset_list_some {L : acmod_h} {b : acm_blob} {off : Nat}
    (h : get_acmod_chipset_list L b = some off) :
    ∃ t, get_acmod_info_table L b = some t ∧
      off = (b.info_table_at t).chipset_id_list ∧
      off + L.sizeof_acm_chipset_id_t < U32 ∧
      off + L.sizeof_acm_chipset_id_t ≤ (b.hdr.size * 4) % U32 ∧
      b.addr + off < U32 ∧
      (b.chipset_list_at off).count * L.sizeof_acm_chipset_id_t < U32 ∧
      off + L.sizeof_acm_chipset_id_t +
        (b.chipset_list_at off).count * L.sizeof_acm_chipset_id_t < U32 ∧
      off + L.sizeof_acm_chipset_id_t +
        (b.chipset_list_at off).count * L.sizeof_acm_chipset_id_t ≤ (b.hdr.size * 4) % U32 := by
  unfold get_acmod_chipset_list at h
  split at h
  · exact absurd h (by simp)
  rename_i t ht
  simp only at h
  split at h
  · exact absurd h (by simp)
  rename_i h1
  split at h
  · exact absurd h (by simp)
  rename_i h2
  split at h
  · exact absurd h (by simp)
  rename_i h3
  split at h
  · exact absurd h (by simp)
  rename_i h4
  split at h
  · exact absurd h (by simp)
  rename_i h5
  split at h
  · exact absurd h (by simp)
  rename_i h6
  have hoff : (b.info_table_at t).chipset_id_list = off := by simpa using h
  rw [hoff] at h1 h2 h3 h4 h5 h6
  have e1 := plus_overflow_u32_false ((Bool.not_eq_true _).mp h1)
  rw [Nat.mod_eq_of_lt e1] at h2 h5 h6
  have e3 := plus_overflow_ul_false ((Bool.not_eq_true _).mp h3)
  have e4 := multiply_overflow_u32_false ((Bool.not_eq_true _).mp h4)
  rw [Nat.mod_eq_of_lt e4] at h5 h6
  have e5 := plus_overflow_u32_false ((Bool.not_eq_true _).mp h5)
  rw [Nat.mod_eq_of_lt e5] at h6
  exact ⟨t, ht, hoff.symm, e1, by omega, e3, e4, e5, by omega⟩

/-- A failed info table makes `get_acmod_chipset_list` fail. -/
theorem get_acmod_chipset_list_none_of_info {L : acmod_h} {b : acm_blob}
    (h : get_acmod_info_table L b = none) : get_acmod_chipset_list L b = none := by
  unfold get_acmod_chipset_list
  rw [h]

/-- The scan answers whether one of the entries `i, ..., i + remaining - 1` matches. -/
theorem chipset_id_scan_true_iff (didvid : txt_didvid_t) (ids : Nat → acm_chipset_id_t) :
    ∀ (remaining i : Nat), (chipset_id_scan didvid ids remaining i).1 = true ↔
      ∃ j, i ≤ j ∧ j < i + remaining ∧ chipset_id_matches didvid (ids j) = true := by
  intro remaining
  induction remaining with
  | zero =>
    intro i
    simp only [chipset_id_scan]
    constructor
    · intro h; exact absurd h (by simp)
    · rintro ⟨j, h1, h2, _⟩; omega
  | succ n ih =>
    intro i
    unfold chipset_id_scan
    by_cases hm : chipset_id_matches didvid (ids i) = true
    · rw [if_pos hm]
      constructor
      · intro _; exact ⟨i, le_refl i, by omega, hm⟩
      · intro _; rfl
    · rw [if_neg hm]
      simp only
      rw [ih (i + 1)]
      constructor
      · rintro ⟨j, h1, h2, h3⟩
        exact ⟨j, by omega, by omega, h3⟩
      · rintro ⟨j, h1, h2, h3⟩
        have hne : j ≠ i := by
          intro e; subst e; exact hm h3
        exact ⟨j, by omega, by omega, h3⟩

/-- The scan reads only entries `i, ..., i + remaining - 1`. -/
theorem chipset_id_scan_reads (didvid : txt_didvid_t) (ids : Nat → acm_chipset_id_t) :
    ∀ (remaining i j : Nat), j ∈ (chipset_id_scan didvid ids remaining i).2 →
      i ≤ j ∧ j < i + remaining := by
  intro remaining
  induction remaining with
  | zero =>
    intro i j h
    simp [chipset_id_scan] at h
  | succ n ih =>
    intro i j h
    unfold chipset_id_scan at h
    by_cases hm : chipset_id_matches didvid (ids i) = true
    · rw [if_pos hm] at h
      simp at h
      omega
    · rw [if_neg hm] at h
      simp only [List.mem_cons] at h
      rcases h with h | h
      · omega
      · have := ih (i + 1) j h
        omega

/-- The condition of the loop of `does_acmod_match_chipset`, as a proposition. -/
theorem chipset_id_matches_iff (didvid : txt_didvid_t) (e : acm_chipset_id_t) :
    chipset_id_matches didvid e = true ↔
      (e.vendor_id = didvid.vendor_id ∧ e.device_id = didvid.device_id ∧
        ((e.flags &&& 1 = 0 ∧ e.revision_id = didvid.revision_id) ∨
         (e.flags &&& 1 = 1 ∧ e.revision_id &&& didvid.revision_id ≠ 0))) := by
  unfold chipset_id_matches
  simp only [Bool.and_eq_true, Bool.or_eq_true, beq_iff_eq, bne_iff_ne, ne_eq]
  rw [Nat.land_comm didvid.revision_id e.revision_id]
  constructor
  · rintro ⟨⟨h1, h2⟩, h3⟩
    refine ⟨h1.symm, h2.symm, ?_⟩
    rcases h3 with ⟨a, c⟩ | ⟨a, c⟩
    · exact Or.inl ⟨a, c.symm⟩
    · exact Or.inr ⟨a, c⟩
  · rintro ⟨h1, h2, h3⟩
    refine ⟨⟨h1.symm, h2.symm⟩, ?_⟩
    rcases h3 with ⟨a, c⟩ | ⟨a, c⟩
    · exact Or.inl ⟨a, c.symm⟩
    · exact Or.inr ⟨a, c⟩

/-! ## Claims on the ACM validator -/

/-- C4: `is_acmod` is exactly the conjunction of its gates: it returns true if and only
if `acmod_size >= sizeof(acm_hdr_t)`, `hdr.size * 4` does not overflow 32 bits,
`acmod_size == hdr.size * 4`, the module type and the module vendor are the expected
constants, `get_acmod_info_table` succeeds, the uuid of the info table is `ACM_UUID_V3`
and its version is at least 3 (any larger version is accepted). In particular a blob
with another `module_vendor` is rejected whatever the rest of it. -/
theorem is_acmod_iff_gates (L : acmod_h) (b : acm_blob) (acmod_size : Nat) :
    ((is_acmod L b acmod_size).1 = true ↔
      (L.sizeof_acm_hdr_t ≤ acmod_size ∧
       b.hdr.size * 4 < U32 ∧
       acmod_size = b.hdr.size * 4 ∧
       b.hdr.module_type = L.ACM_TYPE_CHIPSET ∧
       b.hdr.module_vendor = L.ACM_VENDOR_INTEL ∧
       ∃ t, get_acmod_info_table L b = some t ∧
         (b.info_table_at t).uuid = L.ACM_UUID_V3 ∧
         3 ≤ (b.info_table_at t).version)) ∧
    (b.hdr.module_vendor ≠ L.ACM_VENDOR_INTEL → (is_acmod L b acmod_size).1 = false) := by
  have key : (is_acmod L b acmod_size).1 = true ↔
      (L.sizeof_acm_hdr_t ≤ acmod_size ∧
       b.hdr.size * 4 < U32 ∧
       acmod_size = b.hdr.size * 4 ∧
       b.hdr.module_type = L.ACM_TYPE_CHIPSET ∧
       b.hdr.module_vendor = L.ACM_VENDOR_INTEL ∧
       ∃ t, get_acmod_info_table L b = some t ∧
         (b.info_table_at t).uuid = L.ACM_UUID_V3 ∧
         3 ≤ (b.info_table_at t).version) := by
    unfold is_acmod
    by_cases h1 : acmod_size < L.sizeof_acm_hdr_t
    · rw [if_pos h1]
      constructor
      · intro h; exact absurd h (by simp)
      · rintro ⟨h, _⟩; omega
    rw [if_neg h1]
    by_cases h2 : multiply_overflow_u32 b.hdr.size 4 = true
    · rw [if_pos h2]
      constructor
      · intro h; exact absurd h (by simp)
      · rintro ⟨_, h, _⟩
        have : U32 ≤ b.hdr.size * 4 := by simpa [multiply_overflow_u32] using h2
        omega
    rw [if_neg h2]
    have e2 := multiply_overflow_u32_false ((Bool.not_eq_true _).mp h2)
    rw [Nat.mod_eq_of_lt e2]
    by_cases h3 : acmod_size ≠ b.hdr.size * 4
    · rw [if_pos h3]
      constructor
      · intro h; exact absurd h (by simp)
      · rintro ⟨_, _, h, _⟩; exact absurd h h3
    rw [if_neg h3]
    by_cases h4 : b.hdr.module_type ≠ L.ACM_TYPE_CHIPSET ∨
        b.hdr.module_vendor ≠ L.ACM_VENDOR_INTEL
    · rw [if_pos h4]
      constructor
      · intro h; exact absurd h (by simp)
      · rintro ⟨_, _, _, ha, hb, _⟩
        rcases h4 with h4 | h4
        · exact absurd ha h4
        · exact absurd hb h4
    rw [if_neg h4]
    have h4a : b.hdr.module_type = L.ACM_TYPE_CHIPSET := by
      by_contra hc; exact h4 (Or.inl hc)
    have h4b : b.hdr.module_vendor = L.ACM_VENDOR_INTEL := by
      by_contra hc; exact h4 (Or.inr hc)
    have h3' : acmod_size = b.hdr.size * 4 := by
      by_contra hc; exact h3 hc
    cases hg : get_acmod_info_table L b with
    | none =>
      simp only
      constructor
      · intro h; exact absurd h (by simp)
      · rintro ⟨_, _, _, _, _, t, ht, _⟩; exact absurd ht (by simp)
    | some t =>
      simp only
      by_cases h5 : (b.info_table_at t).uuid = L.ACM_UUID_V3
      · have h5' : (!are_uuids_equal (b.info_table_at t).uuid L.ACM_UUID_V3) = false := by
          simp [are_uuids_equal, h5]
        rw [h5']
        simp only [Bool.false_eq_true, if_false]
        by_cases h6 : (b.info_table_at t).version < 3
        · rw [if_pos h6]
          constructor
          · intro h; exact absurd h (by simp)
          · rintro ⟨_, _, _, _, _, t', ht', _, hv⟩
            have : t = t' := by simpa using ht'
            subst this
            omega
        · rw [if_neg h6]
          constructor
          · intro _
            exact ⟨by omega, e2, h3', h4a, h4b, t, rfl, h5, by omega⟩
          · intro _; rfl
      · have h5' : (!are_uuids_equal (b.info_table_at t).uuid L.ACM_UUID_V3) = true := by
          simp [are_uuids_equal, h5]
        rw [h5']
        simp only [if_true]
        constructor
        · intro h; exact absurd h (by simp)
        · rintro ⟨_, _, _, _, _, t', ht', hu, _⟩
          have : t = t' := by simpa using ht'
          subst this
          exact absurd hu h5
  refine ⟨key, ?_⟩
  intro hv
  cases hr : (is_acmod L b acmod_size).1 with
  | false => rfl
  | true =>
    have := key.mp hr
    exact absurd this.2.2.2.2.1 hv

/-- C4 at concrete inputs: the sample module passes every gate and is accepted; the
same module with another vendor in its header is rejected. -/
theorem is_acmod_iff_gates_witness :
    (is_acmod sample_acmod_h (sample_blob 1) 4096).1 = true ∧
    (is_acmod sample_acmod_h foreign_vendor_blob 4096).1 = false :=
  ⟨(is_acmod_iff_gates sample_acmod_h (sample_blob 1) 4096).1.mpr
      ⟨by decide, by decide, by decide, by decide, by decide, 1216, by decide, by decide,
        by decide⟩,
   (is_acmod_iff_gates sample_acmod_h foreign_vendor_blob 4096).2 (by decide)⟩

/-- C5: `is_acmod` rejects every length mismatch: when it returns true, `hdr.size * 4`,
as a natural number, equals `acmod_size`; when `hdr.size * 4` overflows 32 bits or
differs from `acmod_size`, it returns false. -/
theorem is_acmod_rejects_length_mismatch (L : acmod_h) (b : acm_blob) (acmod_size : Nat) :
    ((is_acmod L b acmod_size).1 = true → b.hdr.size * 4 = acmod_size) ∧
    (U32 ≤ b.hdr.size * 4 ∨ b.hdr.size * 4 ≠ acmod_size →
      (is_acmod L b acmod_size).1 = false) := by
  have key : (is_acmod L b acmod_size).1 = true →
      b.hdr.size * 4 < U32 ∧ b.hdr.size * 4 = acmod_size := by
    intro h
    unfold is_acmod at h
    split at h
    · exact absurd h (by simp)
    split at h
    · exact absurd h (by simp)
    rename_i h2
    split at h
    · exact absurd h (by simp)
    rename_i h3
    have e2 := multiply_overflow_u32_false ((Bool.not_eq_true _).mp h2)
    rw [Nat.mod_eq_of_lt e2] at h3
    exact ⟨e2, by omega⟩
  refine ⟨fun h => (key h).2, ?_⟩
  intro hbad
  cases hr : (is_acmod L b acmod_size).1 with
  | false => rfl
  | true =>
    have := key hr
    omega

/-- C5 at concrete inputs: the sample module of 4096 bytes is accepted with
`acmod_size = 4096` and rejected with `acmod_size = 4100`. -/
theorem is_acmod_rejects_length_mismatch_witness :
    (is_acmod sample_acmod_h (sample_blob 1) 4096).1 = true ∧
    sample_hdr.size * 4 = 4096 ∧
    (is_acmod sample_acmod_h (sample_blob 1) 4100).1 = false :=
  ⟨by decide,
   (is_acmod_rejects_length_mismatch sample_acmod_h (sample_blob 1) 4096).1 (by decide),
   (is_acmod_rejects_length_mismatch sample_acmod_h (sample_blob 1) 4100).2
     (Or.inr (by decide))⟩

/-- C6: `get_acmod_info_table` rejects arithmetic overflow: when
`header_len + scratch_size` or `(header_len + scratch_size) * 4` overflows 32 bits it
returns `NULL`; and so it does for every other blob, at any address and with any
other content and layout, that has the same `header_len` and `scratch_size`: the two
header fields alone decide, no byte of a table is read. -/
theorem get_acmod_info_table_rejects_overflow (L : acmod_h) (b : acm_blob)
    (h : U32 ≤ b.hdr.header_len + b.hdr.scratch_size ∨
      U32 ≤ (b.hdr.header_len + b.hdr.scratch_size) * 4) :
    get_acmod_info_table L b = none ∧
    ∀ (L' : acmod_h) (b' : acm_blob), b'.hdr.header_len = b.hdr.header_len →
      b'.hdr.scratch_size = b.hdr.scratch_size → get_acmod_info_table L' b' = none := by
  refine ⟨get_acmod_info_table_none_of_overflow h, ?_⟩
  intro L' b' h1 h2
  apply get_acmod_info_table_none_of_overflow
  rw [h1, h2]
  exact h

/-- C6 at concrete inputs: one header whose sum overflows, one whose product overflows. -/
theorem get_acmod_info_table_rejects_overflow_witness :
    get_acmod_info_table sample_acmod_h sum_overflow_blob = none ∧
    get_acmod_info_table sample_acmod_h product_overflow_blob = none :=
  ⟨(get_acmod_info_table_rejects_overflow sample_acmod_h sum_overflow_blob
      (Or.inl (by decide))).1,
   (get_acmod_info_table_rejects_overflow sample_acmod_h product_overflow_blob
      (Or.inr (by decide))).1⟩

/-- C7: a parsed info table lies inside the blob: for a header whose `hdr.size * 4`
does not overflow 32 bits, a result that is not `NULL` is at byte offset
`user_area_off = (header_len + scratch_size) * 4` (no wrap) and
`user_area_off + sizeof(acm_info_table_t) <= hdr.size * 4` in natural numbers;
conversely the result is `NULL` whenever
`user_area_off + sizeof(acm_info_table_t) > hdr.size * 4`. -/
theorem get_acmod_info_table_in_blob (L : acmod_h) (b : acm_blob)
    (hsz : b.hdr.size * 4 < U32) :
    (∀ t, get_acmod_info_table L b = some t →
      t = (b.hdr.header_len + b.hdr.scratch_size) * 4 ∧
      t + L.sizeof_acm_info_table_t ≤ b.hdr.size * 4) ∧
    ((b.hdr.header_len + b.hdr.scratch_size) * 4 + L.sizeof_acm_info_table_t >
        b.hdr.size * 4 → get_acmod_info_table L b = none) := by
  constructor
  · intro t ht
    have h := get_acmod_info_table_some ht
    rw [Nat.mod_eq_of_lt hsz] at h
    exact ⟨h.2.2.1, h.2.2.2.2.1⟩
  · intro hgt
    cases hg : get_acmod_info_table L b with
    | none => rfl
    | some t =>
      have h := get_acmod_info_table_some hg
      rw [Nat.mod_eq_of_lt hsz] at h
      omega

/-- C7 at a concrete input: the info table of the sample module is at byte 1216 and
ends inside its 4096 bytes. -/
theorem get_acmod_info_table_in_blob_witness :
    get_acmod_info_table sample_acmod_h (sample_blob 1) = some 1216 ∧
    1216 = (sample_hdr.header_len + sample_hdr.scratch_size) * 4 ∧
    1216 + sample_acmod_h.sizeof_acm_info_table_t ≤ sample_hdr.size * 4 :=
  ⟨by decide,
   (get_acmod_info_table_in_blob sample_acmod_h (sample_blob 1) (by decide)).1 1216
     (by decide)⟩

/-- C8: `get_acmod_chipset_list` rejects a count that overflows: when the info table
parses and `count * sizeof(acm_chipset_id_t)` of the list it points to overflows
32 bits, the function returns `NULL`; `does_acmod_match_chipset` then returns false
and neither it nor `print_acm_hdr` reads (or prints) a single entry. -/
theorem get_acmod_chipset_list_rejects_count_overflow (L : acmod_h) (b : acm_blob) (t : Nat)
    (ht : get_acmod_info_table L b = some t)
    (hov : U32 ≤ (b.chipset_list_at (b.info_table_at t).chipset_id_list).count *
      L.sizeof_acm_chipset_id_t) :
    get_acmod_chipset_list L b = none ∧
    (∀ didvid, does_acmod_match_chipset_run L b didvid = (false, [])) ∧
    print_acm_hdr_entries L b = [] := by
  have hnone : get_acmod_chipset_list L b = none := by
    cases hg : get_acmod_chipset_list L b with
    | none => rfl
    | some off =>
      obtain ⟨t', ht', hoff, _, _, _, hmul, _⟩ := get_acmod_chipset_list_some hg
      rw [ht] at ht'
      have : t = t' := by simpa using ht'
      subst this
      rw [← hoff] at hov
      omega
  refine ⟨hnone, ?_, ?_⟩
  · intro didvid
    unfold does_acmod_match_chipset_run
    rw [hnone]
  · unfold print_acm_hdr_entries
    rw [ht, hnone]

/-- C8 at a concrete input: the sample module with `count = 0x10000000` entries of
16 bytes. -/
theorem get_acmod_chipset_list_rejects_count_overflow_witness :
    get_acmod_info_table sample_acmod_h (sample_blob 0x10000000) = some 1216 ∧
    get_acmod_chipset_list sample_acmod_h (sample_blob 0x10000000) = none ∧
    (∀ didvid, does_acmod_match_chipset_run sample_acmod_h (sample_blob 0x10000000) didvid =
      (false, [])) ∧
    print_acm_hdr_entries sample_acmod_h (sample_blob 0x10000000) = [] :=
  ⟨by decide,
   get_acmod_chipset_list_rejects_count_overflow sample_acmod_h (sample_blob 0x10000000) 1216
     (by decide) (by decide)⟩

/-- C9: every entry of a parsed chipset list lies inside the blob: for a header whose
`hdr.size * 4` does not overflow 32 bits (and a `count` member no larger than an
entry), when `get_acmod_chipset_list` returns the list at byte offset `id_list_off`,
every index `i < count` has
`id_list_off + sizeof(count) + (i + 1) * sizeof(acm_chipset_id_t) <= hdr.size * 4`
in natural numbers; and every entry the loop of `does_acmod_match_chipset` reads is
such an entry. -/
theorem chipset_entries_in_blob (L : acmod_h) (b : acm_blob) (off : Nat)
    (hsz : b.hdr.size * 4 < U32)
    (hcount : L.sizeof_count ≤ L.sizeof_acm_chipset_id_t)
    (h : get_acmod_chipset_list L b = some off) :
    (∀ i, i < (b.chipset_list_at off).count →
      off + L.sizeof_count + (i + 1) * L.sizeof_acm_chipset_id_t ≤ b.hdr.size * 4) ∧
    (∀ didvid i, i ∈ (does_acmod_match_chipset_run L b didvid).2 →
      i < (b.chipset_list_at off).count ∧
      off + L.sizeof_count + (i + 1) * L.sizeof_acm_chipset_id_t ≤ b.hdr.size * 4) := by
  obtain ⟨t, _, _, _, _, _, _, _, hfit⟩ := get_acmod_chipset_list_some h
  rw [Nat.mod_eq_of_lt hsz] at hfit
  have inside : ∀ i, i < (b.chipset_list_at off).count →
      off + L.sizeof_count + (i + 1) * L.sizeof_acm_chipset_id_t ≤ b.hdr.size * 4 := by
    intro i hi
    have : (i + 1) * L.sizeof_acm_chipset_id_t ≤
        (b.chipset_list_at off).count * L.sizeof_acm_chipset_id_t :=
      Nat.mul_le_mul_right _ hi
    omega
  refine ⟨inside, ?_⟩
  intro didvid i hi
  unfold does_acmod_match_chipset_run at hi
  rw [h] at hi
  simp only at hi
  have hr := chipset_id_scan_reads didvid _ _ _ _ hi
  have hlt : i < (b.chipset_list_at off).count := by omega
  exact ⟨hlt, inside i hlt⟩

/-- C9 at a concrete input: the list of the sample module with three entries is at
byte 1260, and its last entry ends at byte 1312 of 4096. -/
theorem chipset_entries_in_blob_witness :
    get_acmod_chipset_list sample_acmod_h (sample_blob 3) = some 1260 ∧
    1260 + sample_acmod_h.sizeof_count + (2 + 1) * sample_acmod_h.sizeof_acm_chipset_id_t ≤
      sample_hdr.size * 4 :=
  ⟨by decide,
   (chipset_entries_in_blob sample_acmod_h (sample_blob 3) 1260 (by decide) (by decide)
     (by decide)).1 2 (by decide)⟩

/-- C10: `does_acmod_match_chipset` is an existential match: when the chipset list
parses, it returns true if and only if some entry `e` of index below `count` has the
vendor and the device of the live identity and either `(e.flags & 1) == 0` and
`e.revision_id == revision`, or `(e.flags & 1) == 1` and
`(e.revision_id & revision) != 0`; when the list does not parse it returns false. -/
theorem does_acmod_match_chipset_iff (L : acmod_h) (b : acm_blob) (didvid : txt_didvid_t) :
    (∀ off, get_acmod_chipset_list L b = some off →
      (does_acmod_match_chipset L b didvid = true ↔
        ∃ i, i < (b.chipset_list_at off).count ∧
          ((b.chipset_list_at off).chipset_ids i).vendor_id = didvid.vendor_id ∧
          ((b.chipset_list_at off).chipset_ids i).device_id = didvid.device_id ∧
          ((((b.chipset_list_at off).chipset_ids i).flags &&& 1 = 0 ∧
            ((b.chipset_list_at off).chipset_ids i).revision_id = didvid.revision_id) ∨
           (((b.chipset_list_at off).chipset_ids i).flags &&& 1 = 1 ∧
            ((b.chipset_list_at off).chipset_ids i).revision_id &&& didvid.revision_id ≠ 0)))) ∧
    (get_acmod_chipset_list L b = none → does_acmod_match_chipset L b didvid = false) := by
  constructor
  · intro off hoff
    unfold does_acmod_match_chipset does_acmod_match_chipset_run
    rw [hoff]
    simp only
    rw [chipset_id_scan_true_iff]
    constructor
    · rintro ⟨j, _, h2, h3⟩
      exact ⟨j, by omega, (chipset_id_matches_iff didvid _).mp h3⟩
    · rintro ⟨i, h1, h2⟩
      exact ⟨i, Nat.zero_le i, by omega, (chipset_id_matches_iff didvid _).mpr h2⟩
  · intro hnone
    unfold does_acmod_match_chipset does_acmod_match_chipset_run
    rw [hnone]

/-- C10, the scenario of the spec: the entry
`{flags = 0x1, vendor = 0x8086, device = 0x1234, revision = 0x0C}` matches the live
identity `{0x8086, 0x1234, 0x04}` (mask mode, `0x0C & 0x04 != 0`), and the same entry
does not match the revision `0x03`. -/
theorem does_acmod_match_chipset_scenario :
    does_acmod_match_chipset sample_acmod_h (sample_blob 1) ⟨0x8086, 0x1234, 0x04⟩ = true ∧
    does_acmod_match_chipset sample_acmod_h (sample_blob 1) ⟨0x8086, 0x1234, 0x03⟩ = false :=
  ⟨((does_acmod_match_chipset_iff sample_acmod_h (sample_blob 1) ⟨0x8086, 0x1234, 0x04⟩).1
      1260 (by decide)).mpr ⟨0, by decide, by decide, by decide, Or.inr (by decide)⟩,
   by decide⟩

/-! ## Claims on the memory map manager -/

/-- C1 at the failing input: the map `two_entry_state` (page-aligned, sorted, no
overflow) and `efi_memmap_reserve(0x0, 0x1000)`. Case 2 fires on the first entry
(`i = 0`), `insert_after_region` is called with position `i - 1 = 0xffffffff`, shifts
nothing and writes the new entry over slot 0. The call returns true, the map has
three entries, the sum of `num_pages` went from 32 to 16, and no entry covers
`[0x10000, 0x20000)`, which the second entry covered before the call. On the same
map case 2 on the second entry (`i = 1`, `efi_memmap_reserve(0x10000, 0x1000)`)
inserts the new entry and keeps the sum at 32. -/
theorem efi_memmap_reserve_first_entry_drops_coverage :
    two_entry_state.efi_mmap.aligned ∧
    two_entry_state.efi_mmap.sorted ∧
    two_entry_state.efi_mmap.entries =
      [⟨EFI_CONVENTIONAL_MEMORY, 0x0, 16, 0xf, 0⟩, ⟨EFI_LOADER_DATA, 0x10000, 16, 0xf, 0⟩] ∧
    two_entry_state.efi_mmap.total_pages = 32 ∧
    (∀ fuel, (efi_memmap_reserve 128 (fuel + 1) two_entry_state 0x0 0x1000).map
        (fun r => (r.1, r.2.efi_mmap.size, r.2.efi_mmap.entries, r.2.efi_mmap.total_pages)) =
      some (true, 144,
        [⟨EFI_RESERVED_TYPE, 0x0, 1, 0xf, 0⟩, ⟨EFI_LOADER_DATA, 0x1000, 15, 0xf, 0⟩,
         ⟨0, 0, 0, 0, 0⟩], 16)) ∧
    (∀ fuel, (efi_memmap_reserve 128 (fuel + 2) two_entry_state 0x10000 0x1000).map
        (fun r => (r.1, r.2.efi_mmap.size, r.2.efi_mmap.entries, r.2.efi_mmap.total_pages)) =
      some (true, 144,
        [⟨EFI_CONVENTIONAL_MEMORY, 0x0, 16, 0xf, 0⟩, ⟨EFI_RESERVED_TYPE, 0x10000, 1, 0xf, 0⟩,
         ⟨EFI_LOADER_DATA, 0x11000, 15, 0xf, 0⟩], 32)) :=
  ⟨by decide, by decide, by decide, by decide, fun _ => rfl, fun _ => rfl⟩

/-- C2 at the failing input: the map `stale_slot_state` (page-aligned, sorted, no
overflow; the slot behind the map holds an old descriptor) and
`efi_memmap_reserve(0x0, 0x1000)`, which works on `[0x0, 0x1000)`. As in C1 the new
entry is written over slot 0 without a shift, `size` grows, and the slot behind the
map becomes the last entry: the call returns true and the resulting map has a
conventional (free) entry that covers `[0x0, 0x1000)`. -/
theorem efi_memmap_reserve_first_entry_leaves_free :
    stale_slot_state.efi_mmap.aligned ∧
    stale_slot_state.efi_mmap.sorted ∧
    reserve_base 0x0 = 0x0 ∧ reserve_end 0x0 0x1000 = 0x1000 ∧
    (∀ fuel, (efi_memmap_reserve 128 (fuel + 1) stale_slot_state 0x0 0x1000).map
        (fun r => (r.1, r.2.efi_mmap.entries)) =
      some (true,
        [⟨EFI_RESERVED_TYPE, 0x0, 1, 0xf, 0⟩, ⟨EFI_LOADER_DATA, 0x1000, 15, 0xf, 0⟩,
         ⟨EFI_CONVENTIONAL_MEMORY, 0x0, 1, 0xf, 0⟩])) ∧
    (⟨EFI_CONVENTIONAL_MEMORY, 0x0, 1, 0xf, 0⟩ : efi_mem_descr_t).is_free ∧
    (⟨EFI_CONVENTIONAL_MEMORY, 0x0, 1, 0xf, 0⟩ : efi_mem_descr_t).intersects 0x0 0x1000 :=
  ⟨by decide, by decide, by decide, by decide, fun _ => rfl, by decide, by decide⟩

/-! ## Claims on the ACM validator, continued -/

/-- The two masked capability words share a bit exactly when both have the bit of
`rlp_wake_getsec` or both have the bit of `rlp_wake_monitor`. -/
theorem caps_share_wake_bit (C : txt_caps_h) (A B : Nat) :
    (A &&& caps_mask C) &&& (B &&& caps_mask C) ≠ 0 ↔
      (A.testBit C.rlp_wake_getsec = true ∧ B.testBit C.rlp_wake_getsec = true) ∨
      (A.testBit C.rlp_wake_monitor = true ∧ B.testBit C.rlp_wake_monitor = true) := by
  have hmask : ∀ i, (caps_mask C).testBit i = true ↔
      (C.rlp_wake_getsec = i ∨ C.rlp_wake_monitor = i) := by
    intro i
    unfold caps_mask
    rw [Nat.one_shiftLeft, Nat.one_shiftLeft, Nat.testBit_or, Nat.testBit_two_pow,
      Nat.testBit_two_pow]
    simp
  have hbit : ∀ i, ((A &&& caps_mask C) &&& (B &&& caps_mask C)).testBit i = true ↔
      (A.testBit i = true ∧ B.testBit i = true ∧
        (C.rlp_wake_getsec = i ∨ C.rlp_wake_monitor = i)) := by
    intro i
    rw [Nat.testBit_and, Nat.testBit_and, Nat.testBit_and]
    simp only [Bool.and_eq_true, hmask]
    tauto
  constructor
  · intro h
    obtain ⟨i, hi⟩ := Nat.ne_zero_implies_bit_true h
    obtain ⟨ha, hb, hc⟩ := (hbit i).mp hi
    rcases hc with hc | hc
    · subst hc; exact Or.inl ⟨ha, hb⟩
    · subst hc; exact Or.inr ⟨ha, hb⟩
  · intro h hz
    rcases h with ⟨ha, hb⟩ | ⟨ha, hb⟩
    · have := (hbit C.rlp_wake_getsec).mpr ⟨ha, hb, Or.inl rfl⟩
      rw [hz] at this
      simp at this
    · have := (hbit C.rlp_wake_monitor).mpr ⟨ha, hb, Or.inr rfl⟩
      rw [hz] at this
      simp at this

/-- C11: `verify_acmod` is exactly the conjunction of its policy checks. With
`size = hdr.size * 4` as the code computes it, it returns true if and only if the base
address is 4K-aligned, `size != 0`, `size % 64 == 0`, `get_parameters` succeeds and
`size <= acm_max_size`, `entry_point < size`, `seg_sel + 8` does not overflow 32 bits,
`seg_sel != 0`, `(seg_sel & 7) == 0`, `seg_sel + 8 <= gdt_limit`, the info table
parses, `min_mle_hdr_ver <= MLE_HDR_VER`, the capabilities of the module share the bit
`rlp_wake_getsec` or the bit `rlp_wake_monitor` with `MLE_HDR_CAPS`, and
`os_sinit_data_ver >= 4` (any newer version is accepted). -/
theorem verify_acmod_iff_checks (L : acmod_h) (M : mle_h) (C : txt_caps_h) (b : acm_blob)
    (get_parameters : Option getsec_parameters_t) :
    verify_acmod L M C b get_parameters = true ↔
      (b.addr % 4096 = 0 ∧
       (b.hdr.size * 4) % U32 ≠ 0 ∧
       (b.hdr.size * 4) % U32 % 64 = 0 ∧
       (∃ params, get_parameters = some params ∧
         (b.hdr.size * 4) % U32 ≤ params.acm_max_size) ∧
       b.hdr.entry_point < (b.hdr.size * 4) % U32 ∧
       b.hdr.seg_sel + 8 < U32 ∧
       b.hdr.seg_sel ≠ 0 ∧
       b.hdr.seg_sel &&& 7 = 0 ∧
       b.hdr.seg_sel + 8 ≤ b.hdr.gdt_limit ∧
       ∃ t, get_acmod_info_table L b = some t ∧
         (b.info_table_at t).min_mle_hdr_ver ≤ M.MLE_HDR_VER ∧
         ((M.MLE_HDR_CAPS.testBit C.rlp_wake_getsec = true ∧
             (b.info_table_at t).capabilities.testBit C.rlp_wake_getsec = true) ∨
          (M.MLE_HDR_CAPS.testBit C.rlp_wake_monitor = true ∧
             (b.info_table_at t).capabilities.testBit C.rlp_wake_monitor = true)) ∧
         4 ≤ (b.info_table_at t).os_sinit_data_ver) := by
  have hal : b.addr &&& 0xfff = b.addr % 4096 := by
    have : (0xfff : Nat) = 2 ^ 12 - 1 := by norm_num
    rw [this, Nat.and_pow_two_sub_one_eq_mod]
  unfold verify_acmod
  simp only
  rw [hal]
  by_cases h1 : b.addr % 4096 ≠ 0
  · rw [if_pos h1]
    constructor
    · intro h; exact absurd h (by simp)
    · rintro ⟨h, _⟩; exact absurd h h1
  rw [if_neg h1]
  have h1' : b.addr % 4096 = 0 := by
    by_contra hc; exact h1 hc
  by_cases h2 : (b.hdr.size * 4) % U32 = 0 ∨ (b.hdr.size * 4) % U32 % 64 ≠ 0
  · rw [if_pos h2]
    constructor
    · intro h; exact absurd h (by simp)
    · rintro ⟨_, ha, hb, _⟩
      rcases h2 with h2 | h2
      · exact absurd h2 ha
      · exact absurd hb h2
  rw [if_neg h2]
  have h2a : (b.hdr.size * 4) % U32 ≠ 0 := fun hc => h2 (Or.inl hc)
  have h2b : (b.hdr.size * 4) % U32 % 64 = 0 := by
    by_contra hc; exact h2 (Or.inr hc)
  cases hgp : get_parameters with
  | none =>
    simp only
    constructor
    · intro h; exact absurd h (by simp)
    · rintro ⟨_, _, _, ⟨p, hp, _⟩, _⟩; exact absurd hp (by simp)
  | some params =>
    simp only
    by_cases h3 : (b.hdr.size * 4) % U32 > params.acm_max_size
    · rw [if_pos h3]
      constructor
      · intro h; exact absurd h (by simp)
      · rintro ⟨_, _, _, ⟨p, hp, hle⟩, _⟩
        have : params = p := by simpa using hp
        subst this
        omega
    rw [if_neg h3]
    by_cases h4 : b.hdr.entry_point ≥ (b.hdr.size * 4) % U32
    · rw [if_pos h4]
      constructor
      · intro h; exact absurd h (by simp)
      · rintro ⟨_, _, _, _, h, _⟩; omega
    rw [if_neg h4]
    by_cases h5 : plus_overflow_u32 b.hdr.seg_sel 8 = true
    · rw [if_pos h5]
      constructor
      · intro h; exact absurd h (by simp)
      · rintro ⟨_, _, _, _, _, h, _⟩
        have : U32 ≤ b.hdr.seg_sel + 8 := by simpa [plus_overflow_u32] using h5
        omega
    rw [if_neg h5]
    have e5 := plus_overflow_u32_false ((Bool.not_eq_true _).mp h5)
    rw [Nat.mod_eq_of_lt e5]
    by_cases h6 : b.hdr.seg_sel = 0 ∨ b.hdr.seg_sel &&& 0x07 ≠ 0 ∨
        b.hdr.seg_sel + 8 > b.hdr.gdt_limit
    · rw [if_pos h6]
      constructor
      · intro h; exact absurd h (by simp)
      · rintro ⟨_, _, _, _, _, _, ha, hb, hc, _⟩
        rcases h6 with h6 | h6 | h6
        · exact absurd h6 ha
        · exact absurd hb h6
        · omega
    rw [if_neg h6]
    have h6a : b.hdr.seg_sel ≠ 0 := fun hc => h6 (Or.inl hc)
    have h6b : b.hdr.seg_sel &&& 7 = 0 := by
      by_contra hc; exact h6 (Or.inr (Or.inl hc))
    have h6c : b.hdr.seg_sel + 8 ≤ b.hdr.gdt_limit := by
      by_contra hc; exact h6 (Or.inr (Or.inr (by omega)))
    cases hg : get_acmod_info_table L b with
    | none =>
      simp only
      constructor
      · intro h; exact absurd h (by simp)
      · rintro ⟨_, _, _, _, _, _, _, _, _, t, ht, _⟩; exact absurd ht (by simp)
    | some t =>
      simp only
      by_cases h7 : (b.info_table_at t).min_mle_hdr_ver > M.MLE_HDR_VER
      · rw [if_pos h7]
        constructor
        · intro h; exact absurd h (by simp)
        · rintro ⟨_, _, _, _, _, _, _, _, _, t', ht', hv, _⟩
          have : t = t' := by simpa using ht'
          subst this
          omega
      rw [if_neg h7]
      by_cases h8 : (M.MLE_HDR_CAPS &&& caps_mask C) &&&
          ((b.info_table_at t).capabilities &&& caps_mask C) = 0
      · rw [if_pos h8]
        constructor
        · intro h; exact absurd h (by simp)
        · rintro ⟨_, _, _, _, _, _, _, _, _, t', ht', _, hc, _⟩
          have : t = t' := by simpa using ht'
          subst this
          exact absurd h8 ((caps_share_wake_bit C _ _).mpr hc)
      rw [if_neg h8]
      have h8' := (caps_share_wake_bit C _ _).mp h8
      by_cases h9 : (b.info_table_at t).os_sinit_data_ver < 4
      · rw [if_pos h9]
        constructor
        · intro h; exact absurd h (by simp)
        · rintro ⟨_, _, _, _, _, _, _, _, _, t', ht', _, _, hv⟩
          have : t = t' := by simpa using ht'
          subst this
          omega
      rw [if_neg h9]
      constructor
      · intro _
        exact ⟨h1', h2a, h2b, ⟨params, rfl, by omega⟩, by omega, e5, h6a, h6b, h6c,
          t, rfl, by omega, h8', by omega⟩
      · intro _; rfl

/-- C11 at concrete inputs: the sample module passes every check and is accepted (its
`os_sinit_data_ver` is 6, newer than 4); the same module without a wake capability is
rejected. -/
theorem verify_acmod_iff_checks_witness :
    verify_acmod sample_acmod_h sample_mle_h sample_txt_caps_h (sample_blob 1)
      (some ⟨0x8000⟩) = true ∧
    verify_acmod sample_acmod_h sample_mle_h sample_txt_caps_h no_wake_blob
      (some ⟨0x8000⟩) = false :=
  ⟨(verify_acmod_iff_checks sample_acmod_h sample_mle_h sample_txt_caps_h (sample_blob 1)
      (some ⟨0x8000⟩)).mpr
      ⟨by decide, by decide, by decide, ⟨⟨0x8000⟩, rfl, by decide⟩, by decide, by decide,
        by decide, by decide, by decide, 1216, by decide, by decide,
        Or.inl ⟨by decide, by decide⟩, by decide⟩,
   by decide⟩

/-- C12: `is_sinit_acmod` returns true if and only if `is_acmod` succeeds and the
chipset ACM type it reports is `ACM_CHIPSET_TYPE_SINIT`, whatever the local variable
held before; so every blob it accepts passes `is_acmod`, and a blob that passes
`is_acmod` with the type of a BIOS module (a type other than SINIT) is rejected. -/
theorem is_sinit_acmod_iff (L : acmod_h) (b : acm_blob) (acmod_size type0 : Nat) :
    (is_sinit_acmod L b acmod_size type0 = true ↔
      ((is_acmod L b acmod_size).1 = true ∧
       (is_acmod L b acmod_size).2 = some L.ACM_CHIPSET_TYPE_SINIT)) ∧
    (is_sinit_acmod L b acmod_size type0 = true → (is_acmod L b acmod_size).1 = true) ∧
    ((is_acmod L b acmod_size).1 = true →
      (is_acmod L b acmod_size).2 = some L.ACM_CHIPSET_TYPE_BIOS →
      L.ACM_CHIPSET_TYPE_BIOS ≠ L.ACM_CHIPSET_TYPE_SINIT →
      is_sinit_acmod L b acmod_size type0 = false) := by
  have written : (is_acmod L b acmod_size).1 = true →
      ∃ t, (is_acmod L b acmod_size).2 = some t := by
    intro h
    unfold is_acmod at h ⊢
    split
    · simp_all
    split
    · simp_all
    split
    · simp_all
    split
    · simp_all
    split
    · simp_all
    · simp only
      split
      · simp_all
      split
      · exact ⟨_, rfl⟩
      · exact ⟨_, rfl⟩
  have key : is_sinit_acmod L b acmod_size type0 = true ↔
      ((is_acmod L b acmod_size).1 = true ∧
       (is_acmod L b acmod_size).2 = some L.ACM_CHIPSET_TYPE_SINIT) := by
    unfold is_sinit_acmod
    simp only
    cases h1 : (is_acmod L b acmod_size).1 with
    | false => simp
    | true =>
      obtain ⟨t, ht⟩ := written h1
      rw [ht]
      simp only [Option.getD_some, Bool.not_true, Bool.false_eq_true, if_false]
      by_cases hs : t = L.ACM_CHIPSET_TYPE_SINIT
      · simp [hs]
      · simp [hs]
  refine ⟨key, fun h => (key.mp h).1, ?_⟩
  intro h1 h2 hne
  cases hr : is_sinit_acmod L b acmod_size type0 with
  | false => rfl
  | true =>
    have := (key.mp hr).2
    rw [h2] at this
    exact absurd (by simpa using this) hne

/-- C12 at concrete inputs: the sample SINIT module is accepted, the same module with
the type of a BIOS module passes `is_acmod` and is rejected. -/
theorem is_sinit_acmod_iff_witness :
    is_sinit_acmod sample_acmod_h (sample_blob 1) 4096 0 = true ∧
    (is_acmod sample_acmod_h bios_blob 4096).1 = true ∧
    is_sinit_acmod sample_acmod_h bios_blob 4096 1 = false :=
  ⟨(is_sinit_acmod_iff sample_acmod_h (sample_blob 1) 4096 0).1.mpr ⟨by decide, by decide⟩,
   by decide,
   (is_sinit_acmod_iff sample_acmod_h bios_blob 4096 1).2.2 (by decide) (by decide)
     (by decide)⟩

/-! ## Claims on the memory map manager, continued -/

/-- C14: `efi_memmap_reserve` is a no-op success on empty requests: with `length == 0`
it returns true and leaves the whole state (size, descr_size, every slot) as it is,
for every state and base; and so it does for every base and length when the map is
not available. -/
theorem efi_memmap_reserve_noop (maxEntries fuel : Nat) (s : efi_state) (base : Nat) :
    efi_memmap_reserve maxEntries fuel s base 0 = some (true, s) ∧
    (s.efi_mmap_available = false →
      ∀ length, efi_memmap_reserve maxEntries fuel s base length = some (true, s)) := by
  constructor
  · unfold efi_memmap_reserve
    simp
  · intro h length
    unfold efi_memmap_reserve
    simp [h]

/-- C14 at a concrete input: an unavailable map and a request of one page. -/
theorem efi_memmap_reserve_noop_witness :
    efi_memmap_reserve 128 0 { two_entry_state with efi_mmap_available := false } 0x0 0x1000 =
      some (true, { two_entry_state with efi_mmap_available := false }) :=
  (efi_memmap_reserve_noop 128 0 { two_entry_state with efi_mmap_available := false } 0x0).2
    rfl 0x1000

/-- A call of `insert_after_region` returns false only from the capacity test, with the
map it was given. -/
theorem insert_after_region_false {maxEntries : Nat} {m m1 : efi_memmap_t}
    {pos addr size type attr : Nat}
    (h : insert_after_region maxEntries m pos addr size type attr = some (false, m1)) :
    (m.size / m.descr_size + 1) % U32 > maxEntries ∧ m1 = m := by
  unfold insert_after_region at h
  split at h
  · exact absurd h (by simp)
  split at h
  · rename_i hc
    simp only [Option.some.injEq, Prod.mk.injEq, true_and] at h
    exact ⟨hc, h.symm⟩
  · simp only at h
    split at h
    · exact absurd h (by simp)
    · simp at h

/-- A call of `insert_after_region` that returns true has passed the capacity test and
leaves a map one entry longer, with the same `descr_size`. -/
theorem insert_after_region_true {maxEntries : Nat} {m m1 : efi_memmap_t}
    {pos addr size type attr : Nat}
    (h : insert_after_region maxEntries m pos addr size type attr = some (true, m1)) :
    0 < m.descr_size ∧ (m.size / m.descr_size + 1) % U32 ≤ maxEntries ∧
    m1.size = (m.size + m.descr_size) % U32 ∧ m1.descr_size = m.descr_size := by
  unfold insert_after_region at h
  split at h
  · exact absurd h (by simp)
  rename_i hds
  split at h
  · simp at h
  rename_i hc
  simp only at h
  split at h
  · exact absurd h (by simp)
  · simp only [Option.some.injEq, Prod.mk.injEq, true_and] at h
    subst h
    exact ⟨by omega, by omega, rfl, rfl⟩

/-- The entry count after a call of `insert_after_region` that returns true. -/
theorem insert_after_region_count {maxEntries : Nat} {m m1 : efi_memmap_t}
    {pos addr size type attr : Nat} (hsz : m.size < U32)
    (h : insert_after_region maxEntries m pos addr size type attr = some (true, m1)) :
    m1.size / m1.descr_size ≤ maxEntries := by
  obtain ⟨hds, hc, hs, hd⟩ := insert_after_region_true h
  rw [hs, hd]
  have hU : U32 = 4294967296 := by decide
  by_cases hd32 : U32 ≤ m.descr_size
  · have hlt : (m.size + m.descr_size) % U32 < m.descr_size :=
      lt_of_lt_of_le (Nat.mod_lt _ (by omega)) hd32
    rw [Nat.div_eq_of_lt hlt]
    exact Nat.zero_le _
  by_cases hw : m.size + m.descr_size < U32
  · rw [Nat.mod_eq_of_lt hw, Nat.add_div_right _ hds]
    have h1 : m.size / m.descr_size ≤ m.size := Nat.div_le_self _ _
    have h2 : m.size / m.descr_size + 1 < U32 := by omega
    rw [Nat.mod_eq_of_lt h2] at hc
    exact hc
  · have h1 : (m.size + m.descr_size) % U32 = m.size + m.descr_size - U32 := by
      rw [Nat.mod_eq_sub_mod (by omega)]
      exact Nat.mod_eq_of_lt (by omega)
    rw [h1]
    have : (m.size + m.descr_size - U32) / m.descr_size = 0 :=
      Nat.div_eq_of_lt (by omega)
    omega

/-- A sequence of insertions keeps the entry count within `maxEntries`. -/
theorem insert_seq_count (maxEntries : Nat) (reqs : List insert_request) :
    ∀ m : efi_memmap_t, m.size < U32 → m.size / m.descr_size ≤ maxEntries →
      (insert_seq maxEntries m reqs).size < U32 ∧
      (insert_seq maxEntries m reqs).size / (insert_seq maxEntries m reqs).descr_size ≤
        maxEntries := by
  induction reqs with
  | nil =>
    intro m hsz hc
    exact ⟨hsz, hc⟩
  | cons r rs ih =>
    intro m hsz hc
    unfold insert_seq
    cases hi : insert_after_region maxEntries m r.pos r.addr r.size r.type r.attr with
    | none => exact ⟨hsz, hc⟩
    | some res =>
      obtain ⟨ok, m1⟩ := res
      simp only
      cases ok with
      | false =>
        have := (insert_after_region_false hi).2
        subst this
        exact ih m1 hsz hc
      | true =>
        have hcount := insert_after_region_count hsz hi
        obtain ⟨_, _, hs, _⟩ := insert_after_region_true hi
        have hU : 0 < U32 := by decide
        exact ih m1 (by rw [hs]; exact Nat.mod_lt _ hU) hcount

/-- C17: `insert_after_region` fails exactly at capacity and fails atomically. For a
map with `descr_size > 0` it returns false if and only if
`size / descr_size + 1 > EFI_MEMMAP_MAX_ENTRIES` (the 32-bit value of the code, which
is the natural number whenever `size / descr_size + 1 < 2^32`); when it returns false
the map (size, descr_size and every slot of the storage) is the one it was given;
when it returns true the entry count is at most `EFI_MEMMAP_MAX_ENTRIES`; hence a
sequence of insertions on a map within capacity never leaves it. -/
theorem insert_after_region_fails_at_capacity (maxEntries : Nat) (m : efi_memmap_t)
    (pos addr size type attr : Nat) (hds : 0 < m.descr_size) (hsz : m.size < U32) :
    ((∃ m1, insert_after_region maxEntries m pos addr size type attr = some (false, m1)) ↔
      (m.size / m.descr_size + 1) % U32 > maxEntries) ∧
    (m.size / m.descr_size + 1 < U32 →
      ((∃ m1, insert_after_region maxEntries m pos addr size type attr = some (false, m1)) ↔
        m.size / m.descr_size + 1 > maxEntries)) ∧
    (∀ m1, insert_after_region maxEntries m pos addr size type attr = some (false, m1) →
      m1 = m) ∧
    (∀ m1, insert_after_region maxEntries m pos addr size type attr = some (true, m1) →
      m1.size / m1.descr_size ≤ maxEntries) ∧
    (m.size / m.descr_size ≤ maxEntries → ∀ reqs,
      (insert_seq maxEntries m reqs).size / (insert_seq maxEntries m reqs).descr_size ≤
        maxEntries) := by
  have key : (∃ m1, insert_after_region maxEntries m pos addr size type attr =
      some (false, m1)) ↔ (m.size / m.descr_size + 1) % U32 > maxEntries := by
    constructor
    · rintro ⟨m1, h⟩
      exact (insert_after_region_false h).1
    · intro h
      refine ⟨m, ?_⟩
      unfold insert_after_region
      rw [if_neg (by omega), if_pos h]
  refine ⟨key, ?_, ?_, ?_, ?_⟩
  · intro hlt
    rw [key, Nat.mod_eq_of_lt hlt]
  · intro m1 h
    exact (insert_after_region_false h).2
  · intro m1 h
    exact insert_after_region_count hsz h
  · intro hc reqs
    exact (insert_seq_count maxEntries reqs m hsz hc).2

/-- C17 at a concrete input: the map of two entries with room for two entries only. The
insertion fails and returns the map; with room for three it succeeds and leaves three
entries. -/
theorem insert_after_region_fails_at_capacity_witness :
    (∃ m1, insert_after_region 2 two_entry_state.efi_mmap 0 0x1000 0x1000 0 0 =
      some (false, m1)) ∧
    (insert_after_region 3 two_entry_state.efi_mmap 0 0x1000 0x1000 0 0).map
      (fun r => (r.1, r.2.size / r.2.descr_size)) = some (true, 3) :=
  ⟨(insert_after_region_fails_at_capacity 2 two_entry_state.efi_mmap 0 0x1000 0x1000 0 0
      (by decide) (by decide)).1.mpr (by decide),
   by decide⟩

/-- C18 at the failing input: the available map `empty_stale_state` has no entry
(`size = 0`), and `efi_memmap_get_highest_sized_ram(0x1000, 0xffffffff, ...)` returns
true with the region `(0x100000, 0x10000)`: `efi_memmap_walk(NULL)` hands out the first
slot of the storage without comparing with `size`, and the loop takes the old
descriptor it finds there for an entry. -/
theorem efi_memmap_get_highest_sized_ram_empty_map :
    empty_stale_state.efi_mmap_available = true ∧
    empty_stale_state.efi_mmap.size = 0 ∧
    empty_stale_state.efi_mmap.entries = [] ∧
    (∀ fuel, efi_memmap_get_highest_sized_ram (fuel + 2) empty_stale_state 0x1000 0xffffffff
      true true = some (true, some (0x100000, 0x10000))) :=
  ⟨rfl, rfl, by decide, fun _ => rfl⟩

/-- C19 at the failing input: the available map `empty_stale_state` has
`descr_size = 48 > 0` and `size = 0`, so no byte offset is below `size`, yet
`efi_memmap_walk(NULL)` returns the slot at offset 0 instead of `NULL`; the call after
it returns `NULL`. The other parts of the claim hold: from an entry the function
steps by `descr_size` and compares with `size` (for offsets that do not wrap), and for
a map that is not available every call returns `NULL`. -/
theorem efi_memmap_walk_empty_map :
    empty_stale_state.efi_mmap_available = true ∧
    0 < empty_stale_state.efi_mmap.descr_size ∧
    empty_stale_state.efi_mmap.size = 0 ∧
    efi_memmap_walk empty_stale_state none = some 0 ∧
    efi_memmap_walk empty_stale_state (some 0) = none ∧
    (∀ (s : efi_state) p, s.efi_mmap_available = true → p + s.efi_mmap.descr_size < U32 →
      efi_memmap_walk s (some p) =
        if p + s.efi_mmap.descr_size < s.efi_mmap.size then
          some (p + s.efi_mmap.descr_size) else none) ∧
    (∀ (s : efi_state) prev, s.efi_mmap_available = false → efi_memmap_walk s prev = none) :=
  ⟨rfl, by decide, rfl, rfl, by decide,
   fun s p hav hp => by simp [efi_memmap_walk, hav, Nat.mod_eq_of_lt hp],
   fun s prev h => by simp [efi_memmap_walk, h]⟩

/-- C20 at the failing input: the map `free_then_mmio_state` and
`efi_memmap_reserve(0x0, 0x1000)`. Case 2 fires on the first entry (`i = 0`); as in C1
the new entry is written over slot 0, and the fix-up of lines 206-207 lands on the
second entry, which is not free: the call returns true and the entry
`{type 11, 0x10000, 16 pages}` has become `{type 11, 0x1000, 15 pages}`. -/
theorem efi_memmap_reserve_first_entry_rewrites_nonfree :
    free_then_mmio_state.efi_mmap.entries =
      [⟨EFI_CONVENTIONAL_MEMORY, 0x0, 16, 0xf, 0⟩, ⟨11, 0x10000, 16, 0x1, 0⟩] ∧
    ¬ (⟨11, 0x10000, 16, 0x1, 0⟩ : efi_mem_descr_t).is_free ∧
    (∀ fuel, (efi_memmap_reserve 128 (fuel + 1) free_then_mmio_state 0x0 0x1000).map
        (fun r => (r.1, r.2.efi_mmap.entries)) =
      some (true,
        [⟨EFI_RESERVED_TYPE, 0x0, 1, 0xf, 0⟩, ⟨11, 0x1000, 15, 0x1, 0⟩, ⟨0, 0, 0, 0, 0⟩])) ∧
    (⟨11, 0x10000, 16, 0x1, 0⟩ : efi_mem_descr_t) ∉
      [(⟨EFI_RESERVED_TYPE, 0x0, 1, 0xf, 0⟩ : efi_mem_descr_t), ⟨11, 0x1000, 15, 0x1, 0⟩,
        ⟨0, 0, 0, 0, 0⟩] :=
  ⟨by decide, by decide, fun _ => rfl, by decide⟩

/-! ## The map as a list of entries -/

/-- A map that holds the list `L` has `L` for its entries. -/
theorem efi_memmap_t.entries_of_holds {m : efi_memmap_t} {L : List efi_mem_descr_t}
    (hds : 0 < m.descr_size) (h : m.holds L) : m.entries = L := by
  obtain ⟨hsz, hk⟩ := h
  unfold efi_memmap_t.entries
  rw [hsz, Nat.mul_div_cancel _ hds]
  apply List.ext_getElem?
  intro k
  rw [List.getElem?_map]
  by_cases hlt : k < L.length
  · rw [List.getElem?_range hlt]
    obtain ⟨e, he⟩ : ∃ e, L[k]? = some e := ⟨L[k], List.getElem?_eq_getElem hlt⟩
    rw [he]
    simp only [Option.map_some']
    rw [hk k e he]
  · rw [List.getElem?_eq_none (by simpa using hlt), List.getElem?_eq_none (by omega)]
    rfl

/-- A map whose `size` is a multiple of `descr_size` holds its entries. -/
theorem efi_memmap_t.holds_entries {m : efi_memmap_t}
    (hmul : m.size % m.descr_size = 0) : m.holds m.entries := by
  unfold efi_memmap_t.holds efi_memmap_t.entries
  constructor
  · rw [List.length_map, List.length_range]
    exact (Nat.div_mul_cancel (Nat.dvd_of_mod_eq_zero hmul)).symm
  · intro k e he
    rw [List.getElem?_map] at he
    by_cases hlt : k < m.size / m.descr_size
    · rw [List.getElem?_range hlt] at he
      simpa using he
    · rw [List.getElem?_eq_none (by simpa using hlt)] at he
      simp at he

/-- Length of the list a map holds. -/
theorem efi_memmap_t.holds_length {m : efi_memmap_t} {L : List efi_mem_descr_t}
    (hds : 0 < m.descr_size) (h : m.holds L) : m.size / m.descr_size = L.length := by
  rw [h.1, Nat.mul_div_cancel _ hds]

/-- Storing into the slot of index `j` sets the `j`-th element of the list. -/
theorem efi_memmap_t.holds_store {m : efi_memmap_t} {L : List efi_mem_descr_t}
    (hds : 0 < m.descr_size) (h : m.holds L) (j : Nat) (e1 : efi_mem_descr_t) :
    (m.store (j * m.descr_size) e1).holds (L.set j e1) := by
  obtain ⟨hsz, hk⟩ := h
  unfold efi_memmap_t.holds efi_memmap_t.store
  simp only [List.length_set]
  refine ⟨hsz, ?_⟩
  intro k e he
  rw [List.getElem?_set] at he
  by_cases hjk : j = k
  · subst hjk
    rw [if_pos rfl] at he
    split at he
    · simp only [Option.some.injEq] at he
      subst he
      simp
    · simp at he
  · rw [if_neg hjk] at he
    have hne : k * m.descr_size ≠ j * m.descr_size := by
      intro hc
      exact hjk (Nat.eq_of_mul_eq_mul_right hds hc).symm
    rw [Function.update_noteq hne]
    exact hk k e he

/-- The copy loop of `insert_after_region` on whole slots: from slot `n` down to slot
`p + 1`, each slot receives the content of the slot below it; nothing else changes. -/
theorem shift_up_slots (ds p : Nat) (hds : 0 < ds) :
    ∀ (fuel n : Nat) (d : Nat → efi_mem_descr_t), p ≤ n → n - p < fuel →
      ∃ d1, shift_up ds (p * ds) fuel (n * ds) d = some d1 ∧
        (∀ k, p < k → k ≤ n → d1 (k * ds) = d ((k - 1) * ds)) ∧
        (∀ x, (∀ k, p < k → k ≤ n → x ≠ k * ds) → d1 x = d x) := by
  intro fuel
  induction fuel with
  | zero => intro n d _ h; omega
  | succ f ih =>
    intro n d hpn hf
    unfold shift_up
    by_cases hgt : n * ds > p * ds
    · have hn : p < n := by
        by_contra hc
        have : n * ds ≤ p * ds := Nat.mul_le_mul_right ds (by omega)
        omega
      have hge : ¬ n * ds < ds := by
        have : 1 * ds ≤ n * ds := Nat.mul_le_mul_right ds (by omega)
        omega
      rw [if_pos hgt, if_neg hge]
      have hsub : n * ds - ds = (n - 1) * ds := by
        rw [Nat.sub_mul, Nat.one_mul]
      rw [hsub]
      obtain ⟨d1, h1, h2, h3⟩ := ih (n - 1)
        (Function.update d (n * ds) (d ((n - 1) * ds))) (by omega) (by omega)
      refine ⟨d1, h1, ?_, ?_⟩
      · intro k hk1 hk2
        by_cases hkn : k = n
        · subst hkn
          rw [h3 (k * ds)]
          · simp
          · intro k' _ hk' hc
            have := Nat.eq_of_mul_eq_mul_right hds hc
            omega
        · rw [h2 k hk1 (by omega)]
          have hne : (k - 1) * ds ≠ n * ds := by
            intro hc
            have := Nat.eq_of_mul_eq_mul_right hds hc
            omega
          rw [Function.update_noteq hne]
      · intro x hx
        rw [h3 x (fun k hk1 hk2 => hx k hk1 (by omega))]
        have hne : x ≠ n * ds := hx n hn (le_refl n)
        rw [Function.update_noteq hne]
    · rw [if_neg hgt]
      have hn : n = p := by
        by_contra hc
        have hlt : p < n := by omega
        have : p * ds < n * ds := Nat.mul_lt_mul_of_pos_right hlt hds
        omega
      subst hn
      refine ⟨d, rfl, ?_, ?_⟩
      · intro k h1 h2; omega
      · intro x _; rfl

/-- The capacity test of `insert_after_region` on a map that holds `L`. -/
theorem insert_after_region_full (maxEntries : Nat) {m : efi_memmap_t}
    {L : List efi_mem_descr_t} (hds : 0 < m.descr_size) (h : m.holds L)
    (hfit : m.size + m.descr_size < U32) (hfull : L.length + 1 > maxEntries)
    (pos addr size type attr : Nat) :
    insert_after_region maxEntries m pos addr size type attr = some (false, m) := by
  unfold insert_after_region
  have hlen := efi_memmap_t.holds_length hds h
  have h1 : m.size / m.descr_size ≤ m.size := Nat.div_le_self _ _
  have h2 : (m.size / m.descr_size + 1) % U32 = L.length + 1 := by
    rw [hlen]
    apply Nat.mod_eq_of_lt
    omega
  rw [if_neg (by omega), h2, if_pos hfull]

/-- The function `insert_after_region` on a map that holds `L`, with room for one more
entry and a position `pos` inside the map: the new entry becomes the element of index
`pos + 1` of the list. -/
theorem insert_after_region_holds (maxEntries : Nat) {m : efi_memmap_t}
    {L : List efi_mem_descr_t} (hds : 0 < m.descr_size) (h : m.holds L)
    (hfit : m.size + m.descr_size < U32) (hroom : L.length + 1 ≤ maxEntries)
    (pos addr size type attr : Nat) (hpos : pos < L.length) :
    ∃ m1, insert_after_region maxEntries m pos addr size type attr = some (true, m1) ∧
      m1.descr_size = m.descr_size ∧
      m1.holds (L.take (pos + 1) ++
        (⟨type, addr, size >>> EFI_PAGE_SHIFT, attr, 0⟩ : efi_mem_descr_t) ::
          L.drop (pos + 1)) := by
  obtain ⟨hsz, hk⟩ := h
  have hlen := efi_memmap_t.holds_length hds ⟨hsz, hk⟩
  have h1 : m.size / m.descr_size ≤ m.size := Nat.div_le_self _ _
  have h2 : (m.size / m.descr_size + 1) % U32 = L.length + 1 := by
    rw [hlen]
    apply Nat.mod_eq_of_lt
    omega
  have hposlt : pos * m.descr_size < m.size := by
    rw [hsz]
    exact Nat.mul_lt_mul_of_pos_right hpos hds
  have hposmod : pos * m.descr_size % U32 = pos * m.descr_size :=
    Nat.mod_eq_of_lt (by omega)
  have hdesc : (pos * m.descr_size + m.descr_size) % U32 = (pos + 1) * m.descr_size := by
    rw [Nat.add_mul, Nat.one_mul]
    apply Nat.mod_eq_of_lt
    omega
  obtain ⟨d1, hd1, hshift, hkeep⟩ := shift_up_slots m.descr_size pos hds (m.size + 1)
    L.length m.descr (by omega) (by omega)
  rw [← hsz] at hd1
  unfold insert_after_region
  rw [if_neg (by omega), h2, if_neg (by omega)]
  simp only [hposmod, hd1, hdesc]
  refine ⟨_, rfl, rfl, ?_, ?_⟩
  · simp only [List.length_append, List.length_take, List.length_cons, List.length_drop]
    rw [Nat.mod_eq_of_lt hfit, hsz, Nat.min_eq_left (by omega)]
    have : pos + 1 + (L.length - (pos + 1) + 1) = L.length + 1 := by omega
    rw [this, Nat.add_mul, Nat.one_mul]
  · intro k e he
    simp only
    by_cases hk1 : k < pos + 1
    · rw [List.getElem?_append_left (by simp; omega), List.getElem?_take, if_pos hk1] at he
      have hne : k * m.descr_size ≠ (pos + 1) * m.descr_size := by
        intro hc
        have := Nat.eq_of_mul_eq_mul_right hds hc
        omega
      rw [Function.update_noteq hne, hkeep]
      · exact hk k e he
      · intro k' hk' _ hc
        have := Nat.eq_of_mul_eq_mul_right hds hc
        omega
    · rw [List.getElem?_append_right (by simp; omega)] at he
      simp only [List.length_take] at he
      rw [Nat.min_eq_left (by omega)] at he
      by_cases hk2 : k = pos + 1
      · subst hk2
        simp only [Nat.sub_self, List.getElem?_cons_zero, Option.some.injEq] at he
        subst he
        simp
      · obtain ⟨i, hi⟩ : ∃ i, k - (pos + 1) = i + 1 := ⟨k - (pos + 1) - 1, by omega⟩
        rw [hi, List.getElem?_cons_succ, List.getElem?_drop] at he
        have hkL : k ≤ L.length := by
          by_contra hc
          rw [List.getElem?_eq_none (by omega)] at he
          simp at he
        have hne : k * m.descr_size ≠ (pos + 1) * m.descr_size := by
          intro hc
          have := Nat.eq_of_mul_eq_mul_right hds hc
          omega
        rw [Function.update_noteq hne, hshift k (by omega) hkL]
        apply hk (k - 1) e
        have : pos + 1 + i = k - 1 := by omega
        rw [← this]
        exact he

theorem getElem?_append_cons_length {α : Type} (done : List α) (e : α) (rest : List α) :
    (done ++ e :: rest)[done.length]? = some e := by
  rw [List.getElem?_append_right (le_refl _)]
  simp

theorem set_append_cons_length {α : Type} (done : List α) (e e1 : α) (rest : List α) :
    (done ++ e :: rest).set done.length e1 = done ++ e1 :: rest := by
  simp

theorem take_append_cons_length {α : Type} (done : List α) (e : α) (rest : List α) :
    (done ++ e :: rest).take (done.length + 1) = done ++ [e] := by
  rw [List.take_append]
  simp

theorem drop_append_cons_length {α : Type} (done : List α) (e : α) (rest : List α) :
    (done ++ e :: rest).drop (done.length + 1) = rest := by
  rw [List.drop_append]
  simp

/-- The loop condition in front of an entry of the map: `efi_memmap_walk` returns it. -/
theorem efi_memmap_walk_entry {s : efi_state} {done rest : List efi_mem_descr_t}
    {e : efi_mem_descr_t} (hav : s.efi_mmap_available = true)
    (hds : 0 < s.efi_mmap.descr_size) (h : s.efi_mmap.holds (done ++ e :: rest))
    (hfit : s.efi_mmap.size + s.efi_mmap.descr_size < U32) :
    efi_memmap_walk s (scan_cursor s.efi_mmap.descr_size done.length) =
      some (done.length * s.efi_mmap.descr_size) := by
  have hsz := h.1
  simp only [List.length_append, List.length_cons] at hsz
  unfold efi_memmap_walk scan_cursor
  simp only [hav, Bool.not_true, Bool.false_eq_true, if_false]
  by_cases hj : done.length = 0
  · rw [if_pos hj, hj]
    simp
  · rw [if_neg hj]
    simp only
    have e1 : (done.length - 1) * s.efi_mmap.descr_size + s.efi_mmap.descr_size =
        done.length * s.efi_mmap.descr_size := by
      have : done.length = (done.length - 1) + 1 := by omega
      conv_rhs => rw [this, Nat.add_mul, Nat.one_mul]
    have e2 : done.length * s.efi_mmap.descr_size < s.efi_mmap.size := by
      rw [hsz]
      exact Nat.mul_lt_mul_of_pos_right (by omega) hds
    rw [e1, Nat.mod_eq_of_lt (by omega), if_pos e2]

/-- The loop condition behind the last entry of a map that is not empty:
`efi_memmap_walk` returns `NULL`. -/
theorem efi_memmap_walk_end {s : efi_state} {done : List efi_mem_descr_t}
    (hav : s.efi_mmap_available = true) (h : s.efi_mmap.holds done)
    (hne : done ≠ []) (hfit : s.efi_mmap.size + s.efi_mmap.descr_size < U32) :
    efi_memmap_walk s (scan_cursor s.efi_mmap.descr_size done.length) = none := by
  have hsz := h.1
  have hj : done.length ≠ 0 := by
    intro hc
    exact hne (List.length_eq_zero.mp hc)
  unfold efi_memmap_walk scan_cursor
  simp only [hav, Bool.not_true, Bool.false_eq_true, if_false]
  rw [if_neg hj]
  simp only
  have e1 : (done.length - 1) * s.efi_mmap.descr_size + s.efi_mmap.descr_size =
      done.length * s.efi_mmap.descr_size := by
    have : done.length = (done.length - 1) + 1 := by omega
    conv_rhs => rw [this, Nat.add_mul, Nat.one_mul]
  rw [e1, Nat.mod_eq_of_lt (by omega), if_neg (by omega)]

/-- On a well-formed map the scan loop of `efi_memmap_reserve` computes
`reserve_entries`: with the cursor in front of the entries `todo`, behind the entries
`done`, with enough fuel, and unless the cursor is on a first entry to which case 2
applies. -/
theorem reserve_loop_entries (maxEntries base length end_ : Nat) :
    ∀ (todo done : List efi_mem_descr_t) (fuel : Nat) (s : efi_state),
      s.efi_mmap_available = true →
      0 < s.efi_mmap.descr_size →
      s.efi_mmap.size + s.efi_mmap.descr_size < U32 →
      (maxEntries + 1) * s.efi_mmap.descr_size < U32 →
      s.efi_mmap.holds (done ++ todo) →
      (done = [] → ∃ e rest, todo = e :: rest ∧ ¬ (e.is_free ∧ e.left_overlap base end_)) →
      todo.length < fuel →
      ∃ s1, reserve_loop maxEntries base length end_ fuel s
            (scan_cursor s.efi_mmap.descr_size done.length) done.length =
          some ((reserve_entries maxEntries base length end_ done todo).1, s1) ∧
        s1.efi_mmap_available = true ∧
        s1.efi_mmap.descr_size = s.efi_mmap.descr_size ∧
        s1.efi_mmap.holds (reserve_entries maxEntries base length end_ done todo).2 := by
  intro todo
  induction todo with
  | nil =>
    intro done fuel s hav hds hfit hmax hh hfirst hfuel
    obtain ⟨f, rfl⟩ : ∃ f, fuel = f + 1 := ⟨fuel - 1, by omega⟩
    have hne : done ≠ [] := by
      intro hc
      obtain ⟨e, rest, h, _⟩ := hfirst hc
      exact absurd h (by simp)
    rw [List.append_nil] at hh
    rw [reserve_loop, efi_memmap_walk_end hav hh hne hfit]
    exact ⟨s, rfl, hav, rfl, hh⟩
  | cons e rest ih =>
    intro done fuel s hav hds hfit hmax hh hfirst hfuel
    obtain ⟨f, rfl⟩ : ∃ f, fuel = f + 1 := ⟨fuel - 1, by omega⟩
    have hf : rest.length < f := by simpa using hfuel
    have hwalk := efi_memmap_walk_entry hav hds hh hfit
    have he : s.efi_mmap.descr (done.length * s.efi_mmap.descr_size) = e :=
      hh.2 _ _ (getElem?_append_cons_length done e rest)
    have hsz := hh.1
    simp only [List.length_append, List.length_cons] at hsz
    have hjlt : done.length + 1 < U32 := by
      have : (done.length + 1) * 1 ≤ (done.length + (rest.length + 1)) * s.efi_mmap.descr_size :=
        Nat.mul_le_mul (by omega) hds
      omega
    have hmod : (done.length + 1) % U32 = done.length + 1 := Nat.mod_eq_of_lt hjlt
    have hcur : scan_cursor s.efi_mmap.descr_size (done.length + 1) =
        some (done.length * s.efi_mmap.descr_size) := by
      simp [scan_cursor]
    have hskip : ∃ s1, reserve_loop maxEntries base length end_ f s
          (some (done.length * s.efi_mmap.descr_size)) ((done.length + 1) % U32) =
        some ((reserve_entries maxEntries base length end_ (done ++ [e]) rest).1, s1) ∧
        s1.efi_mmap_available = true ∧
        s1.efi_mmap.descr_size = s.efi_mmap.descr_size ∧
        s1.efi_mmap.holds (reserve_entries maxEntries base length end_ (done ++ [e]) rest).2 := by
      have := ih (done ++ [e]) f s hav hds hfit hmax (by simpa using hh) (by simp) hf
      simpa [hcur, hmod] using this
    rw [reserve_loop, hwalk]
    simp only [he]
    rw [reserve_entries]
    simp only [efi_mem_descr_t.desc_end]
    generalize hde : (e.physical_start + e.num_pages <<< EFI_PAGE_SHIFT % U64) % U64 = de
    by_cases c0 : e.type < EFI_LOADER_CODE ∨ e.type > EFI_CONVENTIONAL_MEMORY
    · simp only [if_pos c0]
      exact hskip
    simp only [if_neg c0]
    by_cases c1 : end_ ≤ e.physical_start
    · simp only [if_pos c1]
      exact hskip
    simp only [if_neg c1]
    by_cases c2 : base ≥ de
    · simp only [if_pos c2]
      exact hskip
    simp only [if_neg c2]
    have step : ∀ (s2 : efi_state) (done2 : List efi_mem_descr_t),
        s2.efi_mmap_available = true →
        s2.efi_mmap.descr_size = s.efi_mmap.descr_size →
        s2.efi_mmap.size + s.efi_mmap.descr_size < U32 →
        s2.efi_mmap.holds (done2 ++ rest) → done2 ≠ [] →
        ∃ s1, reserve_loop maxEntries base length end_ f s2
              (scan_cursor s.efi_mmap.descr_size done2.length) done2.length =
            some ((reserve_entries maxEntries base length end_ done2 rest).1, s1) ∧
          s1.efi_mmap_available = true ∧
          s1.efi_mmap.descr_size = s.efi_mmap.descr_size ∧
          s1.efi_mmap.holds (reserve_entries maxEntries base length end_ done2 rest).2 := by
      intro s2 done2 hav2 hds2 hfit2 hh2 hne2
      have := ih done2 f s2 hav2 (by rw [hds2]; exact hds) (by rw [hds2]; exact hfit2)
        (by rw [hds2]; exact hmax) hh2 (fun hc => absurd hc hne2) hf
      rw [hds2] at this
      obtain ⟨s1, h1, h2, h3, h4⟩ := this
      exact ⟨s1, h1, h2, h3, h4⟩
    have hlen : (done ++ e :: rest).length = done.length + (rest.length + 1) := by simp
    by_cases c3 : base ≤ e.physical_start ∧ de ≤ end_
    · simp only [if_pos c3]
      have hst := efi_memmap_t.holds_store hds hh done.length
        (⟨EFI_RESERVED_TYPE, e.physical_start, e.num_pages, e.attr, e.other⟩ : efi_mem_descr_t)
      rw [set_append_cons_length] at hst
      have := step ⟨s.efi_mmap_available, s.efi_mmap.store (done.length * s.efi_mmap.descr_size)
          ⟨EFI_RESERVED_TYPE, e.physical_start, e.num_pages, e.attr, e.other⟩⟩
        (done ++ [⟨EFI_RESERVED_TYPE, e.physical_start, e.num_pages, e.attr, e.other⟩])
        hav rfl hfit (by simpa using hst) (by simp)
      simpa [hcur, hmod] using this
    simp only [if_neg c3]
    by_cases c4 : e.physical_start ≥ base ∧ end_ > e.physical_start ∧ de > end_
    · simp only [if_pos c4]
      have hdone : done ≠ [] := by
        intro hc
        obtain ⟨e1, rest1, heq, hno⟩ := hfirst hc
        have h1 : e1 = e := by
          have := List.cons.inj heq
          exact this.1.symm
        subst h1
        apply hno
        refine ⟨?_, ?_⟩
        · unfold efi_mem_descr_t.is_free
          omega
        · unfold efi_mem_descr_t.left_overlap efi_mem_descr_t.desc_end
          rw [hde]
          exact c4
      have hj : 0 < done.length := List.length_pos.mpr hdone
      have hpos : (done.length + U32 - 1) % U32 = done.length - 1 := by
        have : done.length + U32 - 1 = (done.length - 1) + U32 := by omega
        rw [this, Nat.add_mod_right]
        exact Nat.mod_eq_of_lt (by omega)
      rw [hpos]
      by_cases hcap : done.length + (rest.length + 1) + 1 > maxEntries
      · rw [if_pos hcap]
        rw [insert_after_region_full maxEntries hds hh hfit (by rw [hlen]; exact hcap)]
        exact ⟨_, rfl, hav, rfl, hh⟩
      · rw [if_neg hcap]
        obtain ⟨m1, hins, hds1, hh1⟩ := insert_after_region_holds maxEntries
          hds hh hfit (by rw [hlen]; omega) (done.length - 1) e.physical_start
          (end_ - e.physical_start) EFI_RESERVED_TYPE e.attr (by rw [hlen]; omega)
        rw [hins]
        simp only
        have e1 : done.length - 1 + 1 = done.length := by omega
        rw [e1, List.take_left' rfl, List.drop_left' rfl] at hh1
        have hfit1 : (maxEntries + 1) * s.efi_mmap.descr_size ≥
            (done.length + (rest.length + 1) + 1 + 1) * s.efi_mmap.descr_size :=
          Nat.mul_le_mul_right _ (by omega)
        have hsz1 := hh1.1
        simp only [List.length_append, List.length_cons] at hsz1
        have hh1' : m1.holds ((done ++
            [(⟨EFI_RESERVED_TYPE, e.physical_start, (end_ - e.physical_start) >>> EFI_PAGE_SHIFT,
              e.attr, 0⟩ : efi_mem_descr_t)]) ++ e :: rest) := by
          simpa using hh1
        have hfitm1 : m1.size + s.efi_mmap.descr_size < U32 := by
          rw [hsz1, hds1]
          have : (done.length + (rest.length + 1 + 1)) * s.efi_mmap.descr_size +
              s.efi_mmap.descr_size =
              (done.length + (rest.length + 1) + 1 + 1) * s.efi_mmap.descr_size := by ring
          rw [this]
          omega
        have hwalk1 := efi_memmap_walk_entry (s := ⟨s.efi_mmap_available, m1⟩) hav
          (by rw [hds1]; exact hds) hh1' (by rw [hds1]; exact hfitm1)
        simp only [List.length_append, List.length_cons, List.length_nil, hds1] at hwalk1
        rw [hcur] at hwalk1
        rw [hwalk1]
        simp only
        have he1 : m1.descr ((done.length + 1) * s.efi_mmap.descr_size) = e := by
          have := hh1'.2 (done.length + 1) e (by
            have := getElem?_append_cons_length (done ++
              [(⟨EFI_RESERVED_TYPE, e.physical_start,
                (end_ - e.physical_start) >>> EFI_PAGE_SHIFT, e.attr, 0⟩ : efi_mem_descr_t)])
              e rest
            simpa using this)
          rw [hds1] at this
          exact this
        rw [he1]
        refine ⟨_, rfl, hav, hds1, ?_⟩
        have hst := efi_memmap_t.holds_store (by rw [hds1]; exact hds) hh1' (done.length + 1)
          (⟨e.type, end_, (de - end_) >>> EFI_PAGE_SHIFT, e.attr, e.other⟩ : efi_mem_descr_t)
        have hset := set_append_cons_length (done ++
          [(⟨EFI_RESERVED_TYPE, e.physical_start,
            (end_ - e.physical_start) >>> EFI_PAGE_SHIFT, e.attr, 0⟩ : efi_mem_descr_t)])
          e (⟨e.type, end_, (de - end_) >>> EFI_PAGE_SHIFT, e.attr, e.other⟩ : efi_mem_descr_t)
          rest
        simp only [List.length_append, List.length_cons, List.length_nil] at hset
        rw [hset, hds1] at hst
        simpa using hst
    simp only [if_neg c4]
    have hst0 := efi_memmap_t.holds_store hds hh done.length
      (⟨e.type, e.physical_start, (base - e.physical_start) >>> EFI_PAGE_SHIFT, e.attr,
        e.other⟩ : efi_mem_descr_t)
    rw [set_append_cons_length] at hst0
    generalize hm0 : s.efi_mmap.store (done.length * s.efi_mmap.descr_size)
      (⟨e.type, e.physical_start, (base - e.physical_start) >>> EFI_PAGE_SHIFT, e.attr,
        e.other⟩ : efi_mem_descr_t) = m0 at hst0 ⊢
    have hds0 : m0.descr_size = s.efi_mmap.descr_size := by rw [← hm0]; rfl
    have hsz0 : m0.size = s.efi_mmap.size := by rw [← hm0]; rfl
    have hm0d : m0.descr (done.length * s.efi_mmap.descr_size) =
        (⟨e.type, e.physical_start, (base - e.physical_start) >>> EFI_PAGE_SHIFT, e.attr,
          e.other⟩ : efi_mem_descr_t) := by
      rw [← hm0]
      simp [efi_memmap_t.store]
    have hlen0 : (done ++ (⟨e.type, e.physical_start,
        (base - e.physical_start) >>> EFI_PAGE_SHIFT, e.attr, e.other⟩ : efi_mem_descr_t) ::
        rest).length = done.length + (rest.length + 1) := by simp
    have hj2 : (done.length + 1 + 1) % U32 = done.length + 1 + 1 ∨
        done.length + (rest.length + 1) + 1 > maxEntries := by
      by_cases hcap : done.length + (rest.length + 1) + 1 > maxEntries
      · exact Or.inr hcap
      · left
        apply Nat.mod_eq_of_lt
        have h1 : (done.length + 1 + 1) * 1 ≤ (maxEntries + 1) * s.efi_mmap.descr_size :=
          Nat.mul_le_mul (by omega) hds
        omega
    have hfit1 : done.length + (rest.length + 1) + 1 ≤ maxEntries →
        (done.length + (rest.length + 1) + 1) * s.efi_mmap.descr_size +
          s.efi_mmap.descr_size < U32 := by
      intro hle
      have h1 : (done.length + (rest.length + 1) + 1 + 1) * s.efi_mmap.descr_size ≤
          (maxEntries + 1) * s.efi_mmap.descr_size := Nat.mul_le_mul_right _ (by omega)
      have h2 : (done.length + (rest.length + 1) + 1 + 1) * s.efi_mmap.descr_size =
          (done.length + (rest.length + 1) + 1) * s.efi_mmap.descr_size +
            s.efi_mmap.descr_size := by ring
      omega
    by_cases c5 : base > e.physical_start ∧ de > base ∧ end_ ≥ de
    · simp only [if_pos c5]
      rw [hm0d]
      simp only
      by_cases hcap : done.length + (rest.length + 1) + 1 > maxEntries
      · rw [if_pos hcap]
        rw [insert_after_region_full maxEntries (by rw [hds0]; exact hds)
          hst0 (by rw [hds0, hsz0]; exact hfit)
          (by rw [hlen0]; exact hcap)]
        exact ⟨_, rfl, hav, hds0, hst0⟩
      · rw [if_neg hcap]
        obtain ⟨m1, hins, hds1, hh1⟩ := insert_after_region_holds maxEntries
          (m := m0) (by rw [hds0]; exact hds) hst0
          (by rw [hds0, hsz0]; exact hfit) (by rw [hlen0]; omega) done.length base
          (de - base) EFI_RESERVED_TYPE e.attr (by rw [hlen0]; omega)
        rw [hins]
        simp only
        rw [take_append_cons_length, drop_append_cons_length] at hh1
        rw [hds0] at hds1
        have hsz1 := hh1.1
        simp only [List.length_append, List.length_cons, List.length_nil] at hsz1
        have hfitm1 : m1.size + s.efi_mmap.descr_size < U32 := by
          rw [hsz1, hds1]
          have := hfit1 (by omega)
          have e2 : (done.length + 1 + (rest.length + 1)) * s.efi_mmap.descr_size =
              (done.length + (rest.length + 1) + 1) * s.efi_mmap.descr_size := by ring
          rw [e2]
          exact this
        have hwalk1 := efi_memmap_walk_entry (s := ⟨s.efi_mmap_available, m1⟩) hav
          (by rw [hds1]; exact hds) hh1 (by rw [hds1]; exact hfitm1)
        simp only [List.length_append, List.length_cons, List.length_nil, hds1] at hwalk1
        rw [hcur] at hwalk1
        rw [hwalk1]
        have := step ⟨s.efi_mmap_available, m1⟩
          (done ++ [(⟨e.type, e.physical_start, (base - e.physical_start) >>> EFI_PAGE_SHIFT,
            e.attr, e.other⟩ : efi_mem_descr_t),
            (⟨EFI_RESERVED_TYPE, base, (de - base) >>> EFI_PAGE_SHIFT, e.attr, 0⟩ :
              efi_mem_descr_t)])
          hav hds1 hfitm1 (by simpa using hh1) (by simp)
        have hcur2 : scan_cursor s.efi_mmap.descr_size (done.length + 2) =
            some ((done.length + 1) * s.efi_mmap.descr_size) := by
          simp [scan_cursor]
        have hj2' : (done.length + 1 + 1) % U32 = done.length + 2 := by
          rcases hj2 with h | h
          · exact h
          · omega
        rw [hj2']
        simpa [hcur2] using this
    simp only [if_neg c5]
    by_cases c6 : base > e.physical_start ∧ de > end_
    · simp only [if_pos c6]
      rw [hm0d]
      simp only
      by_cases hcap : done.length + (rest.length + 1) + 1 > maxEntries
      · rw [if_pos hcap]
        rw [insert_after_region_full maxEntries (by rw [hds0]; exact hds)
          hst0 (by rw [hds0, hsz0]; exact hfit)
          (by rw [hlen0]; exact hcap)]
        exact ⟨_, rfl, hav, hds0, hst0⟩
      · rw [if_neg hcap]
        obtain ⟨m1, hins, hds1, hh1⟩ := insert_after_region_holds maxEntries
          (m := m0) (by rw [hds0]; exact hds) hst0
          (by rw [hds0, hsz0]; exact hfit) (by rw [hlen0]; omega) done.length base
          length EFI_RESERVED_TYPE e.attr (by rw [hlen0]; omega)
        rw [hins]
        simp only
        rw [take_append_cons_length, drop_append_cons_length] at hh1
        rw [hds0] at hds1
        have hsz1 := hh1.1
        simp only [List.length_append, List.length_cons, List.length_nil] at hsz1
        have hfitm1 : m1.size + s.efi_mmap.descr_size < U32 := by
          rw [hsz1, hds1]
          have := hfit1 (by omega)
          have e2 : (done.length + 1 + (rest.length + 1)) * s.efi_mmap.descr_size =
              (done.length + (rest.length + 1) + 1) * s.efi_mmap.descr_size := by ring
          rw [e2]
          exact this
        have hm1d : m1.descr (done.length * s.efi_mmap.descr_size) =
            (⟨e.type, e.physical_start, (base - e.physical_start) >>> EFI_PAGE_SHIFT, e.attr,
              e.other⟩ : efi_mem_descr_t) := by
          have := hh1.2 done.length _ (by
            rw [List.append_assoc]
            exact getElem?_append_cons_length done _ _)
          rw [hds1] at this
          exact this
        rw [hm1d]
        simp only
        have hlen1 : ((done ++ [(⟨e.type, e.physical_start,
            (base - e.physical_start) >>> EFI_PAGE_SHIFT, e.attr, e.other⟩ : efi_mem_descr_t)]) ++
            (⟨EFI_RESERVED_TYPE, base, length >>> EFI_PAGE_SHIFT, e.attr, 0⟩ : efi_mem_descr_t) ::
            rest).length = done.length + (rest.length + 1) + 1 := by
          simp
          omega
        have hpos1 : (done.length + 1) % U32 = done.length + 1 := hmod
        rw [hpos1]
        by_cases hcap2 : done.length + (rest.length + 1) + 2 > maxEntries
        · rw [if_pos hcap2]
          rw [insert_after_region_full maxEntries (by rw [hds1]; exact hds) hh1
            (by rw [hds1]; exact hfitm1) (by rw [hlen1]; omega)]
          exact ⟨_, rfl, hav, hds1, by simpa using hh1⟩
        · rw [if_neg hcap2]
          obtain ⟨m2, hins2, hds2, hh2⟩ := insert_after_region_holds
            maxEntries (m := m1) (by rw [hds1]; exact hds) hh1
            (by rw [hds1]; exact hfitm1) (by rw [hlen1]; omega) (done.length + 1) end_
            (de - end_) e.type e.attr (by rw [hlen1]; omega)
          rw [hins2]
          refine ⟨_, rfl, hav, by rw [hds2, hds1], ?_⟩
          have ht := take_append_cons_length (done ++ [(⟨e.type, e.physical_start,
            (base - e.physical_start) >>> EFI_PAGE_SHIFT, e.attr, e.other⟩ : efi_mem_descr_t)])
            (⟨EFI_RESERVED_TYPE, base, length >>> EFI_PAGE_SHIFT, e.attr, 0⟩ : efi_mem_descr_t)
            rest
          have hd := drop_append_cons_length (done ++ [(⟨e.type, e.physical_start,
            (base - e.physical_start) >>> EFI_PAGE_SHIFT, e.attr, e.other⟩ : efi_mem_descr_t)])
            (⟨EFI_RESERVED_TYPE, base, length >>> EFI_PAGE_SHIFT, e.attr, 0⟩ : efi_mem_descr_t)
            rest
          simp only [List.length_append, List.length_cons, List.length_nil] at ht hd
          rw [ht, hd] at hh2
          simpa using hh2
    simp only [if_neg c6]
    exact ⟨s, rfl, hav, rfl, hh⟩

/-- On a well-formed map that is not empty, `efi_memmap_reserve` with `length != 0`
computes `reserve_entries` on the entries of the map, unless case 2 applies to the
first entry. -/
theorem efi_memmap_reserve_entries (maxEntries fuel : Nat) (s : efi_state)
    (base length : Nat) (hav : s.efi_mmap_available = true)
    (hwf : s.efi_mmap.well_formed maxEntries) (hlen : length ≠ 0)
    (hfirst : ∃ e rest, s.efi_mmap.entries = e :: rest ∧
      ¬ (e.is_free ∧ e.left_overlap (reserve_base base) (reserve_end base length)))
    (hfuel : s.efi_mmap.size / s.efi_mmap.descr_size < fuel) :
    ∃ s1, efi_memmap_reserve maxEntries fuel s base length =
        some ((reserve_entries maxEntries (reserve_base base) (reserve_length length)
          (reserve_end base length) [] s.efi_mmap.entries).1, s1) ∧
      s1.efi_mmap_available = true ∧
      s1.efi_mmap.descr_size = s.efi_mmap.descr_size ∧
      s1.efi_mmap.holds (reserve_entries maxEntries (reserve_base base) (reserve_length length)
          (reserve_end base length) [] s.efi_mmap.entries).2 := by
  obtain ⟨hds, hmul, hfit, hmax, hslot⟩ := hwf
  have hh := efi_memmap_t.holds_entries hmul
  have hn : s.efi_mmap.entries.length = s.efi_mmap.size / s.efi_mmap.descr_size := by
    simp [efi_memmap_t.entries]
  unfold efi_memmap_reserve
  rw [if_neg (by simp [hlen, hav])]
  have := reserve_loop_entries maxEntries (reserve_base base) (reserve_length length)
    (reserve_end base length) s.efi_mmap.entries [] fuel s hav hds hfit hmax
    (by simpa using hh) (fun _ => hfirst) (by rw [hn]; exact hfuel)
  simpa [scan_cursor] using this

/-! ## Properties of the list reading -/

/-- One step of the list reading, written out. -/
theorem reserve_entries_cons (maxEntries base length end_ : Nat)
    (done rest : List efi_mem_descr_t) (e : efi_mem_descr_t) :
  reserve_entries maxEntries base length end_ done (e :: rest) =
    if e.type < EFI_LOADER_CODE ∨ e.type > EFI_CONVENTIONAL_MEMORY then
      reserve_entries maxEntries base length end_ (done ++ [e]) rest
    else if end_ ≤ e.physical_start then
      reserve_entries maxEntries base length end_ (done ++ [e]) rest
    else if base ≥ e.desc_end then
      reserve_entries maxEntries base length end_ (done ++ [e]) rest
    else if base ≤ e.physical_start ∧ e.desc_end ≤ end_ then
      reserve_entries maxEntries base length end_
        (done ++ [{ e with type := EFI_RESERVED_TYPE }]) rest
    else if e.physical_start ≥ base ∧ end_ > e.physical_start ∧ e.desc_end > end_ then
      if done.length + (rest.length + 1) + 1 > maxEntries then (false, done ++ e :: rest)
      else
        (true, done ++
          [⟨EFI_RESERVED_TYPE, e.physical_start, (end_ - e.physical_start) >>> EFI_PAGE_SHIFT, e.attr, 0⟩,
           { e with physical_start := end_,
                    num_pages := (e.desc_end - end_) >>> EFI_PAGE_SHIFT }] ++ rest)
    else if base > e.physical_start ∧ e.desc_end > base ∧ end_ ≥ e.desc_end then
      if done.length + (rest.length + 1) + 1 > maxEntries then
        (false, done ++ { e with num_pages := (base - e.physical_start) >>> EFI_PAGE_SHIFT } :: rest)
      else
        reserve_entries maxEntries base length end_
          (done ++ [{ e with num_pages := (base - e.physical_start) >>> EFI_PAGE_SHIFT },
            ⟨EFI_RESERVED_TYPE, base, (e.desc_end - base) >>> EFI_PAGE_SHIFT, e.attr, 0⟩]) rest
    else if base > e.physical_start ∧ e.desc_end > end_ then
      if done.length + (rest.length + 1) + 1 > maxEntries then
        (false, done ++ { e with num_pages := (base - e.physical_start) >>> EFI_PAGE_SHIFT } :: rest)
      else if done.length + (rest.length + 1) + 2 > maxEntries then
        (false, done ++ [{ e with num_pages := (base - e.physical_start) >>> EFI_PAGE_SHIFT },
          ⟨EFI_RESERVED_TYPE, base, length >>> EFI_PAGE_SHIFT, e.attr, 0⟩] ++ rest)
      else (true, done ++ [{ e with num_pages := (base - e.physical_start) >>> EFI_PAGE_SHIFT },
          ⟨EFI_RESERVED_TYPE, base, length >>> EFI_PAGE_SHIFT, e.attr, 0⟩,
          ⟨e.type, end_, (e.desc_end - end_) >>> EFI_PAGE_SHIFT, e.attr, 0⟩] ++ rest)
    else (false, done ++ e :: rest) := by
  rw [reserve_entries]

/-- The three tests that make the scan pass over an entry, as one condition. -/
theorem efi_mem_descr_t.passed_over_iff (e : efi_mem_descr_t) (base end_ : Nat) :
    e.passed_over base end_ ↔
      ((e.type < EFI_LOADER_CODE ∨ e.type > EFI_CONVENTIONAL_MEMORY) ∨
        end_ ≤ e.physical_start ∨ base ≥ e.desc_end) := by
  unfold efi_mem_descr_t.passed_over efi_mem_descr_t.is_free
  constructor
  · rintro (h | h | h)
    · left; omega
    · right; left; exact h
    · right; right; exact h
  · rintro (h | h | h)
    · left; omega
    · right; left; exact h
    · right; right; exact h

/-- Entries that the scan passes over or that lie within the range (case 1) are
retyped in place, and the scan goes on behind them. -/
theorem reserve_entries_retype_front (maxEntries base length end_ : Nat) :
    ∀ (pre done rest : List efi_mem_descr_t),
      (∀ x ∈ pre, x.passed_over base end_ ∨ x.within base end_) →
      reserve_entries maxEntries base length end_ done (pre ++ rest) =
        reserve_entries maxEntries base length end_
          (done ++ pre.map (fun x => x.retyped base end_)) rest := by
  intro pre
  induction pre with
  | nil => intro done rest _; simp
  | cons x pre ih =>
    intro done rest hall
    have hx := hall x (List.mem_cons_self _ _)
    have hrest : ∀ y ∈ pre, y.passed_over base end_ ∨ y.within base end_ :=
      fun y hy => hall y (List.mem_cons_of_mem _ hy)
    have hpo := efi_mem_descr_t.passed_over_iff x base end_
    rw [List.cons_append, reserve_entries]
    by_cases hp : x.passed_over base end_
    · have hr : x.retyped base end_ = x := by
        unfold efi_mem_descr_t.retyped; rw [if_pos hp]
      have hgo : reserve_entries maxEntries base length end_ (done ++ [x]) (pre ++ rest) =
          reserve_entries maxEntries base length end_
            (done ++ List.map (fun x => x.retyped base end_) (x :: pre)) rest := by
        rw [ih (done ++ [x]) rest hrest, List.map_cons, hr]
        simp
      rcases hpo.mp hp with h | h | h
      · simp only [if_pos h]
        exact hgo
      · by_cases c0 : x.type < EFI_LOADER_CODE ∨ x.type > EFI_CONVENTIONAL_MEMORY
        · simp only [if_pos c0]; exact hgo
        · simp only [if_neg c0, if_pos h]; exact hgo
      · by_cases c0 : x.type < EFI_LOADER_CODE ∨ x.type > EFI_CONVENTIONAL_MEMORY
        · simp only [if_pos c0]; exact hgo
        · by_cases c1 : end_ ≤ x.physical_start
          · simp only [if_neg c0, if_pos c1]; exact hgo
          · simp only [if_neg c0, if_neg c1, if_pos h]; exact hgo
    · have hw : x.within base end_ := by
        rcases hx with h | h
        · exact absurd h hp
        · exact h
      have hr : x.retyped base end_ = { x with type := EFI_RESERVED_TYPE } := by
        unfold efi_mem_descr_t.retyped; rw [if_neg hp]
      have hnp := (not_congr hpo).mp hp
      have c0 : ¬ (x.type < EFI_LOADER_CODE ∨ x.type > EFI_CONVENTIONAL_MEMORY) :=
        fun h => hnp (Or.inl h)
      have c1 : ¬ end_ ≤ x.physical_start := fun h => hnp (Or.inr (Or.inl h))
      have c2 : ¬ base ≥ x.desc_end := fun h => hnp (Or.inr (Or.inr h))
      have c3 : base ≤ x.physical_start ∧ x.desc_end ≤ end_ := hw
      simp only [if_neg c0, if_neg c1, if_neg c2, if_pos c3]
      rw [ih _ rest hrest, List.map_cons, hr]
      simp

/-- Entries that the scan passes over are kept, and the scan goes on behind them. -/
theorem reserve_entries_passed_over_front (maxEntries base length end_ : Nat)
    (pre done rest : List efi_mem_descr_t) (hall : ∀ x ∈ pre, x.passed_over base end_) :
    reserve_entries maxEntries base length end_ done (pre ++ rest) =
      reserve_entries maxEntries base length end_ (done ++ pre) rest := by
  rw [reserve_entries_retype_front maxEntries base length end_ pre done rest
    (fun x hx => Or.inl (hall x hx))]
  have : pre.map (fun x => x.retyped base end_) = pre := by
    conv_rhs => rw [← List.map_id pre]
    apply List.map_congr_left
    intro x hx
    unfold efi_mem_descr_t.retyped
    rw [if_pos (hall x hx)]
    rfl
  rw [this]

/-- Case analysis on one step of the list reading: a property holds of the result of
the step if it holds in each of the branches of the loop body. -/
theorem reserve_entries_cons_cases {maxEntries base length end_ : Nat}
    {done rest : List efi_mem_descr_t} {e : efi_mem_descr_t}
    (P : Bool × List efi_mem_descr_t → Prop)
    (hskip : e.passed_over base end_ →
      P (reserve_entries maxEntries base length end_ (done ++ [e]) rest))
    (hcase1 : ¬ e.passed_over base end_ → e.within base end_ →
      P (reserve_entries maxEntries base length end_
        (done ++ [{ e with type := EFI_RESERVED_TYPE }]) rest))
    (hfull : P (false, done ++ e :: rest))
    (hcase2 : ¬ e.passed_over base end_ → e.left_overlap base end_ →
      done.length + (rest.length + 1) + 1 ≤ maxEntries →
      P (true, done ++
        [⟨EFI_RESERVED_TYPE, e.physical_start,
            (end_ - e.physical_start) >>> EFI_PAGE_SHIFT, e.attr, 0⟩,
          { e with physical_start := end_,
                   num_pages := (e.desc_end - end_) >>> EFI_PAGE_SHIFT }] ++ rest))
    (hshrunk : base > e.physical_start →
      P (false, done ++
        { e with num_pages := (base - e.physical_start) >>> EFI_PAGE_SHIFT } :: rest))
    (hcase3 : ¬ e.passed_over base end_ → base > e.physical_start → e.desc_end > base →
      end_ ≥ e.desc_end → done.length + (rest.length + 1) + 1 ≤ maxEntries →
      P (reserve_entries maxEntries base length end_
        (done ++ [{ e with num_pages := (base - e.physical_start) >>> EFI_PAGE_SHIFT },
          ⟨EFI_RESERVED_TYPE, base, (e.desc_end - base) >>> EFI_PAGE_SHIFT, e.attr, 0⟩]) rest))
    (hhalf : base > e.physical_start →
      done.length + (rest.length + 1) + 1 ≤ maxEntries →
      P (false, done ++
        [{ e with num_pages := (base - e.physical_start) >>> EFI_PAGE_SHIFT },
          ⟨EFI_RESERVED_TYPE, base, length >>> EFI_PAGE_SHIFT, e.attr, 0⟩] ++ rest))
    (hcase4 : ¬ e.passed_over base end_ → base > e.physical_start → e.desc_end > end_ →
      done.length + (rest.length + 1) + 2 ≤ maxEntries →
      P (true, done ++
        [{ e with num_pages := (base - e.physical_start) >>> EFI_PAGE_SHIFT },
          ⟨EFI_RESERVED_TYPE, base, length >>> EFI_PAGE_SHIFT, e.attr, 0⟩,
          ⟨e.type, end_, (e.desc_end - end_) >>> EFI_PAGE_SHIFT, e.attr, 0⟩] ++ rest)) :
    P (reserve_entries maxEntries base length end_ done (e :: rest)) := by
  have hpo := efi_mem_descr_t.passed_over_iff e base end_
  rw [reserve_entries_cons]
  by_cases c0 : e.type < EFI_LOADER_CODE ∨ e.type > EFI_CONVENTIONAL_MEMORY
  · rw [if_pos c0]
    exact hskip (hpo.mpr (Or.inl c0))
  rw [if_neg c0]
  by_cases c1 : end_ ≤ e.physical_start
  · rw [if_pos c1]
    exact hskip (hpo.mpr (Or.inr (Or.inl c1)))
  rw [if_neg c1]
  by_cases c2 : base ≥ e.desc_end
  · rw [if_pos c2]
    exact hskip (hpo.mpr (Or.inr (Or.inr c2)))
  rw [if_neg c2]
  have hnp : ¬ e.passed_over base end_ := by
    intro h
    rcases hpo.mp h with h | h | h
    · exact c0 h
    · exact c1 h
    · exact c2 h
  by_cases c3 : base ≤ e.physical_start ∧ e.desc_end ≤ end_
  · rw [if_pos c3]
    exact hcase1 hnp c3
  rw [if_neg c3]
  by_cases c4 : e.physical_start ≥ base ∧ end_ > e.physical_start ∧ e.desc_end > end_
  · rw [if_pos c4]
    by_cases hcap : done.length + (rest.length + 1) + 1 > maxEntries
    · rw [if_pos hcap]
      exact hfull
    · rw [if_neg hcap]
      exact hcase2 hnp c4 (by omega)
  rw [if_neg c4]
  by_cases c5 : base > e.physical_start ∧ e.desc_end > base ∧ end_ ≥ e.desc_end
  · rw [if_pos c5]
    by_cases hcap : done.length + (rest.length + 1) + 1 > maxEntries
    · rw [if_pos hcap]
      exact hshrunk c5.1
    · rw [if_neg hcap]
      exact hcase3 hnp c5.1 c5.2.1 c5.2.2 (by omega)
  rw [if_neg c5]
  by_cases c6 : base > e.physical_start ∧ e.desc_end > end_
  · rw [if_pos c6]
    by_cases hcap : done.length + (rest.length + 1) + 1 > maxEntries
    · rw [if_pos hcap]
      exact hshrunk c6.1
    · rw [if_neg hcap]
      by_cases hcap2 : done.length + (rest.length + 1) + 2 > maxEntries
      · rw [if_pos hcap2]
        exact hhalf c6.1 (by omega)
      · rw [if_neg hcap2]
        exact hcase4 hnp c6.1 c6.2 (by omega)
  rw [if_neg c6]
  exact hfull

/-- The scan never changes the entries behind its cursor. -/
theorem reserve_entries_keeps_done (maxEntries base length end_ : Nat) :
    ∀ (todo done : List efi_mem_descr_t),
      ∃ tail, (reserve_entries maxEntries base length end_ done todo).2 = done ++ tail := by
  intro todo
  induction todo with
  | nil => intro done; exact ⟨[], by simp [reserve_entries]⟩
  | cons x rest ih =>
    intro done
    have hext : ∀ (mid : List efi_mem_descr_t),
        ∃ tail, (reserve_entries maxEntries base length end_ (done ++ mid) rest).2 =
          done ++ tail := by
      intro mid
      obtain ⟨t, ht⟩ := ih (done ++ mid)
      exact ⟨mid ++ t, by rw [ht, List.append_assoc]⟩
    apply reserve_entries_cons_cases (fun r => ∃ tail, r.2 = done ++ tail)
    · intro _; exact hext _
    · intro _ _; exact hext _
    · exact ⟨_, rfl⟩
    · intro _ _ _; exact ⟨_, List.append_assoc _ _ _⟩
    · intro _; exact ⟨_, rfl⟩
    · intro _ _ _ _ _; exact hext _
    · intro _ _; exact ⟨_, List.append_assoc _ _ _⟩
    · intro _ _ _ _; exact ⟨_, List.append_assoc _ _ _⟩

/-- The scan never shortens the map, and lengthens it only within `maxEntries`. -/
theorem reserve_entries_length (maxEntries base length end_ : Nat) :
    ∀ (todo done : List efi_mem_descr_t),
      done.length + todo.length ≤
        (reserve_entries maxEntries base length end_ done todo).2.length ∧
      (reserve_entries maxEntries base length end_ done todo).2.length ≤
        max (done.length + todo.length) maxEntries := by
  intro todo
  induction todo with
  | nil => intro done; simp [reserve_entries]
  | cons x rest ih =>
    intro done
    have hext : ∀ (mid : List efi_mem_descr_t), mid.length = 1 →
        done.length + (x :: rest).length ≤
          (reserve_entries maxEntries base length end_ (done ++ mid) rest).2.length ∧
        (reserve_entries maxEntries base length end_ (done ++ mid) rest).2.length ≤
          max (done.length + (x :: rest).length) maxEntries := by
      intro mid hmid
      have := ih (done ++ mid)
      simp only [List.length_append, hmid, List.length_cons] at this ⊢
      omega
    apply reserve_entries_cons_cases (fun r =>
      done.length + (x :: rest).length ≤ r.2.length ∧
        r.2.length ≤ max (done.length + (x :: rest).length) maxEntries)
    · intro _; exact hext _ rfl
    · intro _ _; exact hext _ rfl
    · simp
    · intro _ _ h
      simp only [List.length_append, List.length_cons, List.length_nil]
      omega
    · intro _; simp
    · intro _ _ _ _ h
      have h3 := ih (done ++
        [{ x with num_pages := (base - x.physical_start) >>> EFI_PAGE_SHIFT },
          ⟨EFI_RESERVED_TYPE, base, (x.desc_end - base) >>> EFI_PAGE_SHIFT, x.attr, 0⟩])
      simp only [List.length_append, List.length_cons, List.length_nil] at h3 ⊢
      obtain ⟨h3a, h3b⟩ := h3
      have hm : max (done.length + (0 + 1 + 1) + rest.length) maxEntries = maxEntries :=
        Nat.max_eq_right (by omega)
      rw [hm] at h3b
      constructor
      · omega
      · exact le_trans h3b (Nat.le_max_right _ _)
    · intro _ h
      simp only [List.length_append, List.length_cons, List.length_nil]
      omega
    · intro _ _ _ h
      simp only [List.length_append, List.length_cons, List.length_nil]
      omega

/-- For an entry that ends below `2^64` the value `desc_end` of the code is its end. -/
theorem efi_mem_descr_t.desc_end_eq {e : efi_mem_descr_t} (h : e.end_addr < U64) :
    e.desc_end = e.end_addr := by
  unfold efi_mem_descr_t.desc_end
  unfold efi_mem_descr_t.end_addr at h ⊢
  rw [Nat.shiftLeft_eq]
  have h1 : e.num_pages * 2 ^ EFI_PAGE_SHIFT < U64 := by omega
  rw [Nat.mod_eq_of_lt h1, Nat.mod_eq_of_lt h]

/-- The head that cases 3 and 4 leave of an entry ends at or before `base`. -/
theorem shrunk_desc_end_le {base : Nat} (type start attr other : Nat) (hb : base < U64)
    (hlt : start < base) :
    (⟨type, start, (base - start) >>> EFI_PAGE_SHIFT, attr, other⟩ :
      efi_mem_descr_t).desc_end ≤ base := by
  unfold efi_mem_descr_t.desc_end
  simp only
  rw [Nat.shiftLeft_eq, Nat.shiftRight_eq_div_pow]
  have h1 : (base - start) / 2 ^ EFI_PAGE_SHIFT * 2 ^ EFI_PAGE_SHIFT ≤ base - start :=
    Nat.div_mul_le_self _ _
  have h2 : (base - start) / 2 ^ EFI_PAGE_SHIFT * 2 ^ EFI_PAGE_SHIFT < U64 := by omega
  rw [Nat.mod_eq_of_lt h2, Nat.mod_eq_of_lt (by omega)]
  omega

/-- An entry of type `EFI_RESERVED_TYPE` is passed over. -/
theorem passed_over_reserved (start pages attr other base end_ : Nat) :
    (⟨EFI_RESERVED_TYPE, start, pages, attr, other⟩ : efi_mem_descr_t).passed_over base end_ := by
  left
  unfold efi_mem_descr_t.is_free
  simp only
  decide

/-- On a sorted map without overflow, a scan that returns true leaves only entries
that a scan of the same range passes over. -/
theorem reserve_entries_settled (maxEntries base length end_ : Nat) (hb : base < U64) :
    ∀ (todo done : List efi_mem_descr_t),
      (∀ x ∈ done, x.passed_over base end_) →
      todo.Pairwise (fun a c => a.end_addr ≤ c.physical_start) →
      (∀ x ∈ todo, x.end_addr < U64) →
      (reserve_entries maxEntries base length end_ done todo).1 = true →
      ∀ x ∈ (reserve_entries maxEntries base length end_ done todo).2,
        x.passed_over base end_ := by
  intro todo
  induction todo with
  | nil =>
    intro done hdone _ _ _ x hx
    simp only [reserve_entries] at hx
    exact hdone x hx
  | cons e rest ih =>
    intro done hdone hsorted hbound
    have hrest_sorted : rest.Pairwise (fun a c => a.end_addr ≤ c.physical_start) :=
      (List.pairwise_cons.mp hsorted).2
    have hafter : ∀ x ∈ rest, e.end_addr ≤ x.physical_start :=
      (List.pairwise_cons.mp hsorted).1
    have hrest_bound : ∀ x ∈ rest, x.end_addr < U64 :=
      fun x hx => hbound x (List.mem_cons_of_mem _ hx)
    have hde : e.desc_end = e.end_addr :=
      efi_mem_descr_t.desc_end_eq (hbound e (List.mem_cons_self _ _))
    have hbeyond : e.desc_end > end_ → ∀ x ∈ rest, x.passed_over base end_ := by
      intro hgt x hx
      right; left
      have := hafter x hx
      omega
    apply reserve_entries_cons_cases (fun r => r.1 = true → ∀ x ∈ r.2, x.passed_over base end_)
    · intro hp
      apply ih (done ++ [e]) _ hrest_sorted hrest_bound
      intro x hx
      rcases List.mem_append.mp hx with h | h
      · exact hdone x h
      · rw [List.mem_singleton.mp h]; exact hp
    · intro _ _
      apply ih _ _ hrest_sorted hrest_bound
      intro x hx
      rcases List.mem_append.mp hx with h | h
      · exact hdone x h
      · rw [List.mem_singleton.mp h]
        exact passed_over_reserved _ _ _ _ _ _
    · intro h; exact absurd h (by simp)
    · intro _ hlo _ _ x hx
      simp only [List.mem_append, List.mem_cons, List.mem_singleton, List.not_mem_nil,
        or_false] at hx
      rcases hx with (h | h | h) | h
      · exact hdone x h
      · rw [h]; exact passed_over_reserved _ _ _ _ _ _
      · rw [h]; right; left; exact le_refl _
      · exact hbeyond hlo.2.2 x h
    · intro _ h; exact absurd h (by simp)
    · intro _ hlt _ _ _
      apply ih _ _ hrest_sorted hrest_bound
      intro x hx
      simp only [List.mem_append, List.mem_cons, List.mem_singleton, List.not_mem_nil,
        or_false] at hx
      rcases hx with h | h | h
      · exact hdone x h
      · rw [h]; right; right
        exact shrunk_desc_end_le _ _ _ _ hb hlt
      · rw [h]; exact passed_over_reserved _ _ _ _ _ _
    · intro _ _ h; exact absurd h (by simp)
    · intro _ hlt hgt _ _ x hx
      simp only [List.mem_append, List.mem_cons, List.mem_singleton, List.not_mem_nil,
        or_false] at hx
      rcases hx with (h | h | h | h) | h
      · exact hdone x h
      · rw [h]; right; right
        exact shrunk_desc_end_le _ _ _ _ hb hlt
      · rw [h]; exact passed_over_reserved _ _ _ _ _ _
      · rw [h]; right; left; exact le_refl _
      · exact hbeyond hgt x h

/-- A scan that passes over every entry in front of its cursor returns true and
changes nothing. -/
theorem reserve_loop_passed_over (maxEntries base length end_ : Nat) :
    ∀ (todo done : List efi_mem_descr_t) (fuel : Nat) (s : efi_state),
      s.efi_mmap_available = true →
      0 < s.efi_mmap.descr_size →
      s.efi_mmap.size + s.efi_mmap.descr_size < U32 →
      s.efi_mmap.holds (done ++ todo) →
      (done = [] → todo ≠ []) →
      (∀ x ∈ todo, x.passed_over base end_) →
      todo.length < fuel →
      reserve_loop maxEntries base length end_ fuel s
        (scan_cursor s.efi_mmap.descr_size done.length) done.length = some (true, s) := by
  intro todo
  induction todo with
  | nil =>
    intro done fuel s hav hds hfit hh hfirst _ hfuel
    obtain ⟨f, rfl⟩ : ∃ f, fuel = f + 1 := ⟨fuel - 1, by omega⟩
    have hne : done ≠ [] := fun hc => hfirst hc rfl
    rw [List.append_nil] at hh
    rw [reserve_loop, efi_memmap_walk_end hav hh hne hfit]
  | cons e rest ih =>
    intro done fuel s hav hds hfit hh _ hall hfuel
    obtain ⟨f, rfl⟩ : ∃ f, fuel = f + 1 := ⟨fuel - 1, by omega⟩
    have hf : rest.length < f := by simpa using hfuel
    have hwalk := efi_memmap_walk_entry hav hds hh hfit
    have he : s.efi_mmap.descr (done.length * s.efi_mmap.descr_size) = e :=
      hh.2 _ _ (getElem?_append_cons_length done e rest)
    have hsz := hh.1
    simp only [List.length_append, List.length_cons] at hsz
    have hjlt : done.length + 1 < U32 := by
      have : (done.length + 1) * 1 ≤
          (done.length + (rest.length + 1)) * s.efi_mmap.descr_size :=
        Nat.mul_le_mul (by omega) hds
      omega
    have hmod : (done.length + 1) % U32 = done.length + 1 := Nat.mod_eq_of_lt hjlt
    have hcur : scan_cursor s.efi_mmap.descr_size (done.length + 1) =
        some (done.length * s.efi_mmap.descr_size) := by
      simp [scan_cursor]
    have hskip : reserve_loop maxEntries base length end_ f s
        (some (done.length * s.efi_mmap.descr_size)) ((done.length + 1) % U32) =
        some (true, s) := by
      have := ih (done ++ [e]) f s hav hds hfit (by simpa using hh) (by simp)
        (fun x hx => hall x (List.mem_cons_of_mem _ hx)) hf
      simpa [hcur, hmod] using this
    have hp := (efi_mem_descr_t.passed_over_iff e base end_).mp
      (hall e (List.mem_cons_self _ _))
    unfold efi_mem_descr_t.desc_end at hp
    rw [reserve_loop, hwalk]
    simp only [he]
    by_cases c0 : e.type < EFI_LOADER_CODE ∨ e.type > EFI_CONVENTIONAL_MEMORY
    · simp only [if_pos c0]
      exact hskip
    simp only [if_neg c0]
    by_cases c1 : end_ ≤ e.physical_start
    · simp only [if_pos c1]
      exact hskip
    simp only [if_neg c1]
    have c2 : base ≥ (e.physical_start + e.num_pages <<< EFI_PAGE_SHIFT % U64) % U64 := by
      rcases hp with h | h | h
      · exact absurd h c0
      · exact absurd h c1
      · exact h
    simp only [if_pos c2]
    exact hskip

/-! ## Claims on the scan loop of `efi_memmap_reserve` -/

/-- Case 2 does not apply to an entry that the scan passes over. -/
theorem not_left_overlap_of_passed_over {e : efi_mem_descr_t} {base end_ : Nat}
    (h : e.passed_over base end_) : ¬ (e.is_free ∧ e.left_overlap base end_) := by
  rintro ⟨hf, h1, h2, h3⟩
  rcases h with h | h | h
  · exact h hf
  · omega
  · omega

/-- Case 2 does not apply to an entry that lies within the range (case 1). -/
theorem not_left_overlap_of_within {e : efi_mem_descr_t} {base end_ : Nat}
    (h : e.within base end_) : ¬ (e.is_free ∧ e.left_overlap base end_) := by
  rintro ⟨_, _, _, h3⟩
  have := h.2
  omega

/-- The rounded base is a 64-bit value. -/
theorem reserve_base_lt (base : Nat) : reserve_base base < U64 := by
  unfold reserve_base
  have h1 : base &&& page_mask ≤ page_mask := Nat.and_le_right
  have h2 : page_mask < U64 := by decide
  omega

/-- C15 (as amended): case 4 (fully interior) is a three-way split in slots that hold a
descriptor. On an available, well-formed map (whole slots, each of at least
`sizeof(efi_mem_descr_t)` bytes) with room for two more entries, let `d` be a free-type
entry at index `k` with `d.start < base'` and `end' < d.end` that overlaps the range,
the entries in front of it being passed over by the scan. Then `efi_memmap_reserve`
returns true and replaces `d` by the three entries
`{d.start, (base' - d.start) pages, d.type, d.attribute}`,
`{base', length' pages, EFI_RESERVED_TYPE, d.attribute}` and
`{end', (d.end - end') pages, d.type, d.attribute}` at the indices `k`, `k + 1`, `k + 2`;
the entries in front of `d` are unchanged, the entries behind it are unchanged and two
slots further up. -/
theorem efi_memmap_reserve_interior_split (maxEntries fuel : Nat) (s : efi_state)
    (base length : Nat) (before after : List efi_mem_descr_t) (d : efi_mem_descr_t)
    (hav : s.efi_mmap_available = true)
    (hwf : s.efi_mmap.well_formed maxEntries)
    (hentries : s.efi_mmap.entries = before ++ d :: after)
    (hroom : s.efi_mmap.size / s.efi_mmap.descr_size + 2 ≤ maxEntries)
    (hlen : length ≠ 0)
    (hfree : d.is_free)
    (hoverlap : d.physical_start < reserve_end base length ∧ reserve_base base < d.desc_end)
    (hleft : d.physical_start < reserve_base base)
    (hright : reserve_end base length < d.desc_end)
    (hbefore : ∀ x ∈ before, x.passed_over (reserve_base base) (reserve_end base length))
    (hfuel : s.efi_mmap.size / s.efi_mmap.descr_size < fuel) :
    ∃ s1, efi_memmap_reserve maxEntries fuel s base length = some (true, s1) ∧
      s1.efi_mmap.entries = before ++
        [⟨d.type, d.physical_start,
            (reserve_base base - d.physical_start) >>> EFI_PAGE_SHIFT, d.attr, d.other⟩,
          ⟨EFI_RESERVED_TYPE, reserve_base base, reserve_length length >>> EFI_PAGE_SHIFT,
            d.attr, 0⟩,
          ⟨d.type, reserve_end base length,
            (d.desc_end - reserve_end base length) >>> EFI_PAGE_SHIFT, d.attr, 0⟩] ++ after ∧
      s1.efi_mmap.descr_size = s.efi_mmap.descr_size ∧
      s1.efi_mmap.size = s.efi_mmap.size + 2 * s.efi_mmap.descr_size := by
  have hds := hwf.1
  have hn : s.efi_mmap.entries.length = s.efi_mmap.size / s.efi_mmap.descr_size := by
    simp [efi_memmap_t.entries]
  have hcount : before.length + (after.length + 1) = s.efi_mmap.size / s.efi_mmap.descr_size := by
    rw [← hn, hentries]
    simp
  have hfirst : ∃ e rest, s.efi_mmap.entries = e :: rest ∧
      ¬ (e.is_free ∧ e.left_overlap (reserve_base base) (reserve_end base length)) := by
    cases before with
    | nil =>
      refine ⟨d, after, by simpa using hentries, ?_⟩
      rintro ⟨_, h1, _⟩
      omega
    | cons x xs =>
      refine ⟨x, xs ++ d :: after, by simpa using hentries, ?_⟩
      exact not_left_overlap_of_passed_over (hbefore x (List.mem_cons_self _ _))
  obtain ⟨s1, hres, _, hds1, hh1⟩ := efi_memmap_reserve_entries maxEntries fuel s base length
    hav hwf hlen hfirst hfuel
  have hlist : reserve_entries maxEntries (reserve_base base) (reserve_length length)
      (reserve_end base length) [] s.efi_mmap.entries =
      (true, before ++
        [⟨d.type, d.physical_start,
            (reserve_base base - d.physical_start) >>> EFI_PAGE_SHIFT, d.attr, d.other⟩,
          ⟨EFI_RESERVED_TYPE, reserve_base base, reserve_length length >>> EFI_PAGE_SHIFT,
            d.attr, 0⟩,
          ⟨d.type, reserve_end base length,
            (d.desc_end - reserve_end base length) >>> EFI_PAGE_SHIFT, d.attr, 0⟩] ++ after) := by
    rw [hentries, reserve_entries_passed_over_front _ _ _ _ before [] (d :: after) hbefore,
      List.nil_append, reserve_entries_cons]
    have hf := hfree
    unfold efi_mem_descr_t.is_free at hf
    rw [if_neg (by omega), if_neg (by omega), if_neg (by omega), if_neg (by omega),
      if_neg (by omega), if_neg (by omega), if_pos ⟨hleft, hright⟩, if_neg (by omega),
      if_neg (by omega)]
  rw [hlist] at hres hh1
  simp only at hres hh1
  refine ⟨s1, hres, efi_memmap_t.entries_of_holds (by rw [hds1]; exact hds) hh1, hds1, ?_⟩
  rw [hh1.1, hds1]
  have hsz : s.efi_mmap.size = (before.length + (after.length + 1)) * s.efi_mmap.descr_size := by
    rw [hcount]
    exact (Nat.div_mul_cancel (Nat.dvd_of_mod_eq_zero hwf.2.1)).symm
  rw [hsz]
  simp only [List.length_append, List.length_cons, List.length_nil]
  ring

/-- C15 (as amended), the scenario of the spec, in slots of 48 bytes: on the map
`[{0x0, 0x4000 bytes, CONVENTIONAL}]`,
`efi_memmap_reserve(0x1000, 0x1000)` returns true and leaves
`[{0x0, 0x1000, CONVENTIONAL}, {0x1000, 0x1000, RESERVED}, {0x2000, 0x2000, CONVENTIONAL}]`. -/
theorem efi_memmap_reserve_interior_split_witness :
    ∃ s1, efi_memmap_reserve 128 2 (single_entry_state 4) 0x1000 0x1000 = some (true, s1) ∧
      s1.efi_mmap.entries =
        [⟨EFI_CONVENTIONAL_MEMORY, 0x0, 1, 0xf, 0⟩, ⟨EFI_RESERVED_TYPE, 0x1000, 1, 0xf, 0⟩,
         ⟨EFI_CONVENTIONAL_MEMORY, 0x2000, 2, 0xf, 0⟩] ∧
      s1.efi_mmap.descr_size = 48 ∧ s1.efi_mmap.size = 144 :=
  efi_memmap_reserve_interior_split 128 2 (single_entry_state 4) 0x1000 0x1000 [] []
    ⟨EFI_CONVENTIONAL_MEMORY, 0x0, 4, 0xf, 0⟩ rfl (by decide) (by decide) (by decide)
    (by decide) (by decide) (by decide) (by decide) (by decide) (by decide) (by decide)

/-- C16 (as amended): case 1 (full containment) retypes in place without splitting. On
an available, well-formed map (whole slots, each of at least `sizeof(efi_mem_descr_t)`
bytes) let `d` be a free-type entry at index `k` with
`base' <= d.start` and `d.end <= end'` that the scan does not pass over, every entry in
front of it being passed over or of this same kind. Then after `efi_memmap_reserve`,
whatever it returns, the entry at index `k` has type `EFI_RESERVED_TYPE` and the
`physical_start`, `num_pages` and attribute of `d`; and if the entries behind `d` are
passed over or of this kind too, the call returns true, every entry is at its index
(retyped if of this kind, unchanged otherwise) and the number of entries is unchanged. -/
theorem efi_memmap_reserve_retypes_in_place (maxEntries fuel : Nat) (s : efi_state)
    (base length : Nat) (before after : List efi_mem_descr_t) (d : efi_mem_descr_t)
    (hav : s.efi_mmap_available = true)
    (hwf : s.efi_mmap.well_formed maxEntries)
    (hentries : s.efi_mmap.entries = before ++ d :: after)
    (hlen : length ≠ 0)
    (hkind : d.within (reserve_base base) (reserve_end base length))
    (hover : ¬ d.passed_over (reserve_base base) (reserve_end base length))
    (hbefore : ∀ x ∈ before, x.passed_over (reserve_base base) (reserve_end base length) ∨
      x.within (reserve_base base) (reserve_end base length))
    (hfuel : s.efi_mmap.size / s.efi_mmap.descr_size < fuel) :
    ∃ r s1, efi_memmap_reserve maxEntries fuel s base length = some (r, s1) ∧
      s1.efi_mmap.entries[before.length]? =
        some ⟨EFI_RESERVED_TYPE, d.physical_start, d.num_pages, d.attr, d.other⟩ ∧
      ((∀ x ∈ after, x.passed_over (reserve_base base) (reserve_end base length) ∨
          x.within (reserve_base base) (reserve_end base length)) →
        r = true ∧
        s1.efi_mmap.entries = s.efi_mmap.entries.map
          (fun x => x.retyped (reserve_base base) (reserve_end base length)) ∧
        s1.efi_mmap.entries.length = s.efi_mmap.entries.length ∧
        s1.efi_mmap.size = s.efi_mmap.size) := by
  have hds := hwf.1
  have hfirst : ∃ e rest, s.efi_mmap.entries = e :: rest ∧
      ¬ (e.is_free ∧ e.left_overlap (reserve_base base) (reserve_end base length)) := by
    cases before with
    | nil =>
      exact ⟨d, after, by simpa using hentries, not_left_overlap_of_within hkind⟩
    | cons x xs =>
      refine ⟨x, xs ++ d :: after, by simpa using hentries, ?_⟩
      rcases hbefore x (List.mem_cons_self _ _) with h | h
      · exact not_left_overlap_of_passed_over h
      · exact not_left_overlap_of_within h
  obtain ⟨s1, hres, _, hds1, hh1⟩ := efi_memmap_reserve_entries maxEntries fuel s base length
    hav hwf hlen hfirst hfuel
  have hent1 := efi_memmap_t.entries_of_holds (by rw [hds1]; exact hds) hh1
  have hupto : ∀ x ∈ before ++ [d],
      x.passed_over (reserve_base base) (reserve_end base length) ∨
        x.within (reserve_base base) (reserve_end base length) := by
    intro x hx
    rcases List.mem_append.mp hx with h | h
    · exact hbefore x h
    · rw [List.mem_singleton.mp h]; exact Or.inr hkind
  have hd : d.retyped (reserve_base base) (reserve_end base length) =
      ⟨EFI_RESERVED_TYPE, d.physical_start, d.num_pages, d.attr, d.other⟩ := by
    unfold efi_mem_descr_t.retyped
    rw [if_neg hover]
  refine ⟨_, s1, hres, ?_, ?_⟩
  · have hsplit : s.efi_mmap.entries = (before ++ [d]) ++ after := by
      rw [hentries]; simp
    obtain ⟨tail, htail⟩ := reserve_entries_keeps_done maxEntries (reserve_base base)
      (reserve_length length) (reserve_end base length) after
      ([] ++ (before ++ [d]).map
        (fun x => x.retyped (reserve_base base) (reserve_end base length)))
    rw [hent1, hsplit, reserve_entries_retype_front _ _ _ _ (before ++ [d]) [] after hupto,
      htail]
    simp only [List.nil_append, List.map_append, List.map_cons, List.map_nil,
      List.append_assoc, List.singleton_append]
    rw [List.getElem?_append_right (by simp)]
    simp [hd]
  · intro hafter
    have hall : ∀ x ∈ s.efi_mmap.entries,
        x.passed_over (reserve_base base) (reserve_end base length) ∨
          x.within (reserve_base base) (reserve_end base length) := by
      intro x hx
      rw [hentries] at hx
      rcases List.mem_append.mp hx with h | h
      · exact hbefore x h
      · rcases List.mem_cons.mp h with h | h
        · rw [h]; exact Or.inr hkind
        · exact hafter x h
    have hlist : reserve_entries maxEntries (reserve_base base) (reserve_length length)
        (reserve_end base length) [] s.efi_mmap.entries =
        (true, s.efi_mmap.entries.map
          (fun x => x.retyped (reserve_base base) (reserve_end base length))) := by
      have := reserve_entries_retype_front maxEntries (reserve_base base)
        (reserve_length length) (reserve_end base length) s.efi_mmap.entries [] [] hall
      rw [List.append_nil] at this
      rw [this]
      simp [reserve_entries]
    rw [hlist] at hent1 hh1
    simp only at hent1 hh1
    refine ⟨by rw [hlist], hent1, by rw [hent1, List.length_map], ?_⟩
    rw [hh1.1, List.length_map, hds1]
    have hn : s.efi_mmap.entries.length = s.efi_mmap.size / s.efi_mmap.descr_size := by
      simp [efi_memmap_t.entries]
    rw [hn]
    exact Nat.div_mul_cancel (Nat.dvd_of_mod_eq_zero hwf.2.1)

/-- C16 (as amended), the scenario of the spec: on the map
`[{0x0, 0x2000 bytes, CONVENTIONAL}]`, `efi_memmap_reserve(0x0, 0x2000)` returns true and
leaves `[{0x0, 0x2000, RESERVED}]`. -/
theorem efi_memmap_reserve_retypes_in_place_witness :
    ∃ r s1, efi_memmap_reserve 128 2 (single_entry_state 2) 0x0 0x2000 = some (r, s1) ∧
      s1.efi_mmap.entries[0]? = some ⟨EFI_RESERVED_TYPE, 0x0, 2, 0xf, 0⟩ ∧
      ((∀ x ∈ ([] : List efi_mem_descr_t), x.passed_over 0x0 0x2000 ∨ x.within 0x0 0x2000) →
        r = true ∧
        s1.efi_mmap.entries = [⟨EFI_RESERVED_TYPE, 0x0, 2, 0xf, 0⟩] ∧
        s1.efi_mmap.entries.length = 1 ∧
        s1.efi_mmap.size = 48) :=
  efi_memmap_reserve_retypes_in_place 128 2 (single_entry_state 2) 0x0 0x2000 [] []
    ⟨EFI_CONVENTIONAL_MEMORY, 0x0, 2, 0xf, 0⟩ rfl (by decide) (by decide) (by decide)
    (by decide) (by decide) (by decide) (by decide)

/-- C16 (as stated) fails: on the map `adjacent_free_state`, with
`efi_memmap_reserve(0x1000, 0x2000)` working on `[0x1000, 0x3000)`, the entry
`d = {CONVENTIONAL, 0x2000, 1 page}` at index 1 is free, overlaps the range and has
`base' <= d.start` and `d.end <= end'`. Case 3 splits the entry in front of it, so
after the call (which returns true) the entry at index 1 starts at `0x1000`, not at
`0x2000`, and the map has three entries. -/
theorem efi_memmap_reserve_retype_shifted :
    adjacent_free_state.efi_mmap.entries =
      [⟨EFI_CONVENTIONAL_MEMORY, 0x0, 2, 0xf, 0⟩, ⟨EFI_CONVENTIONAL_MEMORY, 0x2000, 1, 0xf, 0⟩] ∧
    reserve_base 0x1000 = 0x1000 ∧ reserve_end 0x1000 0x2000 = 0x3000 ∧
    (⟨EFI_CONVENTIONAL_MEMORY, 0x2000, 1, 0xf, 0⟩ : efi_mem_descr_t).is_free ∧
    (⟨EFI_CONVENTIONAL_MEMORY, 0x2000, 1, 0xf, 0⟩ : efi_mem_descr_t).within 0x1000 0x3000 ∧
    ¬ (⟨EFI_CONVENTIONAL_MEMORY, 0x2000, 1, 0xf, 0⟩ : efi_mem_descr_t).passed_over
      0x1000 0x3000 ∧
    (efi_memmap_reserve 128 8 adjacent_free_state 0x1000 0x2000).map
        (fun r => (r.1, r.2.efi_mmap.entries)) =
      some (true,
        [⟨EFI_CONVENTIONAL_MEMORY, 0x0, 1, 0xf, 0⟩, ⟨EFI_RESERVED_TYPE, 0x1000, 1, 0xf, 0⟩,
         ⟨EFI_RESERVED_TYPE, 0x2000, 1, 0xf, 0⟩]) ∧
    ¬ ((efi_memmap_reserve 128 8 adjacent_free_state 0x1000 0x2000).map
        (fun r => r.2.efi_mmap.entries[1]?.map (fun e => e.physical_start)) =
      some (some 0x2000)) := by
  decide

/-- C13 (as amended): `efi_memmap_reserve` is idempotent on sorted maps. On an
available, well-formed map (whole slots, each of at least `sizeof(efi_mem_descr_t)`
bytes) whose entries are sorted by ascending `physical_start`,
pairwise non-overlapping and without 64-bit overflow, and to whose first entry case 2
does not apply, if `efi_memmap_reserve(base, length)` returns true, then a second call
`efi_memmap_reserve(base, length)` returns true and leaves the whole state (size and
every entry) as it was after the first call. -/
theorem efi_memmap_reserve_idempotent_sorted (maxEntries fuel : Nat) (s s1 : efi_state)
    (base length : Nat)
    (hav : s.efi_mmap_available = true)
    (hwf : s.efi_mmap.well_formed maxEntries)
    (hsorted : s.efi_mmap.sorted)
    (hbounded : s.efi_mmap.bounded)
    (hfirst : ∃ e rest, s.efi_mmap.entries = e :: rest ∧
      ¬ (e.is_free ∧ e.left_overlap (reserve_base base) (reserve_end base length)))
    (hfuel : s.efi_mmap.size / s.efi_mmap.descr_size < fuel)
    (hres : efi_memmap_reserve maxEntries fuel s base length = some (true, s1)) :
    ∀ fuel2, s1.efi_mmap.size / s1.efi_mmap.descr_size < fuel2 →
      efi_memmap_reserve maxEntries fuel2 s1 base length = some (true, s1) := by
  intro fuel2 hfuel2
  by_cases hlen : length = 0
  · subst hlen
    have h0 : efi_memmap_reserve maxEntries fuel s base 0 = some (true, s) := by
      unfold efi_memmap_reserve
      simp
    rw [h0] at hres
    simp only [Option.some.injEq, Prod.mk.injEq, true_and] at hres
    subst hres
    unfold efi_memmap_reserve
    simp
  obtain ⟨hds, hmul, hfit, hmax, hslot⟩ := hwf
  obtain ⟨s2, hres2, hav2, hds2, hh2⟩ := efi_memmap_reserve_entries maxEntries fuel s base
    length hav ⟨hds, hmul, hfit, hmax, hslot⟩ hlen hfirst hfuel
  rw [hres] at hres2
  simp only [Option.some.injEq, Prod.mk.injEq] at hres2
  obtain ⟨htrue, hs⟩ := hres2
  subst hs
  have hn : s.efi_mmap.entries.length = s.efi_mmap.size / s.efi_mmap.descr_size := by
    simp [efi_memmap_t.entries]
  have hsz : s.efi_mmap.size = s.efi_mmap.entries.length * s.efi_mmap.descr_size := by
    rw [hn]
    exact (Nat.div_mul_cancel (Nat.dvd_of_mod_eq_zero hmul)).symm
  have hsettled := reserve_entries_settled maxEntries (reserve_base base)
    (reserve_length length) (reserve_end base length) (reserve_base_lt base)
    s.efi_mmap.entries [] (by simp)
    (List.Pairwise.imp (fun h => h.2) hsorted) hbounded htrue.symm
  have hlenb := reserve_entries_length maxEntries (reserve_base base)
    (reserve_length length) (reserve_end base length) s.efi_mmap.entries []
  simp only [List.length_nil, Nat.zero_add] at hlenb
  generalize reserve_entries maxEntries (reserve_base base) (reserve_length length)
    (reserve_end base length) [] s.efi_mmap.entries = r at hh2 hsettled hlenb htrue
  have hpos : 0 < s.efi_mmap.entries.length := by
    obtain ⟨e, rest, he, _⟩ := hfirst
    rw [he]
    simp
  have hne : r.2 ≠ [] := by
    intro hc
    have h1 := hlenb.1
    rw [hc, List.length_nil] at h1
    omega
  have hfit1 : s1.efi_mmap.size + s1.efi_mmap.descr_size < U32 := by
    rw [hh2.1, hds2]
    have h1 : (r.2.length + 1) * s.efi_mmap.descr_size ≤
        (max s.efi_mmap.entries.length maxEntries + 1) * s.efi_mmap.descr_size :=
      Nat.mul_le_mul_right _ (by omega)
    have h2 : (max s.efi_mmap.entries.length maxEntries + 1) * s.efi_mmap.descr_size < U32 := by
      rcases Nat.le_total s.efi_mmap.entries.length maxEntries with h | h
      · rw [Nat.max_eq_right h]; exact hmax
      · rw [Nat.max_eq_left h, Nat.add_mul, Nat.one_mul, ← hsz]; exact hfit
    have h3 : (r.2.length + 1) * s.efi_mmap.descr_size =
        r.2.length * s.efi_mmap.descr_size + s.efi_mmap.descr_size := by ring
    omega
  have hcount1 : s1.efi_mmap.size / s1.efi_mmap.descr_size = r.2.length :=
    efi_memmap_t.holds_length (by rw [hds2]; exact hds) hh2
  unfold efi_memmap_reserve
  rw [if_neg (by simp [hlen, hav2])]
  have := reserve_loop_passed_over maxEntries (reserve_base base) (reserve_length length)
    (reserve_end base length) r.2 [] fuel2 s1 hav2 (by rw [hds2]; exact hds) hfit1
    (by simpa using hh2) (fun _ => hne) hsettled (by rw [← hcount1]; exact hfuel2)
  simpa [scan_cursor] using this

/-- C13 (as amended) at a concrete input: the map `two_entry_state` and the range
`[0x10000, 0x11000)`, which case 2 splits off the second entry. -/
theorem efi_memmap_reserve_idempotent_sorted_witness :
    ∃ s1, efi_memmap_reserve 128 3 two_entry_state 0x10000 0x1000 = some (true, s1) ∧
      s1.efi_mmap.entries =
        [⟨EFI_CONVENTIONAL_MEMORY, 0x0, 16, 0xf, 0⟩, ⟨EFI_RESERVED_TYPE, 0x10000, 1, 0xf, 0⟩,
         ⟨EFI_LOADER_DATA, 0x11000, 15, 0xf, 0⟩] ∧
      efi_memmap_reserve 128 4 s1 0x10000 0x1000 = some (true, s1) :=
  ⟨_, rfl, by decide,
    efi_memmap_reserve_idempotent_sorted 128 3 two_entry_state _ 0x10000 0x1000 rfl
      (by decide) (by decide) (by decide)
      ⟨⟨EFI_CONVENTIONAL_MEMORY, 0x0, 16, 0xf, 0⟩, [⟨EFI_LOADER_DATA, 0x10000, 16, 0xf, 0⟩],
        by decide, by decide⟩
      (by decide) rfl 4 (by decide)⟩

/-- C13 (as stated) fails: the map `unsorted_state` is available and its entries do not
overlap, but they are not sorted. `efi_memmap_reserve(0x3000, 0x2000)` works on
`[0x3000, 0x5000)`; the first call returns true after case 2 on the entry at
`0x4000` and stops there ("no need to check more"); the second call returns true
after case 3 on the entry at `0x0`, which the first call never looked at: the map
has four entries after the first call and five after the second. -/
theorem efi_memmap_reserve_not_idempotent_unsorted :
    unsorted_state.efi_mmap_available = true ∧
    (efi_memmap_reserve 128 8 unsorted_state 0x3000 0x2000).map
        (fun r => (r.1, r.2.efi_mmap.entries)) =
      some (true,
        [⟨EFI_RESERVED_TYPE, 0x8000, 1, 0xf, 0⟩, ⟨EFI_RESERVED_TYPE, 0x4000, 1, 0xf, 0⟩,
         ⟨EFI_CONVENTIONAL_MEMORY, 0x5000, 3, 0xf, 0⟩,
         ⟨EFI_CONVENTIONAL_MEMORY, 0x0, 4, 0xf, 0⟩]) ∧
    ((efi_memmap_reserve 128 8 unsorted_state 0x3000 0x2000).bind
        (fun r => efi_memmap_reserve 128 8 r.2 0x3000 0x2000)).map
        (fun r => (r.1, r.2.efi_mmap.entries)) =
      some (true,
        [⟨EFI_RESERVED_TYPE, 0x8000, 1, 0xf, 0⟩, ⟨EFI_RESERVED_TYPE, 0x4000, 1, 0xf, 0⟩,
         ⟨EFI_CONVENTIONAL_MEMORY, 0x5000, 3, 0xf, 0⟩,
         ⟨EFI_CONVENTIONAL_MEMORY, 0x0, 3, 0xf, 0⟩,
         ⟨EFI_RESERVED_TYPE, 0x3000, 1, 0xf, 0⟩]) := by
  decide

/-! ## Further claims on the ACM validator -/

/-- Setting a bit that is not a wake bit does not change the capabilities under the
mask of `verify_acmod`. -/
theorem caps_mask_ignores_bit (C : txt_caps_h) (j c c1 : Nat)
    (hg : j ≠ C.rlp_wake_getsec) (hm : j ≠ C.rlp_wake_monitor)
    (h : c1 ||| (1 <<< j) = c ||| (1 <<< j)) :
    c1 &&& caps_mask C = c &&& caps_mask C := by
  apply Nat.eq_of_testBit_eq
  intro i
  have hi := congrArg (fun x => x.testBit i) h
  simp only [Nat.testBit_or, Nat.one_shiftLeft, Nat.testBit_two_pow] at hi
  unfold caps_mask
  simp only [Nat.testBit_and, Nat.testBit_or, Nat.one_shiftLeft, Nat.testBit_two_pow]
  by_cases hij : j = i
  · subst hij
    have h1 : decide (C.rlp_wake_getsec = j) = false := by
      simp only [decide_eq_false_iff_not]; exact fun hc => hg hc.symm
    have h2 : decide (C.rlp_wake_monitor = j) = false := by
      simp only [decide_eq_false_iff_not]; exact fun hc => hm hc.symm
    rw [h1, h2]
    simp
  · have h3 : decide (j = i) = false := by simpa using hij
    rw [h3] at hi
    simp only [Bool.or_false] at hi
    rw [hi]

/-- The result of `verify_acmod` is the same for two modules that have the same
contents except for the bit `ecx_pgtbl`. -/
theorem verify_acmod_same_but_ecx_pgtbl (L : acmod_h) (M : mle_h) (C : txt_caps_h)
    (b b1 : acm_blob) (get_parameters : Option getsec_parameters_t)
    (hbits : C.ecx_pgtbl ≠ C.rlp_wake_getsec ∧ C.ecx_pgtbl ≠ C.rlp_wake_monitor)
    (hsame : b.same_but_ecx_pgtbl C b1) :
    verify_acmod L M C b1 get_parameters = verify_acmod L M C b get_parameters := by
  obtain ⟨haddr, hhdr, _, hinfo⟩ := hsame
  have hget : get_acmod_info_table L b1 = get_acmod_info_table L b := by
    unfold get_acmod_info_table
    rw [haddr, hhdr]
  unfold verify_acmod
  rw [haddr, hhdr, hget]
  have hfields : ∀ off,
      (b1.info_table_at off).min_mle_hdr_ver = (b.info_table_at off).min_mle_hdr_ver ∧
      (b1.info_table_at off).os_sinit_data_ver = (b.info_table_at off).os_sinit_data_ver ∧
      (b1.info_table_at off).capabilities &&& caps_mask C =
        (b.info_table_at off).capabilities &&& caps_mask C := by
    intro off
    obtain ⟨h1, h2⟩ := hinfo off
    refine ⟨?_, ?_, caps_mask_ignores_bit C _ _ _ hbits.1 hbits.2 h2⟩
    · rw [h1]
    · rw [h1]
  cases get_parameters with
  | none => rfl
  | some params =>
    cases hg : get_acmod_info_table L b with
    | none => rfl
    | some t =>
      obtain ⟨h1, h2, h3⟩ := hfields t
      simp only [h1, h2, h3]

/-- C21: the capability `ecx_pgtbl` is advisory in `verify_acmod`. With `ecx_pgtbl` a bit
of `txt_caps_t` other than the two wake bits, for every two modules at the same address
whose contents are the same except for the bit `ecx_pgtbl` of the capabilities of the
info table, and for the same result of `get_parameters`, `verify_acmod` returns the same
boolean; so a module with `ecx_pgtbl` clear that passes every other check, as the same
module with the bit set does, is accepted. -/
theorem verify_acmod_ecx_pgtbl_advisory (L : acmod_h) (M : mle_h) (C : txt_caps_h)
    (b b1 : acm_blob) (get_parameters : Option getsec_parameters_t)
    (hbits : C.ecx_pgtbl ≠ C.rlp_wake_getsec ∧ C.ecx_pgtbl ≠ C.rlp_wake_monitor)
    (hsame : b.same_but_ecx_pgtbl C b1) :
    verify_acmod L M C b1 get_parameters = verify_acmod L M C b get_parameters :=
  verify_acmod_same_but_ecx_pgtbl L M C b b1 get_parameters hbits hsame

/-- C21 at a concrete input: the sample module passes every check; the same module with
`ecx_pgtbl` clear (capabilities `0x3` for `0x7`) is accepted as well. -/
theorem verify_acmod_ecx_pgtbl_advisory_witness :
    (sample_txt_caps_h.ecx_pgtbl ≠ sample_txt_caps_h.rlp_wake_getsec ∧
      sample_txt_caps_h.ecx_pgtbl ≠ sample_txt_caps_h.rlp_wake_monitor) ∧
    (no_ecx_pgtbl_blob.info_table_at 1216).capabilities.testBit
      sample_txt_caps_h.ecx_pgtbl = false ∧
    verify_acmod sample_acmod_h sample_mle_h sample_txt_caps_h no_ecx_pgtbl_blob
      (some ⟨0x8000⟩) = true :=
  ⟨by decide, by decide,
    (verify_acmod_ecx_pgtbl_advisory sample_acmod_h sample_mle_h sample_txt_caps_h
      (sample_blob 1) no_ecx_pgtbl_blob (some ⟨0x8000⟩) (by decide)
      ⟨rfl, rfl, rfl, fun _ =>
        ⟨rfl, (by decide : (0x3 : Nat) ||| 1 <<< 2 = 0x7 ||| 1 <<< 2)⟩⟩).trans (by decide)⟩

/-- The converse of `get_acmod_chipset_list_some`: the checks, in natural numbers, make
`get_acmod_chipset_list` succeed. -/
theorem get_acmod_chipset_list_of_checks {L : acmod_h} {b : acm_blob} {t : Nat}
    (hsz : b.hdr.size * 4 < U32)
    (ht : get_acmod_info_table L b = some t)
    (h1 : (b.info_table_at t).chipset_id_list + L.sizeof_acm_chipset_id_t < U32)
    (h2 : (b.info_table_at t).chipset_id_list + L.sizeof_acm_chipset_id_t ≤ b.hdr.size * 4)
    (h3 : b.addr + (b.info_table_at t).chipset_id_list < U32)
    (h4 : (b.chipset_list_at (b.info_table_at t).chipset_id_list).count *
      L.sizeof_acm_chipset_id_t < U32)
    (h5 : (b.info_table_at t).chipset_id_list + L.sizeof_acm_chipset_id_t +
      (b.chipset_list_at (b.info_table_at t).chipset_id_list).count *
        L.sizeof_acm_chipset_id_t < U32)
    (h6 : (b.info_table_at t).chipset_id_list + L.sizeof_acm_chipset_id_t +
      (b.chipset_list_at (b.info_table_at t).chipset_id_list).count *
        L.sizeof_acm_chipset_id_t ≤ b.hdr.size * 4) :
    get_acmod_chipset_list L b = some (b.info_table_at t).chipset_id_list := by
  unfold get_acmod_chipset_list
  rw [ht]
  simp only [plus_overflow_u32, multiply_overflow_u32, plus_overflow_ul,
    Nat.mod_eq_of_lt hsz, Nat.mod_eq_of_lt h1, Nat.mod_eq_of_lt h4, Nat.mod_eq_of_lt h5,
    decide_eq_true_eq]
  rw [if_neg (by omega), if_neg (by omega), if_neg (by omega), if_neg (by omega),
    if_neg (by omega), if_neg (by omega)]

/-- C29 (as amended): `get_acmod_chipset_list` accepts exactly the lists that pass its
checks. For every header with `hdr.size * 4` not overflowing whose info table parses,
with `id_list_off` the member `chipset_id_list` of the table and `count` the member
`count` of the list, the function returns a view that is not `NULL`, the one at
`id_list_off`, if and only if (1) `id_list_off + sizeof(acm_chipset_id_t)` does not
overflow 32 bits and is at most `hdr.size * 4`, (2) `count * sizeof(acm_chipset_id_t)`
does not overflow, (3) `id_list_off + sizeof(acm_chipset_id_t) +
count * sizeof(acm_chipset_id_t)` does not overflow and is at most `hdr.size * 4` (the
size of one entry stands for the size of the list header), and (4) the address of the
header plus `id_list_off` does not overflow the address space. -/
theorem get_acmod_chipset_list_iff_checks (L : acmod_h) (b : acm_blob) (t : Nat)
    (hsz : b.hdr.size * 4 < U32) (ht : get_acmod_info_table L b = some t) :
    (get_acmod_chipset_list L b ≠ none ↔
      (((b.info_table_at t).chipset_id_list + L.sizeof_acm_chipset_id_t < U32 ∧
          (b.info_table_at t).chipset_id_list + L.sizeof_acm_chipset_id_t ≤
            b.hdr.size * 4) ∧
        (b.chipset_list_at (b.info_table_at t).chipset_id_list).count *
          L.sizeof_acm_chipset_id_t < U32 ∧
        ((b.info_table_at t).chipset_id_list + L.sizeof_acm_chipset_id_t +
            (b.chipset_list_at (b.info_table_at t).chipset_id_list).count *
              L.sizeof_acm_chipset_id_t < U32 ∧
          (b.info_table_at t).chipset_id_list + L.sizeof_acm_chipset_id_t +
            (b.chipset_list_at (b.info_table_at t).chipset_id_list).count *
              L.sizeof_acm_chipset_id_t ≤ b.hdr.size * 4) ∧
        b.addr + (b.info_table_at t).chipset_id_list < U32)) ∧
    (get_acmod_chipset_list L b ≠ none →
      get_acmod_chipset_list L b = some (b.info_table_at t).chipset_id_list) := by
  have hfwd : ∀ off, get_acmod_chipset_list L b = some off →
      off = (b.info_table_at t).chipset_id_list ∧
      (((b.info_table_at t).chipset_id_list + L.sizeof_acm_chipset_id_t < U32 ∧
          (b.info_table_at t).chipset_id_list + L.sizeof_acm_chipset_id_t ≤
            b.hdr.size * 4) ∧
        (b.chipset_list_at (b.info_table_at t).chipset_id_list).count *
          L.sizeof_acm_chipset_id_t < U32 ∧
        ((b.info_table_at t).chipset_id_list + L.sizeof_acm_chipset_id_t +
            (b.chipset_list_at (b.info_table_at t).chipset_id_list).count *
              L.sizeof_acm_chipset_id_t < U32 ∧
          (b.info_table_at t).chipset_id_list + L.sizeof_acm_chipset_id_t +
            (b.chipset_list_at (b.info_table_at t).chipset_id_list).count *
              L.sizeof_acm_chipset_id_t ≤ b.hdr.size * 4) ∧
        b.addr + (b.info_table_at t).chipset_id_list < U32) := by
    intro off h
    obtain ⟨t1, ht1, hoff, e1, e2, e3, e4, e5, e6⟩ := get_acmod_chipset_list_some h
    rw [ht] at ht1
    have htt : t = t1 := by simpa using ht1
    subst htt
    rw [Nat.mod_eq_of_lt hsz] at e2 e6
    subst hoff
    exact ⟨rfl, ⟨e1, e2⟩, e4, ⟨e5, e6⟩, e3⟩
  constructor
  · constructor
    · intro hne
      cases hg : get_acmod_chipset_list L b with
      | none => exact absurd hg hne
      | some off => exact (hfwd off hg).2
    · rintro ⟨⟨h1, h2⟩, h4, ⟨h5, h6⟩, h3⟩
      rw [get_acmod_chipset_list_of_checks hsz ht h1 h2 h3 h4 h5 h6]
      simp
  · intro hne
    cases hg : get_acmod_chipset_list L b with
    | none => exact absurd hg hne
    | some off => rw [(hfwd off hg).1]

/-- C29 (as amended) at a concrete input: the sample module, whose list of one entry at
byte 1260 passes the four checks, gives the view at byte 1260. -/
theorem get_acmod_chipset_list_iff_checks_witness :
    sample_hdr.size * 4 < U32 ∧
    get_acmod_info_table sample_acmod_h (sample_blob 1) = some 1216 ∧
    get_acmod_chipset_list sample_acmod_h (sample_blob 1) = some 1260 :=
  ⟨by decide, by decide,
    (get_acmod_chipset_list_iff_checks sample_acmod_h (sample_blob 1) 1216 (by decide)
      (by decide)).2
      (((get_acmod_chipset_list_iff_checks sample_acmod_h (sample_blob 1) 1216 (by decide)
        (by decide)).1).mpr (by decide))⟩

/-- C29, the claim as stated fails: in the module `tail_list_blob` of 4096 bytes the
list is at byte 4076, so that its `count` member (4 bytes) and its one entry (16 bytes)
end exactly at the end of the blob. The info table parses and the three checks of the
claim hold, with the size of `count` for the list header in the third, but
`get_acmod_chipset_list` returns `NULL`: its third check adds the size of an entry. -/
theorem get_acmod_chipset_list_rejects_exact_fit :
    tail_list_blob.hdr.size * 4 < U32 ∧
    get_acmod_info_table sample_acmod_h tail_list_blob = some 1216 ∧
    (tail_list_blob.info_table_at 1216).chipset_id_list = 4076 ∧
    (tail_list_blob.chipset_list_at 4076).count = 1 ∧
    (4076 + sample_acmod_h.sizeof_acm_chipset_id_t < U32 ∧
      4076 + sample_acmod_h.sizeof_acm_chipset_id_t ≤ tail_list_blob.hdr.size * 4) ∧
    1 * sample_acmod_h.sizeof_acm_chipset_id_t < U32 ∧
    (4076 + sample_acmod_h.sizeof_count + 1 * sample_acmod_h.sizeof_acm_chipset_id_t < U32 ∧
      4076 + sample_acmod_h.sizeof_count + 1 * sample_acmod_h.sizeof_acm_chipset_id_t =
        tail_list_blob.hdr.size * 4) ∧
    get_acmod_chipset_list sample_acmod_h tail_list_blob = none := by
  decide

/-! ## Further claims on the memory map -/

/-- The elements of a list with one element inserted behind the index `pos`. -/
theorem getElem?_take_cons_drop {α : Type} (L : List α) (x : α) (pos : Nat)
    (hpos : pos < L.length) :
    (∀ k, k ≤ pos → (L.take (pos + 1) ++ x :: L.drop (pos + 1))[k]? = L[k]?) ∧
    (L.take (pos + 1) ++ x :: L.drop (pos + 1))[pos + 1]? = some x ∧
    (∀ j, pos + 1 ≤ j → (L.take (pos + 1) ++ x :: L.drop (pos + 1))[j + 1]? = L[j]?) := by
  have hlen : (L.take (pos + 1)).length = pos + 1 := by
    rw [List.length_take]
    omega
  refine ⟨?_, ?_, ?_⟩
  · intro k hk
    rw [List.getElem?_append_left (by rw [hlen]; omega), List.getElem?_take]
    rw [if_pos (by omega)]
  · rw [List.getElem?_append_right (by rw [hlen]), hlen]
    simp
  · intro j hj
    rw [List.getElem?_append_right (by rw [hlen]; omega), hlen]
    have : j + 1 - (pos + 1) = (j - (pos + 1)) + 1 := by omega
    rw [this, List.getElem?_cons_succ, List.getElem?_drop]
    congr 1
    omega

/-- C27: `insert_after_region` inserts at the logical index `pos + 1` and shifts the
tail. For every map of `n = size / descr_size` entries, with `size` a multiple of
`descr_size`, slots of `descr_size > 0` bytes that hold a descriptor, `n + 1 <=
EFI_MEMMAP_MAX_ENTRIES`, the map with one more slot inside the 32-bit address space,
and every `pos < n`, the call `insert_after_region(pos, addr, sz, type, attr)` returns
true; afterwards the entries `0..pos` are unchanged, the entry `pos + 1` has
`physical_start = addr`, `num_pages = sz >> EFI_PAGE_SHIFT`, `type`, `attribute = attr`
and the rest of its slot zero, for every `j` with `pos + 1 <= j < n` the new entry
`j + 1` is the old entry `j`, and `size` has grown by `descr_size`. -/
theorem insert_after_region_inserts (maxEntries : Nat) (m : efi_memmap_t)
    (pos addr sz type attr : Nat)
    (hds : 0 < m.descr_size) (hmul : m.size % m.descr_size = 0)
    (hfit : m.size + m.descr_size < U32)
    (hroom : m.size / m.descr_size + 1 ≤ maxEntries)
    (hpos : pos < m.size / m.descr_size) :
    ∃ m1, insert_after_region maxEntries m pos addr sz type attr = some (true, m1) ∧
      (∀ k, k ≤ pos → m1.descr (k * m.descr_size) = m.descr (k * m.descr_size)) ∧
      m1.descr ((pos + 1) * m.descr_size) = ⟨type, addr, sz >>> EFI_PAGE_SHIFT, attr, 0⟩ ∧
      (∀ j, pos + 1 ≤ j → j < m.size / m.descr_size →
        m1.descr ((j + 1) * m.descr_size) = m.descr (j * m.descr_size)) ∧
      m1.size = m.size + m.descr_size ∧ m1.descr_size = m.descr_size := by
  have hh := efi_memmap_t.holds_entries hmul
  have hn : m.entries.length = m.size / m.descr_size := by simp [efi_memmap_t.entries]
  have hold : ∀ k, k < m.size / m.descr_size →
      m.entries[k]? = some (m.descr (k * m.descr_size)) := by
    intro k hk
    unfold efi_memmap_t.entries
    rw [List.getElem?_map, List.getElem?_range hk]
    rfl
  obtain ⟨m1, hins, hds1, hh1⟩ := insert_after_region_holds maxEntries hds hh hfit
    (by rw [hn]; exact hroom) pos addr sz type attr (by rw [hn]; exact hpos)
  obtain ⟨g1, g2, g3⟩ := getElem?_take_cons_drop m.entries
    (⟨type, addr, sz >>> EFI_PAGE_SHIFT, attr, 0⟩ : efi_mem_descr_t) pos
    (by rw [hn]; exact hpos)
  refine ⟨m1, hins, ?_, ?_, ?_, ?_, hds1⟩
  · intro k hk
    have := hh1.2 k (m.descr (k * m.descr_size)) (by rw [g1 k hk]; exact hold k (by omega))
    rw [hds1] at this
    exact this
  · have := hh1.2 (pos + 1) _ g2
    rw [hds1] at this
    exact this
  · intro j hj hjn
    have := hh1.2 (j + 1) (m.descr (j * m.descr_size)) (by rw [g3 j hj]; exact hold j hjn)
    rw [hds1] at this
    exact this
  · have h1 := hh1.1
    rw [h1, hds1]
    simp only [List.length_append, List.length_cons, List.length_take, List.length_drop, hn]
    have h2 : m.size = m.size / m.descr_size * m.descr_size :=
      (Nat.div_mul_cancel (Nat.dvd_of_mod_eq_zero hmul)).symm
    have h3 : min (pos + 1) (m.size / m.descr_size) +
        (m.size / m.descr_size - (pos + 1) + 1) = m.size / m.descr_size + 1 := by omega
    rw [h3, Nat.add_mul, Nat.one_mul, ← h2]

/-- C27 at a concrete input: on the map of two adjacent conventional entries,
`insert_after_region(0, 0x5000, 0x3000, EFI_RESERVED_TYPE, 0x8)` returns true, keeps
the entry 0, puts the new entry of three pages at index 1 and the old entry 1 at
index 2; the size grows from 96 to 144. -/
theorem insert_after_region_inserts_witness :
    ∃ m1, insert_after_region 128 adjacent_free_state.efi_mmap 0 0x5000 0x3000
        EFI_RESERVED_TYPE 0x8 = some (true, m1) ∧
      m1.descr 0 = ⟨EFI_CONVENTIONAL_MEMORY, 0x0, 2, 0xf, 0⟩ ∧
      m1.descr 48 = ⟨EFI_RESERVED_TYPE, 0x5000, 3, 0x8, 0⟩ ∧
      m1.descr 96 = ⟨EFI_CONVENTIONAL_MEMORY, 0x2000, 1, 0xf, 0⟩ ∧
      m1.size = 144 ∧ m1.descr_size = 48 := by
  obtain ⟨m1, h, h1, h2, h3, h4, h5⟩ := insert_after_region_inserts 128
    adjacent_free_state.efi_mmap 0 0x5000 0x3000 EFI_RESERVED_TYPE 0x8
    (by decide) (by decide) (by decide) (by decide) (by decide)
  exact ⟨m1, h, h1 0 (le_refl 0), h2, h3 1 (le_refl 1) (by decide), h4, h5⟩

/-- A scan that returns false has had a call of `insert_after_region` fail: the map it
leaves is one on which `insert_after_region` fails. -/
theorem reserve_loop_false (maxEntries base length end_ : Nat) :
    ∀ (fuel : Nat) (s : efi_state) (desc : Option Nat) (i : Nat) (s1 : efi_state),
      reserve_loop maxEntries base length end_ fuel s desc i = some (false, s1) →
      ∃ pos addr sz type attr,
        insert_after_region maxEntries s1.efi_mmap pos addr sz type attr =
          some (false, s1.efi_mmap) := by
  intro fuel
  induction fuel with
  | zero =>
    intro s desc i s1 h
    simp [reserve_loop] at h
  | succ f ih =>
    intro s desc i s1 h
    rw [reserve_loop] at h
    cases hw : efi_memmap_walk s desc with
    | none =>
      rw [hw] at h
      simp at h
    | some d =>
      rw [hw] at h
      simp only at h
      generalize hde : ((s.efi_mmap.descr d).physical_start +
        (s.efi_mmap.descr d).num_pages <<< EFI_PAGE_SHIFT % U64) % U64 = de at h
      by_cases c0 : (s.efi_mmap.descr d).type < EFI_LOADER_CODE ∨
          (s.efi_mmap.descr d).type > EFI_CONVENTIONAL_MEMORY
      · simp only [if_pos c0] at h
        exact ih _ _ _ _ h
      simp only [if_neg c0] at h
      by_cases c1 : end_ ≤ (s.efi_mmap.descr d).physical_start
      · simp only [if_pos c1] at h
        exact ih _ _ _ _ h
      simp only [if_neg c1] at h
      by_cases c2 : base ≥ de
      · simp only [if_pos c2] at h
        exact ih _ _ _ _ h
      simp only [if_neg c2] at h
      by_cases c3 : base ≤ (s.efi_mmap.descr d).physical_start ∧ de ≤ end_
      · simp only [if_pos c3] at h
        exact ih _ _ _ _ h
      simp only [if_neg c3] at h
      by_cases c4 : (s.efi_mmap.descr d).physical_start ≥ base ∧
          end_ > (s.efi_mmap.descr d).physical_start ∧ de > end_
      · simp only [if_pos c4] at h
        cases hins : insert_after_region maxEntries s.efi_mmap ((i + U32 - 1) % U32)
            (s.efi_mmap.descr d).physical_start (end_ - (s.efi_mmap.descr d).physical_start)
            EFI_RESERVED_TYPE (s.efi_mmap.descr d).attr with
        | none =>
          rw [hins] at h
          simp at h
        | some r =>
          obtain ⟨ok, m1⟩ := r
          rw [hins] at h
          cases ok with
          | false =>
            simp only [Option.some.injEq, Prod.mk.injEq, true_and] at h
            subst h
            have := (insert_after_region_false hins).2
            subst this
            exact ⟨_, _, _, _, _, hins⟩
          | true =>
            simp only at h
            cases hw1 : efi_memmap_walk ⟨s.efi_mmap_available, m1⟩ (some d) with
            | none =>
              rw [hw1] at h
              simp at h
            | some d1 =>
              rw [hw1] at h
              simp at h
      simp only [if_neg c4] at h
      by_cases c5 : base > (s.efi_mmap.descr d).physical_start ∧ de > base ∧ end_ ≥ de
      · simp only [if_pos c5] at h
        generalize hm0 : s.efi_mmap.store d _ = m0 at h
        cases hins : insert_after_region maxEntries m0 i base (de - base)
            EFI_RESERVED_TYPE (m0.descr d).attr with
        | none =>
          rw [hins] at h
          simp at h
        | some r =>
          obtain ⟨ok, m1⟩ := r
          rw [hins] at h
          cases ok with
          | false =>
            simp only [Option.some.injEq, Prod.mk.injEq, true_and] at h
            subst h
            have := (insert_after_region_false hins).2
            subst this
            exact ⟨_, _, _, _, _, hins⟩
          | true =>
            simp only at h
            exact ih _ _ _ _ h
      simp only [if_neg c5] at h
      by_cases c6 : base > (s.efi_mmap.descr d).physical_start ∧ de > end_
      · simp only [if_pos c6] at h
        generalize hm0 : s.efi_mmap.store d _ = m0 at h
        cases hins : insert_after_region maxEntries m0 i base length
            EFI_RESERVED_TYPE (m0.descr d).attr with
        | none =>
          rw [hins] at h
          simp at h
        | some r =>
          obtain ⟨ok, m1⟩ := r
          rw [hins] at h
          cases ok with
          | false =>
            simp only [Option.some.injEq, Prod.mk.injEq, true_and] at h
            subst h
            have := (insert_after_region_false hins).2
            subst this
            exact ⟨_, _, _, _, _, hins⟩
          | true =>
            simp only at h
            cases hins2 : insert_after_region maxEntries m1 ((i + 1) % U32) end_ (de - end_)
                (m1.descr d).type (m1.descr d).attr with
            | none =>
              rw [hins2] at h
              simp at h
            | some r2 =>
              obtain ⟨ok2, m2⟩ := r2
              rw [hins2] at h
              cases ok2 with
              | false =>
                simp only [Option.some.injEq, Prod.mk.injEq, true_and] at h
                subst h
                have := (insert_after_region_false hins2).2
                subst this
                exact ⟨_, _, _, _, _, hins2⟩
              | true => simp at h
      exfalso
      omega

/-- C26: the four overlap cases of `efi_memmap_reserve` are disjoint and exhaustive, so
the branch "we should never get here" is unreachable. For all values `base`, `end`,
`desc_base`, `desc_end`, with no assumption on their order, such that the two skip
tests fail (`end > desc_base` and `base < desc_end`), the chain of tests picks one of
the four cases, never the last branch, and the case it picks is the only one whose
condition holds: case 1 `base <= desc_base && desc_end <= end`, case 2 `desc_base >=
base && end > desc_base && desc_end > end`, case 3 `base > desc_base && desc_end > base
&& end >= desc_end`, case 4 `base > desc_base && desc_end > end`. Hence
`efi_memmap_reserve` returns false only when `insert_after_region` fails: the map it
leaves behind is one on which `insert_after_region` returns false. -/
theorem reserve_cases_disjoint_exhaustive (maxEntries : Nat) :
    (∀ base end_ desc_base desc_end : Nat, end_ > desc_base → base < desc_end →
      (1 ≤ reserve_case base end_ desc_base desc_end ∧
        reserve_case base end_ desc_base desc_end ≤ 4) ∧
      (reserve_case base end_ desc_base desc_end = 1 ↔
        (base ≤ desc_base ∧ desc_end ≤ end_)) ∧
      (reserve_case base end_ desc_base desc_end = 2 ↔
        (desc_base ≥ base ∧ end_ > desc_base ∧ desc_end > end_)) ∧
      (reserve_case base end_ desc_base desc_end = 3 ↔
        (base > desc_base ∧ desc_end > base ∧ end_ ≥ desc_end)) ∧
      (reserve_case base end_ desc_base desc_end = 4 ↔
        (base > desc_base ∧ desc_end > end_))) ∧
    (∀ (fuel : Nat) (s : efi_state) (base length : Nat) (s1 : efi_state),
      efi_memmap_reserve maxEntries fuel s base length = some (false, s1) →
      ∃ pos addr sz type attr,
        insert_after_region maxEntries s1.efi_mmap pos addr sz type attr =
          some (false, s1.efi_mmap)) := by
  constructor
  · intro base end_ desc_base desc_end h1 h2
    unfold reserve_case
    rw [if_neg (by omega), if_neg (by omega)]
    by_cases c1 : base ≤ desc_base ∧ desc_end ≤ end_
    · rw [if_pos c1]
      refine ⟨by decide, ?_, ?_, ?_, ?_⟩
      · simp only [true_iff]; exact c1
      · constructor
        · intro h; exact absurd h (by decide)
        · intro h; omega
      · constructor
        · intro h; exact absurd h (by decide)
        · intro h; omega
      · constructor
        · intro h; exact absurd h (by decide)
        · intro h; omega
    rw [if_neg c1]
    by_cases c2 : desc_base ≥ base ∧ end_ > desc_base ∧ desc_end > end_
    · rw [if_pos c2]
      refine ⟨by decide, ?_, ?_, ?_, ?_⟩
      · constructor
        · intro h; exact absurd h (by decide)
        · intro h; exact absurd h c1
      · simp only [true_iff]; exact c2
      · constructor
        · intro h; exact absurd h (by decide)
        · intro h; omega
      · constructor
        · intro h; exact absurd h (by decide)
        · intro h; omega
    rw [if_neg c2]
    by_cases c3 : base > desc_base ∧ desc_end > base ∧ end_ ≥ desc_end
    · rw [if_pos c3]
      refine ⟨by decide, ?_, ?_, ?_, ?_⟩
      · constructor
        · intro h; exact absurd h (by decide)
        · intro h; exact absurd h c1
      · constructor
        · intro h; exact absurd h (by decide)
        · intro h; exact absurd h c2
      · simp only [true_iff]; exact c3
      · constructor
        · intro h; exact absurd h (by decide)
        · intro h; omega
    rw [if_neg c3]
    have c4 : base > desc_base ∧ desc_end > end_ := by omega
    rw [if_pos c4]
    refine ⟨by decide, ?_, ?_, ?_, ?_⟩
    · constructor
      · intro h; exact absurd h (by decide)
      · intro h; exact absurd h c1
    · constructor
      · intro h; exact absurd h (by decide)
      · intro h; exact absurd h c2
    · constructor
      · intro h; exact absurd h (by decide)
      · intro h; exact absurd h c3
    · simp only [true_iff]; exact c4
  · intro fuel s base length s1 h
    unfold efi_memmap_reserve at h
    split at h
    · simp at h
    · exact reserve_loop_false _ _ _ _ _ _ _ _ _ h

/-- C26 at concrete inputs: for the range `[0x1000, 0x2000)` and an entry
`[0x0, 0x4000)` the chain picks case 4 and no other condition holds; on a map of one
entry that is full (`EFI_MEMMAP_MAX_ENTRIES` taken as 1) this reservation returns
false, and `insert_after_region` fails on the map left behind. -/
theorem reserve_cases_disjoint_exhaustive_witness :
    reserve_case 0x1000 0x2000 0x0 0x4000 = 4 ∧
    ¬ (0x1000 ≤ 0x0 ∧ 0x4000 ≤ 0x2000) ∧
    (∃ s1, efi_memmap_reserve 1 2 (single_entry_state 4) 0x1000 0x1000 = some (false, s1) ∧
      ∃ pos addr sz type attr,
        insert_after_region 1 s1.efi_mmap pos addr sz type attr =
          some (false, s1.efi_mmap)) :=
  ⟨((reserve_cases_disjoint_exhaustive 1).1 0x1000 0x2000 0x0 0x4000 (by decide)
      (by decide)).2.2.2.2.mpr (by decide),
    fun h => absurd (((reserve_cases_disjoint_exhaustive 1).1 0x1000 0x2000 0x0 0x4000
      (by decide) (by decide)).2.1.mpr h) (by decide),
    ⟨_, rfl, (reserve_cases_disjoint_exhaustive 1).2 2 (single_entry_state 4) 0x1000 0x1000
      _ rfl⟩⟩

/-- One turn of the scan loop on an entry that the scan passes over: the map is
unchanged, and the cursor and the loop index move to the next entry. -/
theorem reserve_loop_skip (maxEntries base length end_ : Nat) {s : efi_state}
    {done rest : List efi_mem_descr_t} {x : efi_mem_descr_t} (f : Nat)
    (hav : s.efi_mmap_available = true) (hds : 0 < s.efi_mmap.descr_size)
    (hfit : s.efi_mmap.size + s.efi_mmap.descr_size < U32)
    (hh : s.efi_mmap.holds (done ++ x :: rest)) (hx : x.passed_over base end_) :
    reserve_loop maxEntries base length end_ (f + 1) s
        (scan_cursor s.efi_mmap.descr_size done.length) done.length =
      reserve_loop maxEntries base length end_ f s
        (scan_cursor s.efi_mmap.descr_size (done.length + 1)) (done.length + 1) := by
  have hwalk := efi_memmap_walk_entry hav hds hh hfit
  have he : s.efi_mmap.descr (done.length * s.efi_mmap.descr_size) = x :=
    hh.2 _ _ (getElem?_append_cons_length done x rest)
  have hsz := hh.1
  simp only [List.length_append, List.length_cons] at hsz
  have hjlt : done.length + 1 < U32 := by
    have : (done.length + 1) * 1 ≤ (done.length + (rest.length + 1)) * s.efi_mmap.descr_size :=
      Nat.mul_le_mul (by omega) hds
    omega
  have hmod : (done.length + 1) % U32 = done.length + 1 := Nat.mod_eq_of_lt hjlt
  have hcur : scan_cursor s.efi_mmap.descr_size (done.length + 1) =
      some (done.length * s.efi_mmap.descr_size) := by
    simp [scan_cursor]
  rw [reserve_loop, hwalk]
  simp only [he]
  rw [hcur, hmod]
  have hx1 := (efi_mem_descr_t.passed_over_iff x base end_).mp hx
  unfold efi_mem_descr_t.desc_end at hx1
  by_cases c0 : x.type < EFI_LOADER_CODE ∨ x.type > EFI_CONVENTIONAL_MEMORY
  · simp only [if_pos c0]
  simp only [if_neg c0]
  by_cases c1 : end_ ≤ x.physical_start
  · simp only [if_pos c1]
  simp only [if_neg c1]
  have c2 : base ≥ (x.physical_start + x.num_pages <<< EFI_PAGE_SHIFT % U64) % U64 := by
    rcases hx1 with h | h | h
    · exact absurd h c0
    · exact absurd h c1
    · exact h
  simp only [if_pos c2]

/-- The scan loop over a run of entries that the scan passes over: the map is
unchanged, and the cursor and the loop index stand at the entry behind the run. -/
theorem reserve_loop_skip_front (maxEntries base length end_ : Nat) {s : efi_state}
    (hav : s.efi_mmap_available = true) (hds : 0 < s.efi_mmap.descr_size)
    (hfit : s.efi_mmap.size + s.efi_mmap.descr_size < U32) :
    ∀ (pre done rest : List efi_mem_descr_t) (f : Nat),
      s.efi_mmap.holds (done ++ (pre ++ rest)) →
      (∀ x ∈ pre, x.passed_over base end_) →
      reserve_loop maxEntries base length end_ (f + pre.length) s
          (scan_cursor s.efi_mmap.descr_size done.length) done.length =
        reserve_loop maxEntries base length end_ f s
          (scan_cursor s.efi_mmap.descr_size (done.length + pre.length))
          (done.length + pre.length) := by
  intro pre
  induction pre with
  | nil => intro done rest f _ _; rfl
  | cons x xs ih =>
    intro done rest f hh hall
    have h1 : f + (x :: xs).length = (f + xs.length) + 1 := by simp; omega
    rw [h1, reserve_loop_skip maxEntries base length end_ (f + xs.length) hav hds hfit
      (by simpa using hh) (hall x (List.mem_cons_self _ _))]
    have h2 := ih (done ++ [x]) rest f (by simpa using hh)
      (fun y hy => hall y (List.mem_cons_of_mem _ hy))
    simp only [List.length_append, List.length_cons, List.length_nil] at h2
    rw [h2]
    simp only [List.length_cons]
    have h3 : done.length + (0 + 1) + xs.length = done.length + (xs.length + 1) := by omega
    rw [h3]

/-- One turn of the scan loop on a free-type entry `d` with `d.start < base < d.end <=
end` (case 3) in a map with room for one more entry: the entry is shrunk, the new
reserved entry is inserted behind it, and the loop goes on with the cursor and the
loop index at the entry behind the two. -/
theorem reserve_loop_right_split (maxEntries base length end_ : Nat) {s : efi_state}
    {done rest : List efi_mem_descr_t} {d : efi_mem_descr_t} (f : Nat)
    (hav : s.efi_mmap_available = true) (hds : 0 < s.efi_mmap.descr_size)
    (hfit : s.efi_mmap.size + s.efi_mmap.descr_size < U32)
    (hmax : (maxEntries + 1) * s.efi_mmap.descr_size < U32)
    (hh : s.efi_mmap.holds (done ++ d :: rest))
    (hroom : done.length + (rest.length + 1) + 1 ≤ maxEntries)
    (hfree : d.is_free)
    (hleft : d.physical_start < base) (hin : base < d.desc_end) (hright : d.desc_end ≤ end_) :
    ∃ s1, s1.efi_mmap_available = true ∧
      s1.efi_mmap.descr_size = s.efi_mmap.descr_size ∧
      s1.efi_mmap.size + s1.efi_mmap.descr_size < U32 ∧
      s1.efi_mmap.holds (done ++
        [⟨d.type, d.physical_start, (base - d.physical_start) >>> EFI_PAGE_SHIFT, d.attr,
            d.other⟩,
          ⟨EFI_RESERVED_TYPE, base, (d.desc_end - base) >>> EFI_PAGE_SHIFT, d.attr, 0⟩] ++
        rest) ∧
      reserve_loop maxEntries base length end_ (f + 1) s
          (scan_cursor s.efi_mmap.descr_size done.length) done.length =
        reserve_loop maxEntries base length end_ f s1
          (scan_cursor s.efi_mmap.descr_size (done.length + 2)) (done.length + 2) := by
  have hwalk := efi_memmap_walk_entry hav hds hh hfit
  have he : s.efi_mmap.descr (done.length * s.efi_mmap.descr_size) = d :=
    hh.2 _ _ (getElem?_append_cons_length done d rest)
  have hsz := hh.1
  simp only [List.length_append, List.length_cons] at hsz
  have hcur : scan_cursor s.efi_mmap.descr_size (done.length + 1) =
      some (done.length * s.efi_mmap.descr_size) := by
    simp [scan_cursor]
  have hcur2 : scan_cursor s.efi_mmap.descr_size (done.length + 2) =
      some ((done.length + 1) * s.efi_mmap.descr_size) := by
    simp [scan_cursor]
  have hj2 : (done.length + 1 + 1) % U32 = done.length + 2 := by
    apply Nat.mod_eq_of_lt
    have h1 : (done.length + 1 + 1) * 1 ≤ (maxEntries + 1) * s.efi_mmap.descr_size :=
      Nat.mul_le_mul (by omega) hds
    omega
  have hf := hfree
  unfold efi_mem_descr_t.is_free at hf
  unfold efi_mem_descr_t.desc_end at hin hright ⊢
  rw [reserve_loop, hwalk]
  simp only [he]
  generalize hde : (d.physical_start + d.num_pages <<< EFI_PAGE_SHIFT % U64) % U64 = de
    at hin hright ⊢
  rw [if_neg (by omega), if_neg (by omega), if_neg (by omega), if_neg (by omega),
    if_neg (by omega), if_pos ⟨hleft, hin, hright⟩]
  have hst0 := efi_memmap_t.holds_store hds hh done.length
    (⟨d.type, d.physical_start, (base - d.physical_start) >>> EFI_PAGE_SHIFT, d.attr,
      d.other⟩ : efi_mem_descr_t)
  rw [set_append_cons_length] at hst0
  generalize hm0 : s.efi_mmap.store (done.length * s.efi_mmap.descr_size)
    (⟨d.type, d.physical_start, (base - d.physical_start) >>> EFI_PAGE_SHIFT, d.attr,
      d.other⟩ : efi_mem_descr_t) = m0 at hst0 ⊢
  have hds0 : m0.descr_size = s.efi_mmap.descr_size := by rw [← hm0]; rfl
  have hsz0 : m0.size = s.efi_mmap.size := by rw [← hm0]; rfl
  have hm0d : m0.descr (done.length * s.efi_mmap.descr_size) =
      (⟨d.type, d.physical_start, (base - d.physical_start) >>> EFI_PAGE_SHIFT, d.attr,
        d.other⟩ : efi_mem_descr_t) := by
    rw [← hm0]
    simp [efi_memmap_t.store]
  have hlen0 : (done ++ (⟨d.type, d.physical_start,
      (base - d.physical_start) >>> EFI_PAGE_SHIFT, d.attr, d.other⟩ : efi_mem_descr_t) ::
      rest).length = done.length + (rest.length + 1) := by simp
  rw [hm0d]
  simp only
  obtain ⟨m1, hins, hds1, hh1⟩ := insert_after_region_holds maxEntries
    (m := m0) (by rw [hds0]; exact hds) hst0
    (by rw [hds0, hsz0]; exact hfit) (by rw [hlen0]; omega) done.length base
    (de - base) EFI_RESERVED_TYPE d.attr (by rw [hlen0]; omega)
  rw [hins]
  simp only
  rw [take_append_cons_length, drop_append_cons_length] at hh1
  rw [hds0] at hds1
  have hsz1 := hh1.1
  simp only [List.length_append, List.length_cons, List.length_nil] at hsz1
  have hsz1a : m1.size = (done.length + (rest.length + 1) + 1) * s.efi_mmap.descr_size := by
    rw [hsz1, hds1]
    ring
  have hfitm1 : m1.size + s.efi_mmap.descr_size < U32 := by
    rw [hsz1a]
    have h1 : (done.length + (rest.length + 1) + 1 + 1) * s.efi_mmap.descr_size ≤
        (maxEntries + 1) * s.efi_mmap.descr_size := Nat.mul_le_mul_right _ (by omega)
    have h2 : (done.length + (rest.length + 1) + 1 + 1) * s.efi_mmap.descr_size =
        (done.length + (rest.length + 1) + 1) * s.efi_mmap.descr_size +
          s.efi_mmap.descr_size := by ring
    omega
  have hwalk1 := efi_memmap_walk_entry (s := ⟨s.efi_mmap_available, m1⟩) hav
    (by rw [hds1]; exact hds) hh1 (by rw [hds1]; exact hfitm1)
  simp only [List.length_append, List.length_cons, List.length_nil, hds1] at hwalk1
  rw [hcur] at hwalk1
  rw [hwalk1, hj2, hcur2]
  exact ⟨⟨s.efi_mmap_available, m1⟩, hav, hds1, by rw [hds1]; exact hfitm1,
    by simpa using hh1, rfl⟩

/-- C25 (as amended): case 3 (right overlap) splits into the original head plus a
reserved tail and keeps scanning. On an available, well-formed map (whole slots, each
of at least `sizeof(efi_mem_descr_t)` bytes) with room for one more entry, let `d`
be a free-type entry at index `k` with `d.start < base' < d.end <= end'`, the entries
in front of it being passed over by the scan. Then `efi_memmap_reserve` reaches a map
with the entry `{d.start, (base' - d.start) pages, d.type, d.attribute}` at index `k`,
the new entry `{base', (d.end - base') pages, EFI_RESERVED_TYPE, d.attribute}` at index
`k + 1` and the entries behind `d` one slot further up, and goes on from there with the
cursor and the loop index `i` at index `k + 2`, the entry that was at index `k + 1`:
the call returns what the scan of the entries behind `d` returns, the two entries stay
at the indices `k` and `k + 1`, and the entries behind them are what that scan leaves. -/
theorem efi_memmap_reserve_right_split (maxEntries fuel : Nat) (s : efi_state)
    (base length : Nat) (before after : List efi_mem_descr_t) (d : efi_mem_descr_t)
    (hav : s.efi_mmap_available = true)
    (hwf : s.efi_mmap.well_formed maxEntries)
    (hentries : s.efi_mmap.entries = before ++ d :: after)
    (hroom : s.efi_mmap.size / s.efi_mmap.descr_size + 1 ≤ maxEntries)
    (hlen : length ≠ 0)
    (hfree : d.is_free)
    (hleft : d.physical_start < reserve_base base)
    (hin : reserve_base base < d.desc_end)
    (hright : d.desc_end ≤ reserve_end base length)
    (hbefore : ∀ x ∈ before, x.passed_over (reserve_base base) (reserve_end base length))
    (hfuel : s.efi_mmap.size / s.efi_mmap.descr_size < fuel) :
    ∃ (s0 : efi_state) (r : Bool) (s1 : efi_state) (tail : List efi_mem_descr_t),
      s0.efi_mmap.entries = before ++
        [⟨d.type, d.physical_start,
            (reserve_base base - d.physical_start) >>> EFI_PAGE_SHIFT, d.attr, d.other⟩,
          ⟨EFI_RESERVED_TYPE, reserve_base base,
            (d.desc_end - reserve_base base) >>> EFI_PAGE_SHIFT, d.attr, 0⟩] ++ after ∧
      s0.efi_mmap.descr_size = s.efi_mmap.descr_size ∧
      efi_memmap_reserve maxEntries fuel s base length =
        reserve_loop maxEntries (reserve_base base) (reserve_length length)
          (reserve_end base length) (fuel - (before.length + 1)) s0
          (scan_cursor s.efi_mmap.descr_size (before.length + 2)) (before.length + 2) ∧
      efi_memmap_reserve maxEntries fuel s base length = some (r, s1) ∧
      (r, s1.efi_mmap.entries) =
        reserve_entries maxEntries (reserve_base base) (reserve_length length)
          (reserve_end base length)
          (before ++
            [⟨d.type, d.physical_start,
                (reserve_base base - d.physical_start) >>> EFI_PAGE_SHIFT, d.attr, d.other⟩,
              ⟨EFI_RESERVED_TYPE, reserve_base base,
                (d.desc_end - reserve_base base) >>> EFI_PAGE_SHIFT, d.attr, 0⟩]) after ∧
      s1.efi_mmap.entries = before ++
        [⟨d.type, d.physical_start,
            (reserve_base base - d.physical_start) >>> EFI_PAGE_SHIFT, d.attr, d.other⟩,
          ⟨EFI_RESERVED_TYPE, reserve_base base,
            (d.desc_end - reserve_base base) >>> EFI_PAGE_SHIFT, d.attr, 0⟩] ++ tail := by
  obtain ⟨hds, hmul, hfit, hmax, hslot⟩ := hwf
  have hh := efi_memmap_t.holds_entries hmul
  rw [hentries] at hh
  have hn : s.efi_mmap.entries.length = s.efi_mmap.size / s.efi_mmap.descr_size := by
    simp [efi_memmap_t.entries]
  have hcount : before.length + (after.length + 1) =
      s.efi_mmap.size / s.efi_mmap.descr_size := by
    rw [← hn, hentries]
    simp
  have hskip := reserve_loop_skip_front maxEntries (reserve_base base) (reserve_length length)
    (reserve_end base length) hav hds hfit before [] (d :: after)
    (fuel - (before.length + 1) + 1) (by simpa using hh) hbefore
  have hf1 : fuel - (before.length + 1) + 1 + before.length = fuel := by omega
  rw [hf1] at hskip
  simp only [List.length_nil, Nat.zero_add] at hskip
  obtain ⟨s0, hav0, hds0, hfit0, hh0, hstep⟩ := reserve_loop_right_split maxEntries
    (reserve_base base) (reserve_length length) (reserve_end base length)
    (fuel - (before.length + 1)) hav hds hfit hmax hh (by omega) hfree hleft hin hright
  obtain ⟨s1, hres, _, hds1, hh1⟩ := reserve_loop_entries maxEntries (reserve_base base)
    (reserve_length length) (reserve_end base length) after
    (before ++
      [⟨d.type, d.physical_start,
          (reserve_base base - d.physical_start) >>> EFI_PAGE_SHIFT, d.attr, d.other⟩,
        ⟨EFI_RESERVED_TYPE, reserve_base base,
          (d.desc_end - reserve_base base) >>> EFI_PAGE_SHIFT, d.attr, 0⟩])
    (fuel - (before.length + 1)) s0 hav0 (by rw [hds0]; exact hds) hfit0
    (by rw [hds0]; exact hmax) hh0 (fun hc => absurd hc (by simp)) (by omega)
  simp only [List.length_append, List.length_cons, List.length_nil, hds0] at hres
  have hcall : efi_memmap_reserve maxEntries fuel s base length =
      reserve_loop maxEntries (reserve_base base) (reserve_length length)
        (reserve_end base length) (fuel - (before.length + 1)) s0
        (scan_cursor s.efi_mmap.descr_size (before.length + 2)) (before.length + 2) := by
    unfold efi_memmap_reserve
    rw [if_neg (by simp [hlen, hav])]
    have hc0 : scan_cursor s.efi_mmap.descr_size 0 = none := by simp [scan_cursor]
    rw [hc0] at hskip
    rw [hskip, hstep]
  have hent1 := efi_memmap_t.entries_of_holds (by rw [hds1, hds0]; exact hds) hh1
  obtain ⟨tail, htail⟩ := reserve_entries_keeps_done maxEntries (reserve_base base)
    (reserve_length length) (reserve_end base length) after
    (before ++
      [⟨d.type, d.physical_start,
          (reserve_base base - d.physical_start) >>> EFI_PAGE_SHIFT, d.attr, d.other⟩,
        ⟨EFI_RESERVED_TYPE, reserve_base base,
          (d.desc_end - reserve_base base) >>> EFI_PAGE_SHIFT, d.attr, 0⟩])
  refine ⟨s0, (reserve_entries maxEntries (reserve_base base) (reserve_length length)
      (reserve_end base length)
      (before ++
        [⟨d.type, d.physical_start,
            (reserve_base base - d.physical_start) >>> EFI_PAGE_SHIFT, d.attr, d.other⟩,
          ⟨EFI_RESERVED_TYPE, reserve_base base,
            (d.desc_end - reserve_base base) >>> EFI_PAGE_SHIFT, d.attr, 0⟩]) after).1,
    s1, tail,
    efi_memmap_t.entries_of_holds (by rw [hds0]; exact hds) hh0, hds0, hcall, ?_, ?_, ?_⟩
  · rw [hcall]
    exact hres
  · rw [hent1]
  · rw [hent1, htail]

/-- C25 (as amended) at a concrete input: on the map of the conventional entries `[0x0, 0x2000)` and
`[0x2000, 0x3000)`, `efi_memmap_reserve(0x1000, 0x2000)` splits the first entry (case 3)
and then retypes the entry that was at index 1, now at index 2 (case 1): it returns
true and leaves `[{0x0, 1 page, CONVENTIONAL}, {0x1000, 1 page, RESERVED},
{0x2000, 1 page, RESERVED}]`. -/
theorem efi_memmap_reserve_right_split_witness :
    ∃ s1, efi_memmap_reserve 128 3 adjacent_free_state 0x1000 0x2000 = some (true, s1) ∧
      s1.efi_mmap.entries =
        [⟨EFI_CONVENTIONAL_MEMORY, 0x0, 1, 0xf, 0⟩, ⟨EFI_RESERVED_TYPE, 0x1000, 1, 0xf, 0⟩,
         ⟨EFI_RESERVED_TYPE, 0x2000, 1, 0xf, 0⟩] := by
  obtain ⟨s0, r, s1, tail, _, _, _, hres, hlist, _⟩ := efi_memmap_reserve_right_split 128 3
    adjacent_free_state 0x1000 0x2000 [] [⟨EFI_CONVENTIONAL_MEMORY, 0x2000, 1, 0xf, 0⟩]
    ⟨EFI_CONVENTIONAL_MEMORY, 0x0, 2, 0xf, 0⟩ rfl (by decide) (by decide) (by decide)
    (by decide) (by decide) (by decide) (by decide) (by decide) (by decide) (by decide)
  have hval : reserve_entries 128 (reserve_base 0x1000) (reserve_length 0x2000)
      (reserve_end 0x1000 0x2000)
      ([] ++ [(⟨EFI_CONVENTIONAL_MEMORY, 0x0,
          (reserve_base 0x1000 - 0x0) >>> EFI_PAGE_SHIFT, 0xf, 0⟩ : efi_mem_descr_t),
        ⟨EFI_RESERVED_TYPE, reserve_base 0x1000,
          ((⟨EFI_CONVENTIONAL_MEMORY, 0x0, 2, 0xf, 0⟩ : efi_mem_descr_t).desc_end -
            reserve_base 0x1000) >>> EFI_PAGE_SHIFT, 0xf, 0⟩])
      [⟨EFI_CONVENTIONAL_MEMORY, 0x2000, 1, 0xf, 0⟩] =
      (true, [⟨EFI_CONVENTIONAL_MEMORY, 0x0, 1, 0xf, 0⟩, ⟨EFI_RESERVED_TYPE, 0x1000, 1, 0xf, 0⟩,
         ⟨EFI_RESERVED_TYPE, 0x2000, 1, 0xf, 0⟩]) := by decide
  rw [hval] at hlist
  have h1 : r = true := (Prod.mk.inj hlist).1
  have h2 := (Prod.mk.inj hlist).2
  subst h1
  exact ⟨s1, hres, h2⟩

/-- C25, the claim as stated fails: on the map `unsorted_state` and
`efi_memmap_reserve(0x3000, 0x2000)`, the third entry `d = {0x0, 4 pages}` at index
`k = 2` is free with `d.start < base' = 0x3000 < d.end = 0x4000 <= end' = 0x5000`. The
call returns true, but case 2 has split the entry in front of `d` and stopped the
scan: the entry at index 2 is `{0x5000, 3 pages, CONVENTIONAL}`, and `d` is unchanged
at index 3. -/
theorem efi_memmap_reserve_right_split_not_reached :
    unsorted_state.efi_mmap.entries =
      [⟨EFI_RESERVED_TYPE, 0x8000, 1, 0xf, 0⟩, ⟨EFI_CONVENTIONAL_MEMORY, 0x4000, 4, 0xf, 0⟩,
       ⟨EFI_CONVENTIONAL_MEMORY, 0x0, 4, 0xf, 0⟩] ∧
    (⟨EFI_CONVENTIONAL_MEMORY, 0x0, 4, 0xf, 0⟩ : efi_mem_descr_t).is_free ∧
    (0x0 < reserve_base 0x3000 ∧
      reserve_base 0x3000 < (⟨EFI_CONVENTIONAL_MEMORY, 0x0, 4, 0xf, 0⟩ : efi_mem_descr_t).desc_end ∧
      (⟨EFI_CONVENTIONAL_MEMORY, 0x0, 4, 0xf, 0⟩ : efi_mem_descr_t).desc_end ≤
        reserve_end 0x3000 0x2000) ∧
    (∀ fuel, (efi_memmap_reserve 128 (fuel + 2) unsorted_state 0x3000 0x2000).map
        (fun r => (r.1, r.2.efi_mmap.entries)) =
      some (true,
        [⟨EFI_RESERVED_TYPE, 0x8000, 1, 0xf, 0⟩, ⟨EFI_RESERVED_TYPE, 0x4000, 1, 0xf, 0⟩,
         ⟨EFI_CONVENTIONAL_MEMORY, 0x5000, 3, 0xf, 0⟩,
         ⟨EFI_CONVENTIONAL_MEMORY, 0x0, 4, 0xf, 0⟩])) ∧
    (⟨EFI_CONVENTIONAL_MEMORY, 0x5000, 3, 0xf, 0⟩ : efi_mem_descr_t) ≠
      ⟨EFI_CONVENTIONAL_MEMORY, 0x0, 3, 0xf, 0⟩ :=
  ⟨by decide, by decide, by decide, fun _ => rfl, by decide⟩

/-- C24 (as amended): case 2 (left overlap) splits into a reserved head plus the original
tail behind the first entry. On an available, well-formed map (whole slots, each of at
least `sizeof(efi_mem_descr_t)` bytes) with room for one more
entry, let `d` be a free-type entry at an index `k >= 1` with `base' <= d.start < end' <
d.end`, the entries in front of it being passed over by the scan. Then
`efi_memmap_reserve` returns true and leaves at index `k` the new entry `{d.start,
(end' - d.start) pages, EFI_RESERVED_TYPE, d.attribute}` and at index `k + 1` the entry
`d` relocated to `{end', (d.end - end') pages, d.type, d.attribute}`; the entries in
front of `d` are unchanged, the entries behind it are unchanged and one slot further
up (the scan has stopped), and `size` has grown by `descr_size`. -/
theorem efi_memmap_reserve_left_split (maxEntries fuel : Nat) (s : efi_state)
    (base length : Nat) (before after : List efi_mem_descr_t) (d : efi_mem_descr_t)
    (hav : s.efi_mmap_available = true)
    (hwf : s.efi_mmap.well_formed maxEntries)
    (hentries : s.efi_mmap.entries = before ++ d :: after)
    (hk : before ≠ [])
    (hroom : s.efi_mmap.size / s.efi_mmap.descr_size + 1 ≤ maxEntries)
    (hlen : length ≠ 0)
    (hfree : d.is_free)
    (hcase : d.left_overlap (reserve_base base) (reserve_end base length))
    (hbefore : ∀ x ∈ before, x.passed_over (reserve_base base) (reserve_end base length))
    (hfuel : s.efi_mmap.size / s.efi_mmap.descr_size < fuel) :
    ∃ s1, efi_memmap_reserve maxEntries fuel s base length = some (true, s1) ∧
      s1.efi_mmap.entries = before ++
        [⟨EFI_RESERVED_TYPE, d.physical_start,
            (reserve_end base length - d.physical_start) >>> EFI_PAGE_SHIFT, d.attr, 0⟩,
          ⟨d.type, reserve_end base length,
            (d.desc_end - reserve_end base length) >>> EFI_PAGE_SHIFT, d.attr, d.other⟩] ++
        after ∧
      s1.efi_mmap.descr_size = s.efi_mmap.descr_size ∧
      s1.efi_mmap.size = s.efi_mmap.size + s.efi_mmap.descr_size := by
  have hds := hwf.1
  have hn : s.efi_mmap.entries.length = s.efi_mmap.size / s.efi_mmap.descr_size := by
    simp [efi_memmap_t.entries]
  have hcount : before.length + (after.length + 1) = s.efi_mmap.size / s.efi_mmap.descr_size := by
    rw [← hn, hentries]
    simp
  have hfirst : ∃ e rest, s.efi_mmap.entries = e :: rest ∧
      ¬ (e.is_free ∧ e.left_overlap (reserve_base base) (reserve_end base length)) := by
    cases before with
    | nil => exact absurd rfl hk
    | cons x xs =>
      refine ⟨x, xs ++ d :: after, by simpa using hentries, ?_⟩
      exact not_left_overlap_of_passed_over (hbefore x (List.mem_cons_self _ _))
  obtain ⟨s1, hres, _, hds1, hh1⟩ := efi_memmap_reserve_entries maxEntries fuel s base length
    hav hwf hlen hfirst hfuel
  have hlist : reserve_entries maxEntries (reserve_base base) (reserve_length length)
      (reserve_end base length) [] s.efi_mmap.entries =
      (true, before ++
        [⟨EFI_RESERVED_TYPE, d.physical_start,
            (reserve_end base length - d.physical_start) >>> EFI_PAGE_SHIFT, d.attr, 0⟩,
          ⟨d.type, reserve_end base length,
            (d.desc_end - reserve_end base length) >>> EFI_PAGE_SHIFT, d.attr, d.other⟩] ++
        after) := by
    rw [hentries, reserve_entries_passed_over_front _ _ _ _ before [] (d :: after) hbefore,
      List.nil_append, reserve_entries_cons]
    have hf := hfree
    unfold efi_mem_descr_t.is_free at hf
    obtain ⟨h1, h2, h3⟩ := hcase
    rw [if_neg (by omega), if_neg (by omega), if_neg (by omega), if_neg (by omega),
      if_pos ⟨h1, h2, h3⟩, if_neg (by omega)]
  rw [hlist] at hres hh1
  simp only at hres hh1
  refine ⟨s1, hres, efi_memmap_t.entries_of_holds (by rw [hds1]; exact hds) hh1, hds1, ?_⟩
  rw [hh1.1, hds1]
  have hsz : s.efi_mmap.size = (before.length + (after.length + 1)) * s.efi_mmap.descr_size := by
    rw [hcount]
    exact (Nat.div_mul_cancel (Nat.dvd_of_mod_eq_zero hwf.2.1)).symm
  rw [hsz]
  simp only [List.length_append, List.length_cons, List.length_nil]
  ring

/-- C24 (as amended) at a concrete input: on the map `two_entry_state`,
`efi_memmap_reserve(0x10000, 0x2000)` splits the second entry. -/
theorem efi_memmap_reserve_left_split_witness :
    ∃ s1, efi_memmap_reserve 128 3 two_entry_state 0x10000 0x2000 = some (true, s1) ∧
      s1.efi_mmap.entries =
        [⟨EFI_CONVENTIONAL_MEMORY, 0x0, 16, 0xf, 0⟩, ⟨EFI_RESERVED_TYPE, 0x10000, 2, 0xf, 0⟩,
         ⟨EFI_LOADER_DATA, 0x12000, 14, 0xf, 0⟩] ∧
      s1.efi_mmap.descr_size = 48 ∧ s1.efi_mmap.size = 144 :=
  efi_memmap_reserve_left_split 128 3 two_entry_state 0x10000 0x2000
    [⟨EFI_CONVENTIONAL_MEMORY, 0x0, 16, 0xf, 0⟩] [] ⟨EFI_LOADER_DATA, 0x10000, 16, 0xf, 0⟩
    rfl (by decide) (by decide) (by decide) (by decide) (by decide) (by decide) (by decide)
    (by decide) (by decide)

/-- Case 2 on the first entry: the map `two_entry_state` and `efi_memmap_reserve(0x0,
0x2000)`. The first entry `d = {0x0, 16 pages, CONVENTIONAL}` is free and `base' = 0x0 <=
d.start < end' = 0x2000 < d.end = 0x10000`: case 2 at index `k = 0`. A split would give
`[{0x0, 2 pages, RESERVED}, {0x2000, 14 pages, CONVENTIONAL}, {0x10000, 16 pages,
LOADER_DATA}]`. The call returns true and `size` grows by `descr_size`, but the new
entry has replaced the first entry, the entry at index 1 is the old second entry
rewritten to `{0x2000, 14 pages, LOADER_DATA}`, and the entry at index 2 is the slot
behind the map. -/
theorem efi_memmap_reserve_left_split_first_entry :
    two_entry_state.efi_mmap.entries =
      [⟨EFI_CONVENTIONAL_MEMORY, 0x0, 16, 0xf, 0⟩, ⟨EFI_LOADER_DATA, 0x10000, 16, 0xf, 0⟩] ∧
    (⟨EFI_CONVENTIONAL_MEMORY, 0x0, 16, 0xf, 0⟩ : efi_mem_descr_t).is_free ∧
    (⟨EFI_CONVENTIONAL_MEMORY, 0x0, 16, 0xf, 0⟩ : efi_mem_descr_t).left_overlap
      (reserve_base 0x0) (reserve_end 0x0 0x2000) ∧
    reserve_end 0x0 0x2000 = 0x2000 ∧
    (⟨EFI_CONVENTIONAL_MEMORY, 0x0, 16, 0xf, 0⟩ : efi_mem_descr_t).desc_end = 0x10000 ∧
    (∀ fuel, (efi_memmap_reserve 128 (fuel + 1) two_entry_state 0x0 0x2000).map
        (fun r => (r.1, r.2.efi_mmap.size, r.2.efi_mmap.entries)) =
      some (true, 144,
        [⟨EFI_RESERVED_TYPE, 0x0, 2, 0xf, 0⟩, ⟨EFI_LOADER_DATA, 0x2000, 14, 0xf, 0⟩,
         ⟨0, 0, 0, 0, 0⟩])) ∧
    [(⟨EFI_RESERVED_TYPE, 0x0, 2, 0xf, 0⟩ : efi_mem_descr_t),
        ⟨EFI_LOADER_DATA, 0x2000, 14, 0xf, 0⟩, ⟨0, 0, 0, 0, 0⟩] ≠
      [⟨EFI_RESERVED_TYPE, 0x0, 2, 0xf, 0⟩, ⟨EFI_CONVENTIONAL_MEMORY, 0x2000, 14, 0xf, 0⟩,
        ⟨EFI_LOADER_DATA, 0x10000, 16, 0xf, 0⟩] :=
  ⟨by decide, by decide, by decide, by decide, by decide, fun _ => rfl, by decide⟩

/-- C24, the claim as stated fails: on the map `adjacent_pair_state` (sorted, without
overlap) and `efi_memmap_reserve(0x1000, 0x2000)`, the second entry `d = {0x2000, 2
pages}` at index `k = 1` is free with `base' = 0x1000 <= d.start < end' = 0x3000 <
d.end = 0x4000`. The call returns true, but case 3 has split the first entry before
the scan reaches `d`: the entry at index 1 is `{0x1000, 1 page, RESERVED}`, and the two
entries of `d` are at the indices 2 and 3. -/
theorem efi_memmap_reserve_left_split_shifted :
    adjacent_pair_state.efi_mmap.entries =
      [⟨EFI_CONVENTIONAL_MEMORY, 0x0, 2, 0xf, 0⟩, ⟨EFI_CONVENTIONAL_MEMORY, 0x2000, 2, 0xf, 0⟩] ∧
    (⟨EFI_CONVENTIONAL_MEMORY, 0x2000, 2, 0xf, 0⟩ : efi_mem_descr_t).is_free ∧
    (⟨EFI_CONVENTIONAL_MEMORY, 0x2000, 2, 0xf, 0⟩ : efi_mem_descr_t).left_overlap
      (reserve_base 0x1000) (reserve_end 0x1000 0x2000) ∧
    (∀ fuel, (efi_memmap_reserve 128 (fuel + 2) adjacent_pair_state 0x1000 0x2000).map
        (fun r => (r.1, r.2.efi_mmap.entries)) =
      some (true,
        [⟨EFI_CONVENTIONAL_MEMORY, 0x0, 1, 0xf, 0⟩, ⟨EFI_RESERVED_TYPE, 0x1000, 1, 0xf, 0⟩,
         ⟨EFI_RESERVED_TYPE, 0x2000, 1, 0xf, 0⟩, ⟨EFI_CONVENTIONAL_MEMORY, 0x3000, 1, 0xf, 0⟩])) ∧
    (⟨EFI_RESERVED_TYPE, 0x1000, 1, 0xf, 0⟩ : efi_mem_descr_t) ≠
      ⟨EFI_RESERVED_TYPE, 0x2000, 1, 0xf, 0⟩ :=
  ⟨by decide, by decide, by decide, fun _ => rfl, by decide⟩

/-- Cases 3 and 4 on a full map. On an available, well-formed map without room for one
more entry, let `d` be a free-type entry with `d.start < base' < d.end` and `d.start <
end'`, the entries in front of it being passed over by the scan. Then
`efi_memmap_reserve` returns false and leaves `d` shrunk to `(base' - d.start)`
pages; no entry has been inserted. -/
theorem efi_memmap_reserve_full_map_shrinks (maxEntries fuel : Nat) (s : efi_state)
    (base length : Nat) (before after : List efi_mem_descr_t) (d : efi_mem_descr_t)
    (hav : s.efi_mmap_available = true)
    (hwf : s.efi_mmap.well_formed maxEntries)
    (hentries : s.efi_mmap.entries = before ++ d :: after)
    (hfull : s.efi_mmap.size / s.efi_mmap.descr_size + 1 > maxEntries)
    (hlen : length ≠ 0)
    (hfree : d.is_free)
    (hleft : d.physical_start < reserve_base base)
    (hin : reserve_base base < d.desc_end)
    (hend : d.physical_start < reserve_end base length)
    (hbefore : ∀ x ∈ before, x.passed_over (reserve_base base) (reserve_end base length))
    (hfuel : s.efi_mmap.size / s.efi_mmap.descr_size < fuel) :
    ∃ s1, efi_memmap_reserve maxEntries fuel s base length = some (false, s1) ∧
      s1.efi_mmap.entries = before ++
        (⟨d.type, d.physical_start,
            (reserve_base base - d.physical_start) >>> EFI_PAGE_SHIFT, d.attr, d.other⟩ :
          efi_mem_descr_t) :: after := by
  have hds := hwf.1
  have hn : s.efi_mmap.entries.length = s.efi_mmap.size / s.efi_mmap.descr_size := by
    simp [efi_memmap_t.entries]
  have hcount : before.length + (after.length + 1) = s.efi_mmap.size / s.efi_mmap.descr_size := by
    rw [← hn, hentries]
    simp
  have hfirst : ∃ e rest, s.efi_mmap.entries = e :: rest ∧
      ¬ (e.is_free ∧ e.left_overlap (reserve_base base) (reserve_end base length)) := by
    cases before with
    | nil =>
      refine ⟨d, after, by simpa using hentries, ?_⟩
      rintro ⟨_, h1, _⟩
      omega
    | cons x xs =>
      refine ⟨x, xs ++ d :: after, by simpa using hentries, ?_⟩
      exact not_left_overlap_of_passed_over (hbefore x (List.mem_cons_self _ _))
  obtain ⟨s1, hres, _, hds1, hh1⟩ := efi_memmap_reserve_entries maxEntries fuel s base length
    hav hwf hlen hfirst hfuel
  have hlist : reserve_entries maxEntries (reserve_base base) (reserve_length length)
      (reserve_end base length) [] s.efi_mmap.entries =
      (false, before ++
        (⟨d.type, d.physical_start,
            (reserve_base base - d.physical_start) >>> EFI_PAGE_SHIFT, d.attr, d.other⟩ :
          efi_mem_descr_t) :: after) := by
    rw [hentries, reserve_entries_passed_over_front _ _ _ _ before [] (d :: after) hbefore,
      List.nil_append, reserve_entries_cons]
    have hf := hfree
    unfold efi_mem_descr_t.is_free at hf
    rw [if_neg (by omega), if_neg (by omega), if_neg (by omega), if_neg (by omega),
      if_neg (by omega)]
    by_cases c3 : reserve_end base length ≥ d.desc_end
    · rw [if_pos ⟨hleft, hin, c3⟩, if_pos (by omega)]
    · rw [if_neg (by omega), if_pos ⟨hleft, by omega⟩, if_pos (by omega)]
  rw [hlist] at hres hh1
  simp only at hres hh1
  exact ⟨s1, hres, efi_memmap_t.entries_of_holds (by rw [hds1]; exact hds) hh1⟩

/-- C30 at the failing input: a map that is full, for `EFI_MEMMAP_MAX_ENTRIES` taken as
1 the map of one conventional entry `[0x0, 0x4000)`. `efi_memmap_reserve(0x1000,
0x1000)` (case 4) and `efi_memmap_reserve(0x1000, 0x3000)` (case 3) shrink the entry to
one page, then `insert_after_region` fails and the calls return false: the sum of
`num_pages` has gone from 4 to 1 and `[0x1000, 0x4000)` is no longer covered. In case
2 the insertion comes first: on the full map `two_entry_state`, for the constant taken
as 2, `efi_memmap_reserve(0x10000, 0x1000)` returns false and leaves the entries as
they were. -/
theorem efi_memmap_reserve_failure_drops_coverage :
    (single_entry_state 4).efi_mmap.entries = [⟨EFI_CONVENTIONAL_MEMORY, 0x0, 4, 0xf, 0⟩] ∧
    (single_entry_state 4).efi_mmap.total_pages = 4 ∧
    (∀ fuel, (efi_memmap_reserve 1 (fuel + 1) (single_entry_state 4) 0x1000 0x1000).map
        (fun r => (r.1, r.2.efi_mmap.entries, r.2.efi_mmap.total_pages)) =
      some (false, [⟨EFI_CONVENTIONAL_MEMORY, 0x0, 1, 0xf, 0⟩], 1)) ∧
    (∀ fuel, (efi_memmap_reserve 1 (fuel + 1) (single_entry_state 4) 0x1000 0x3000).map
        (fun r => (r.1, r.2.efi_mmap.entries, r.2.efi_mmap.total_pages)) =
      some (false, [⟨EFI_CONVENTIONAL_MEMORY, 0x0, 1, 0xf, 0⟩], 1)) ∧
    (∀ fuel, (efi_memmap_reserve 2 (fuel + 2) two_entry_state 0x10000 0x1000).map
        (fun r => (r.1, r.2.efi_mmap.entries)) =
      some (false, two_entry_state.efi_mmap.entries)) :=
  ⟨by decide, by decide, fun _ => rfl, fun _ => rfl, fun _ => rfl⟩

/-- On a map that is not empty the scan loop of `efi_memmap_get_highest_sized_ram`
computes `highest_entries`: with the cursor in front of the entries `todo`, behind the
entries `done`, and with enough fuel. -/
theorem highest_loop_entries (size limit : Nat) :
    ∀ (todo done : List efi_mem_descr_t) (fuel : Nat) (s : efi_state) (lb ls : Nat),
      s.efi_mmap_available = true →
      0 < s.efi_mmap.descr_size →
      s.efi_mmap.size + s.efi_mmap.descr_size < U32 →
      s.efi_mmap.holds (done ++ todo) →
      (done = [] → todo ≠ []) →
      todo.length < fuel →
      highest_loop size limit fuel s (scan_cursor s.efi_mmap.descr_size done.length) lb ls =
        some (highest_entries size limit todo (lb, ls)) := by
  intro todo
  induction todo with
  | nil =>
    intro done fuel s lb ls hav hds hfit hh hfirst hfuel
    obtain ⟨f, rfl⟩ : ∃ f, fuel = f + 1 := ⟨fuel - 1, by omega⟩
    have hne : done ≠ [] := fun hc => hfirst hc rfl
    rw [List.append_nil] at hh
    rw [highest_loop, efi_memmap_walk_end hav hh hne hfit]
    rfl
  | cons e rest ih =>
    intro done fuel s lb ls hav hds hfit hh hfirst hfuel
    obtain ⟨f, rfl⟩ : ∃ f, fuel = f + 1 := ⟨fuel - 1, by omega⟩
    have hf : rest.length < f := by simpa using hfuel
    have hwalk := efi_memmap_walk_entry hav hds hh hfit
    have he : s.efi_mmap.descr (done.length * s.efi_mmap.descr_size) = e :=
      hh.2 _ _ (getElem?_append_cons_length done e rest)
    have hcur : scan_cursor s.efi_mmap.descr_size (done.length + 1) =
        some (done.length * s.efi_mmap.descr_size) := by
      simp [scan_cursor]
    have hnext : ∀ lb1 ls1, highest_loop size limit f s
        (some (done.length * s.efi_mmap.descr_size)) lb1 ls1 =
        some (highest_entries size limit rest (lb1, ls1)) := by
      intro lb1 ls1
      have := ih (done ++ [e]) f s lb1 ls1 hav hds hfit (by simpa using hh) (by simp) hf
      simpa [hcur] using this
    rw [highest_loop, hwalk]
    simp only [he]
    rw [highest_entries]
    by_cases c0 : region_is_free e.type = true
    · simp only [c0, if_true]
      by_cases c1 : (e.physical_start + e.num_pages * 1 <<< EFI_PAGE_SHIFT % U64) % U64 > limit
      · simp only [if_pos c1]
      · simp only [if_neg c1]
        by_cases c2 : size ≤ e.num_pages * 1 <<< EFI_PAGE_SHIFT % U64
        · simp only [if_pos c2]
          exact hnext _ _
        · simp only [if_neg c2]
          exact hnext _ _
    · simp only [c0, Bool.false_eq_true, if_false]
      exact hnext _ _

/-- On entries that end below `2^64` the list reading of the scan keeps the last fit
below the ceiling, or what it had when there is none. -/
theorem highest_entries_last_fit (size limit : Nat) :
    ∀ (L : List efi_mem_descr_t) (fit : Nat × Nat),
      (∀ e ∈ L, e.end_addr < U64) →
      highest_entries size limit L fit =
        match last_fit size limit L with
        | none => fit
        | some e => (e.physical_start, e.length) := by
  intro L
  induction L with
  | nil => intro fit _; rfl
  | cons e rest ih =>
    intro fit hb
    have hbe := hb e (List.mem_cons_self _ _)
    have hrest : ∀ x ∈ rest, x.end_addr < U64 := fun x hx => hb x (List.mem_cons_of_mem _ hx)
    unfold efi_mem_descr_t.end_addr at hbe
    have hlen : e.num_pages * 1 <<< EFI_PAGE_SHIFT % U64 = e.length := by
      unfold efi_mem_descr_t.length
      rw [Nat.one_shiftLeft]
      exact Nat.mod_eq_of_lt (by omega)
    have hend : (e.physical_start + e.length) % U64 = e.end_addr := by
      unfold efi_mem_descr_t.length efi_mem_descr_t.end_addr
      exact Nat.mod_eq_of_lt hbe
    rw [highest_entries]
    simp only [hlen, hend]
    unfold last_fit below_ceiling
    by_cases c0 : region_is_free e.type = true
    · simp only [c0, if_true]
      by_cases c1 : e.end_addr > limit
      · simp only [if_pos c1]
        rw [List.takeWhile_cons]
        simp [c0, c1]
      · simp only [if_neg c1]
        rw [List.takeWhile_cons]
        have hp : (!(region_is_free e.type && decide (e.end_addr > limit))) = true := by
          simp [c1]
        rw [if_pos hp]
        by_cases c2 : size ≤ e.length
        · simp only [if_pos c2]
          rw [ih _ hrest]
          unfold last_fit below_ceiling
          rw [List.filter_cons]
          have hq : (region_is_free e.type && decide (size ≤ e.length)) = true := by
            simp [c0, c2]
          rw [if_pos hq, List.getLast?_cons]
          cases (List.filter (fun e => region_is_free e.type && decide (size ≤ e.length))
            (List.takeWhile (fun e => !(region_is_free e.type && decide (e.end_addr > limit)))
              rest)).getLast? with
          | none => rfl
          | some x => rfl
        · simp only [if_neg c2]
          rw [ih _ hrest]
          unfold last_fit below_ceiling
          rw [List.filter_cons]
          have hq : ¬ (region_is_free e.type && decide (size ≤ e.length)) = true := by
            simp [c0, c2]
          rw [if_neg hq]
    · simp only [c0, Bool.false_eq_true, if_false]
      rw [List.takeWhile_cons]
      have hp : (!(region_is_free e.type && decide (e.end_addr > limit))) = true := by
        simp [c0]
      rw [if_pos hp, ih _ hrest]
      unfold last_fit below_ceiling
      rw [List.filter_cons]
      have hq : ¬ (region_is_free e.type && decide (size ≤ e.length)) = true := by
        simp [c0]
      rw [if_neg hq]

/-- The last fit is a free-type entry below the ceiling of length at least `size`. -/
theorem last_fit_some {size limit : Nat} {L : List efi_mem_descr_t} {e : efi_mem_descr_t}
    (h : last_fit size limit L = some e) :
    e ∈ below_ceiling limit L ∧ region_is_free e.type = true ∧ size ≤ e.length := by
  unfold last_fit at h
  have hm := List.mem_of_getLast?_eq_some h
  rw [List.mem_filter] at hm
  obtain ⟨h1, h2⟩ := hm
  simp only [Bool.and_eq_true, decide_eq_true_eq] at h2
  exact ⟨h1, h2.1, h2.2⟩

/-- On a map that is not empty, `efi_memmap_get_highest_sized_ram` is the last fit below
the ceiling. For an available, well-formed map with at least one entry, entries that
end below `2^64`, `size >= 1` and enough fuel, the function returns true with the
`physical_start` and the length of the last free-type entry below the ceiling whose
length is at least `size`, and false when there is no such entry. -/
theorem efi_memmap_get_highest_sized_ram_last_fit (fuel : Nat) (s : efi_state)
    (size limit : Nat)
    (hav : s.efi_mmap_available = true)
    (hds : 0 < s.efi_mmap.descr_size)
    (hmul : s.efi_mmap.size % s.efi_mmap.descr_size = 0)
    (hfit : s.efi_mmap.size + s.efi_mmap.descr_size < U32)
    (hne : s.efi_mmap.entries ≠ [])
    (hb : s.efi_mmap.bounded)
    (hsize : 1 ≤ size)
    (hfuel : s.efi_mmap.size / s.efi_mmap.descr_size < fuel) :
    efi_memmap_get_highest_sized_ram fuel s size limit true true =
      some (match last_fit size limit s.efi_mmap.entries with
        | none => (false, none)
        | some e => (true, some (e.physical_start, e.length))) := by
  have hh := efi_memmap_t.holds_entries hmul
  have hn : s.efi_mmap.entries.length = s.efi_mmap.size / s.efi_mmap.descr_size := by
    simp [efi_memmap_t.entries]
  have hloop := highest_loop_entries size limit s.efi_mmap.entries [] fuel s 0 0 hav hds hfit
    (by simpa using hh) (fun _ => hne) (by rw [hn]; exact hfuel)
  have hc0 : scan_cursor s.efi_mmap.descr_size ([] : List efi_mem_descr_t).length = none := by
    simp [scan_cursor]
  rw [hc0] at hloop
  unfold efi_memmap_get_highest_sized_ram
  simp only [hav, Bool.not_true, Bool.or_self, Bool.false_eq_true, if_false]
  rw [hloop, highest_entries_last_fit size limit _ _ hb]
  cases hl : last_fit size limit s.efi_mmap.entries with
  | none => simp
  | some e =>
    have h3 := (last_fit_some hl).2.2
    have : e.length ≠ 0 := by omega
    simp [this]

/-- The last fit below the ceiling at a concrete input: on the map `ceiling_state` with
`size = 0x1000` and `limit = 0x180000` the function returns the first entry; the third
entry fits and lies below the limit, but behind the entry that ends above it. -/
theorem efi_memmap_get_highest_sized_ram_last_fit_scenario :
    last_fit 0x1000 0x180000 ceiling_state.efi_mmap.entries =
      some ⟨EFI_CONVENTIONAL_MEMORY, 0x0, 4, 0xf, 0⟩ ∧
    efi_memmap_get_highest_sized_ram 4 ceiling_state 0x1000 0x180000 true true =
      some (true, some (0x0, 0x4000)) :=
  ⟨by decide,
    (efi_memmap_get_highest_sized_ram_last_fit 4 ceiling_state 0x1000 0x180000 rfl
      (by decide) (by decide) (by decide) (by decide) (by decide) (by decide)
      (by decide)).trans (by decide)⟩

/-- C28 at the failing input: the available map `empty_stale_state` has no entry, so
there is no entry below the ceiling and no last fit, and the claim has the function
return false. `efi_memmap_get_highest_sized_ram(0x2000, 0x200000, ...)` returns true
with the region `(0x100000, 0x10000)`, the old descriptor in the first slot of the
storage, which `efi_memmap_walk(NULL)` hands out without comparing with `size`. -/
theorem efi_memmap_get_highest_sized_ram_no_fit_empty_map :
    empty_stale_state.efi_mmap_available = true ∧
    empty_stale_state.efi_mmap.entries = [] ∧
    below_ceiling 0x200000 empty_stale_state.efi_mmap.entries = [] ∧
    last_fit 0x2000 0x200000 empty_stale_state.efi_mmap.entries = none ∧
    (∀ fuel, efi_memmap_get_highest_sized_ram (fuel + 2) empty_stale_state 0x2000 0x200000
      true true = some (true, some (0x100000, 0x10000))) :=
  ⟨rfl, by decide, by decide, by decide, fun _ => rfl⟩

/-! ## SHA-512: the code against FIPS 180-4 -/

/-- A bit at or above position 64 of a 64-bit word is clear. -/
theorem testBit_u64_high {x i : Nat} (hx : x < U64) (hi : 64 ≤ i) : x.testBit i = false := by
  apply Nat.testBit_lt_two_pow
  have : (2 : Nat) ^ 64 ≤ 2 ^ i := Nat.pow_le_pow_right (by decide) hi
  unfold U64 at hx
  omega

/-- The macro `Ch` is the function `Ch` of FIPS 180-4. -/
theorem Ch_eq_fips (x y : Nat) {z : Nat} (hz : z < U64) : Ch x y z = fips_Ch x y z := by
  unfold Ch fips_Ch
  apply Nat.eq_of_testBit_eq
  intro i
  have hm : (U64 - 1).testBit i = decide (i < 64) := by
    unfold U64
    exact Nat.testBit_two_pow_sub_one 64 i
  simp only [Nat.testBit_xor, Nat.testBit_and, hm]
  by_cases hi : i < 64
  · simp only [hi, decide_True]
    cases x.testBit i <;> cases y.testBit i <;> cases z.testBit i <;> rfl
  · have hzi : z.testBit i = false := testBit_u64_high hz (by omega)
    simp only [hi, decide_False, hzi]
    cases x.testBit i <;> cases y.testBit i <;> rfl

/-- The macro `Maj` is the function `Maj` of FIPS 180-4. -/
theorem Maj_eq_fips (x y z : Nat) : Maj x y z = fips_Maj x y z := by
  unfold Maj fips_Maj
  apply Nat.eq_of_testBit_eq
  intro i
  simp only [Nat.testBit_xor, Nat.testBit_and, Nat.testBit_or]
  cases x.testBit i <;> cases y.testBit i <;> cases z.testBit i <;> rfl

/-- Masking a 64-bit word with `0xFFFFFFFFFFFFFFFF` leaves it as it is. -/
theorem land_u64_mask {x : Nat} (hx : x < U64) : x &&& 0xFFFFFFFFFFFFFFFF = x := by
  have h : (0xFFFFFFFFFFFFFFFF : Nat) = 2 ^ 64 - 1 := by decide
  rw [h, Nat.and_pow_two_sub_one_eq_mod]
  exact Nat.mod_eq_of_lt hx

/-- The macro `ROR64c` with a count `0 < n < 64` is the rotation `ROTR^n` of FIPS 180-4. -/
theorem ROR64c_eq_fips {x : Nat} (hx : x < U64) (n : Nat) (h1 : (n % U64 &&& 63) = n)
    (h2 : ((64 + U64 - (n &&& 63)) % U64 &&& 63) = 64 - n) :
    ROR64c x n = fips_ROTR n x := by
  unfold ROR64c fips_ROTR
  rw [h1, h2, land_u64_mask hx]
  apply land_u64_mask
  apply Nat.or_lt_two_pow
  · have : x >>> n ≤ x := by
      rw [Nat.shiftRight_eq_div_pow]
      exact Nat.div_le_self _ _
    unfold U64 at hx
    omega
  · exact Nat.mod_lt _ (by decide)

/-- The macro `R` is the shift `SHR^n` of FIPS 180-4. -/
theorem R_eq_fips {x : Nat} (hx : x < U64) (n : Nat) (hn : n < U64) : R x n = fips_SHR n x := by
  unfold R fips_SHR
  rw [land_u64_mask hx, Nat.mod_eq_of_lt hn]

/-- The macro `Sigma0` is the function (4.10) of FIPS 180-4. -/
theorem Sigma0_eq_fips {x : Nat} (hx : x < U64) : Sigma0 x = fips_Sigma0 x := by
  unfold Sigma0 fips_Sigma0
  rw [ROR64c_eq_fips hx 28 (by decide) (by decide), ROR64c_eq_fips hx 34 (by decide) (by decide),
    ROR64c_eq_fips hx 39 (by decide) (by decide)]

/-- The macro `Sigma1` is the function (4.11) of FIPS 180-4. -/
theorem Sigma1_eq_fips {x : Nat} (hx : x < U64) : Sigma1 x = fips_Sigma1 x := by
  unfold Sigma1 fips_Sigma1
  rw [ROR64c_eq_fips hx 14 (by decide) (by decide), ROR64c_eq_fips hx 18 (by decide) (by decide),
    ROR64c_eq_fips hx 41 (by decide) (by decide)]

/-- The macro `Gamma0` is the function (4.12) of FIPS 180-4. -/
theorem Gamma0_eq_fips {x : Nat} (hx : x < U64) : Gamma0 x = fips_sigma0 x := by
  unfold Gamma0 fips_sigma0
  rw [ROR64c_eq_fips hx 1 (by decide) (by decide), ROR64c_eq_fips hx 8 (by decide) (by decide),
    R_eq_fips hx 7 (by decide)]

/-- The macro `Gamma1` is the function (4.13) of FIPS 180-4. -/
theorem Gamma1_eq_fips {x : Nat} (hx : x < U64) : Gamma1 x = fips_sigma1 x := by
  unfold Gamma1 fips_sigma1
  rw [ROR64c_eq_fips hx 19 (by decide) (by decide), ROR64c_eq_fips hx 61 (by decide) (by decide),
    R_eq_fips hx 6 (by decide)]

/-- The value of `U64`. -/
theorem U64_eq : U64 = 18446744073709551616 := by decide

/-- The macro `LOAD64H` gives a 64-bit word. -/
theorem LOAD64H_lt (b : List Nat) (off : Nat) : LOAD64H b off < U64 := by
  unfold LOAD64H
  have h8 : List.range 8 = [0, 1, 2, 3, 4, 5, 6, 7] := by decide
  rw [h8, U64_eq]
  simp only [List.map, List.foldl]
  omega

/-- The macro `LOAD64H` reads the eight bytes from `off` on only. -/
theorem LOAD64H_congr {b c : List Nat} {off : Nat}
    (h : ∀ j, j < 8 → b.getD (off + j) 0 = c.getD (off + j) 0) :
    LOAD64H b off = LOAD64H c off := by
  unfold LOAD64H
  congr 1
  apply List.map_congr_left
  intro j hj
  exact h j (List.mem_range.mp hj)

/-- The words of the message schedule are 64-bit words. -/
theorem fips_W_lt (M : List Nat) (t : Nat) : fips_W M t < U64 := by
  rw [fips_W]
  split
  · exact LOAD64H_lt _ _
  · exact Nat.mod_lt _ (by decide)

/-- The message schedule depends on the sixteen words of the block only. -/
theorem fips_W_congr {M N : List Nat}
    (h : ∀ t, t < 16 → LOAD64H M (8 * t) = LOAD64H N (8 * t)) :
    ∀ t, fips_W M t = fips_W N t := by
  intro t
  induction t using Nat.strong_induction_on with
  | _ t ih =>
    rw [fips_W, fips_W.eq_1 N t]
    by_cases ht : t < 16
    · rw [dif_pos ht, dif_pos ht]
      exact h t ht
    · rw [dif_neg ht, dif_neg ht, ih (t - 2) (by omega), ih (t - 7) (by omega),
        ih (t - 15) (by omega), ih (t - 16) (by omega)]

/-- The loop that fills `W[16..79]` computes the message schedule of FIPS 180-4. -/
theorem fill_W_eq_fips (M : List Nat) :
    ∀ (k i : Nat) (W : List Nat), 16 ≤ i → W = (List.range i).map (fips_W M) →
      fill_W k W = (List.range (i + k)).map (fips_W M) := by
  intro k
  induction k with
  | zero => intro i W _ hW; rw [fill_W, hW]; rfl
  | succ k ih =>
    intro i W hi hW
    have hlen : W.length = i := by rw [hW]; simp
    have hget : ∀ j, j < i → W.getD j 0 = fips_W M j := by
      intro j hj
      rw [hW, List.getD_eq_getElem?_getD, List.getElem?_map, List.getElem?_range hj]
      rfl
    rw [fill_W]
    simp only [hlen]
    rw [hget (i - 2) (by omega), hget (i - 7) (by omega), hget (i - 15) (by omega),
      hget (i - 16) (by omega), Gamma1_eq_fips (fips_W_lt M _), Gamma0_eq_fips (fips_W_lt M _)]
    have hWi : (fips_sigma1 (fips_W M (i - 2)) + fips_W M (i - 7) +
        fips_sigma0 (fips_W M (i - 15)) + fips_W M (i - 16)) % U64 = fips_W M i := by
      conv_rhs => rw [fips_W]
      rw [dif_neg (by omega)]
    rw [hWi]
    have := ih (i + 1) (W ++ [fips_W M i]) (by omega) (by
      rw [List.range_succ, List.map_append, hW]
      rfl)
    rw [this]
    congr 2
    omega

/-- The eight uses of `RND` in the body of the loop are eight rounds on the variables
`a, ..., h`. -/
theorem compress_rounds8_eq (W : List Nat) (S : sha512_S) (i : Nat) :
    compress_rounds8 W S i =
      (RND_round W (RND_round W (RND_round W (RND_round W (RND_round W (RND_round W
        (RND_round W (RND_round W S.vars (i + 0)) (i + 1)) (i + 2)) (i + 3)) (i + 4))
        (i + 5)) (i + 6)) (i + 7)).S := rfl

/-- One use of the macro `RND` is a round of FIPS 180-4. -/
theorem RND_round_eq_fips (W : List Nat) {v : fips_vars} (hv : v.bounded) (i : Nat) :
    RND_round W v i = fips_round (fun t => W.getD t 0) v i := by
  obtain ⟨ha, _, _, _, he, _, hg, _⟩ := hv
  unfold RND_round RND fips_round
  simp only [Sigma0_eq_fips ha, Sigma1_eq_fips he, Ch_eq_fips v.e v.f hg, Maj_eq_fips]

/-- A round of FIPS 180-4 leaves 64-bit words. -/
theorem fips_round_bounded (W : Nat → Nat) {v : fips_vars} (hv : v.bounded) (t : Nat) :
    (fips_round W v t).bounded := by
  obtain ⟨ha, hb, hc, _, he, hf, hg, _⟩ := hv
  unfold fips_round fips_vars.bounded
  exact ⟨Nat.mod_lt _ (by decide), ha, hb, hc, Nat.mod_lt _ (by decide), he, hf, hg⟩

/-- The rounds of FIPS 180-4 leave 64-bit words. -/
theorem fips_rounds_bounded (W : Nat → Nat) {v : fips_vars} (hv : v.bounded) :
    ∀ t, (fips_rounds W t v).bounded := by
  intro t
  induction t with
  | zero => exact hv
  | succ t ih => exact fips_round_bounded W ih t

/-- The rounds `0, ..., n - 1` read the words `W_0, ..., W_(n-1)` only. -/
theorem fips_rounds_congr {W V : Nat → Nat} (v : fips_vars) :
    ∀ n, (∀ t, t < n → W t = V t) → fips_rounds W n v = fips_rounds V n v := by
  intro n
  induction n with
  | zero => intro _; rfl
  | succ n ih =>
    intro h
    rw [fips_rounds, fips_rounds, ih (fun t ht => h t (by omega))]
    unfold fips_round
    rw [h n (by omega)]

/-- The loop of `sha512_compress` over the rounds, eight at a time, computes the rounds
of FIPS 180-4. -/
theorem compress_loop_eq_fips (W : List Nat) {v0 : fips_vars} (hv0 : v0.bounded) :
    ∀ (n m : Nat),
      compress_loop W n (fips_rounds (fun t => W.getD t 0) (8 * m) v0).S (8 * m) =
        (fips_rounds (fun t => W.getD t 0) (8 * m + 8 * n) v0).S := by
  intro n
  induction n with
  | zero => intro m; rfl
  | succ n ih =>
    intro m
    have hb := fips_rounds_bounded (fun t => W.getD t 0) hv0
    have h8 : ∀ v : fips_vars, v.S.vars = v := fun v => rfl
    rw [compress_loop, compress_rounds8_eq, h8]
    have e0 := RND_round_eq_fips W (hb (8 * m)) (8 * m + 0)
    have e1 := RND_round_eq_fips W (hb (8 * m + 1)) (8 * m + 1)
    have e2 := RND_round_eq_fips W (hb (8 * m + 2)) (8 * m + 2)
    have e3 := RND_round_eq_fips W (hb (8 * m + 3)) (8 * m + 3)
    have e4 := RND_round_eq_fips W (hb (8 * m + 4)) (8 * m + 4)
    have e5 := RND_round_eq_fips W (hb (8 * m + 5)) (8 * m + 5)
    have e6 := RND_round_eq_fips W (hb (8 * m + 6)) (8 * m + 6)
    have e7 := RND_round_eq_fips W (hb (8 * m + 7)) (8 * m + 7)
    have r0 : fips_round (fun t => W.getD t 0) (fips_rounds (fun t => W.getD t 0) (8 * m) v0)
        (8 * m + 0) = fips_rounds (fun t => W.getD t 0) (8 * m + 1) v0 := rfl
    have r : ∀ j, fips_round (fun t => W.getD t 0)
        (fips_rounds (fun t => W.getD t 0) (8 * m + j) v0) (8 * m + j) =
        fips_rounds (fun t => W.getD t 0) (8 * m + j + 1) v0 := fun j => rfl
    rw [e0, r0, e1, r 1, e2, r 2, e3, r 3, e4, r 4, e5, r 5, e6, r 6, e7, r 7]
    have h1 : 8 * m + 7 + 1 = 8 * (m + 1) := by ring
    rw [h1, ih (m + 1)]
    congr 2
    ring

/-- A word read from a list of 64-bit words, or 0, is a 64-bit word. -/
theorem getD_lt_U64 {l : List Nat} (h : ∀ x ∈ l, x < U64) (i : Nat) : l.getD i 0 < U64 := by
  rw [List.getD_eq_getElem?_getD]
  cases hg : l[i]? with
  | none => simp only [Option.getD_none]; decide
  | some x =>
    simp only [Option.getD_some]
    exact h x (List.mem_iff_getElem?.mpr ⟨i, hg⟩)

/-- The hash value that FIPS 180-4 computes is a list of eight 64-bit words. -/
theorem fips_block_bounded (H M : List Nat) : ∀ x ∈ fips_block H M, x < U64 := by
  intro x hx
  unfold fips_block at hx
  simp only [List.mem_cons, List.mem_singleton, List.not_mem_nil, or_false] at hx
  rcases hx with h | h | h | h | h | h | h | h <;> rw [h] <;> exact Nat.mod_lt _ (by decide)

/-- The function `sha512_compress` computes the hash value of FIPS 180-4, section 6.4.2,
for the block at `buf`, and returns 0. -/
theorem sha512_compress_eq_fips (md : sha512_state) (buf : List Nat)
    (hst : ∀ x ∈ md.state, x < U64) :
    sha512_compress md buf = (0, { md with state := fips_block md.state buf }) := by
  have hW0 : (List.range 16).map (fun i => LOAD64H buf (8 * i)) =
      (List.range 16).map (fips_W buf) := by
    apply List.map_congr_left
    intro t ht
    rw [fips_W, dif_pos (List.mem_range.mp ht)]
  have hW : fill_W 64 ((List.range 16).map (fun i => LOAD64H buf (8 * i))) =
      (List.range 80).map (fips_W buf) :=
    fill_W_eq_fips buf 64 16 _ (le_refl _) hW0
  have hv0 : (⟨md.state.getD 0 0, md.state.getD 1 0, md.state.getD 2 0, md.state.getD 3 0,
      md.state.getD 4 0, md.state.getD 5 0, md.state.getD 6 0, md.state.getD 7 0⟩ :
      fips_vars).bounded :=
    ⟨getD_lt_U64 hst 0, getD_lt_U64 hst 1, getD_lt_U64 hst 2, getD_lt_U64 hst 3,
      getD_lt_U64 hst 4, getD_lt_U64 hst 5, getD_lt_U64 hst 6, getD_lt_U64 hst 7⟩
  have hloop := compress_loop_eq_fips ((List.range 80).map (fips_W buf)) hv0 10 0
  have hcongr : fips_rounds (fun t => ((List.range 80).map (fips_W buf)).getD t 0) 80
      ⟨md.state.getD 0 0, md.state.getD 1 0, md.state.getD 2 0, md.state.getD 3 0,
        md.state.getD 4 0, md.state.getD 5 0, md.state.getD 6 0, md.state.getD 7 0⟩ =
      fips_rounds (fips_W buf) 80
      ⟨md.state.getD 0 0, md.state.getD 1 0, md.state.getD 2 0, md.state.getD 3 0,
        md.state.getD 4 0, md.state.getD 5 0, md.state.getD 6 0, md.state.getD 7 0⟩ := by
    apply fips_rounds_congr
    intro t ht
    rw [List.getD_eq_getElem?_getD, List.getElem?_map, List.getElem?_range ht]
    rfl
  have h80 : 8 * 0 + 8 * 10 = 80 := by decide
  rw [h80, hcongr] at hloop
  unfold sha512_compress fips_block
  simp only [hW]
  have hS : (⟨md.state.getD 0 0, md.state.getD 1 0, md.state.getD 2 0, md.state.getD 3 0,
      md.state.getD 4 0, md.state.getD 5 0, md.state.getD 6 0, md.state.getD 7 0⟩ : sha512_S) =
      (fips_rounds (fun t => ((List.range 80).map (fips_W buf)).getD t 0) (8 * 0)
        ⟨md.state.getD 0 0, md.state.getD 1 0, md.state.getD 2 0, md.state.getD 3 0,
          md.state.getD 4 0, md.state.getD 5 0, md.state.getD 6 0, md.state.getD 7 0⟩).S := rfl
  rw [hS, hloop]
  simp only [fips_vars.S, Nat.add_comm]

/-- The function `sha512_compress` returns 0. -/
theorem sha512_compress_fst (md : sha512_state) (buf : List Nat) :
    (sha512_compress md buf).1 = 0 := rfl

/-- The function `sha512_compress` leaves `length` as it is. -/
theorem sha512_compress_length (md : sha512_state) (buf : List Nat) :
    (sha512_compress md buf).2.length = md.length := rfl

/-- The function `sha512_compress` leaves `curlen` as it is. -/
theorem sha512_compress_curlen (md : sha512_state) (buf : List Nat) :
    (sha512_compress md buf).2.curlen = md.curlen := rfl

/-- The function `sha512_compress` leaves the buffer as it is. -/
theorem sha512_compress_buf (md : sha512_state) (buf : List Nat) :
    (sha512_compress md buf).2.buf = md.buf := rfl

/-- The words that `sha512_compress` leaves in the state. -/
theorem sha512_compress_state (md : sha512_state) (buf : List Nat)
    (hst : ∀ x ∈ md.state, x < U64) :
    (sha512_compress md buf).2.state = fips_block md.state buf := by
  rw [sha512_compress_eq_fips md buf hst]

/-- The hash value after a block depends on the first 128 bytes of the message only. -/
theorem fips_block_take (H M : List Nat) : fips_block H (M.take 128) = fips_block H M := by
  have hW : ∀ t, fips_W (M.take 128) t = fips_W M t := by
    apply fips_W_congr
    intro t ht
    apply LOAD64H_congr
    intro j hj
    rw [List.getD_eq_getElem?_getD, List.getD_eq_getElem?_getD, List.getElem?_take]
    rw [if_pos (by omega)]
  unfold fips_block
  rw [fips_rounds_congr _ 80 (fun t _ => hW t)]

/-- The loop of `sha512_process` on a state with an empty buffer: it compresses the
whole blocks of the input one after the other, adds their bits to `length`, copies the
rest of the input into the buffer, and returns 0. -/
theorem process_loop_blocks :
    ∀ (fuel : Nat) (md : sha512_state) (inp : List Nat),
      md.curlen = 0 → (∀ x ∈ md.state, x < U64) → md.length < U64 →
      inp.length < U32 → inp.length / 128 + 1 < fuel →
      process_loop fuel md inp inp.length =
        some (0,
          { length := (md.length + 1024 * (inp.length / 128)) % U64
            state := fips_hash (inp.length / 128) md.state inp
            curlen := inp.length % 128
            buf := tb_memcpy md.buf 0 (inp.drop (128 * (inp.length / 128)))
              (inp.length % 128) }) := by
  intro fuel
  induction fuel with
  | zero => intro md inp _ _ _ _ hf; omega
  | succ f ih =>
    intro md inp hcur hst hlen hin hf
    rw [process_loop]
    by_cases h0 : inp.length > 0
    · rw [if_pos h0]
      by_cases hblk : inp.length ≥ 128
      · have hc : md.curlen = 0 ∧ inp.length ≥ SHA512_BLOCK_SIZE := ⟨hcur, hblk⟩
        rw [if_pos hc]
        simp only [sha512_compress_eq_fips md inp hst, ne_eq, not_true_eq_false, if_false]
        have hdl : (inp.drop 128).length = inp.length - 128 := by simp
        have hinlen : (inp.length + U32 - SHA512_BLOCK_SIZE) % U32 = (inp.drop 128).length := by
          rw [hdl]
          have : inp.length + U32 - SHA512_BLOCK_SIZE = (inp.length - 128) + U32 := by
            unfold SHA512_BLOCK_SIZE
            omega
          rw [this, Nat.add_mod_right]
          exact Nat.mod_eq_of_lt (by omega)
        rw [hinlen]
        have hq : inp.length / 128 = (inp.length - 128) / 128 + 1 := by omega
        have := ih ⟨(md.length + SHA512_BLOCK_SIZE * 8) % U64, fips_block md.state inp,
          md.curlen, md.buf⟩ (inp.drop SHA512_BLOCK_SIZE) (by simp only; exact hcur)
          (fips_block_bounded md.state inp)
          (Nat.mod_lt _ (by decide)) (by unfold SHA512_BLOCK_SIZE; rw [hdl]; omega)
          (by unfold SHA512_BLOCK_SIZE; rw [hdl]; omega)
        simp only [SHA512_BLOCK_SIZE] at this ⊢
        rw [this, hdl]
        have e1 : ((md.length + 128 * 8) % U64 + 1024 * ((inp.length - 128) / 128)) % U64 =
            (md.length + 1024 * (inp.length / 128)) % U64 := by
          rw [hq, U64_eq]
          omega
        have e2 : fips_hash ((inp.length - 128) / 128) (fips_block md.state inp)
            (inp.drop 128) = fips_hash (inp.length / 128) md.state inp := by
          rw [hq, fips_hash, fips_block_take]
        have e3 : (inp.length - 128) % 128 = inp.length % 128 := by omega
        have e4 : (inp.drop 128).drop (128 * ((inp.length - 128) / 128)) =
            inp.drop (128 * (inp.length / 128)) := by
          rw [List.drop_drop]
          have e : ∀ a b : Nat, a = b → List.drop a inp = List.drop b inp :=
            fun a b h => by rw [h]
          exact e _ _ (by omega)
        rw [e1, e2, e3, e4]
      · have hc : ¬ (md.curlen = 0 ∧ inp.length ≥ SHA512_BLOCK_SIZE) := by
          unfold SHA512_BLOCK_SIZE
          omega
        rw [if_neg hc]
        have hn : min inp.length ((SHA512_BLOCK_SIZE + U32 - md.curlen) % U32) = inp.length := by
          rw [hcur]
          have : (SHA512_BLOCK_SIZE + U32 - 0) % U32 = 128 := by decide
          rw [this]
          omega
        simp only [hn]
        have hcl : (md.curlen + inp.length) % U32 = inp.length := by
          rw [hcur, Nat.zero_add]
          exact Nat.mod_eq_of_lt hin
        have hrest : (inp.length + U32 - inp.length) % U32 = 0 := by
          have : inp.length + U32 - inp.length = U32 := by omega
          rw [this]
          exact Nat.mod_self _
        rw [hcl, hrest]
        have hne : ¬ inp.length = SHA512_BLOCK_SIZE := by
          unfold SHA512_BLOCK_SIZE
          omega
        rw [if_neg hne]
        obtain ⟨g, rfl⟩ : ∃ g, f = g + 1 := ⟨f - 1, by omega⟩
        rw [process_loop, if_neg (by omega)]
        have hq : inp.length / 128 = 0 := by omega
        have hr : inp.length % 128 = inp.length := by omega
        rw [hq, hr, hcur]
        simp only [Nat.mul_zero, Nat.add_zero, List.drop_zero, fips_hash,
          Nat.mod_eq_of_lt hlen]
    · rw [if_neg h0]
      have hl : inp.length = 0 := by omega
      have hnil : inp = [] := List.length_eq_zero.mp hl
      subst hnil
      obtain ⟨l, st, c, b⟩ := md
      simp only at hcur hlen
      subst hcur
      simp [fips_hash, tb_memcpy, Nat.mod_eq_of_lt hlen]

/-- Storing at the index `c` and taking `c + 1` elements. -/
theorem take_succ_set {l : List Nat} {c : Nat} (a : Nat) (hc : c < l.length) :
    (l.set c a).take (c + 1) = l.take c ++ [a] := by
  apply List.ext_getElem?
  intro i
  rw [List.getElem?_take, List.getElem?_set]
  by_cases h1 : i < c
  · rw [if_pos (by omega), if_neg (by omega),
      List.getElem?_append_left (by rw [List.length_take]; omega), List.getElem?_take,
      if_pos h1]
  · by_cases h2 : i = c
    · subst h2
      rw [if_pos (by omega), if_pos rfl, if_pos hc,
        List.getElem?_append_right (by rw [List.length_take]; omega), List.length_take]
      have : min i l.length = i := by omega
      rw [this, Nat.sub_self]
      rfl
    · rw [if_neg (by omega), List.getElem?_eq_none]
      rw [List.length_append, List.length_take, List.length_singleton]
      omega

/-- The loops of `sha512_done` that fill the buffer with zero bytes up to `limit`: the
bytes from `curlen` up to `limit` are zero, the others unchanged, and `curlen` is
`limit`, so that the loop condition `curlen < limit` is false. -/
theorem zero_fill_loop_eq (limit : Nat) :
    ∀ (k : Nat) (buf : List Nat) (c : Nat), c + k = limit → limit ≤ buf.length →
      zero_fill_loop limit k buf c =
        (buf.take c ++ List.replicate k 0 ++ buf.drop limit, limit) := by
  intro k
  induction k with
  | zero =>
    intro buf c hc _
    have : c = limit := by omega
    subst this
    simp [zero_fill_loop]
  | succ k ih =>
    intro buf c hc hl
    rw [zero_fill_loop, if_pos (by omega),
      ih (buf.set c 0) (c + 1) (by omega) (by rw [List.length_set]; exact hl),
      take_succ_set 0 (by omega), List.drop_set_of_lt _ _ (by omega)]
    simp [List.replicate_succ]

/-- The function `STORE64H` stores eight bytes. -/
theorem STORE64H_length (x : Nat) : (STORE64H x).length = 8 := by
  simp [STORE64H]

/-- The bytes stored for the eight words of a hash value. -/
theorem flatMap_STORE64H_fips_block (H M : List Nat) :
    (List.range 8).flatMap (fun i => STORE64H ((fips_block H M).getD i 0)) =
      (fips_block H M).flatMap STORE64H := by
  have h8 : List.range 8 = [0, 1, 2, 3, 4, 5, 6, 7] := by decide
  rw [h8]
  unfold fips_block
  simp only [List.flatMap_cons, List.flatMap_nil, List.append_nil]
  rfl

/-- The function `sha512_done` on a well-formed state with fewer than 128 bytes in the
buffer: it returns 0 and stores the big-endian bytes of the hash value that FIPS 180-4
computes from the state for the final block or two blocks. -/
theorem sha512_done_eq_fips (md : sha512_state) (hcur : md.curlen < 128)
    (hbuf : md.buf.length = 128) (hst : ∀ x ∈ md.state, x < U64) :
    (sha512_done md).1 = 0 ∧
    (sha512_done md).2.2 =
      some ((fips_hash (if md.curlen + 1 > 112 then 2 else 1) md.state
        (final_blocks (md.buf.take md.curlen)
          ((md.length + (md.curlen * 8) % U64) % U64))).flatMap STORE64H) := by
  obtain ⟨len, st, n, buf⟩ := md
  simp only at hcur hbuf hst
  have htl : (buf.take n).length = n := by rw [List.length_take]; omega
  have hset : (buf.set n 0x80).length = 128 := by rw [List.length_set]; exact hbuf
  unfold sha512_done
  simp only [SHA512_BLOCK_SIZE]
  rw [if_neg (by omega)]
  simp only
  generalize hbits : (len + n * 8 % U64) % U64 = bits
  unfold final_blocks
  rw [htl]
  by_cases hbig : n + 1 > 112
  · simp only [if_pos hbig]
    rw [zero_fill_loop_eq 128 (128 - (n + 1)) (buf.set n 0x80) (n + 1) (by omega)
      (by rw [hset])]
    simp only [sha512_compress_length, sha512_compress_curlen, sha512_compress_buf]
    rw [take_succ_set 0x80 (by omega), List.drop_of_length_le (by rw [hset]),
      List.append_nil]
    rw [zero_fill_loop_eq 120 (120 - 0) _ 0 (by omega) (by
      simp only [List.length_append, List.length_take, List.length_replicate,
        List.length_singleton]
      omega)]
    simp only
    have hA : (buf.take n ++ [0x80] ++ List.replicate (128 - (n + 1)) 0).length = 128 := by
      simp only [List.length_append, List.length_take, List.length_replicate,
        List.length_singleton]
      omega
    have e2 : tb_memcpy (List.take 0 (buf.take n ++ [0x80] ++ List.replicate (128 - (n + 1)) 0)
        ++ List.replicate (120 - 0) 0 ++
        List.drop 120 (buf.take n ++ [0x80] ++ List.replicate (128 - (n + 1)) 0)) 120
        (STORE64H bits) 8 = List.replicate 120 0 ++ STORE64H bits := by
      unfold tb_memcpy
      rw [List.take_zero, List.nil_append, Nat.sub_zero]
      have h120 : (List.replicate 120 (0 : Nat)).length = 120 := List.length_replicate _ _
      have hs : (STORE64H bits).take 8 = STORE64H bits :=
        List.take_of_length_le (by rw [STORE64H_length])
      have hd : List.drop (120 + 8) (List.replicate 120 0 ++
          List.drop 120 (buf.take n ++ [0x80] ++ List.replicate (128 - (n + 1)) 0)) = [] :=
        List.drop_of_length_le (by
          rw [List.length_append, h120, List.length_drop, hA])
      rw [List.take_left' h120, hs, hd]
      simp
    rw [e2]
    rw [sha512_compress_state _ _ (by
      rw [sha512_compress_state _ _ hst]
      exact fips_block_bounded _ _)]
    simp only
    rw [sha512_compress_state _ _ hst]
    refine ⟨by first | rfl | trivial, ?_⟩
    rw [flatMap_STORE64H_fips_block]
    have hsplit : buf.take n ++ 0x80 :: List.replicate (247 - n) 0 ++ STORE64H bits =
        (buf.take n ++ [0x80] ++ List.replicate (128 - (n + 1)) 0) ++
          (List.replicate 120 0 ++ STORE64H bits) := by
      have : 247 - n = (128 - (n + 1)) + 120 := by omega
      rw [this, List.replicate_add]
      simp
    rw [hsplit]
    have e1 : fips_hash 2 st ((buf.take n ++ [0x80] ++ List.replicate (128 - (n + 1)) 0) ++
        (List.replicate 120 0 ++ STORE64H bits)) =
        fips_block (fips_block st (buf.take n ++ [0x80] ++ List.replicate (128 - (n + 1)) 0))
          (List.replicate 120 0 ++ STORE64H bits) := by
      rw [fips_hash, fips_hash, fips_hash]
      rw [List.take_left' hA, List.drop_left' hA, fips_block_take]
    rw [e1]
  · simp only [if_neg hbig]
    rw [zero_fill_loop_eq 120 (120 - (n + 1)) (buf.set n 0x80) (n + 1) (by omega)
      (by rw [hset]; omega)]
    simp only
    rw [take_succ_set 0x80 (by omega)]
    have hA : (buf.take n ++ [0x80] ++ List.replicate (120 - (n + 1)) 0).length = 120 := by
      simp only [List.length_append, List.length_take, List.length_replicate,
        List.length_singleton]
      omega
    have e2 : tb_memcpy (buf.take n ++ [0x80] ++ List.replicate (120 - (n + 1)) 0 ++
        List.drop 120 (buf.set n 0x80)) 120 (STORE64H bits) 8 =
        buf.take n ++ 0x80 :: List.replicate (119 - n) 0 ++ STORE64H bits := by
      unfold tb_memcpy
      have hs : (STORE64H bits).take 8 = STORE64H bits :=
        List.take_of_length_le (by rw [STORE64H_length])
      have hd : List.drop (120 + 8) (buf.take n ++ [0x80] ++ List.replicate (120 - (n + 1)) 0 ++
          List.drop 120 (buf.set n 0x80)) = [] :=
        List.drop_of_length_le (by
          rw [List.length_append, hA, List.length_drop, hset])
      rw [List.take_left' hA, hs, hd]
      have : 120 - (n + 1) = 119 - n := by omega
      rw [this]
      simp
    rw [e2, sha512_compress_state _ _ hst]
    refine ⟨by first | rfl | trivial, ?_⟩
    rw [flatMap_STORE64H_fips_block, fips_hash, fips_hash, fips_block_take]

/-- The hash value after the first `q` blocks reads the first `128 * q` bytes only. -/
theorem fips_hash_append_left :
    ∀ (q : Nat) (H A B : List Nat), 128 * q ≤ A.length →
      fips_hash q H (A ++ B) = fips_hash q H A := by
  intro q
  induction q with
  | zero => intro H A B _; rfl
  | succ q ih =>
    intro H A B h
    rw [fips_hash, fips_hash, List.take_append_of_le_length (by omega),
      List.drop_append_of_le_length (by omega), ih _ _ _ (by rw [List.length_drop]; omega)]

/-- The hash value after `q + N` blocks is the hash value after the `N` blocks that
follow the first `q`, from the hash value after these. -/
theorem fips_hash_add :
    ∀ (q N : Nat) (H M : List Nat),
      fips_hash (q + N) H M = fips_hash N (fips_hash q H M) (M.drop (128 * q)) := by
  intro q
  induction q with
  | zero => intro N H M; simp [fips_hash]
  | succ q ih =>
    intro N H M
    have h1 : q + 1 + N = (q + N) + 1 := by omega
    rw [h1, fips_hash, fips_hash, ih, List.drop_drop]
    have e : ∀ a b : Nat, a = b → List.drop a M = List.drop b M := fun a b h => by rw [h]
    rw [e _ _ (by ring : 128 + 128 * q = 128 * (q + 1))]

/-- A hash value of FIPS 180-4 from the initial one has eight words. -/
theorem fips_hash_length : ∀ (N : Nat) (H M : List Nat), H.length = 8 →
    (fips_hash N H M).length = 8 := by
  intro N
  induction N with
  | zero => intro H M h; exact h
  | succ N ih => intro H M _; rw [fips_hash]; exact ih _ _ rfl

/-- The hash values of FIPS 180-4 are lists of 64-bit words. -/
theorem fips_hash_bounded : ∀ (k : Nat) (H M : List Nat), (∀ y ∈ H, y < U64) →
    ∀ y ∈ fips_hash k H M, y < U64 := by
  intro k
  induction k with
  | zero => intro H M h; exact h
  | succ k ih => intro H M _; rw [fips_hash]; exact ih _ _ (fips_block_bounded _ _)

/-- The digest of FIPS 180-4 has 64 bytes. -/
theorem fips_sha512_length (M : List Nat) : (fips_sha512 M).length = 64 := by
  unfold fips_sha512
  have h := fips_hash_length ((fips_pad M).length / 128) fips_H0 (fips_pad M) rfl
  generalize fips_hash ((fips_pad M).length / 128) fips_H0 (fips_pad M) = D at h
  match D, h with
  | [a, b, c, d, e, f, g, i], _ => simp [List.flatMap, STORE64H_length]

/-- The 128-bit big-endian form of a number below `2^64`: eight zero bytes and the
64-bit big-endian form. -/
theorem be128_eq {l : Nat} (hl : l < U64) :
    (List.range 16).map (fun j => (l >>> (8 * (15 - j))) % 256) =
      List.replicate 8 0 ++ STORE64H l := by
  have h16 : List.range 16 = [0, 1, 2, 3, 4, 5, 6, 7, 8, 9, 10, 11, 12, 13, 14, 15] := by
    decide
  have h8 : List.range 8 = [0, 1, 2, 3, 4, 5, 6, 7] := by decide
  have hz : ∀ s, 64 ≤ s → l >>> s % 256 = 0 := by
    intro s hs
    rw [Nat.shiftRight_eq_div_pow, Nat.div_eq_of_lt]
    have : (2 : Nat) ^ 64 ≤ 2 ^ s := Nat.pow_le_pow_right (by decide) hs
    unfold U64 at hl
    omega
  unfold STORE64H
  rw [h16, h8]
  simp only [List.map, List.replicate, List.cons_append, List.nil_append]
  rw [hz (8 * (15 - 0)) (by decide), hz (8 * (15 - 1)) (by decide),
    hz (8 * (15 - 2)) (by decide), hz (8 * (15 - 3)) (by decide),
    hz (8 * (15 - 4)) (by decide), hz (8 * (15 - 5)) (by decide),
    hz (8 * (15 - 6)) (by decide), hz (8 * (15 - 7)) (by decide)]

/-- The padded message of FIPS 180-4 is the message followed by what `sha512_done`
compresses behind the rest of the message. -/
theorem fips_pad_eq (M : List Nat) (hl : 8 * M.length < U64) (q : Nat)
    (hq : q = M.length / 128) :
    fips_pad M = M.take (128 * q) ++ final_blocks (M.drop (128 * q)) (8 * M.length) := by
  have hlen : (M.drop (128 * q)).length = M.length % 128 := by
    rw [List.length_drop, hq]
    omega
  unfold fips_pad final_blocks
  simp only
  rw [be128_eq hl, hlen]
  have hk : (896 + 1024 - (8 * M.length + 1) % 1024) % 1024 =
      if M.length % 128 + 1 > 112 then 1919 - 8 * (M.length % 128)
      else 895 - 8 * (M.length % 128) := by
    split <;> omega
  rw [hk]
  have hz : List.replicate (((if M.length % 128 + 1 > 112 then 1919 - 8 * (M.length % 128)
      else 895 - 8 * (M.length % 128)) + 1) / 8 - 1) 0 ++ List.replicate 8 (0 : Nat) =
      List.replicate (if M.length % 128 + 1 > 112 then 247 - M.length % 128
        else 119 - M.length % 128) 0 := by
    rw [← List.replicate_add]
    congr 1
    split <;> omega
  have key : ∀ S : List Nat,
      List.replicate (((if M.length % 128 + 1 > 112 then 1919 - 8 * (M.length % 128)
        else 895 - 8 * (M.length % 128)) + 1) / 8 - 1) 0 ++ (List.replicate 8 0 ++ S) =
      List.replicate (if M.length % 128 + 1 > 112 then 247 - M.length % 128
        else 119 - M.length % 128) 0 ++ S := fun S => by rw [← List.append_assoc, hz]
  have hM : ∀ X : List Nat, M.take (128 * q) ++ (M.drop (128 * q) ++ X) = M ++ X :=
    fun X => by rw [← List.append_assoc, List.take_append_drop]
  simp only [List.append_assoc, List.cons_append, hM, key]

/-- C22: `sha512_buffer` computes SHA-512. For every byte string `M` of length below
`2^32`, whatever the local variable `md` holds at entry (its buffer has 128 bytes),
`sha512_buffer` with enough fuel for its loop returns 0 and stores the digest of `M`
that FIPS 180-4 defines: the hash value after the blocks of the padded message (the
message, the byte `0x80`, zero bytes, the bit length as a 128-bit big-endian number),
each block compressed in 80 rounds with the constants `K`, the eight words of the
final hash value stored in big-endian order, 64 bytes. -/
theorem sha512_buffer_eq_fips (fuel : Nat) (md0 : sha512_state) (M : List Nat)
    (hbuf : md0.buf.length = SHA512_BLOCK_SIZE) (hlen : M.length < U32)
    (hfuel : M.length / 128 + 1 < fuel) :
    sha512_buffer fuel md0 (some M) M.length = some (0, some (fips_sha512 M)) ∧
    (fips_sha512 M).length = 64 := by
  refine ⟨?_, fips_sha512_length M⟩
  have hH0 : ∀ x ∈ fips_H0, x < U64 := by decide
  have hU : U32 < U64 := by decide
  have hloop := process_loop_blocks fuel
    ⟨0, fips_H0, 0, md0.buf⟩ M rfl hH0 (show (0 : Nat) < U64 by decide) hlen hfuel
  simp only [Nat.zero_add] at hloop
  have hr : M.length % 128 < 128 := Nat.mod_lt _ (by decide)
  have hdl : (M.drop (128 * (M.length / 128))).length = M.length % 128 := by
    rw [List.length_drop]
    omega
  have hbuf1 : (tb_memcpy md0.buf 0 (M.drop (128 * (M.length / 128)))
      (M.length % 128)).length = 128 := by
    unfold tb_memcpy
    unfold SHA512_BLOCK_SIZE at hbuf
    simp only [List.length_append, List.length_take, List.length_drop, hbuf]
    omega
  have htake : (tb_memcpy md0.buf 0 (M.drop (128 * (M.length / 128)))
      (M.length % 128)).take (M.length % 128) = M.drop (128 * (M.length / 128)) := by
    unfold tb_memcpy
    have hs : (M.drop (128 * (M.length / 128))).take (M.length % 128) =
        M.drop (128 * (M.length / 128)) := List.take_of_length_le (by rw [hdl])
    rw [List.take_zero, List.nil_append, hs, List.take_left' hdl]
  have hbits : ((1024 * (M.length / 128)) % U64 + (M.length % 128 * 8) % U64) % U64 =
      8 * M.length := by
    rw [U64_eq]
    have : M.length < 4294967296 := hlen
    omega
  obtain ⟨hd1, hd2⟩ := sha512_done_eq_fips
    ⟨(1024 * (M.length / 128)) % U64, fips_hash (M.length / 128) fips_H0 M, M.length % 128,
      tb_memcpy md0.buf 0 (M.drop (128 * (M.length / 128))) (M.length % 128)⟩
    hr hbuf1 (by simp only; exact fips_hash_bounded _ _ _ hH0)
  simp only [htake, hbits] at hd2
  have hinit1 : (sha512_init md0).1 = 0 := rfl
  have hinit : (sha512_init md0).2 = ⟨0, fips_H0, 0, md0.buf⟩ := rfl
  unfold sha512_buffer
  simp only [hinit1, hinit, Nat.mod_eq_of_lt hlen]
  unfold sha512_process
  simp only [SHA512_BLOCK_SIZE]
  rw [if_neg (by omega), if_neg (by omega), hloop]
  simp only [hd1, hd2]
  have hpad := fips_pad_eq M (by rw [U64_eq]; have : M.length < 4294967296 := hlen; omega)
    (M.length / 128) rfl
  have hfl : (final_blocks (M.drop (128 * (M.length / 128))) (8 * M.length)).length =
      128 * (if M.length % 128 + 1 > 112 then 2 else 1) := by
    unfold final_blocks
    simp only [List.length_append, List.length_cons, List.length_replicate, hdl,
      STORE64H_length]
    split <;> omega
  have htk : (M.take (128 * (M.length / 128))).length = 128 * (M.length / 128) := by
    rw [List.length_take]
    omega
  have hN : (fips_pad M).length / 128 =
      M.length / 128 + (if M.length % 128 + 1 > 112 then 2 else 1) := by
    rw [hpad, List.length_append, htk, hfl]
    omega
  unfold fips_sha512
  rw [hN, fips_hash_add]
  have e1 : fips_hash (M.length / 128) fips_H0 (fips_pad M) =
      fips_hash (M.length / 128) fips_H0 M := by
    unfold fips_pad
    simp only [List.append_assoc]
    exact fips_hash_append_left _ _ _ _ (by omega)
  have e2 : (fips_pad M).drop (128 * (M.length / 128)) =
      final_blocks (M.drop (128 * (M.length / 128))) (8 * M.length) := by
    rw [hpad, List.drop_left' htk]
  rw [e1, e2]
  rfl

/-- C22 at concrete inputs: for the three bytes of the message "abc" and for the empty
string, `sha512_buffer` returns 0 and stores their digests, `ddaf35a1...a54ca49f` and
`cf83e135...f927da3e`, which are therefore the digests that FIPS 180-4 defines. -/
theorem sha512_buffer_eq_fips_witness :
    sha512_buffer 2 stale_md (some [0x61, 0x62, 0x63]) 3 =
      some (0, some (fips_sha512 [0x61, 0x62, 0x63])) ∧
    fips_sha512 [0x61, 0x62, 0x63] =
      [0xdd, 0xaf, 0x35, 0xa1, 0x93, 0x61, 0x7a, 0xba, 0xcc, 0x41, 0x73, 0x49,
       0xae, 0x20, 0x41, 0x31, 0x12, 0xe6, 0xfa, 0x4e, 0x89, 0xa9, 0x7e, 0xa2,
       0x0a, 0x9e, 0xee, 0xe6, 0x4b, 0x55, 0xd3, 0x9a, 0x21, 0x92, 0x99, 0x2a,
       0x27, 0x4f, 0xc1, 0xa8, 0x36, 0xba, 0x3c, 0x23, 0xa3, 0xfe, 0xeb, 0xbd,
       0x45, 0x4d, 0x44, 0x23, 0x64, 0x3c, 0xe8, 0x0e, 0x2a, 0x9a, 0xc9, 0x4f,
       0xa5, 0x4c, 0xa4, 0x9f] ∧
    sha512_buffer 2 stale_md (some []) 0 = some (0, some (fips_sha512 [])) ∧
    fips_sha512 [] =
      [0xcf, 0x83, 0xe1, 0x35, 0x7e, 0xef, 0xb8, 0xbd, 0xf1, 0x54, 0x28, 0x50,
       0xd6, 0x6d, 0x80, 0x07, 0xd6, 0x20, 0xe4, 0x05, 0x0b, 0x57, 0x15, 0xdc,
       0x83, 0xf4, 0xa9, 0x21, 0xd3, 0x6c, 0xe9, 0xce, 0x47, 0xd0, 0xd1, 0x3c,
       0x5d, 0x85, 0xf2, 0xb0, 0xff, 0x83, 0x18, 0xd2, 0x87, 0x7e, 0xec, 0x2f,
       0x63, 0xb9, 0x31, 0xbd, 0x47, 0x41, 0x7a, 0x81, 0xa5, 0x38, 0x32, 0x7a,
       0xf9, 0x27, 0xda, 0x3e] := by
  have h1 := (sha512_buffer_eq_fips 2 stale_md [0x61, 0x62, 0x63]
    (by simp [stale_md, SHA512_BLOCK_SIZE]) (by decide) (by decide)).1
  have h2 := (sha512_buffer_eq_fips 2 stale_md []
    (by simp [stale_md, SHA512_BLOCK_SIZE]) (by decide) (by decide)).1
  have c1 : sha512_buffer 2 stale_md (some [0x61, 0x62, 0x63]) 3 = some (0, some
      [0xdd, 0xaf, 0x35, 0xa1, 0x93, 0x61, 0x7a, 0xba, 0xcc, 0x41, 0x73, 0x49,
       0xae, 0x20, 0x41, 0x31, 0x12, 0xe6, 0xfa, 0x4e, 0x89, 0xa9, 0x7e, 0xa2,
       0x0a, 0x9e, 0xee, 0xe6, 0x4b, 0x55, 0xd3, 0x9a, 0x21, 0x92, 0x99, 0x2a,
       0x27, 0x4f, 0xc1, 0xa8, 0x36, 0xba, 0x3c, 0x23, 0xa3, 0xfe, 0xeb, 0xbd,
       0x45, 0x4d, 0x44, 0x23, 0x64, 0x3c, 0xe8, 0x0e, 0x2a, 0x9a, 0xc9, 0x4f,
       0xa5, 0x4c, 0xa4, 0x9f]) := by
    set_option maxRecDepth 1000000 in decide
  have c2 : sha512_buffer 2 stale_md (some []) 0 = some (0, some
      [0xcf, 0x83, 0xe1, 0x35, 0x7e, 0xef, 0xb8, 0xbd, 0xf1, 0x54, 0x28, 0x50,
       0xd6, 0x6d, 0x80, 0x07, 0xd6, 0x20, 0xe4, 0x05, 0x0b, 0x57, 0x15, 0xdc,
       0x83, 0xf4, 0xa9, 0x21, 0xd3, 0x6c, 0xe9, 0xce, 0x47, 0xd0, 0xd1, 0x3c,
       0x5d, 0x85, 0xf2, 0xb0, 0xff, 0x83, 0x18, 0xd2, 0x87, 0x7e, 0xec, 0x2f,
       0x63, 0xb9, 0x31, 0xbd, 0x47, 0x41, 0x7a, 0x81, 0xa5, 0x38, 0x32, 0x7a,
       0xf9, 0x27, 0xda, 0x3e]) := by
    set_option maxRecDepth 1000000 in decide
  refine ⟨h1, ?_, h2, ?_⟩
  · have := h1.symm.trans c1
    simpa using this
  · have := h2.symm.trans c2
    simpa using this

/-- C23 at the failing input: the state `near_wrap_md` (`curlen = 0`, `length = 2^64 -
1024`) and an input of 128 zero bytes. Adding the input wraps the bit counter (`length
+ 8 * curlen + 8 * inlen = 2^64`), but the test of line 161 adds `inlen`, a count of
bytes, to `length`, a count of bits: `length + inlen` does not wrap, the block is
compressed, `sha512_process` returns 0 and `length` has wrapped to 0. The test does
fire where `length + inlen` itself wraps: with `length = 2^64 - 64` the same call
returns -1 and leaves the state as it was. -/
theorem sha512_process_length_wraps :
    near_wrap_md.curlen ≤ 128 ∧
    near_wrap_md.length + 8 * near_wrap_md.curlen + 8 * 128 ≥ U64 ∧
    (sha512_process 2 near_wrap_md (some (List.replicate 128 0)) 128).map
      (fun r => (r.1, r.2.length, r.2.curlen)) = some (0, 0, 0) ∧
    sha512_process 2 { near_wrap_md with length := U64 - 64 } (some (List.replicate 128 0))
      128 = some (-1, { near_wrap_md with length := U64 - 64 }) := by
  refine ⟨by decide, by decide, ?_, ?_⟩
  · set_option maxRecDepth 1000000 in decide
  · set_option maxRecDepth 1000000 in decide

/-! ## The order of the entries -/

/-- Replacing an entry of a sorted list by a sorted run of entries that lie within it
leaves the list sorted. -/
theorem pairwise_replace (done rest N : List efi_mem_descr_t) (e : efi_mem_descr_t)
    (h : (done ++ e :: rest).Pairwise (fun a b => a.physical_start ≤ b.physical_start ∧
      a.end_addr ≤ b.physical_start))
    (hN : N.Pairwise (fun a b => a.physical_start ≤ b.physical_start ∧
      a.end_addr ≤ b.physical_start))
    (hin : ∀ n ∈ N, e.physical_start ≤ n.physical_start ∧ n.end_addr ≤ e.end_addr) :
    (done ++ N ++ rest).Pairwise (fun a b => a.physical_start ≤ b.physical_start ∧
      a.end_addr ≤ b.physical_start) := by
  rw [List.pairwise_append] at h
  obtain ⟨hd, her, hde⟩ := h
  rw [List.pairwise_cons] at her
  obtain ⟨her1, hr⟩ := her
  have hse : ∀ n : efi_mem_descr_t, n.physical_start ≤ n.end_addr := by
    intro n
    unfold efi_mem_descr_t.end_addr
    omega
  rw [List.append_assoc, List.pairwise_append]
  refine ⟨hd, ?_, ?_⟩
  · rw [List.pairwise_append]
    refine ⟨hN, hr, ?_⟩
    intro n hn y hy
    have h1 := hin n hn
    have h2 := her1 y hy
    have h3 := hse n
    exact ⟨by omega, by omega⟩
  · intro x hx y hy
    rcases List.mem_append.mp hy with hy | hy
    · have h1 := hde x hx e (List.mem_cons_self _ _)
      have h2 := hin y hy
      exact ⟨by omega, by omega⟩
    · exact hde x hx y (List.mem_cons_of_mem _ hy)

theorem floor_page_le (x : Nat) : (x >>> EFI_PAGE_SHIFT) * 2 ^ EFI_PAGE_SHIFT ≤ x := by
  rw [Nat.shiftRight_eq_div_pow]
  exact Nat.div_mul_le_self _ _

/-- On a sorted list without overflow and a range that does not wrap, a scan that
returns true leaves a sorted list. -/
theorem reserve_entries_sorted (maxEntries base length end_ : Nat)
    (hrange : base + length ≤ end_) :
    ∀ (todo done : List efi_mem_descr_t),
      (done ++ todo).Pairwise (fun a b => a.physical_start ≤ b.physical_start ∧
        a.end_addr ≤ b.physical_start) →
      (∀ x ∈ todo, x.end_addr < U64) →
      (reserve_entries maxEntries base length end_ done todo).1 = true →
      (reserve_entries maxEntries base length end_ done todo).2.Pairwise
        (fun a b => a.physical_start ≤ b.physical_start ∧ a.end_addr ≤ b.physical_start) := by
  intro todo
  induction todo with
  | nil =>
    intro done h _ _
    simp only [reserve_entries]
    simpa using h
  | cons e rest ih =>
    intro done h hbound
    have hrest_bound : ∀ x ∈ rest, x.end_addr < U64 :=
      fun x hx => hbound x (List.mem_cons_of_mem _ hx)
    have hde : e.desc_end = e.physical_start + e.num_pages * 2 ^ EFI_PAGE_SHIFT :=
      efi_mem_descr_t.desc_end_eq (hbound e (List.mem_cons_self _ _))
    apply reserve_entries_cons_cases (fun r => r.1 = true → r.2.Pairwise
      (fun a b => a.physical_start ≤ b.physical_start ∧ a.end_addr ≤ b.physical_start))
    · intro _
      apply ih (done ++ [e]) _ hrest_bound
      simpa using h
    · intro _ _
      apply ih _ _ hrest_bound
      have := pairwise_replace done rest [{ e with type := EFI_RESERVED_TYPE }] e h
        (List.pairwise_singleton _ _) (by
          intro n hn
          rw [List.mem_singleton.mp hn]
          exact ⟨le_refl _, le_refl _⟩)
      simpa using this
    · intro hf; exact absurd hf (by simp)
    · intro _ hlo _ _
      obtain ⟨h1, h2, h3⟩ := hlo
      rw [hde] at h3 ⊢
      have f1 := floor_page_le (end_ - e.physical_start)
      have f2 := floor_page_le (e.physical_start + e.num_pages * 2 ^ EFI_PAGE_SHIFT - end_)
      apply pairwise_replace done rest _ e h
      · rw [List.pairwise_pair]
        unfold efi_mem_descr_t.end_addr
        simp only
        exact ⟨by omega, by omega⟩
      · intro n hn
        simp only [List.mem_cons, List.mem_singleton, List.not_mem_nil, or_false] at hn
        rcases hn with hn | hn <;> rw [hn] <;> unfold efi_mem_descr_t.end_addr <;>
          simp only <;> exact ⟨by omega, by omega⟩
    · intro _ hf; exact absurd hf (by simp)
    · intro _ hlt hgt hge _
      rw [hde] at hgt hge ⊢
      have f1 := floor_page_le (base - e.physical_start)
      have f2 := floor_page_le (e.physical_start + e.num_pages * 2 ^ EFI_PAGE_SHIFT - base)
      apply ih _ _ hrest_bound
      have := pairwise_replace done rest
        [{ e with num_pages := (base - e.physical_start) >>> EFI_PAGE_SHIFT },
          ⟨EFI_RESERVED_TYPE, base,
            (e.physical_start + e.num_pages * 2 ^ EFI_PAGE_SHIFT - base) >>> EFI_PAGE_SHIFT,
            e.attr, 0⟩] e h
        (by
          rw [List.pairwise_pair]
          unfold efi_mem_descr_t.end_addr
          simp only
          exact ⟨by omega, by omega⟩)
        (by
          intro n hn
          simp only [List.mem_cons, List.mem_singleton, List.not_mem_nil, or_false] at hn
          rcases hn with hn | hn <;> rw [hn] <;> unfold efi_mem_descr_t.end_addr <;>
            simp only <;> exact ⟨by omega, by omega⟩)
      exact this
    · intro _ _ hf; exact absurd hf (by simp)
    · intro _ hlt hgt _ _
      rw [hde] at hgt ⊢
      have f1 := floor_page_le (base - e.physical_start)
      have f2 := floor_page_le (e.physical_start + e.num_pages * 2 ^ EFI_PAGE_SHIFT - end_)
      have f3 := floor_page_le length
      apply pairwise_replace done rest _ e h
      · simp only [List.pairwise_cons, List.mem_cons, List.mem_singleton, List.not_mem_nil,
          or_false, forall_eq_or_imp, forall_eq, IsEmpty.forall_iff, implies_true,
          List.Pairwise.nil, and_true]
        unfold efi_mem_descr_t.end_addr
        simp only
        exact ⟨⟨⟨by omega, by omega⟩, ⟨by omega, by omega⟩⟩, ⟨by omega, by omega⟩⟩
      · intro n hn
        simp only [List.mem_cons, List.mem_singleton, List.not_mem_nil, or_false] at hn
        rcases hn with hn | hn | hn <;> rw [hn] <;> unfold efi_mem_descr_t.end_addr <;>
          simp only <;> exact ⟨by omega, by omega⟩

/-- The claim of C31 where the defect of the first entry does not strike: on an
available, well-formed map whose entries are sorted by ascending `physical_start`,
pairwise non-overlapping and without 64-bit overflow, to whose first entry case 2 does
not apply, and for a range that does not wrap, a call of `efi_memmap_reserve` that
returns true leaves the entries sorted and pairwise non-overlapping. -/
theorem efi_memmap_reserve_keeps_sorted (maxEntries fuel : Nat) (s s1 : efi_state)
    (base length : Nat)
    (hav : s.efi_mmap_available = true)
    (hwf : s.efi_mmap.well_formed maxEntries)
    (hsorted : s.efi_mmap.sorted)
    (hbounded : s.efi_mmap.bounded)
    (hfirst : ∃ e rest, s.efi_mmap.entries = e :: rest ∧
      ¬ (e.is_free ∧ e.left_overlap (reserve_base base) (reserve_end base length)))
    (hrange : reserve_base base + reserve_length length < U64)
    (hfuel : s.efi_mmap.size / s.efi_mmap.descr_size < fuel)
    (hres : efi_memmap_reserve maxEntries fuel s base length = some (true, s1)) :
    s1.efi_mmap.sorted := by
  by_cases hlen : length = 0
  · subst hlen
    have h0 : efi_memmap_reserve maxEntries fuel s base 0 = some (true, s) := by
      unfold efi_memmap_reserve
      simp
    rw [h0] at hres
    simp only [Option.some.injEq, Prod.mk.injEq, true_and] at hres
    subst hres
    exact hsorted
  obtain ⟨s2, hres2, hav2, hds2, hh2⟩ := efi_memmap_reserve_entries maxEntries fuel s base
    length hav hwf hlen hfirst hfuel
  rw [hres] at hres2
  simp only [Option.some.injEq, Prod.mk.injEq] at hres2
  obtain ⟨htrue, hs⟩ := hres2
  subst hs
  have hent := efi_memmap_t.entries_of_holds (by rw [hds2]; exact hwf.1) hh2
  unfold efi_memmap_t.sorted
  rw [hent]
  have hend : reserve_end base length = reserve_base base + reserve_length length := by
    unfold reserve_end
    exact Nat.mod_eq_of_lt hrange
  exact reserve_entries_sorted maxEntries (reserve_base base) (reserve_length length)
    (reserve_end base length) (by rw [hend]) s.efi_mmap.entries []
    (by simpa using hsorted) hbounded htrue.symm

/-- C31 at the failing input: the map `stale_slot_state` (page-aligned, sorted, no
overflow; the slot behind the map holds an old descriptor) and
`efi_memmap_reserve(0x0, 0x1000)`. Case 2 fires on the first entry (`i = 0`),
`insert_after_region` is called with position `i - 1 = 0xffffffff` and writes the new
entry over slot 0 without a shift; `size` grows and the slot behind the map becomes the
last entry. The call returns true and the entries are no longer sorted: the last entry
starts at `0x0`, before the entry at `0x1000`, and covers `[0x0, 0x1000)` as the first
one does. On `two_entry_state`, the same map with zero storage behind it, the last
entry is the zero descriptor, which starts before the entry at `0x1000` as well. -/
theorem efi_memmap_reserve_first_entry_breaks_order :
    stale_slot_state.efi_mmap.aligned ∧
    stale_slot_state.efi_mmap.sorted ∧
    (∀ fuel, (efi_memmap_reserve 128 (fuel + 1) stale_slot_state 0x0 0x1000).map
        (fun r => (r.1, r.2.efi_mmap.entries, decide r.2.efi_mmap.sorted)) =
      some (true,
        [⟨EFI_RESERVED_TYPE, 0x0, 1, 0xf, 0⟩, ⟨EFI_LOADER_DATA, 0x1000, 15, 0xf, 0⟩,
         ⟨EFI_CONVENTIONAL_MEMORY, 0x0, 1, 0xf, 0⟩], false)) ∧
    (⟨EFI_CONVENTIONAL_MEMORY, 0x0, 1, 0xf, 0⟩ : efi_mem_descr_t).intersects 0x0 0x1000 ∧
    (⟨EFI_RESERVED_TYPE, 0x0, 1, 0xf, 0⟩ : efi_mem_descr_t).intersects 0x0 0x1000 ∧
    two_entry_state.efi_mmap.aligned ∧
    two_entry_state.efi_mmap.sorted ∧
    (∀ fuel, (efi_memmap_reserve 128 (fuel + 1) two_entry_state 0x0 0x1000).map
        (fun r => (r.1, r.2.efi_mmap.entries, decide r.2.efi_mmap.sorted)) =
      some (true,
        [⟨EFI_RESERVED_TYPE, 0x0, 1, 0xf, 0⟩, ⟨EFI_LOADER_DATA, 0x1000, 15, 0xf, 0⟩,
         ⟨0, 0, 0, 0, 0⟩], false)) :=
  ⟨by decide, by decide, fun _ => rfl, by decide, by decide, by decide, by decide,
    fun _ => rfl⟩

/-! ## Termination of the scan -/

/-- Case 2 on the first entry of a map that is not empty: the scan ends there. It
returns false from the capacity test with the size it found, or true with one entry
more and within the capacity. -/
theorem reserve_loop_first_entry_left (maxEntries base length end_ f : Nat) (s : efi_state)
    (hav : s.efi_mmap_available = true) (hds : 0 < s.efi_mmap.descr_size)
    (hpos : 0 < s.efi_mmap.size) (hfit : s.efi_mmap.size + s.efi_mmap.descr_size < U32)
    (hfree : (s.efi_mmap.descr 0).is_free)
    (hlo : (s.efi_mmap.descr 0).left_overlap base end_) :
    ∃ r s1, reserve_loop maxEntries base length end_ (f + 1) s none 0 = some (r, s1) ∧
      s1.efi_mmap.descr_size = s.efi_mmap.descr_size ∧
      (s1.efi_mmap.size = s.efi_mmap.size ∨
        (s1.efi_mmap.size = s.efi_mmap.size + s.efi_mmap.descr_size ∧
          s.efi_mmap.size / s.efi_mmap.descr_size + 1 ≤ maxEntries)) := by
  have hU : U32 = 4294967296 := rfl
  rw [hU] at hfit
  obtain ⟨l1, l2, l3⟩ := hlo
  unfold efi_mem_descr_t.desc_end at l3
  unfold efi_mem_descr_t.is_free at hfree
  have hw : efi_memmap_walk s none = some 0 := by
    unfold efi_memmap_walk
    simp [hav]
  rw [reserve_loop, hw]
  dsimp only
  rw [if_neg (by omega), if_neg (by omega), if_neg (by omega), if_neg (by omega),
    if_pos ⟨l1, l2, l3⟩]
  have hdiv : s.efi_mmap.size / s.efi_mmap.descr_size ≤ s.efi_mmap.size := Nat.div_le_self _ _
  have hi : (0 + U32 - 1) % U32 = U32 - 1 := by rw [hU]
  rw [hi]
  unfold insert_after_region
  rw [if_neg (by omega)]
  have hcap : (s.efi_mmap.size / s.efi_mmap.descr_size + 1) % U32 =
      s.efi_mmap.size / s.efi_mmap.descr_size + 1 := Nat.mod_eq_of_lt (by rw [hU]; omega)
  rw [hcap]
  by_cases hc : s.efi_mmap.size / s.efi_mmap.descr_size + 1 > maxEntries
  · rw [if_pos hc]
    exact ⟨false, _, rfl, rfl, Or.inl rfl⟩
  rw [if_neg hc]
  have hp : ((U32 - 1) * s.efi_mmap.descr_size) % U32 = U32 - s.efi_mmap.descr_size := by
    have e : (U32 - 1) * s.efi_mmap.descr_size =
        (U32 - s.efi_mmap.descr_size) + U32 * (s.efi_mmap.descr_size - 1) := by
      rw [hU]
      have h1 : (4294967296 - 1) * s.efi_mmap.descr_size =
          4294967296 * s.efi_mmap.descr_size - s.efi_mmap.descr_size := by
        rw [Nat.sub_mul, Nat.one_mul]
      have h2 : 4294967296 * (s.efi_mmap.descr_size - 1) =
          4294967296 * s.efi_mmap.descr_size - 4294967296 := by
        rw [Nat.mul_sub, Nat.mul_one]
      have h3 : 4294967296 * s.efi_mmap.descr_size ≥ 4294967296 :=
        Nat.le_mul_of_pos_right _ hds
      omega
    rw [e, Nat.add_mul_mod_self_left]
    exact Nat.mod_eq_of_lt (by rw [hU]; omega)
  dsimp only
  rw [hp]
  have hsh : shift_up s.efi_mmap.descr_size (U32 - s.efi_mmap.descr_size)
      (s.efi_mmap.size + 1) s.efi_mmap.size s.efi_mmap.descr = some s.efi_mmap.descr := by
    rw [shift_up, if_neg (by rw [hU]; omega)]
  rw [hsh]
  dsimp only
  have hd : (U32 - s.efi_mmap.descr_size + s.efi_mmap.descr_size) % U32 = 0 := by
    rw [Nat.sub_add_cancel (by rw [hU]; omega), Nat.mod_self]
  have hsz : (s.efi_mmap.size + s.efi_mmap.descr_size) % U32 =
      s.efi_mmap.size + s.efi_mmap.descr_size := Nat.mod_eq_of_lt (by rw [hU]; omega)
  rw [hd, hsz]
  have hw2 : ∀ d : Nat → efi_mem_descr_t,
      efi_memmap_walk
        { efi_mmap_available := s.efi_mmap_available,
          efi_mmap :=
            { size := s.efi_mmap.size + s.efi_mmap.descr_size,
              descr_size := s.efi_mmap.descr_size, descr := d } } (some 0) =
        some s.efi_mmap.descr_size := by
    intro d
    unfold efi_memmap_walk
    simp only [hav, Bool.not_true, Bool.false_eq_true, if_false, Nat.zero_add]
    rw [Nat.mod_eq_of_lt (by rw [hU]; omega), if_pos (by omega)]
  rw [hw2]
  exact ⟨true, _, rfl, rfl, Or.inr ⟨rfl, by omega⟩⟩

/-- The claim of C32 on a map that is not empty: for every available, well-formed map
with at least one and at most `maxEntries` entries, every `base` and `length` and fuel
above the number of entries, `efi_memmap_reserve` returns, and the map it leaves has at
most `maxEntries` entries. -/
theorem efi_memmap_reserve_terminates (maxEntries fuel : Nat) (s : efi_state)
    (base length : Nat)
    (hav : s.efi_mmap_available = true)
    (hwf : s.efi_mmap.well_formed maxEntries)
    (hne : 0 < s.efi_mmap.size)
    (hcount : s.efi_mmap.size / s.efi_mmap.descr_size ≤ maxEntries)
    (hfuel : s.efi_mmap.size / s.efi_mmap.descr_size < fuel) :
    ∃ r s1, efi_memmap_reserve maxEntries fuel s base length = some (r, s1) ∧
      s1.efi_mmap.size / s1.efi_mmap.descr_size ≤ maxEntries := by
  by_cases hlen : length = 0
  · subst hlen
    refine ⟨true, s, ?_, hcount⟩
    unfold efi_memmap_reserve
    simp
  obtain ⟨hds, hmul, hfit, hmax, hslot⟩ := hwf
  have hn : s.efi_mmap.entries.length = s.efi_mmap.size / s.efi_mmap.descr_size := by
    simp [efi_memmap_t.entries]
  have hge : s.efi_mmap.descr_size ≤ s.efi_mmap.size :=
    Nat.le_of_dvd hne (Nat.dvd_of_mod_eq_zero hmul)
  have hq : 0 < s.efi_mmap.size / s.efi_mmap.descr_size := Nat.div_pos hge hds
  obtain ⟨rest, he⟩ : ∃ rest, s.efi_mmap.entries = s.efi_mmap.descr 0 :: rest := by
    unfold efi_memmap_t.entries
    obtain ⟨n, hn1⟩ : ∃ n, s.efi_mmap.size / s.efi_mmap.descr_size = n + 1 :=
      ⟨s.efi_mmap.size / s.efi_mmap.descr_size - 1, by omega⟩
    rw [hn1, List.range_succ_eq_map, List.map_cons, Nat.zero_mul]
    exact ⟨_, rfl⟩
  by_cases hc2 : (s.efi_mmap.descr 0).is_free ∧
      (s.efi_mmap.descr 0).left_overlap (reserve_base base) (reserve_end base length)
  · obtain ⟨f, hf⟩ : ∃ f, fuel = f + 1 := ⟨fuel - 1, by omega⟩
    obtain ⟨r, s1, hr, hd1, hs1⟩ := reserve_loop_first_entry_left maxEntries (reserve_base base)
      (reserve_length length) (reserve_end base length) f s hav hds hne hfit hc2.1 hc2.2
    refine ⟨r, s1, ?_, ?_⟩
    · unfold efi_memmap_reserve
      rw [if_neg (by simp [hlen, hav]), hf]
      exact hr
    · rw [hd1]
      rcases hs1 with h | ⟨h, hle⟩
      · rw [h]; exact hcount
      · rw [h, Nat.add_div_right _ hds]; exact hle
  · obtain ⟨s1, hres, _, hd1, hh1⟩ := efi_memmap_reserve_entries maxEntries fuel s base
      length hav ⟨hds, hmul, hfit, hmax, hslot⟩ hlen ⟨_, rest, he, hc2⟩ hfuel
    refine ⟨_, s1, hres, ?_⟩
    rw [efi_memmap_t.holds_length (by rw [hd1]; exact hds) hh1]
    have hlenb := (reserve_entries_length maxEntries (reserve_base base)
      (reserve_length length) (reserve_end base length) s.efi_mmap.entries []).2
    simp only [List.length_nil, Nat.zero_add] at hlenb
    rw [hn] at hlenb
    omega

/-- C32 at the failing input: the available map `empty_stale_state` has `descr_size =
48` and `size = 0`, within `EFI_MEMMAP_MAX_ENTRIES * descr_size`, and its first slot
holds an old descriptor, 16 conventional pages at `0x100000`. `efi_memmap_walk(NULL)`
returns this slot without comparing with `size`. For `efi_memmap_reserve(0x100000,
0x1000)` case 2 applies to it: `insert_after_region` is called with position `i - 1 =
0xffffffff` and returns true with `size = 48`, and the call `efi_memmap_walk(desc)`
inside case 2 returns NULL, which the next line dereferences: the execution leaves the
model, whatever the fuel, and there is no return. For `efi_memmap_reserve(0x101000,
0x10000)` case 3 applies: `efi_memmap_walk(desc)` inside case 3 returns NULL, the loop
condition `efi_memmap_walk(NULL)` takes the cursor back to the first slot, and the call
returns true with the shrunk old descriptor as the one entry of the map, the new
entry lying behind `size`. -/
theorem efi_memmap_reserve_empty_map_faults :
    empty_stale_state.efi_mmap_available = true ∧
    empty_stale_state.efi_mmap.descr_size = 48 ∧
    empty_stale_state.efi_mmap.size ≤ 128 * empty_stale_state.efi_mmap.descr_size ∧
    efi_memmap_walk empty_stale_state none = some 0 ∧
    (insert_after_region 128 empty_stale_state.efi_mmap (U32 - 1) 0x100000 0x1000
        EFI_RESERVED_TYPE 0xf).map (fun r => (r.1, r.2.size, r.2.descr_size)) =
      some (true, 48, 48) ∧
    (insert_after_region 128 empty_stale_state.efi_mmap (U32 - 1) 0x100000 0x1000
        EFI_RESERVED_TYPE 0xf).map (fun r => efi_memmap_walk ⟨true, r.2⟩ (some 0)) =
      some none ∧
    (∀ fuel, efi_memmap_reserve 128 fuel empty_stale_state 0x100000 0x1000 = none) ∧
    (insert_after_region 128
        (empty_stale_state.efi_mmap.store 0 ⟨EFI_CONVENTIONAL_MEMORY, 0x100000, 1, 0xf, 0⟩)
        0 0x101000 0xf000 EFI_RESERVED_TYPE 0xf).map
        (fun r => (r.1, r.2.size, efi_memmap_walk ⟨true, r.2⟩ (some 0))) =
      some (true, 48, none) ∧
    (∀ fuel, (efi_memmap_reserve 128 (fuel + 3) empty_stale_state 0x101000 0x10000).map
        (fun r => (r.1, r.2.efi_mmap.size, r.2.efi_mmap.entries,
          r.2.efi_mmap.descr 48)) =
      some (true, 48, [⟨EFI_CONVENTIONAL_MEMORY, 0x100000, 1, 0xf, 0⟩],
        ⟨EFI_RESERVED_TYPE, 0x101000, 15, 0xf, 0⟩)) :=
  ⟨rfl, rfl, by decide, rfl, rfl, rfl, fun fuel => by cases fuel <;> rfl, rfl,
    fun _ => rfl⟩

/-! ## SHA-512 in several calls -/

theorem holds_init (md0 : sha512_state) (hbuf : md0.buf.length = SHA512_BLOCK_SIZE) :
    (sha512_init md0).2.holds [] :=
  ⟨rfl, rfl, rfl, hbuf, rfl⟩

theorem holds_bounded (md : sha512_state) (m : List Nat) (h : md.holds m) :
    ∀ x ∈ md.state, x < U64 := by
  rw [h.1]
  exact fips_hash_bounded _ _ _ (by decide)

theorem process_loop_nil (f : Nat) (md : sha512_state) (inp : List Nat) :
    process_loop (f + 1) md inp 0 = some (0, md) := by
  rw [process_loop, if_neg (by omega)]

theorem holds_blocks (fuel : Nat) (md : sha512_state) (m inp : List Nat) (h : md.holds m)
    (hc : md.curlen = 0) (hbits : 8 * (m.length + inp.length) < U64) (hin : inp.length < U32)
    (hf : inp.length / 128 + 1 < fuel) :
    ∃ md1, process_loop fuel md inp inp.length = some (0, md1) ∧ md1.holds (m ++ inp) := by
  obtain ⟨h1, h2, h3, h4, h5⟩ := h
  have hst := holds_bounded md m ⟨h1, h2, h3, h4, h5⟩
  rw [U64_eq] at hbits
  have hlen : md.length < U64 := by rw [h2, U64_eq]; omega
  rw [hc] at h3
  have hm : m.length = 128 * (m.length / 128) := by omega
  refine ⟨_, process_loop_blocks fuel md inp hc hst hlen hin hf, ?_⟩
  have hq : (m ++ inp).length / 128 = m.length / 128 + inp.length / 128 := by
    rw [List.length_append]; omega
  have hr : (m ++ inp).length % 128 = inp.length % 128 := by
    rw [List.length_append]; omega
  have hdl : (inp.drop (128 * (inp.length / 128))).length = inp.length % 128 := by
    rw [List.length_drop]
    omega
  have hdrop : (m ++ inp).drop (128 * (m.length / 128 + inp.length / 128)) =
      inp.drop (128 * (inp.length / 128)) := by
    rw [Nat.mul_add, ← hm, List.drop_append]
  unfold SHA512_BLOCK_SIZE at h4
  refine ⟨?_, ?_, ?_, ?_, ?_⟩
  · show fips_hash (inp.length / 128) md.state inp = _
    rw [hq, fips_hash_add, fips_hash_append_left _ _ _ _ (by omega), ← hm,
      List.drop_left' rfl, h1]
  · show (md.length + 1024 * (inp.length / 128)) % U64 = _
    rw [hq, h2, U64_eq]
    omega
  · show inp.length % 128 = _
    rw [hr]
  · show (tb_memcpy md.buf 0 (inp.drop (128 * (inp.length / 128))) (inp.length % 128)).length =
      SHA512_BLOCK_SIZE
    unfold tb_memcpy SHA512_BLOCK_SIZE
    simp only [List.length_append, List.length_take, List.length_drop, h4]
    omega
  · show (tb_memcpy md.buf 0 (inp.drop (128 * (inp.length / 128))) (inp.length % 128)).take
      (inp.length % 128) = _
    rw [hq, hdrop]
    unfold tb_memcpy
    have hs : (inp.drop (128 * (inp.length / 128))).take (inp.length % 128) =
        inp.drop (128 * (inp.length / 128)) := List.take_of_length_le (by rw [hdl])
    rw [List.take_zero, List.nil_append, hs, List.take_left' hdl]

theorem holds_loop (f : Nat) (md : sha512_state) (m inp : List Nat) (h : md.holds m)
    (hbits : 8 * (m.length + inp.length) < U64) (hin : inp.length < U32)
    (hf : inp.length / 128 + 2 < f + 1) :
    ∃ md1, process_loop (f + 1) md inp inp.length = some (0, md1) ∧ md1.holds (m ++ inp) := by
  by_cases hc : md.curlen = 0
  · exact holds_blocks (f + 1) md m inp h hc hbits hin (by omega)
  by_cases h0 : inp.length = 0
  · rw [h0, process_loop_nil]
    have : inp = [] := List.length_eq_zero.mp h0
    rw [this, List.append_nil]
    exact ⟨md, rfl, h⟩
  have hst := holds_bounded md m h
  obtain ⟨h1, h2, h3, h4, h5⟩ := h
  have hU : U32 = 4294967296 := rfl
  rw [U64_eq] at hbits
  rw [hU] at hin
  unfold SHA512_BLOCK_SIZE at h4
  have hc128 : md.curlen < 128 := by rw [h3]; exact Nat.mod_lt _ (by decide)
  have hm : m.length = 128 * (m.length / 128) + md.curlen := by rw [h3]; omega
  rw [process_loop, if_pos (by omega), if_neg (by intro hh; exact hc hh.1)]
  simp only [SHA512_BLOCK_SIZE]
  have hsub : (128 + U32 - md.curlen) % U32 = 128 - md.curlen := by
    rw [hU]; omega
  rw [hsub]
  by_cases hfit : md.curlen + inp.length < 128
  · have hn : min inp.length (128 - md.curlen) = inp.length := by omega
    rw [hn]
    have e1 : (md.curlen + inp.length) % U32 = md.curlen + inp.length := by rw [hU]; omega
    have e2 : (inp.length + U32 - inp.length) % U32 = 0 := by rw [hU]; omega
    rw [e1, e2, if_neg (by omega)]
    obtain ⟨g, hg⟩ : ∃ g, f = g + 1 := ⟨f - 1, by omega⟩
    rw [hg, process_loop_nil]
    refine ⟨_, rfl, ?_, ?_, ?_, ?_, ?_⟩
    · show md.state = _
      have : (m ++ inp).length / 128 = m.length / 128 := by rw [List.length_append]; omega
      rw [this, fips_hash_append_left _ _ _ _ (by omega), h1]
    · show md.length = _
      have : (m ++ inp).length / 128 = m.length / 128 := by rw [List.length_append]; omega
      rw [this, h2]
    · show md.curlen + inp.length = _
      rw [List.length_append]; omega
    · show (tb_memcpy md.buf md.curlen inp inp.length).length = SHA512_BLOCK_SIZE
      unfold tb_memcpy SHA512_BLOCK_SIZE
      simp only [List.length_append, List.length_take, List.length_drop, h4]
      omega
    · show (tb_memcpy md.buf md.curlen inp inp.length).take (md.curlen + inp.length) = _
      have hq : (m ++ inp).length / 128 = m.length / 128 := by rw [List.length_append]; omega
      rw [hq]
      unfold tb_memcpy
      have hl : (List.take md.curlen md.buf ++ List.take inp.length inp).length =
          md.curlen + inp.length := by
        simp only [List.length_append, List.length_take, h4]
        omega
      rw [List.take_left' hl, List.take_length, h5, List.drop_append_of_le_length (by omega)]
  · have hn : min inp.length (128 - md.curlen) = 128 - md.curlen := by omega
    rw [hn]
    have e1 : (md.curlen + (128 - md.curlen)) % U32 = 128 := by rw [hU]; omega
    have e2 : (inp.length + U32 - (128 - md.curlen)) % U32 = inp.length - (128 - md.curlen) := by
      rw [hU]; omega
    rw [e1, e2]
    simp only [if_true, sha512_compress_fst, ne_eq, not_true_eq_false, if_false]
    have hbuf : tb_memcpy md.buf md.curlen inp (128 - md.curlen) =
        m.drop (128 * (m.length / 128)) ++ inp.take (128 - md.curlen) := by
      unfold tb_memcpy
      have hd : md.buf.drop (md.curlen + (128 - md.curlen)) = [] :=
        List.drop_of_length_le (by omega)
      rw [hd, List.append_nil, h5]
    have hdl : (inp.drop (128 - md.curlen)).length = inp.length - (128 - md.curlen) :=
      List.length_drop _ _
    have hml : (m ++ inp.take (128 - md.curlen)).length = 128 * (m.length / 128 + 1) := by
      rw [List.length_append, List.length_take]
      omega
    have hh : sha512_state.holds
        ⟨(md.length + 8 * 128) % U64,
          fips_block md.state (tb_memcpy md.buf md.curlen inp (128 - md.curlen)), 0,
          tb_memcpy md.buf md.curlen inp (128 - md.curlen)⟩
        (m ++ inp.take (128 - md.curlen)) := by
      have hq : (m ++ inp.take (128 - md.curlen)).length / 128 = m.length / 128 + 1 := by
        rw [hml]; omega
      refine ⟨?_, ?_, ?_, ?_, ?_⟩
      · show fips_block md.state (tb_memcpy md.buf md.curlen inp (128 - md.curlen)) =
          fips_hash ((m ++ inp.take (128 - md.curlen)).length / 128) fips_H0
            (m ++ inp.take (128 - md.curlen))
        rw [hq, fips_hash_add, fips_hash_append_left _ _ _ _ (by omega), ← h1,
          List.drop_append_of_le_length (by omega), ← hbuf, fips_hash, fips_hash,
          fips_block_take]
      · show (md.length + 8 * 128) % U64 = _
        rw [hq, h2, U64_eq]
        have := List.length_append m inp
        omega
      · show 0 = _
        rw [hml]; omega
      · show (tb_memcpy md.buf md.curlen inp (128 - md.curlen)).length = _
        rw [hbuf, List.length_append, List.length_drop, List.length_take]
        unfold SHA512_BLOCK_SIZE
        omega
      · show (tb_memcpy md.buf md.curlen inp (128 - md.curlen)).take 0 = _
        rw [List.take_zero, hq, ← hml, List.drop_length]
    have hstate : (sha512_compress
        { length := md.length, state := md.state, curlen := 128,
          buf := tb_memcpy md.buf md.curlen inp (128 - md.curlen) }
        (tb_memcpy md.buf md.curlen inp (128 - md.curlen))) =
        (0, ⟨md.length,
          fips_block md.state (tb_memcpy md.buf md.curlen inp (128 - md.curlen)), 128,
          tb_memcpy md.buf md.curlen inp (128 - md.curlen)⟩) :=
      sha512_compress_eq_fips _ _ hst
    rw [hstate]
    obtain ⟨md1, hp, hh1⟩ := holds_blocks f _ (m ++ inp.take (128 - md.curlen))
      (inp.drop (128 - md.curlen)) hh rfl
      (by rw [U64_eq, hml, hdl]; omega) (by rw [hdl, hU]; omega) (by rw [hdl]; omega)
    rw [hdl] at hp
    refine ⟨md1, hp, ?_⟩
    rw [List.append_assoc, List.take_append_drop] at hh1
    exact hh1

theorem holds_process (fuel : Nat) (md : sha512_state) (m inp : List Nat) (h : md.holds m)
    (hbits : 8 * (m.length + inp.length) < U64) (hin : inp.length < U32)
    (hf : inp.length / 128 + 2 < fuel) :
    ∃ md1, sha512_process fuel md (some inp) inp.length = some (0, md1) ∧
      md1.holds (m ++ inp) := by
  obtain ⟨f, hfe⟩ : ∃ f, fuel = f + 1 := ⟨fuel - 1, by omega⟩
  rw [hfe] at hf ⊢
  have h2 := h.2.1
  have h3 := h.2.2.1
  have hU := U64_eq
  unfold sha512_process
  simp only [SHA512_BLOCK_SIZE]
  rw [if_neg (by omega), if_neg (by rw [Nat.mod_eq_of_lt (by omega)]; omega)]
  exact holds_loop f md m inp h hbits hin hf

theorem holds_done (md : sha512_state) (M : List Nat) (h : md.holds M)
    (hbits : 8 * M.length < U64) :
    (sha512_done md).1 = 0 ∧ (sha512_done md).2.2 = some (fips_sha512 M) := by
  have hst := holds_bounded md M h
  obtain ⟨h1, h2, h3, h4, h5⟩ := h
  have hU := U64_eq
  have hr : md.curlen < 128 := by rw [h3]; exact Nat.mod_lt _ (by decide)
  obtain ⟨hd1, hd2⟩ := sha512_done_eq_fips md hr h4 hst
  refine ⟨hd1, ?_⟩
  have hb : (md.length + (md.curlen * 8) % U64) % U64 = 8 * M.length := by
    rw [h2, h3, hU]
    omega
  rw [hd2, hb, h5, h1, h3]
  have hdl : (M.drop (128 * (M.length / 128))).length = M.length % 128 := by
    rw [List.length_drop]
    omega
  have hpad := fips_pad_eq M hbits (M.length / 128) rfl
  have hfl : (final_blocks (M.drop (128 * (M.length / 128))) (8 * M.length)).length =
      128 * (if M.length % 128 + 1 > 112 then 2 else 1) := by
    unfold final_blocks
    simp only [List.length_append, List.length_cons, List.length_replicate, hdl,
      STORE64H_length]
    split <;> omega
  have htk : (M.take (128 * (M.length / 128))).length = 128 * (M.length / 128) := by
    rw [List.length_take]
    omega
  have hN : (fips_pad M).length / 128 =
      M.length / 128 + (if M.length % 128 + 1 > 112 then 2 else 1) := by
    rw [hpad, List.length_append, htk, hfl]
    omega
  unfold fips_sha512
  rw [hN, fips_hash_add]
  have e1 : fips_hash (M.length / 128) fips_H0 (fips_pad M) =
      fips_hash (M.length / 128) fips_H0 M := by
    unfold fips_pad
    simp only [List.append_assoc]
    exact fips_hash_append_left _ _ _ _ (by omega)
  have e2 : (fips_pad M).drop (128 * (M.length / 128)) =
      final_blocks (M.drop (128 * (M.length / 128))) (8 * M.length) := by
    rw [hpad, List.drop_left' htk]
  rw [e1, e2]

theorem counter_blocks :
    ∀ (fuel : Nat) (md : sha512_state) (inp : List Nat) (inlen : Nat),
      md.curlen = 0 → md.length < U64 → inlen < U32 → inlen / 128 + 1 < fuel →
      ∃ md1, process_loop fuel md inp inlen = some (0, md1) ∧ md1.curlen = inlen % 128 ∧
        md1.length = (md.length + 1024 * (inlen / 128)) % U64 := by
  intro fuel
  induction fuel with
  | zero => intro md inp inlen _ _ _ hf; omega
  | succ f ih =>
    intro md inp inlen hc hlen hin hf
    have hU : U32 = 4294967296 := rfl
    rw [hU] at hin
    by_cases h0 : inlen = 0
    · rw [h0, process_loop_nil]
      exact ⟨md, rfl, by rw [hc], by simp [Nat.mod_eq_of_lt hlen]⟩
    rw [process_loop, if_pos (by omega)]
    simp only [SHA512_BLOCK_SIZE]
    by_cases hblk : inlen ≥ 128
    · rw [if_pos ⟨hc, hblk⟩]
      simp only [sha512_compress_fst, ne_eq, not_true_eq_false, if_false]
      have e : (inlen + U32 - 128) % U32 = inlen - 128 := by rw [hU]; omega
      rw [e]
      obtain ⟨md1, hp, h1, h2⟩ := ih
        { (sha512_compress md inp).2 with
          length := ((sha512_compress md inp).2.length + 128 * 8) % U64 }
        (inp.drop 128) (inlen - 128) hc (Nat.mod_lt _ (by decide)) (by rw [hU]; omega)
        (by omega)
      refine ⟨md1, hp, by rw [h1]; omega, ?_⟩
      rw [h2]
      show ((md.length + 128 * 8) % U64 + 1024 * ((inlen - 128) / 128)) % U64 = _
      rw [U64_eq]
      omega
    · rw [if_neg (by intro hh; exact hblk hh.2)]
      have hsub : (128 + U32 - md.curlen) % U32 = 128 := by rw [hc, hU]
      have hn : min inlen 128 = inlen := by omega
      have e1 : (md.curlen + inlen) % U32 = inlen := by rw [hc, hU]; omega
      have e2 : (inlen + U32 - inlen) % U32 = 0 := by rw [hU]; omega
      rw [hsub, hn, e1, e2, if_neg (by omega)]
      obtain ⟨g, hg⟩ : ∃ g, f = g + 1 := ⟨f - 1, by omega⟩
      rw [hg, process_loop_nil]
      refine ⟨_, rfl, ?_, ?_⟩
      · show inlen = _
        omega
      · show md.length = _
        have : inlen / 128 = 0 := by omega
        rw [this, Nat.mul_zero, Nat.add_zero, Nat.mod_eq_of_lt hlen]

theorem counter_process (fuel : Nat) (md : sha512_state) (inp : List Nat) (inlen : Nat)
    (hc : md.curlen < 128) (hbits : md.length + 8 * md.curlen + 8 * inlen < U64)
    (hin : inlen < U32) (hf : inlen / 128 + 2 < fuel) :
    ∃ md1, sha512_process fuel md (some inp) inlen = some (0, md1) ∧ md1.curlen < 128 ∧
      md1.length + 8 * md1.curlen = md.length + 8 * md.curlen + 8 * inlen := by
  obtain ⟨f, hfe⟩ : ∃ f, fuel = f + 1 := ⟨fuel - 1, by omega⟩
  rw [hfe] at hf ⊢
  have hU : U32 = 4294967296 := rfl
  have hU64 := U64_eq
  rw [hU] at hin
  unfold sha512_process
  simp only [SHA512_BLOCK_SIZE]
  rw [if_neg (by omega), if_neg (by rw [Nat.mod_eq_of_lt (by omega)]; omega)]
  by_cases hc0 : md.curlen = 0
  · obtain ⟨md1, hp, h1, h2⟩ := counter_blocks (f + 1) md inp inlen hc0 (by omega)
      (by rw [hU]; omega) (by omega)
    refine ⟨md1, hp, by rw [h1]; omega, ?_⟩
    rw [h1, h2, hc0, hU64]
    omega
  by_cases h0 : inlen = 0
  · rw [h0, process_loop_nil]
    exact ⟨md, rfl, hc, by omega⟩
  rw [process_loop, if_pos (by omega), if_neg (by intro hh; exact hc0 hh.1)]
  simp only [SHA512_BLOCK_SIZE]
  have hsub : (128 + U32 - md.curlen) % U32 = 128 - md.curlen := by
    rw [hU]; omega
  rw [hsub]
  by_cases hfit : md.curlen + inlen < 128
  · have hn : min inlen (128 - md.curlen) = inlen := by omega
    have e1 : (md.curlen + inlen) % U32 = md.curlen + inlen := by rw [hU]; omega
    have e2 : (inlen + U32 - inlen) % U32 = 0 := by rw [hU]; omega
    rw [hn, e1, e2, if_neg (by omega)]
    obtain ⟨g, hg⟩ : ∃ g, f = g + 1 := ⟨f - 1, by omega⟩
    rw [hg, process_loop_nil]
    refine ⟨_, rfl, ?_, ?_⟩
    · show md.curlen + inlen < 128
      exact hfit
    · show md.length + 8 * (md.curlen + inlen) = _
      omega
  · have hn : min inlen (128 - md.curlen) = 128 - md.curlen := by omega
    have e1 : (md.curlen + (128 - md.curlen)) % U32 = 128 := by rw [hU]; omega
    have e2 : (inlen + U32 - (128 - md.curlen)) % U32 = inlen - (128 - md.curlen) := by
      rw [hU]; omega
    rw [hn, e1, e2]
    simp only [if_true, sha512_compress_fst, ne_eq, not_true_eq_false, if_false]
    obtain ⟨md1, hp, h1, h2⟩ := counter_blocks f
      { length := ((sha512_compress
            { length := md.length, state := md.state, curlen := 128,
              buf := tb_memcpy md.buf md.curlen inp (128 - md.curlen) }
            (tb_memcpy md.buf md.curlen inp (128 - md.curlen))).2.length + 8 * 128) % U64,
        state := (sha512_compress
            { length := md.length, state := md.state, curlen := 128,
              buf := tb_memcpy md.buf md.curlen inp (128 - md.curlen) }
            (tb_memcpy md.buf md.curlen inp (128 - md.curlen))).2.state,
        curlen := 0,
        buf := (sha512_compress
            { length := md.length, state := md.state, curlen := 128,
              buf := tb_memcpy md.buf md.curlen inp (128 - md.curlen) }
            (tb_memcpy md.buf md.curlen inp (128 - md.curlen))).2.buf }
      (inp.drop (128 - md.curlen)) (inlen - (128 - md.curlen)) rfl
      (Nat.mod_lt _ (by decide)) (by rw [hU]; omega) (by omega)
    refine ⟨md1, hp, by rw [h1]; omega, ?_⟩
    rw [h1, h2]
    show ((md.length + 8 * 128) % U64 + 1024 * ((inlen - (128 - md.curlen)) / 128)) % U64 +
      8 * ((inlen - (128 - md.curlen)) % 128) = _
    rw [hU64]
    omega

theorem sha512_done_fst (md : sha512_state) (hc : md.curlen < 128) : (sha512_done md).1 = 0 := by
  unfold sha512_done
  rw [if_neg (by unfold SHA512_BLOCK_SIZE; omega)]

theorem holds_counter (md : sha512_state) (m : List Nat) (h : md.holds m) :
    md.length + 8 * md.curlen = 8 * m.length := by
  rw [h.2.1, h.2.2.1]
  omega

/-- C33: SHA-512 in several calls. From `sha512_init`, whatever `md` held before (its
buffer has 128 bytes), for byte strings `a` and `b` of less than `2^32` bytes each and
enough fuel for the loops: `sha512_process(a)`, `sha512_process(b)` and `sha512_done`
all return 0 and the 64 bytes stored are the digest of `a ++ b` that FIPS 180-4
defines; a single `sha512_process(a ++ b)`, which takes the length as a `u32`, followed
by `sha512_done` does the same and stores the same digest. And for every state with
`curlen < 128`, every input and every `inlen` with `length + 8 * curlen + 8 * inlen`
below `2^64`, `sha512_process` returns 0 with a state that has `curlen < 128`, on which
`sha512_done` returns 0, and whose `length + 8 * curlen` has grown by `8 * inlen`: from
`sha512_init` on it is 8 times the number of bytes processed. -/
theorem sha512_process_chunking (fuel : Nat) (md0 : sha512_state) (a b : List Nat)
    (hbuf : md0.buf.length = SHA512_BLOCK_SIZE) (ha : a.length < U32) (hb : b.length < U32)
    (hfa : a.length / 128 + 2 < fuel) (hfb : b.length / 128 + 2 < fuel) :
    (∃ md1 md2,
      sha512_process fuel (sha512_init md0).2 (some a) a.length = some (0, md1) ∧
      sha512_process fuel md1 (some b) b.length = some (0, md2) ∧
      md1.length + 8 * md1.curlen = 8 * a.length ∧
      md2.length + 8 * md2.curlen = 8 * (a.length + b.length) ∧
      (sha512_done md2).1 = 0 ∧ (sha512_done md2).2.2 = some (fips_sha512 (a ++ b))) ∧
    (∀ fuel1, (a ++ b).length < U32 → (a ++ b).length / 128 + 2 < fuel1 →
      ∃ md3,
        sha512_process fuel1 (sha512_init md0).2 (some (a ++ b)) (a ++ b).length =
          some (0, md3) ∧
        (sha512_done md3).1 = 0 ∧ (sha512_done md3).2.2 = some (fips_sha512 (a ++ b))) ∧
    (fips_sha512 (a ++ b)).length = 64 ∧
    (∀ (md : sha512_state) (inp : List Nat) (inlen : Nat), md.curlen < 128 →
      md.length + 8 * md.curlen + 8 * inlen < U64 → inlen < U32 → inlen / 128 + 2 < fuel →
      ∃ md1, sha512_process fuel md (some inp) inlen = some (0, md1) ∧ md1.curlen < 128 ∧
        (sha512_done md1).1 = 0 ∧
        md1.length + 8 * md1.curlen = md.length + 8 * md.curlen + 8 * inlen) := by
  have hU : U32 = 4294967296 := rfl
  have hU64 := U64_eq
  rw [hU] at ha hb
  have h0 := holds_init md0 hbuf
  refine ⟨?_, ?_, fips_sha512_length _, ?_⟩
  · obtain ⟨md1, hp1, hh1⟩ := holds_process fuel _ [] a h0
      (by rw [hU64]; simp only [List.length_nil]; omega) (by rw [hU]; exact ha) hfa
    rw [List.nil_append] at hh1
    obtain ⟨md2, hp2, hh2⟩ := holds_process fuel md1 a b hh1 (by rw [hU64]; omega)
      (by rw [hU]; exact hb) hfb
    obtain ⟨hd1, hd2⟩ := holds_done md2 (a ++ b) hh2
      (by rw [hU64, List.length_append]; omega)
    refine ⟨md1, md2, hp1, hp2, holds_counter md1 a hh1, ?_, hd1, hd2⟩
    rw [holds_counter md2 (a ++ b) hh2, List.length_append]
  · intro fuel1 hl hf1
    rw [hU] at hl
    obtain ⟨md3, hp3, hh3⟩ := holds_process fuel1 _ [] (a ++ b) h0
      (by rw [hU64]; simp only [List.length_nil]; omega) (by rw [hU]; exact hl) hf1
    rw [List.nil_append] at hh3
    obtain ⟨hd1, hd2⟩ := holds_done md3 (a ++ b) hh3 (by rw [hU64]; omega)
    exact ⟨md3, hp3, hd1, hd2⟩
  · intro md inp inlen hc hbits hin hf
    obtain ⟨md1, hp, h1, h2⟩ := counter_process fuel md inp inlen hc hbits hin hf
    exact ⟨md1, hp, h1, sha512_done_fst md1 h1, h2⟩

/-- C33 at an input: the message "abc" in two calls, "ab" and "c", and in one call, from
a state that held nothing of use. Both ways store the digest `ddaf35a1...a54ca49f` of
"abc". -/
theorem sha512_process_chunking_witness :
    ((sha512_process 3 (sha512_init stale_md).2 (some [0x61, 0x62]) 2).bind
      (fun r1 => (sha512_process 3 r1.2 (some [0x63]) 1).map
        (fun r2 => (r1.1, r2.1, (sha512_done r2.2).1, (sha512_done r2.2).2.2)))) =
      some (0, 0, 0, some (fips_sha512 [0x61, 0x62, 0x63])) ∧
    ((sha512_process 3 (sha512_init stale_md).2 (some [0x61, 0x62, 0x63]) 3).map
      (fun r => (r.1, (sha512_done r.2).1, (sha512_done r.2).2.2))) =
      some (0, 0, some (fips_sha512 [0x61, 0x62, 0x63])) ∧
    fips_sha512 [0x61, 0x62, 0x63] =
      [0xdd, 0xaf, 0x35, 0xa1, 0x93, 0x61, 0x7a, 0xba, 0xcc, 0x41, 0x73, 0x49,
       0xae, 0x20, 0x41, 0x31, 0x12, 0xe6, 0xfa, 0x4e, 0x89, 0xa9, 0x7e, 0xa2,
       0x0a, 0x9e, 0xee, 0xe6, 0x4b, 0x55, 0xd3, 0x9a, 0x21, 0x92, 0x99, 0x2a,
       0x27, 0x4f, 0xc1, 0xa8, 0x36, 0xba, 0x3c, 0x23, 0xa3, 0xfe, 0xeb, 0xbd,
       0x45, 0x4d, 0x44, 0x23, 0x64, 0x3c, 0xe8, 0x0e, 0x2a, 0x9a, 0xc9, 0x4f,
       0xa5, 0x4c, 0xa4, 0x9f] := by
  obtain ⟨⟨md1, md2, h1, h2, _, _, h3, h4⟩, hs, _, _⟩ :=
    sha512_process_chunking 3 stale_md [0x61, 0x62] [0x63]
      (by simp [stale_md, SHA512_BLOCK_SIZE]) (by decide) (by decide) (by decide) (by decide)
  obtain ⟨md3, h5, h6, h7⟩ := hs 3 (by decide) (by decide)
  have h1' : sha512_process 3 (sha512_init stale_md).2 (some [0x61, 0x62]) 2 = some (0, md1) := h1
  have h2' : sha512_process 3 md1 (some [0x63]) 1 = some (0, md2) := h2
  have h4' : (sha512_done md2).2.2 = some (fips_sha512 [0x61, 0x62, 0x63]) := h4
  have h5' : sha512_process 3 (sha512_init stale_md).2 (some [0x61, 0x62, 0x63]) 3 =
      some (0, md3) := h5
  have h7' : (sha512_done md3).2.2 = some (fips_sha512 [0x61, 0x62, 0x63]) := h7
  have c : (sha512_process 3 (sha512_init stale_md).2 (some [0x61, 0x62, 0x63]) 3).map
      (fun r => (sha512_done r.2).2.2) = some (some
      [0xdd, 0xaf, 0x35, 0xa1, 0x93, 0x61, 0x7a, 0xba, 0xcc, 0x41, 0x73, 0x49,
       0xae, 0x20, 0x41, 0x31, 0x12, 0xe6, 0xfa, 0x4e, 0x89, 0xa9, 0x7e, 0xa2,
       0x0a, 0x9e, 0xee, 0xe6, 0x4b, 0x55, 0xd3, 0x9a, 0x21, 0x92, 0x99, 0x2a,
       0x27, 0x4f, 0xc1, 0xa8, 0x36, 0xba, 0x3c, 0x23, 0xa3, 0xfe, 0xeb, 0xbd,
       0x45, 0x4d, 0x44, 0x23, 0x64, 0x3c, 0xe8, 0x0e, 0x2a, 0x9a, 0xc9, 0x4f,
       0xa5, 0x4c, 0xa4, 0x9f]) := by
    set_option maxRecDepth 1000000 in decide
  rw [h5'] at c
  simp only [Option.map, h7', Option.some.injEq] at c
  refine ⟨?_, ?_, ?_⟩
  · rw [h1']
    simp only [Option.bind, h2', Option.map, h3, h4']
  · rw [h5']
    simp only [Option.map, h6, h7']
  · exact c

/-! ## The text format of `string_to_uuid` -/

/-- The function `string_to_uuid` reads the format `uuid_fmt`: it returns true exactly
when every item is there and only white space follows, and then stores the values of
the fields. -/
theorem string_to_uuid_eq_fmt (ULONG : Nat) (s : List Char) :
    string_to_uuid_fmt ULONG s =
      if (string_to_uuid ULONG s).1 then some (string_to_uuid ULONG s).2 else none := by
  unfold string_to_uuid_fmt uuid_fmt string_to_uuid
  dsimp only
  revert s
  intro x0
  rw [parse_fmt]
  by_cases h0 : cstr_head (skipspace x0) = '\x7b'
  swap
  · simp only [ne_eq, h0, not_false_eq_true, if_true, Bool.false_eq_true, if_false,
      Bool.not_false, Bool.not_true]
  simp only [ne_eq, h0, not_true_eq_false, if_false]
  generalize (skipspace x0).tail = x1
  clear h0
  rw [parse_fmt]
  by_cases h1 : (strtoul16 ULONG (skipspace x1)).2 = skipspace x1
  · simp only [h1, if_true, Bool.false_eq_true, if_false, Bool.not_false, Bool.not_true]
  simp only [h1, if_false]
  generalize (strtoul16 ULONG (skipspace x1)).1 = v1
  generalize (strtoul16 ULONG (skipspace x1)).2 = x2
  clear h1
  rw [parse_fmt]
  by_cases h2 : cstr_head (skipspace x2) = ','
  swap
  · simp only [ne_eq, h2, not_false_eq_true, if_true, Bool.false_eq_true, if_false,
      Bool.not_false, Bool.not_true]
  simp only [ne_eq, h2, not_true_eq_false, if_false]
  generalize (skipspace x2).tail = x3
  clear h2
  rw [parse_fmt]
  by_cases h3 : (strtoul16 ULONG (skipspace x3)).2 = skipspace x3
  · simp only [h3, if_true, Bool.false_eq_true, if_false, Bool.not_false, Bool.not_true]
  simp only [h3, if_false]
  generalize (strtoul16 ULONG (skipspace x3)).1 = v3
  generalize (strtoul16 ULONG (skipspace x3)).2 = x4
  clear h3
  rw [parse_fmt]
  by_cases h4 : cstr_head (skipspace x4) = ','
  swap
  · simp only [ne_eq, h4, not_false_eq_true, if_true, Bool.false_eq_true, if_false,
      Bool.not_false, Bool.not_true]
  simp only [ne_eq, h4, not_true_eq_false, if_false]
  generalize (skipspace x4).tail = x5
  clear h4
  rw [parse_fmt]
  by_cases h5 : (strtoul16 ULONG (skipspace x5)).2 = skipspace x5
  · simp only [h5, if_true, Bool.false_eq_true, if_false, Bool.not_false, Bool.not_true]
  simp only [h5, if_false]
  generalize (strtoul16 ULONG (skipspace x5)).1 = v5
  generalize (strtoul16 ULONG (skipspace x5)).2 = x6
  clear h5
  rw [parse_fmt]
  by_cases h6 : cstr_head (skipspace x6) = ','
  swap
  · simp only [ne_eq, h6, not_false_eq_true, if_true, Bool.false_eq_true, if_false,
      Bool.not_false, Bool.not_true]
  simp only [ne_eq, h6, not_true_eq_false, if_false]
  generalize (skipspace x6).tail = x7
  clear h6
  rw [parse_fmt]
  by_cases h7 : (strtoul16 ULONG (skipspace x7)).2 = skipspace x7
  · simp only [h7, if_true, Bool.false_eq_true, if_false, Bool.not_false, Bool.not_true]
  simp only [h7, if_false]
  generalize (strtoul16 ULONG (skipspace x7)).1 = v7
  generalize (strtoul16 ULONG (skipspace x7)).2 = x8
  clear h7
  rw [parse_fmt]
  by_cases h8 : cstr_head (skipspace x8) = ','
  swap
  · simp only [ne_eq, h8, not_false_eq_true, if_true, Bool.false_eq_true, if_false,
      Bool.not_false, Bool.not_true]
  simp only [ne_eq, h8, not_true_eq_false, if_false]
  generalize (skipspace x8).tail = x9
  clear h8
  rw [parse_fmt]
  by_cases h9 : cstr_head (skipspace x9) = '\x7b'
  swap
  · simp only [ne_eq, h9, not_false_eq_true, if_true, Bool.false_eq_true, if_false,
      Bool.not_false, Bool.not_true]
  simp only [ne_eq, h9, not_true_eq_false, if_false]
  generalize (skipspace x9).tail = x10
  clear h9
  rw [string_to_uuid_data5]
  dsimp only
  simp only [Nat.zero_add, Nat.reduceAdd, Nat.reduceLT, if_true, if_false]
  rw [parse_fmt]
  by_cases h10 : (strtoul16 ULONG (skipspace x10)).2 = skipspace x10
  · simp only [h10, if_true, Bool.false_eq_true, if_false, Bool.not_false, Bool.not_true]
  simp only [h10, if_false]
  generalize (strtoul16 ULONG (skipspace x10)).1 = v10
  generalize (strtoul16 ULONG (skipspace x10)).2 = x11
  clear h10
  rw [parse_fmt]
  by_cases h11 : cstr_head (skipspace x11) = ','
  swap
  · simp only [ne_eq, h11, not_false_eq_true, if_true, Bool.false_eq_true, if_false,
      Bool.not_false, Bool.not_true]
  simp only [ne_eq, h11, not_true_eq_false, if_false]
  generalize (skipspace x11).tail = x12
  clear h11
  rw [string_to_uuid_data5]
  dsimp only
  simp only [Nat.zero_add, Nat.reduceAdd, Nat.reduceLT, if_true, if_false]
  rw [parse_fmt]
  by_cases h12 : (strtoul16 ULONG (skipspace x12)).2 = skipspace x12
  · simp only [h12, if_true, Bool.false_eq_true, if_false, Bool.not_false, Bool.not_true]
  simp only [h12, if_false]
  generalize (strtoul16 ULONG (skipspace x12)).1 = v12
  generalize (strtoul16 ULONG (skipspace x12)).2 = x13
  clear h12
  rw [parse_fmt]
  by_cases h13 : cstr_head (skipspace x13) = ','
  swap
  · simp only [ne_eq, h13, not_false_eq_true, if_true, Bool.false_eq_true, if_false,
      Bool.not_false, Bool.not_true]
  simp only [ne_eq, h13, not_true_eq_false, if_false]
  generalize (skipspace x13).tail = x14
  clear h13
  rw [string_to_uuid_data5]
  dsimp only
  simp only [Nat.zero_add, Nat.reduceAdd, Nat.reduceLT, if_true, if_false]
  rw [parse_fmt]
  by_cases h14 : (strtoul16 ULONG (skipspace x14)).2 = skipspace x14
  · simp only [h14, if_true, Bool.false_eq_true, if_false, Bool.not_false, Bool.not_true]
  simp only [h14, if_false]
  generalize (strtoul16 ULONG (skipspace x14)).1 = v14
  generalize (strtoul16 ULONG (skipspace x14)).2 = x15
  clear h14
  rw [parse_fmt]
  by_cases h15 : cstr_head (skipspace x15) = ','
  swap
  · simp only [ne_eq, h15, not_false_eq_true, if_true, Bool.false_eq_true, if_false,
      Bool.not_false, Bool.not_true]
  simp only [ne_eq, h15, not_true_eq_false, if_false]
  generalize (skipspace x15).tail = x16
  clear h15
  rw [string_to_uuid_data5]
  dsimp only
  simp only [Nat.zero_add, Nat.reduceAdd, Nat.reduceLT, if_true, if_false]
  rw [parse_fmt]
  by_cases h16 : (strtoul16 ULONG (skipspace x16)).2 = skipspace x16
  · simp only [h16, if_true, Bool.false_eq_true, if_false, Bool.not_false, Bool.not_true]
  simp only [h16, if_false]
  generalize (strtoul16 ULONG (skipspace x16)).1 = v16
  generalize (strtoul16 ULONG (skipspace x16)).2 = x17
  clear h16
  rw [parse_fmt]
  by_cases h17 : cstr_head (skipspace x17) = ','
  swap
  · simp only [ne_eq, h17, not_false_eq_true, if_true, Bool.false_eq_true, if_false,
      Bool.not_false, Bool.not_true]
  simp only [ne_eq, h17, not_true_eq_false, if_false]
  generalize (skipspace x17).tail = x18
  clear h17
  rw [string_to_uuid_data5]
  dsimp only
  simp only [Nat.zero_add, Nat.reduceAdd, Nat.reduceLT, if_true, if_false]
  rw [parse_fmt]
  by_cases h18 : (strtoul16 ULONG (skipspace x18)).2 = skipspace x18
  · simp only [h18, if_true, Bool.false_eq_true, if_false, Bool.not_false, Bool.not_true]
  simp only [h18, if_false]
  generalize (strtoul16 ULONG (skipspace x18)).1 = v18
  generalize (strtoul16 ULONG (skipspace x18)).2 = x19
  clear h18
  rw [parse_fmt]
  by_cases h19 : cstr_head (skipspace x19) = ','
  swap
  · simp only [ne_eq, h19, not_false_eq_true, if_true, Bool.false_eq_true, if_false,
      Bool.not_false, Bool.not_true]
  simp only [ne_eq, h19, not_true_eq_false, if_false]
  generalize (skipspace x19).tail = x20
  clear h19
  rw [string_to_uuid_data5]
  dsimp only
  simp only [Nat.zero_add, Nat.reduceAdd, Nat.reduceLT, if_true, if_false]
  rw [parse_fmt]
  by_cases h20 : (strtoul16 ULONG (skipspace x20)).2 = skipspace x20
  · simp only [h20, if_true, Bool.false_eq_true, if_false, Bool.not_false, Bool.not_true]
  simp only [h20, if_false]
  generalize (strtoul16 ULONG (skipspace x20)).1 = v20
  generalize (strtoul16 ULONG (skipspace x20)).2 = x21
  clear h20
  rw [parse_fmt]
  by_cases h21 : cstr_head (skipspace x21) = '\x7d'
  swap
  · simp only [ne_eq, h21, not_false_eq_true, if_true, Bool.false_eq_true, if_false,
      Bool.not_false, Bool.not_true]
  simp only [ne_eq, h21, not_true_eq_false, if_false]
  generalize (skipspace x21).tail = x22
  clear h21
  rw [parse_fmt]
  by_cases h22 : cstr_head (skipspace x22) = '\x7d'
  swap
  · simp only [ne_eq, h22, not_false_eq_true, if_true, Bool.false_eq_true, if_false,
      Bool.not_false, Bool.not_true]
  simp only [ne_eq, h22, not_true_eq_false, if_false]
  generalize (skipspace x22).tail = x23
  clear h22
  rw [parse_fmt, string_to_uuid_data5]
  by_cases h : cstr_head (skipspace x23) = '\x00'
  · simp [h, uuid_of_fields]
  · simp [h]

theorem isspace_hexval (c : Char) (h : isspace c = true) : hexval c = none := by
  simp only [isspace, Bool.or_eq_true, beq_iff_eq] at h
  rcases h with ((((h | h) | h) | h) | h) | h <;> subst h <;> decide

theorem isspace_ne_nul (c : Char) (h : isspace c = true) : c ≠ '\x00' := by
  intro e
  subst e
  revert h
  decide

theorem skipspace_blank_append (w t : List Char) (hw : is_blank w = true) :
    skipspace (w ++ t) = skipspace t := by
  induction w with
  | nil => rfl
  | cons c w ih =>
    simp only [is_blank, List.all_cons, Bool.and_eq_true] at hw
    rw [List.cons_append, skipspace, if_pos ⟨isspace_ne_nul c hw.1, hw.1⟩]
    exact ih (by simpa [is_blank] using hw.2)

theorem skipspace_cons_of_not_isspace (c : Char) (t : List Char) (h : isspace c = false) :
    skipspace (c :: t) = c :: t := by
  rw [skipspace, if_neg]
  simp [h]

theorem skipspace_split (s : List Char) :
    ∃ w, is_blank w = true ∧ s = w ++ skipspace s := by
  induction s with
  | nil => exact ⟨[], rfl, rfl⟩
  | cons c s ih =>
    by_cases h : c ≠ '\x00' ∧ isspace c
    · obtain ⟨w, hw, e⟩ := ih
      refine ⟨c :: w, ?_, ?_⟩
      · simp only [is_blank, List.all_cons, Bool.and_eq_true] at hw ⊢
        exact ⟨h.2, hw⟩
      · rw [skipspace, if_pos h, List.cons_append, ← e]
    · exact ⟨[], rfl, by rw [skipspace, if_neg h]; rfl⟩

theorem skipspace_head_not_isspace (s : List Char) :
    (skipspace s).dropWhile isspace = skipspace s := by
  induction s with
  | nil => rfl
  | cons c s ih =>
    by_cases h : c ≠ '\x00' ∧ isspace c
    · rw [skipspace, if_pos h]; exact ih
    · rw [skipspace, if_neg h]
      by_cases h0 : c = '\x00'
      · subst h0
        rw [List.dropWhile_cons_of_neg (by decide)]
      · have : isspace c = false := by
          cases hc : isspace c
          · rfl
          · exact absurd ⟨h0, hc⟩ h
        rw [List.dropWhile_cons_of_neg (by simp [this])]

theorem takeWhile_hex_append (d t : List Char) (hd : ∀ c ∈ d, (hexval c).isSome = true)
    (ht : ∀ c, t.head? = some c → hexval c = none) :
    (d ++ t).takeWhile (fun c => (hexval c).isSome) = d ∧
      (d ++ t).dropWhile (fun c => (hexval c).isSome) = t := by
  induction d with
  | nil =>
    cases t with
    | nil => exact ⟨rfl, rfl⟩
    | cons c t =>
      have := ht c rfl
      simp [List.takeWhile, List.dropWhile, this]
  | cons c d ih =>
    have hc := hd c (List.mem_cons_self _ _)
    have ih := ih (fun x hx => hd x (List.mem_cons_of_mem _ hx))
    simp only [List.cons_append, List.takeWhile_cons, List.dropWhile_cons, hc, if_true]
    exact ⟨by rw [ih.1], ih.2⟩

theorem strtoul16_hex_text (ULONG : Nat) (d t : List Char) (hd : is_hex_digits d = true)
    (hv : hexnum d < ULONG) (ht : ∀ c, t.head? = some c → hexval c = none) :
    strtoul16 ULONG (hex_text d ++ t) = (hexnum d, t) := by
  cases d with
  | nil => simp [is_hex_digits] at hd
  | cons h r =>
    simp only [is_hex_digits, List.isEmpty_cons, Bool.not_false, Bool.true_and,
      List.all_eq_true] at hd
    have hh := hd h (List.mem_cons_self _ _)
    have tw := takeWhile_hex_append (h :: r) t hd ht
    unfold strtoul16 hex_text
    have e0 : ('0' :: 'x' :: (h :: r) ++ t).dropWhile isspace = '0' :: 'x' :: h :: (r ++ t) := by
      rw [List.cons_append, List.dropWhile_cons_of_neg (by decide)]
      rfl
    simp only [e0, List.head?_cons]
    have e1 : ((some '0' == some '-' || some '0' == some '+') = true) = False := by decide
    simp only [e1, if_false, beq_self_eq_true, Bool.true_or, hh, Bool.and_self, if_true]
    rw [← List.cons_append, tw.1, tw.2]
    have e2 : (some '0' == some '-') = false := by decide
    simp only [e2, reduceCtorEq, if_false, ge_iff_le, Nat.not_le.mpr hv, Bool.false_eq_true]

theorem hex_text_ne (d t : List Char) : t ≠ hex_text d ++ t := by
  intro e
  have := congrArg List.length e
  simp [hex_text] at this
  omega

theorem is_blank_headD (ws : List (List Char)) (h : ∀ w ∈ ws, is_blank w = true) :
    is_blank (ws.headD []) = true ∧ ∀ w ∈ ws.tail, is_blank w = true := by
  cases ws with
  | nil => exact ⟨rfl, fun w hw => by simp at hw⟩
  | cons w ws =>
    exact ⟨h w (List.mem_cons_self _ _), fun x hx => h x (List.mem_cons_of_mem _ hx)⟩

theorem render_fmt_head (fs : List fmt_item) (ws ns : List (List Char)) (rest : List Char)
    (hs : fmt_item.separated fs = true) (hf : fs.head? ≠ some .hex)
    (hw : ∀ w ∈ ws, is_blank w = true) (hr : ∀ c, rest.head? = some c → hexval c = none) :
    ∀ c, (render_fmt fs ws ns ++ rest).head? = some c → hexval c = none := by
  cases fs with
  | nil => simpa [render_fmt] using hr
  | cons f fs =>
    cases f with
    | hex => simp at hf
    | lit a =>
      have hb := (is_blank_headD ws hw).1
      simp only [fmt_item.separated, Bool.and_eq_true, Option.isNone_iff_eq_none] at hs
      intro c hc
      rw [render_fmt] at hc
      cases hw0 : ws.headD [] with
      | nil =>
        rw [hw0] at hc
        simp only [List.nil_append, List.cons_append, List.head?_cons, Option.some.injEq] at hc
        rw [← hc]; exact hs.1.1.1
      | cons b w =>
        rw [hw0] at hc hb
        simp only [List.cons_append, List.head?_cons, Option.some.injEq] at hc
        simp only [is_blank, List.all_cons, Bool.and_eq_true] at hb
        rw [← hc]; exact isspace_hexval b hb.1

theorem parse_fmt_render (ULONG : Nat) (fs : List fmt_item) :
    ∀ (ws ds : List (List Char)) (rest : List Char), fmt_item.separated fs = true →
      (∀ w ∈ ws, is_blank w = true) →
      (∀ d ∈ ds, is_hex_digits d = true ∧ hexnum d < ULONG) →
      fmt_item.fields fs ≤ ds.length →
      (∀ c, rest.head? = some c → hexval c = none) →
      parse_fmt ULONG fs (render_fmt fs ws (ds.map hex_text) ++ rest) =
        some ((ds.take (fmt_item.fields fs)).map hexnum, rest) := by
  induction fs with
  | nil =>
    intro ws ds rest _ _ _ _ _
    simp [parse_fmt, render_fmt, fmt_item.fields]
  | cons f fs ih =>
    intro ws ds rest hs hw hd hl hr
    obtain ⟨hb, hwt⟩ := is_blank_headD ws hw
    cases f with
    | lit a =>
      simp only [fmt_item.separated, Bool.and_eq_true, Option.isNone_iff_eq_none,
        Bool.not_eq_true', bne_iff_ne, ne_eq] at hs
      have hfl : fmt_item.fields (fmt_item.lit a :: fs) = fmt_item.fields fs := by
        simp [fmt_item.fields]
      rw [parse_fmt, render_fmt, List.append_assoc, skipspace_blank_append _ _ hb,
        List.cons_append, skipspace_cons_of_not_isspace _ _ hs.1.1.2]
      simp only [cstr_head, List.headD_cons, ne_eq, not_true_eq_false, if_false, List.tail_cons]
      rw [hfl] at hl ⊢
      exact ih ws.tail ds rest hs.2 hwt hd hl hr
    | hex =>
      simp only [fmt_item.separated, Bool.and_eq_true, bne_iff_ne, ne_eq] at hs
      have hfl : fmt_item.fields (fmt_item.hex :: fs) = fmt_item.fields fs + 1 := by
        simp [fmt_item.fields]
      rw [hfl] at hl ⊢
      cases ds with
      | nil => simp at hl
      | cons d ds =>
        have hd0 := hd d (List.mem_cons_self _ _)
        have hdt : ∀ x ∈ ds, is_hex_digits x = true ∧ hexnum x < ULONG :=
          fun x hx => hd x (List.mem_cons_of_mem _ hx)
        have hh := render_fmt_head fs ws.tail (ds.map hex_text) rest hs.2 hs.1 hwt hr
        have e : render_fmt (fmt_item.hex :: fs) ws ((d :: ds).map hex_text) ++ rest =
            ws.headD [] ++ (hex_text d ++ (render_fmt fs ws.tail (ds.map hex_text) ++ rest)) := by
          simp [render_fmt, List.append_assoc]
        have e2 : skipspace (hex_text d ++ (render_fmt fs ws.tail (ds.map hex_text) ++ rest)) =
            hex_text d ++ (render_fmt fs ws.tail (ds.map hex_text) ++ rest) :=
          skipspace_cons_of_not_isspace _ _ (by decide)
        rw [parse_fmt, e, skipspace_blank_append _ _ hb, e2,
          strtoul16_hex_text ULONG d _ hd0.1 hd0.2 hh]
        simp only [if_neg (hex_text_ne d _)]
        rw [ih ws.tail ds rest hs.2 hwt hdt (by simpa using hl) hr]
        simp

theorem is_numeral_of_parts (sg pre dg : List Char)
    (hsg : sg = [] ∨ sg = ['-'] ∨ sg = ['+'])
    (hpre : pre = [] ∨ pre = ['0', 'x'] ∨ pre = ['0', 'X'])
    (hdg : dg ≠ []) (hall : ∀ c ∈ dg, (hexval c).isSome = true) :
    is_numeral (sg ++ (pre ++ dg)) = true := by
  cases dg with
  | nil => exact absurd rfl hdg
  | cons a dg =>
    have ha := hall a (List.mem_cons_self _ _)
    have hall2 : ∀ c ∈ dg, (hexval c).isSome = true :=
      fun c hc => hall c (List.mem_cons_of_mem _ hc)
    have h0 : (hexval '0').isSome = true := by decide
    simp only [is_numeral, Bool.and_eq_true, List.any_eq_true, List.all_eq_true,
      Bool.or_eq_true, beq_iff_eq]
    refine ⟨⟨a, by simp, ha⟩, ?_⟩
    intro c hc
    simp only [List.mem_append, List.mem_cons] at hc
    rcases hc with hc | hc | hc | hc
    · rcases hsg with e | e | e <;> subst e <;> simp at hc <;> subst hc <;> simp
    · rcases hpre with e | e | e <;> subst e <;> simp at hc
      · rcases hc with hc | hc <;> subst hc <;> simp [h0]
      · rcases hc with hc | hc <;> subst hc <;> simp [h0]
    · subst hc; simp [ha]
    · simp [hall2 c hc]

theorem strtoul16_strip_0x (t1 : List Char) :
    ∃ pre t2, (pre = [] ∨ pre = ['0', 'x'] ∨ pre = ['0', 'X']) ∧ t1 = pre ++ t2 ∧
      (match t1 with
        | '0' :: x :: h :: r =>
          if ((x == 'x' || x == 'X') && (hexval h).isSome) = true then h :: r else t1
        | _ => t1) = t2 := by
  split
  · rename_i x h r
    by_cases c : ((x == 'x' || x == 'X') && (hexval h).isSome) = true
    · rw [if_pos c]
      simp only [Bool.and_eq_true, Bool.or_eq_true, beq_iff_eq] at c
      rcases c.1 with c1 | c1
      · exact ⟨['0', 'x'], h :: r, Or.inr (Or.inl rfl), by rw [c1]; rfl, rfl⟩
      · exact ⟨['0', 'X'], h :: r, Or.inr (Or.inr rfl), by rw [c1]; rfl, rfl⟩
    · rw [if_neg c]
      exact ⟨[], _, Or.inl rfl, rfl, rfl⟩
  · exact ⟨[], _, Or.inl rfl, rfl, rfl⟩

theorem strtoul16_numeral (ULONG : Nat) (s : List Char) (hs : s.dropWhile isspace = s)
    (h : (strtoul16 ULONG s).2 ≠ s) :
    ∃ n, is_numeral n = true ∧ s = n ++ (strtoul16 ULONG s).2 := by
  unfold strtoul16 at h ⊢
  dsimp only at h ⊢
  rw [hs] at h ⊢
  obtain ⟨sg, t1, hsg, e1, et1⟩ : ∃ sg t1, (sg = [] ∨ sg = ['-'] ∨ sg = ['+']) ∧ s = sg ++ t1 ∧
      (if (s.head? == some '-' || s.head? == some '+') = true then s.tail else s) = t1 := by
    by_cases c : (s.head? == some '-' || s.head? == some '+') = true
    · rw [if_pos c]
      cases s with
      | nil => simp at c
      | cons a s =>
        simp only [List.head?_cons, Bool.or_eq_true, beq_iff_eq, Option.some.injEq] at c
        rcases c with c | c
        · exact ⟨['-'], s, Or.inr (Or.inl rfl), by rw [c]; rfl, rfl⟩
        · exact ⟨['+'], s, Or.inr (Or.inr rfl), by rw [c]; rfl, rfl⟩
    · rw [if_neg c]
      exact ⟨[], s, Or.inl rfl, rfl, rfl⟩
  rw [et1] at h ⊢
  obtain ⟨pre, t2, hpre, e2, et2⟩ := strtoul16_strip_0x t1
  rw [et2] at h ⊢
  by_cases c : List.takeWhile (fun c => (hexval c).isSome) t2 = []
  · rw [if_pos c] at h
    exact absurd rfl h
  · rw [if_neg c]
    refine ⟨sg ++ (pre ++ List.takeWhile (fun c => (hexval c).isSome) t2),
      is_numeral_of_parts sg pre _ hsg hpre c ?_, ?_⟩
    · intro a ha
      exact List.mem_takeWhile_imp (p := fun c => (hexval c).isSome) ha
    · dsimp only
      rw [List.append_assoc, List.append_assoc, List.takeWhile_append_dropWhile, ← e2, ← e1]

theorem parse_fmt_sound (ULONG : Nat) (fs : List fmt_item) :
    ∀ (s : List Char) (vs : List Nat) (rest : List Char),
      (∀ c, fmt_item.lit c ∈ fs → c ≠ '\x00') →
      parse_fmt ULONG fs s = some (vs, rest) →
      ∃ ws ns, s = render_fmt fs ws ns ++ rest ∧ ws.length = fs.length ∧
        ns.length = fmt_item.fields fs ∧ (∀ w ∈ ws, is_blank w = true) ∧
        (∀ n ∈ ns, is_numeral n = true) := by
  induction fs with
  | nil =>
    intro s vs rest _ h
    rw [parse_fmt] at h
    simp only [Option.some.injEq, Prod.mk.injEq] at h
    exact ⟨[], [], by simp [render_fmt, h.2], rfl, rfl, by simp, by simp⟩
  | cons f fs ih =>
    intro s vs rest hl h
    have hl2 : ∀ c, fmt_item.lit c ∈ fs → c ≠ '\x00' :=
      fun c hc => hl c (List.mem_cons_of_mem _ hc)
    obtain ⟨w, hw, es⟩ := skipspace_split s
    cases f with
    | lit a =>
      rw [parse_fmt] at h
      by_cases c : cstr_head (skipspace s) = a
      swap
      · rw [if_pos c] at h
        exact absurd h (by simp)
      rw [if_neg (not_not_intro c)] at h
      have ha := hl a (List.mem_cons_self _ _)
      have e : skipspace s = a :: (skipspace s).tail := by
        cases hk : skipspace s with
        | nil => rw [hk] at c; exact absurd c.symm ha
        | cons b t =>
          rw [hk] at c
          simp only [cstr_head, List.headD_cons] at c
          rw [c]; rfl
      obtain ⟨ws, ns, e1, e2, e3, e4, e5⟩ := ih _ vs rest hl2 h
      refine ⟨w :: ws, ns, ?_, by simp [e2], by simpa [fmt_item.fields] using e3, ?_, e5⟩
      · rw [render_fmt, List.headD_cons, List.tail_cons, List.append_assoc, List.cons_append,
          ← e1, ← e]
        exact es
      · intro x hx
        rcases List.mem_cons.mp hx with hx | hx
        · rw [hx]; exact hw
        · exact e4 x hx
    | hex =>
      rw [parse_fmt] at h
      by_cases c : (strtoul16 ULONG (skipspace s)).2 = skipspace s
      · rw [if_pos c] at h
        exact absurd h (by simp)
      rw [if_neg c] at h
      obtain ⟨n, hn, en⟩ := strtoul16_numeral ULONG (skipspace s) (skipspace_head_not_isspace s) c
      cases hp : parse_fmt ULONG fs (strtoul16 ULONG (skipspace s)).2 with
      | none => rw [hp] at h; exact absurd h (by simp)
      | some r =>
        rw [hp] at h
        simp only [Option.some.injEq, Prod.mk.injEq] at h
        obtain ⟨ws, ns, e1, e2, e3, e4, e5⟩ := ih _ r.1 r.2 hl2 hp
        refine ⟨w :: ws, n :: ns, ?_, by simp [e2], by simp [fmt_item.fields, e3], ?_, ?_⟩
        · rw [render_fmt, List.headD_cons, List.tail_cons, List.headD_cons, List.tail_cons,
            List.append_assoc, List.append_assoc, ← h.2, ← e1, ← en]
          exact es
        · intro x hx
          rcases List.mem_cons.mp hx with hx | hx
          · rw [hx]; exact hw
          · exact e4 x hx
        · intro x hx
          rcases List.mem_cons.mp hx with hx | hx
          · rw [hx]; exact hn
          · exact e5 x hx

/-- C34: `string_to_uuid` round-trips the text format. On a host whose `unsigned long`
has at least 32 bits, for every data1 below 2^32, data2, data3 and data4 below 2^16 and
six bytes below 2^8, written `0x` and hexadecimal digits in the format
`{data1, data2, data3, data4, {b0, b1, b2, b3, b4, b5}}` with any white space in front of
each brace, comma and number and behind the last brace, the function returns true and
stores these ten values. And every string that it accepts is such a text: the two
opening braces, the nine commas and the two closing braces in their places, between them
ten numbers with a hexadecimal digit each, white space in between and nothing but
white space behind; so a string with a brace or a comma missing, a field without a
digit or other characters behind the last brace is rejected. -/
theorem string_to_uuid_round_trip (ULONG : Nat) (hU : U32 ≤ ULONG) :
    (∀ (ws : List (List Char)) (wt d1 d2 d3 d4 b0 b1 b2 b3 b4 b5 : List Char),
        (∀ w ∈ ws, is_blank w = true) → is_blank wt = true →
        (∀ d ∈ [d1, d2, d3, d4, b0, b1, b2, b3, b4, b5], is_hex_digits d = true) →
        hexnum d1 < 2 ^ 32 → hexnum d2 < 2 ^ 16 → hexnum d3 < 2 ^ 16 → hexnum d4 < 2 ^ 16 →
        (∀ b ∈ [b0, b1, b2, b3, b4, b5], hexnum b < 2 ^ 8) →
        string_to_uuid ULONG
            (render_fmt uuid_fmt ws ([d1, d2, d3, d4, b0, b1, b2, b3, b4, b5].map hex_text) ++
              wt) =
          (true, ⟨hexnum d1, hexnum d2, hexnum d3, hexnum d4,
            [hexnum b0, hexnum b1, hexnum b2, hexnum b3, hexnum b4, hexnum b5]⟩)) ∧
    (∀ s : List Char, '\x00' ∉ s → (string_to_uuid ULONG s).1 = true →
        ∃ (ws ns : List (List Char)) (wt : List Char),
          s = render_fmt uuid_fmt ws ns ++ wt ∧ ws.length = 23 ∧ ns.length = 10 ∧
            (∀ w ∈ ws, is_blank w = true) ∧ (∀ n ∈ ns, is_numeral n = true) ∧
            is_blank wt = true) := by
  constructor
  · intro ws wt d1 d2 d3 d4 b0 b1 b2 b3 b4 b5 hws hwt hd h1 h2 h3 h4 hb
    have hU' : 2 ^ 32 ≤ ULONG := hU
    have hbs := hb
    simp only [List.mem_cons, List.mem_singleton, forall_eq_or_imp, forall_eq,
      List.not_mem_nil, false_imp_iff, implies_true, and_true] at hbs
    obtain ⟨hb0, hb1, hb2, hb3, hb4, hb5⟩ := hbs
    have hds : ∀ d ∈ [d1, d2, d3, d4, b0, b1, b2, b3, b4, b5],
        is_hex_digits d = true ∧ hexnum d < ULONG := by
      intro d hdm
      refine ⟨hd d hdm, ?_⟩
      simp only [List.mem_cons, List.mem_singleton, List.not_mem_nil, or_false] at hdm
      rcases hdm with e | e | e | e | e | e | e | e | e | e <;> subst e <;> omega
    have hwh : ∀ c, wt.head? = some c → hexval c = none := by
      intro c hc
      cases wt with
      | nil => simp at hc
      | cons a wt =>
        simp only [List.head?_cons, Option.some.injEq] at hc
        simp only [is_blank, List.all_cons, Bool.and_eq_true] at hwt
        rw [← hc]; exact isspace_hexval a hwt.1
    have hp := parse_fmt_render ULONG uuid_fmt ws [d1, d2, d3, d4, b0, b1, b2, b3, b4, b5] wt
      (by decide) hws hds (show fmt_item.fields uuid_fmt ≤ 10 by decide) hwh
    have hf : string_to_uuid_fmt ULONG
        (render_fmt uuid_fmt ws ([d1, d2, d3, d4, b0, b1, b2, b3, b4, b5].map hex_text) ++
          wt) = some ⟨hexnum d1, hexnum d2, hexnum d3, hexnum d4,
            [hexnum b0, hexnum b1, hexnum b2, hexnum b3, hexnum b4, hexnum b5]⟩ := by
      unfold string_to_uuid_fmt
      rw [hp]
      have hk : skipspace wt = [] := by
        have := skipspace_blank_append wt [] hwt
        rwa [List.append_nil] at this
      have hfl : fmt_item.fields uuid_fmt = 10 := by decide
      simp only [hk, cstr_head, List.headD_nil, ne_eq, not_true_eq_false, if_false, hfl,
        uuid_of_fields, List.take, List.map, List.getD_cons_zero, List.getD_cons_succ,
        Option.some.injEq, uuid_t.mk.injEq, List.cons.injEq, and_true]
      have e32 : U32 = 2 ^ 32 := rfl
      rw [e32]
      refine ⟨Nat.mod_eq_of_lt h1, Nat.mod_eq_of_lt h2, Nat.mod_eq_of_lt h3, Nat.mod_eq_of_lt h4,
        Nat.mod_eq_of_lt hb0, Nat.mod_eq_of_lt hb1, Nat.mod_eq_of_lt hb2, Nat.mod_eq_of_lt hb3,
        Nat.mod_eq_of_lt hb4, Nat.mod_eq_of_lt hb5⟩
    rw [string_to_uuid_eq_fmt] at hf
    by_cases c : (string_to_uuid ULONG
        (render_fmt uuid_fmt ws ([d1, d2, d3, d4, b0, b1, b2, b3, b4, b5].map hex_text) ++
          wt)).1 = true
    · rw [if_pos c] at hf
      exact Prod.ext c (Option.some.inj hf)
    · rw [if_neg c] at hf
      exact absurd hf (by simp)
  · intro s hs h
    have hf := string_to_uuid_eq_fmt ULONG s
    rw [if_pos h] at hf
    unfold string_to_uuid_fmt at hf
    cases hp : parse_fmt ULONG uuid_fmt s with
    | none => rw [hp] at hf; exact absurd hf (by simp)
    | some r =>
      rw [hp] at hf
      by_cases c : cstr_head (skipspace r.2) = '\x00'
      swap
      · simp only [ne_eq, c, not_false_eq_true, if_true] at hf
        exact absurd hf (by simp)
      have hl : ∀ a, fmt_item.lit a ∈ uuid_fmt → a ≠ '\x00' := by
        intro a ha
        simp only [uuid_fmt, List.mem_cons, fmt_item.lit.injEq, reduceCtorEq, List.mem_singleton,
          false_or, or_false, List.not_mem_nil] at ha
        rcases ha with e | e | e | e | e | e | e | e | e | e | e | e | e <;> subst e <;> decide
      obtain ⟨ws, ns, e1, e2, e3, e4, e5⟩ := parse_fmt_sound ULONG uuid_fmt s r.1 r.2 hl hp
      obtain ⟨w, hw, ew⟩ := skipspace_split r.2
      have hk : skipspace r.2 = [] := by
        cases hk : skipspace r.2 with
        | nil => rfl
        | cons a t =>
          rw [hk] at c ew
          simp only [cstr_head, List.headD_cons] at c
          exfalso
          apply hs
          rw [e1, ew, c]
          simp
      rw [hk, List.append_nil] at ew
      exact ⟨ws, ns, r.2, e1, by rw [e2]; rfl, by rw [e3]; decide, e4, e5, by rw [ew]; exact hw⟩

/-- C34, at an input: with a 64-bit `unsigned long` the text
`{0xaabbccdd ,0xEEFF, 0x1122,0x3344, {0x55, 0x66, 0x77, 0x88,0x99, 0x0aa} }` between
white space is accepted with its ten values; texts with a brace missing, a comma
missing, a field without a digit and a character behind the last brace are rejected. -/
theorem string_to_uuid_round_trip_witness :
    U32 ≤ U64 ∧
    string_to_uuid U64
        " \x7b0xaabbccdd ,0xEEFF, 0x1122,0x3344,\t\x7b0x55, 0x66, 0x77, 0x88,0x99, 0x0aa\x7d \x7d\n".toList =
      (true, ⟨0xaabbccdd, 0xeeff, 0x1122, 0x3344, [0x55, 0x66, 0x77, 0x88, 0x99, 0xaa]⟩) ∧
    (string_to_uuid U64
        "\x7b0xaabbccdd, 0xeeff, 0x1122, 0x3344, 0x55, 0x66, 0x77, 0x88, 0x99, 0xaa\x7d\x7d".toList).1 =
      false ∧
    (string_to_uuid U64
        "\x7b0xaabbccdd, 0xeeff, 0x1122, 0x3344, \x7b0x55, 0x66, 0x77, 0x88 0x99, 0xaa\x7d\x7d".toList).1 =
      false ∧
    (string_to_uuid U64
        "\x7b0xaabbccdd, 0x, 0x1122, 0x3344, \x7b0x55, 0x66, 0x77, 0x88, 0x99, 0xaa\x7d\x7d".toList).1 =
      false ∧
    (string_to_uuid U64
        "\x7b0xaabbccdd, 0xeeff, 0x1122, 0x3344, \x7b0x55, 0x66, 0x77, 0x88, 0x99, 0xaa\x7d\x7d;".toList).1 =
      false :=
  ⟨by decide,
    (string_to_uuid_round_trip U64 (by decide)).1
      [" ".toList, [], " ".toList, [], [], " ".toList, [], [], [], "\t".toList, [], [],
        " ".toList, [], " ".toList, [], " ".toList, [], [], [], " ".toList, [], " ".toList]
      "\n".toList "aabbccdd".toList "EEFF".toList "1122".toList "3344".toList "55".toList
      "66".toList "77".toList "88".toList "99".toList "0aa".toList
      (by decide) (by decide) (by decide) (by decide) (by decide) (by decide) (by decide)
      (by decide),
    by decide, by decide, by decide, by decide⟩

/-! ## The custom policy element -/

/-- With the all-zero uuid staged `create` returns NULL, whatever else is staged. -/
theorem create_null_uuid (hs : host_sizes) (malloc_ok : Bool) (st : custom_state)
    (hu : st.uuid = NULL_UUID) : create hs malloc_ok st = some none := by
  unfold create
  rw [if_pos (by simp [are_uuids_equal, hu])]

/-- With a uuid other than NULL_UUID and a buffer of `data_len` bytes staged, and sizes
that fit in `size_t` and in the 32 bits of `size`, `create` gives an element with this
uuid and these bytes in front; the length that `display` recovers is `data_len` plus
`sizeof(lcp_mle_element_t)`, and it prints the bytes and that many zero bytes. -/
theorem create_display_trailing_zeros (hs : host_sizes) (st : custom_state) (d : List Nat)
    (hu : st.uuid ≠ NULL_UUID) (hd : st.data = some d) (hl : d.length = st.data_len)
    (hsz : hs.sizeof_lcp_policy_element_t + hs.sizeof_lcp_mle_element_t + hs.sizeof_uuid_t +
      st.data_len < hs.SIZE)
    (h32 : hs.sizeof_lcp_policy_element_t + hs.sizeof_lcp_mle_element_t + hs.sizeof_uuid_t +
      st.data_len < U32) :
    ∃ elt, create hs true st = some (some elt) ∧ elt.uuid = st.uuid ∧
      elt.data = d ++ List.replicate hs.sizeof_lcp_mle_element_t 0 ∧
      display_len hs elt = st.data_len + hs.sizeof_lcp_mle_element_t ∧
      display hs elt = some (st.uuid, d ++ List.replicate hs.sizeof_lcp_mle_element_t 0) := by
  have e1 : (hs.sizeof_lcp_mle_element_t + hs.sizeof_uuid_t + st.data_len) % hs.SIZE =
      hs.sizeof_lcp_mle_element_t + hs.sizeof_uuid_t + st.data_len :=
    Nat.mod_eq_of_lt (by omega)
  have e2 : (hs.sizeof_lcp_policy_element_t +
      (hs.sizeof_lcp_mle_element_t + hs.sizeof_uuid_t + st.data_len)) % hs.SIZE =
      hs.sizeof_lcp_policy_element_t +
        (hs.sizeof_lcp_mle_element_t + hs.sizeof_uuid_t + st.data_len) :=
    Nat.mod_eq_of_lt (by omega)
  have e3 : (hs.sizeof_lcp_policy_element_t +
      (hs.sizeof_lcp_mle_element_t + hs.sizeof_uuid_t + st.data_len)) % U32 =
      hs.sizeof_lcp_policy_element_t +
        (hs.sizeof_lcp_mle_element_t + hs.sizeof_uuid_t + st.data_len) :=
    Nat.mod_eq_of_lt (by omega)
  have e4 : hs.sizeof_lcp_policy_element_t +
      (hs.sizeof_lcp_mle_element_t + hs.sizeof_uuid_t + st.data_len) -
        hs.sizeof_lcp_policy_element_t - hs.sizeof_uuid_t =
      st.data_len + hs.sizeof_lcp_mle_element_t := by omega
  have hdata : tb_memcpy (List.replicate (st.data_len + hs.sizeof_lcp_mle_element_t) 0) 0 d
      st.data_len = d ++ List.replicate hs.sizeof_lcp_mle_element_t 0 := by
    unfold tb_memcpy
    rw [← hl, List.take_zero, List.nil_append, List.take_length, Nat.zero_add,
      List.drop_replicate, Nat.add_sub_cancel_left]
  have hlen : display_len hs
      { size := hs.sizeof_lcp_policy_element_t +
          (hs.sizeof_lcp_mle_element_t + hs.sizeof_uuid_t + st.data_len),
        uuid := st.uuid, data := d ++ List.replicate hs.sizeof_lcp_mle_element_t 0 } =
      st.data_len + hs.sizeof_lcp_mle_element_t := by
    unfold display_len
    dsimp only
    rw [Nat.mod_eq_of_lt (by omega : hs.sizeof_lcp_policy_element_t < hs.SIZE),
      Nat.mod_eq_of_lt (by omega : hs.sizeof_uuid_t < hs.SIZE)]
    have : hs.sizeof_lcp_policy_element_t +
        (hs.sizeof_lcp_mle_element_t + hs.sizeof_uuid_t + st.data_len) +
        (hs.SIZE - hs.sizeof_lcp_policy_element_t) + (hs.SIZE - hs.sizeof_uuid_t) =
        st.data_len + hs.sizeof_lcp_mle_element_t + hs.SIZE + hs.SIZE := by omega
    rw [this, Nat.add_mod_right, Nat.add_mod_right]
    exact Nat.mod_eq_of_lt (by omega)
  refine ⟨⟨hs.sizeof_lcp_policy_element_t +
      (hs.sizeof_lcp_mle_element_t + hs.sizeof_uuid_t + st.data_len), st.uuid,
    d ++ List.replicate hs.sizeof_lcp_mle_element_t 0⟩, ?_, rfl, rfl, hlen, ?_⟩
  · unfold create
    rw [if_neg (by simp [are_uuids_equal, hu])]
    dsimp only
    rw [e1, e2, e3, e4, hd]
    simp only [Bool.not_true, Bool.false_eq_true, if_false]
    rw [if_neg (by omega)]
    rw [if_neg (by omega), hdata]
  · unfold display
    rw [hlen]
    dsimp only
    rw [if_neg (by simp [hl]), ← hl]
    have : (d ++ List.replicate hs.sizeof_lcp_mle_element_t 0).length =
        d.length + hs.sizeof_lcp_mle_element_t := by simp
    rw [← this, List.take_length]

/-- C35 at the failing input: `--uuid` with a well-formed uuid and the data file
`data.bin` of the two bytes aa bb are staged by `cmdline_handler`. `create` returns an
element with this uuid and these two bytes, and with `size` 34: the header of 12 bytes,
the uuid of 16, the two bytes, and the 4 bytes of `sizeof(lcp_mle_element_t)` that it
adds. The length that `display` recovers is 6, not `data_len` = 2, and it prints aa bb
00 00 00 00, four bytes more than the data. With no uuid staged `create` returns NULL. -/
theorem create_display_prints_more :
    cmdline_handler U64 one_file
        (cmdline_handler U64 one_file custom_state.init ('u'.toNat : Int)
          "\x7b0xaabbccdd, 0xeeff, 0x1122, 0x3344, \x7b0x55, 0x66, 0x77, 0x88, 0x99, 0xaa\x7d\x7d".toList).2
        0 "data.bin".toList =
      (true, ⟨⟨0xaabbccdd, 0xeeff, 0x1122, 0x3344, [0x55, 0x66, 0x77, 0x88, 0x99, 0xaa]⟩, 2,
        some [0xaa, 0xbb]⟩) ∧
    create lcp_host true
        ⟨⟨0xaabbccdd, 0xeeff, 0x1122, 0x3344, [0x55, 0x66, 0x77, 0x88, 0x99, 0xaa]⟩, 2,
          some [0xaa, 0xbb]⟩ =
      some (some ⟨34, ⟨0xaabbccdd, 0xeeff, 0x1122, 0x3344, [0x55, 0x66, 0x77, 0x88, 0x99, 0xaa]⟩,
        [0xaa, 0xbb, 0, 0, 0, 0]⟩) ∧
    display_len lcp_host
        ⟨34, ⟨0xaabbccdd, 0xeeff, 0x1122, 0x3344, [0x55, 0x66, 0x77, 0x88, 0x99, 0xaa]⟩,
          [0xaa, 0xbb, 0, 0, 0, 0]⟩ = 6 ∧
    display lcp_host
        ⟨34, ⟨0xaabbccdd, 0xeeff, 0x1122, 0x3344, [0x55, 0x66, 0x77, 0x88, 0x99, 0xaa]⟩,
          [0xaa, 0xbb, 0, 0, 0, 0]⟩ =
      some (⟨0xaabbccdd, 0xeeff, 0x1122, 0x3344, [0x55, 0x66, 0x77, 0x88, 0x99, 0xaa]⟩,
        [0xaa, 0xbb, 0, 0, 0, 0]) ∧
    create lcp_host true custom_state.init = some none := by
  refine ⟨by decide, by decide, by decide, by decide, by decide⟩

/-! ## Slots shorter than a descriptor -/

/-- C15 (as stated) fails in slots shorter than a descriptor. The available map
`short_slots_state` has `descr_size = 32`, three entries and room for two more; its
first entry `d = {0x0, 4 pages, CONVENTIONAL}` is free with `d.start < base' = 0x1000`
and `end' = 0x2000 < d.end = 0x4000`, and no other entry overlaps the range. The member
`attribute` of `d` lies in the bytes 32 to 39, the first bytes of the next slot, and
reads 7, the `type` of the next entry. `efi_memmap_reserve(0x1000, 0x1000)` returns
true with five entries, but the three entries at the indices 0, 1, 2 have the
attributes 0, 7, 0 and not `d.attribute` each, and the entries behind are not
unchanged: each `desc->attribute = attr` of `insert_after_region` is stored in the
`type` of the slot behind the new entry, so the entry at `0x4000` has lost its type
and the last entry its attribute. -/
theorem efi_memmap_reserve_interior_split_short_slots :
    short_slots_state.efi_mmap_available = true ∧
    short_slots_state.efi_mmap.descr_size = 32 ∧
    short_slots_state.efi_mmap.descr_size < SIZEOF_EFI_MEM_DESCR ∧
    short_slots_state.efi_mmap.size / short_slots_state.efi_mmap.descr_size + 2 ≤ 128 ∧
    short_slots_state.efi_mmap.entries =
      [⟨EFI_CONVENTIONAL_MEMORY, 0x0, 4, 7, 0⟩, ⟨EFI_CONVENTIONAL_MEMORY, 0x4000, 4, 2, 0⟩,
       ⟨EFI_LOADER_DATA, 0x8000, 4, 0xf, 0⟩] ∧
    reserve_base 0x1000 = 0x1000 ∧ reserve_length 0x1000 = 0x1000 ∧
    reserve_end 0x1000 0x1000 = 0x2000 ∧
    (Bytes.efi_memmap_reserve 128 8 short_slots_state 0x1000 0x1000).map
        (fun r => (r.1, r.2.efi_mmap.size, r.2.efi_mmap.entries)) =
      some (true, 160,
        [⟨EFI_CONVENTIONAL_MEMORY, 0x0, 1, 0, 0⟩, ⟨EFI_RESERVED_TYPE, 0x1000, 1, 7, 0⟩,
         ⟨EFI_CONVENTIONAL_MEMORY, 0x2000, 2, 0, 0⟩, ⟨EFI_RESERVED_TYPE, 0x4000, 4, 2, 0⟩,
         ⟨EFI_LOADER_DATA, 0x8000, 4, 0, 0⟩]) ∧
    [(⟨EFI_CONVENTIONAL_MEMORY, 0x0, 1, 0, 0⟩ : efi_mem_descr_t),
        ⟨EFI_RESERVED_TYPE, 0x1000, 1, 7, 0⟩, ⟨EFI_CONVENTIONAL_MEMORY, 0x2000, 2, 0, 0⟩,
        ⟨EFI_RESERVED_TYPE, 0x4000, 4, 2, 0⟩, ⟨EFI_LOADER_DATA, 0x8000, 4, 0, 0⟩] ≠
      [⟨EFI_CONVENTIONAL_MEMORY, 0x0, 1, 7, 0⟩, ⟨EFI_RESERVED_TYPE, 0x1000, 1, 7, 0⟩,
        ⟨EFI_CONVENTIONAL_MEMORY, 0x2000, 2, 7, 0⟩, ⟨EFI_CONVENTIONAL_MEMORY, 0x4000, 4, 2, 0⟩,
        ⟨EFI_LOADER_DATA, 0x8000, 4, 0xf, 0⟩] := by
  refine ⟨rfl, rfl, by decide, by decide, by decide!, by decide, by decide, by decide,
    by decide!, by decide⟩

/-- Case 1 in slots shorter than a descriptor: on `short_slots_state` (`descr_size =
32`) the call `efi_memmap_reserve(0x0, 0x8000)` retypes the first two entries, each
within the range, and returns true with three entries as before. The entry at index 0
has the attribute 7 before the call and 0 after it: its `attribute` lies in the bytes
where the next entry has its `type`, which the call has set to `EFI_RESERVED_TYPE`. -/
theorem efi_memmap_reserve_retype_short_slots :
    short_slots_state.efi_mmap.descr_size < SIZEOF_EFI_MEM_DESCR ∧
    short_slots_state.efi_mmap.entries =
      [⟨EFI_CONVENTIONAL_MEMORY, 0x0, 4, 7, 0⟩, ⟨EFI_CONVENTIONAL_MEMORY, 0x4000, 4, 2, 0⟩,
       ⟨EFI_LOADER_DATA, 0x8000, 4, 0xf, 0⟩] ∧
    reserve_base 0x0 = 0x0 ∧ reserve_end 0x0 0x8000 = 0x8000 ∧
    (Bytes.efi_memmap_reserve 128 8 short_slots_state 0x0 0x8000).map
        (fun r => (r.1, r.2.efi_mmap.size, r.2.efi_mmap.entries)) =
      some (true, 96,
        [⟨EFI_RESERVED_TYPE, 0x0, 4, 0, 0⟩, ⟨EFI_RESERVED_TYPE, 0x4000, 4, 2, 0⟩,
         ⟨EFI_LOADER_DATA, 0x8000, 4, 0xf, 0⟩]) := by
  refine ⟨by decide, by decide!, by decide, by decide, by decide!⟩

/-- Case 2 in slots shorter than a descriptor: on `short_slots_state` (`descr_size =
32`) the second entry `d = {0x4000, 4 pages, CONVENTIONAL, attribute 2}` at index 1 is
free with `base' = 0x4000 <= d.start < end' = 0x5000 < d.end = 0x8000`, and the entry
in front of it is passed over. `efi_memmap_reserve(0x4000, 0x1000)` returns true with
four entries. The entry at index 2, the original entry relocated to `0x5000`, has the
type `EFI_LOADER_DATA` and not `d.type`: `desc->attribute = attr` of
`insert_after_region` is stored in its first bytes. The entry in front of `d` has the
attribute 7 before the call and 0 after it. -/
theorem efi_memmap_reserve_left_split_short_slots :
    short_slots_state.efi_mmap.descr_size < SIZEOF_EFI_MEM_DESCR ∧
    short_slots_state.efi_mmap.entries =
      [⟨EFI_CONVENTIONAL_MEMORY, 0x0, 4, 7, 0⟩, ⟨EFI_CONVENTIONAL_MEMORY, 0x4000, 4, 2, 0⟩,
       ⟨EFI_LOADER_DATA, 0x8000, 4, 0xf, 0⟩] ∧
    reserve_base 0x4000 = 0x4000 ∧ reserve_end 0x4000 0x1000 = 0x5000 ∧
    (⟨EFI_CONVENTIONAL_MEMORY, 0x0, 4, 7, 0⟩ : efi_mem_descr_t).passed_over 0x4000 0x5000 ∧
    (Bytes.efi_memmap_reserve 128 8 short_slots_state 0x4000 0x1000).map
        (fun r => (r.1, r.2.efi_mmap.size, r.2.efi_mmap.entries)) =
      some (true, 128,
        [⟨EFI_CONVENTIONAL_MEMORY, 0x0, 4, 0, 0⟩, ⟨EFI_RESERVED_TYPE, 0x4000, 1, 2, 0⟩,
         ⟨EFI_LOADER_DATA, 0x5000, 3, 2, 0⟩, ⟨EFI_LOADER_DATA, 0x8000, 4, 0, 0⟩]) := by
  refine ⟨by decide, by decide!, by decide, by decide, by decide, by decide!⟩

/-- Case 3 in slots shorter than a descriptor: on `short_slots_state` (`descr_size =
32`) the first entry `d = {0x0, 4 pages, CONVENTIONAL, attribute 7}` is free with
`d.start < base' = 0x2000 < d.end = 0x4000 <= end' = 0x4000`.
`efi_memmap_reserve(0x2000, 0x2000)` returns true with four entries. The entry at
index 0 has the attribute 0 and not `d.attribute`: its `attribute` lies in the bytes
where the new entry at index 1 has its type `EFI_RESERVED_TYPE`. -/
theorem efi_memmap_reserve_right_split_short_slots :
    short_slots_state.efi_mmap.descr_size < SIZEOF_EFI_MEM_DESCR ∧
    short_slots_state.efi_mmap.entries =
      [⟨EFI_CONVENTIONAL_MEMORY, 0x0, 4, 7, 0⟩, ⟨EFI_CONVENTIONAL_MEMORY, 0x4000, 4, 2, 0⟩,
       ⟨EFI_LOADER_DATA, 0x8000, 4, 0xf, 0⟩] ∧
    reserve_base 0x2000 = 0x2000 ∧ reserve_end 0x2000 0x2000 = 0x4000 ∧
    (Bytes.efi_memmap_reserve 128 8 short_slots_state 0x2000 0x2000).map
        (fun r => (r.1, r.2.efi_mmap.size, r.2.efi_mmap.entries)) =
      some (true, 128,
        [⟨EFI_CONVENTIONAL_MEMORY, 0x0, 2, 0, 0⟩, ⟨EFI_RESERVED_TYPE, 0x2000, 2, 7, 0⟩,
         ⟨EFI_CONVENTIONAL_MEMORY, 0x4000, 4, 2, 0⟩, ⟨EFI_LOADER_DATA, 0x8000, 4, 0, 0⟩]) := by
  refine ⟨by decide, by decide!, by decide, by decide, by decide!⟩

/-- Idempotence in slots shorter than a descriptor: the map `half_slot_state` has
`descr_size = 16` (positive, `size` a multiple of it) and one entry `{0x0, 2 pages,
CONVENTIONAL}`, so it is sorted and without overlap, and case 2 does not apply to the
entry (`d.start < base'`). `efi_memmap_reserve(0x1000, 0x1000)` returns true by case 3
with two entries; the `physical_start = 0x1000` of the new entry is stored in the bytes
24 to 31, where the first entry has its `num_pages`. The second call finds the first
entry reaching over the range, splits it by case 4 and returns true with four
entries. -/
theorem efi_memmap_reserve_not_idempotent_short_slots :
    half_slot_state.efi_mmap_available = true ∧
    half_slot_state.efi_mmap.descr_size < SIZEOF_EFI_MEM_DESCR ∧
    half_slot_state.efi_mmap.size % half_slot_state.efi_mmap.descr_size = 0 ∧
    half_slot_state.efi_mmap.entries = [⟨EFI_CONVENTIONAL_MEMORY, 0x0, 2, 0xf, 0⟩] ∧
    reserve_base 0x1000 = 0x1000 ∧ reserve_end 0x1000 0x1000 = 0x2000 ∧
    (Bytes.efi_memmap_reserve 128 8 half_slot_state 0x1000 0x1000).map
        (fun r => (r.1, r.2.efi_mmap.size,
          r.2.efi_mmap.entries.map (fun e => (e.type, e.physical_start, e.num_pages)))) =
      some (true, 32, [(EFI_CONVENTIONAL_MEMORY, 0x0, 0x1000), (EFI_RESERVED_TYPE, 0x1000, 1)]) ∧
    ((Bytes.efi_memmap_reserve 128 8 half_slot_state 0x1000 0x1000).bind
        (fun r => Bytes.efi_memmap_reserve 128 8 r.2 0x1000 0x1000)).map
        (fun r => (r.1, r.2.efi_mmap.size,
          r.2.efi_mmap.entries.map (fun e => (e.type, e.physical_start, e.num_pages)))) =
      some (true, 64,
        [(EFI_CONVENTIONAL_MEMORY, 0x0, 0x1000), (EFI_RESERVED_TYPE, 0x1000, 0x2000),
         (EFI_CONVENTIONAL_MEMORY, 0x2000, 0xffe), (EFI_RESERVED_TYPE, 0xffe, 0)]) := by
  refine ⟨rfl, by decide, by decide, by decide!, by decide, by decide, by decide!, by decide!⟩

/-! ## The byte storage and the slot records -/

theorem bytes_store_apply_in (mem : Nat → Nat) (a n v x : Nat) (ha : a + n ≤ U32)
    (h1 : a ≤ x) (h2 : x < a + n) :
    Bytes.store mem a n v x = v / 256 ^ (x - a) % 256 := by
  have hU : U32 = 4294967296 := by decide
  have e : (x + U32 - a % U32) % U32 = x - a := by rw [hU] at ha ⊢; omega
  unfold Bytes.store
  rw [e, if_pos (by omega)]

theorem bytes_store_apply_out (mem : Nat → Nat) (a n v x : Nat) (ha : a + n ≤ U32)
    (hx : x < U32) (h : x < a ∨ a + n ≤ x) :
    Bytes.store mem a n v x = mem x := by
  have hU : U32 = 4294967296 := by decide
  unfold Bytes.store
  rw [if_neg]
  rw [hU] at ha hx ⊢
  omega

theorem bytes_memcpy_apply_in (mem : Nat → Nat) (a src n x : Nat)
    (hs : src + n ≤ U32) (h1 : a ≤ x) (h2 : x < a + n) :
    Bytes.memcpy mem a src n x = mem (src + (x - a)) := by
  have hU : U32 = 4294967296 := by decide
  have e : (x + U32 - a % U32) % U32 = x - a := by rw [hU] at hs ⊢; omega
  have e1 : (src + (x - a)) % U32 = src + (x - a) := Nat.mod_eq_of_lt (by omega)
  unfold Bytes.memcpy
  rw [e, if_pos (by omega), e1]

theorem bytes_memcpy_apply_out (mem : Nat → Nat) (a src n x : Nat) (ha : a + n ≤ U32)
    (hx : x < U32) (h : x < a ∨ a + n ≤ x) :
    Bytes.memcpy mem a src n x = mem x := by
  have hU : U32 = 4294967296 := by decide
  unfold Bytes.memcpy
  rw [if_neg]
  rw [hU] at ha hx ⊢
  omega

theorem bytes_memset0_apply_in (mem : Nat → Nat) (a n x : Nat) (ha : a + n ≤ U32)
    (h1 : a ≤ x) (h2 : x < a + n) :
    Bytes.memset0 mem a n x = 0 := by
  have hU : U32 = 4294967296 := by decide
  have e : (x + U32 - a % U32) % U32 = x - a := by rw [hU] at ha ⊢; omega
  unfold Bytes.memset0
  rw [e, if_pos (by omega)]

theorem bytes_memset0_apply_out (mem : Nat → Nat) (a n x : Nat) (ha : a + n ≤ U32)
    (hx : x < U32) (h : x < a ∨ a + n ≤ x) :
    Bytes.memset0 mem a n x = mem x := by
  have hU : U32 = 4294967296 := by decide
  unfold Bytes.memset0
  rw [if_neg]
  rw [hU] at ha hx ⊢
  omega

/-- A load reads the bytes `addr, ..., addr + n - 1` and nothing else. -/
theorem bytes_load_congr (mem1 mem2 : Nat → Nat) (a b n : Nat) (ha : a + n ≤ U32)
    (hb : b + n ≤ U32) (h : ∀ j, j < n → mem1 (a + j) = mem2 (b + j)) :
    Bytes.load mem1 a n = Bytes.load mem2 b n := by
  unfold Bytes.load
  congr 1
  apply List.map_congr_left
  intro j hj
  rw [List.mem_range] at hj
  have e1 : (a + j) % U32 = a + j := Nat.mod_eq_of_lt (by omega)
  have e2 : (b + j) % U32 = b + j := Nat.mod_eq_of_lt (by omega)
  show mem1 ((a + j) % U32) % 256 * 256 ^ j = mem2 ((b + j) % U32) % 256 * 256 ^ j
  rw [e1, e2, h j hj]

theorem bytes_load_succ (mem : Nat → Nat) (a n : Nat) :
    Bytes.load mem a (n + 1) = Bytes.load mem a n + mem ((a + n) % U32) % 256 * 256 ^ n := by
  unfold Bytes.load
  rw [List.range_succ, List.map_append, List.sum_append]
  simp

theorem bytes_load_zero_bytes (mem : Nat → Nat) (a : Nat) : Bytes.load mem a 0 = 0 := by
  simp [Bytes.load]

theorem bytes_load_lt (mem : Nat → Nat) (a n : Nat) : Bytes.load mem a n < 256 ^ n := by
  induction n with
  | zero => simp [Bytes.load]
  | succ n ih =>
    rw [bytes_load_succ, pow_succ]
    have h1 : mem ((a + n) % U32) % 256 < 256 := Nat.mod_lt _ (by decide)
    have h2 : mem ((a + n) % U32) % 256 * 256 ^ n ≤ 255 * 256 ^ n :=
      Nat.mul_le_mul_right _ (by omega)
    omega

/-- The value stored is the value loaded, cut to the `n` bytes. -/
theorem bytes_load_store_same (mem : Nat → Nat) (a n v : Nat) (ha : a + n ≤ U32) :
    Bytes.load (Bytes.store mem a n v) a n = v % 256 ^ n := by
  have key : ∀ k, k ≤ n → Bytes.load (Bytes.store mem a n v) a k = v % 256 ^ k := by
    intro k
    induction k with
    | zero => intro _; simp [Bytes.load, Nat.mod_one]
    | succ k ih =>
      intro hk
      have e1 : (a + k) % U32 = a + k := Nat.mod_eq_of_lt (by omega)
      rw [bytes_load_succ, ih (by omega), e1,
        bytes_store_apply_in mem a n v (a + k) ha (by omega) (by omega), Nat.mod_pow_succ,
        Nat.add_sub_cancel_left, Nat.mod_mod, Nat.mul_comm]
  exact key n le_rfl

/-- A store leaves a load of other bytes as it was. -/
theorem bytes_load_store_other (mem : Nat → Nat) (a n v b k : Nat) (ha : a + n ≤ U32)
    (hb : b + k ≤ U32) (h : b + k ≤ a ∨ a + n ≤ b) :
    Bytes.load (Bytes.store mem a n v) b k = Bytes.load mem b k := by
  apply bytes_load_congr _ _ _ _ _ hb hb
  intro j hj
  exact bytes_store_apply_out mem a n v (b + j) ha (by omega) (by omega)

theorem bytes_load_zero (mem : Nat → Nat) (a n : Nat) (ha : a + n ≤ U32)
    (h : ∀ j, j < n → mem (a + j) = 0) : Bytes.load mem a n = 0 := by
  induction n with
  | zero => exact bytes_load_zero_bytes mem a
  | succ n ih =>
    have e1 : (a + n) % U32 = a + n := Nat.mod_eq_of_lt (by omega)
    rw [bytes_load_succ, ih (by omega) (fun j hj => h j (by omega)), e1, h n (by omega)]
    simp

/-- The descriptor of a slot depends on the bytes of the slot alone. -/
theorem bytes_entry_congr (sz1 sz2 ds : Nat) (bd1 bd2 : Nat → Nat) (a b : Nat)
    (h40 : SIZEOF_EFI_MEM_DESCR ≤ ds) (ha : a + ds ≤ U32) (hb : b + ds ≤ U32)
    (h : ∀ j, j < ds → bd1 (a + j) = bd2 (b + j)) :
    Bytes.efi_memmap_t.entry { size := sz1, descr_size := ds, descr := bd1 } a =
      Bytes.efi_memmap_t.entry { size := sz2, descr_size := ds, descr := bd2 } b := by
  have h40n : 40 ≤ ds := h40
  have l0 : Bytes.load bd1 a 4 = Bytes.load bd2 b 4 :=
    bytes_load_congr _ _ _ _ _ (by omega) (by omega) (fun j hj => h j (by omega))
  have l4 : Bytes.load bd1 (a + 4) 4 = Bytes.load bd2 (b + 4) 4 :=
    bytes_load_congr _ _ _ _ _ (by omega) (by omega)
      (fun j hj => by rw [Nat.add_assoc, Nat.add_assoc]; exact h (4 + j) (by omega))
  have l8 : Bytes.load bd1 (a + 8) 8 = Bytes.load bd2 (b + 8) 8 :=
    bytes_load_congr _ _ _ _ _ (by omega) (by omega)
      (fun j hj => by rw [Nat.add_assoc, Nat.add_assoc]; exact h (8 + j) (by omega))
  have l16 : Bytes.load bd1 (a + 16) 8 = Bytes.load bd2 (b + 16) 8 :=
    bytes_load_congr _ _ _ _ _ (by omega) (by omega)
      (fun j hj => by rw [Nat.add_assoc, Nat.add_assoc]; exact h (16 + j) (by omega))
  have l24 : Bytes.load bd1 (a + 24) 8 = Bytes.load bd2 (b + 24) 8 :=
    bytes_load_congr _ _ _ _ _ (by omega) (by omega)
      (fun j hj => by rw [Nat.add_assoc, Nat.add_assoc]; exact h (24 + j) (by omega))
  have l32 : Bytes.load bd1 (a + 32) 8 = Bytes.load bd2 (b + 32) 8 :=
    bytes_load_congr _ _ _ _ _ (by omega) (by omega)
      (fun j hj => by rw [Nat.add_assoc, Nat.add_assoc]; exact h (32 + j) (by omega))
  have l40 : Bytes.load bd1 (a + 40) (ds - 40) = Bytes.load bd2 (b + 40) (ds - 40) :=
    bytes_load_congr _ _ _ _ _ (by omega) (by omega)
      (fun j hj => by rw [Nat.add_assoc, Nat.add_assoc]; exact h (40 + j) (by omega))
  simp only [Bytes.efi_memmap_t.entry, Bytes.efi_memmap_t.type,
    Bytes.efi_memmap_t.physical_start, Bytes.efi_memmap_t.num_pages,
    Bytes.efi_memmap_t.attribute, l0, l4, l8, l16, l24, l32, l40]

/-- A store outside a slot leaves its descriptor as it was. -/
theorem bytes_entry_store_other (sz1 sz2 ds : Nat) (bd : Nat → Nat) (c n v b : Nat)
    (h40 : SIZEOF_EFI_MEM_DESCR ≤ ds) (hc : c + n ≤ U32) (hb : b + ds ≤ U32)
    (hd : b + ds ≤ c ∨ c + n ≤ b) :
    Bytes.efi_memmap_t.entry { size := sz1, descr_size := ds, descr := Bytes.store bd c n v } b =
      Bytes.efi_memmap_t.entry { size := sz2, descr_size := ds, descr := bd } b :=
  bytes_entry_congr _ _ _ _ _ _ _ h40 hb hb
    (fun j hj => bytes_store_apply_out bd c n v (b + j) hc (by omega) (by omega))

/-- The copy of a slot holds the descriptor of the slot copied. -/
theorem bytes_entry_memcpy_same (sz1 sz2 ds : Nat) (bd : Nat → Nat) (i : Nat)
    (h40 : SIZEOF_EFI_MEM_DESCR ≤ ds) (hi : ds ≤ i) (hU : i + ds ≤ U32) :
    Bytes.efi_memmap_t.entry
        { size := sz1, descr_size := ds, descr := Bytes.memcpy bd i (i - ds) ds } i =
      Bytes.efi_memmap_t.entry { size := sz2, descr_size := ds, descr := bd } (i - ds) :=
  bytes_entry_congr _ _ _ _ _ _ _ h40 hU (by omega)
    (fun j hj => by
      rw [bytes_memcpy_apply_in bd i (i - ds) ds (i + j) (by omega) (by omega) (by omega),
        Nat.add_sub_cancel_left])

/-- The copy of a slot leaves the descriptors of the other slots as they were. -/
theorem bytes_entry_memcpy_other (sz1 sz2 ds : Nat) (bd : Nat → Nat) (i src b : Nat)
    (h40 : SIZEOF_EFI_MEM_DESCR ≤ ds) (hU : i + ds ≤ U32) (hb : b + ds ≤ U32)
    (hd : b + ds ≤ i ∨ i + ds ≤ b) :
    Bytes.efi_memmap_t.entry
        { size := sz1, descr_size := ds, descr := Bytes.memcpy bd i src ds } b =
      Bytes.efi_memmap_t.entry { size := sz2, descr_size := ds, descr := bd } b :=
  bytes_entry_congr _ _ _ _ _ _ _ h40 hb hb
    (fun j hj => bytes_memcpy_apply_out bd i src ds (b + j) hU (by omega) (by omega))

/-- The descriptor of a slot after `desc->type = v`. -/
theorem bytes_entry_set_type (m : Bytes.efi_memmap_t) (a v : Nat)
    (h40 : SIZEOF_EFI_MEM_DESCR ≤ m.descr_size) (ha : a + m.descr_size ≤ U32) (hv : v < U32) :
    (m.set_type a v).entry a = { m.entry a with type := v } := by
  have h40n : 40 ≤ m.descr_size := h40
  have hv1 : v % 256 ^ 4 = v := Nat.mod_eq_of_lt (by rw [show 256 ^ 4 = U32 by decide]; exact hv)
  simp only [Bytes.efi_memmap_t.entry, Bytes.efi_memmap_t.type,
    Bytes.efi_memmap_t.physical_start, Bytes.efi_memmap_t.num_pages,
    Bytes.efi_memmap_t.attribute, Bytes.efi_memmap_t.set_type]
  rw [bytes_load_store_same _ _ _ _ (by omega), hv1,
    bytes_load_store_other _ a 4 v (a + 8) 8 (by omega) (by omega) (by omega),
    bytes_load_store_other _ a 4 v (a + 24) 8 (by omega) (by omega) (by omega),
    bytes_load_store_other _ a 4 v (a + 32) 8 (by omega) (by omega) (by omega),
    bytes_load_store_other _ a 4 v (a + 4) 4 (by omega) (by omega) (by omega),
    bytes_load_store_other _ a 4 v (a + 16) 8 (by omega) (by omega) (by omega),
    bytes_load_store_other _ a 4 v (a + 40) (m.descr_size - 40) (by omega) (by omega) (by omega)]

/-- The descriptor of a slot after `desc->physical_start = v`. -/
theorem bytes_entry_set_physical_start (m : Bytes.efi_memmap_t) (a v : Nat)
    (h40 : SIZEOF_EFI_MEM_DESCR ≤ m.descr_size) (ha : a + m.descr_size ≤ U32) (hv : v < U64) :
    (m.set_physical_start a v).entry a = { m.entry a with physical_start := v } := by
  have h40n : 40 ≤ m.descr_size := h40
  have hv1 : v % 256 ^ 8 = v := Nat.mod_eq_of_lt (by rw [show 256 ^ 8 = U64 by decide]; exact hv)
  simp only [Bytes.efi_memmap_t.entry, Bytes.efi_memmap_t.type,
    Bytes.efi_memmap_t.physical_start, Bytes.efi_memmap_t.num_pages,
    Bytes.efi_memmap_t.attribute, Bytes.efi_memmap_t.set_physical_start]
  rw [bytes_load_store_same _ _ _ _ (by omega), hv1,
    bytes_load_store_other _ (a + 8) 8 v a 4 (by omega) (by omega) (by omega),
    bytes_load_store_other _ (a + 8) 8 v (a + 24) 8 (by omega) (by omega) (by omega),
    bytes_load_store_other _ (a + 8) 8 v (a + 32) 8 (by omega) (by omega) (by omega),
    bytes_load_store_other _ (a + 8) 8 v (a + 4) 4 (by omega) (by omega) (by omega),
    bytes_load_store_other _ (a + 8) 8 v (a + 16) 8 (by omega) (by omega) (by omega),
    bytes_load_store_other _ (a + 8) 8 v (a + 40) (m.descr_size - 40) (by omega) (by omega)
      (by omega)]

/-- The descriptor of a slot after `desc->num_pages = v`. -/
theorem bytes_entry_set_num_pages (m : Bytes.efi_memmap_t) (a v : Nat)
    (h40 : SIZEOF_EFI_MEM_DESCR ≤ m.descr_size) (ha : a + m.descr_size ≤ U32) (hv : v < U64) :
    (m.set_num_pages a v).entry a = { m.entry a with num_pages := v } := by
  have h40n : 40 ≤ m.descr_size := h40
  have hv1 : v % 256 ^ 8 = v := Nat.mod_eq_of_lt (by rw [show 256 ^ 8 = U64 by decide]; exact hv)
  simp only [Bytes.efi_memmap_t.entry, Bytes.efi_memmap_t.type,
    Bytes.efi_memmap_t.physical_start, Bytes.efi_memmap_t.num_pages,
    Bytes.efi_memmap_t.attribute, Bytes.efi_memmap_t.set_num_pages]
  rw [bytes_load_store_same _ _ _ _ (by omega), hv1,
    bytes_load_store_other _ (a + 24) 8 v a 4 (by omega) (by omega) (by omega),
    bytes_load_store_other _ (a + 24) 8 v (a + 8) 8 (by omega) (by omega) (by omega),
    bytes_load_store_other _ (a + 24) 8 v (a + 32) 8 (by omega) (by omega) (by omega),
    bytes_load_store_other _ (a + 24) 8 v (a + 4) 4 (by omega) (by omega) (by omega),
    bytes_load_store_other _ (a + 24) 8 v (a + 16) 8 (by omega) (by omega) (by omega),
    bytes_load_store_other _ (a + 24) 8 v (a + 40) (m.descr_size - 40) (by omega) (by omega)
      (by omega)]

/-- The descriptor of a slot after `desc->attribute = v`. -/
theorem bytes_entry_set_attribute (m : Bytes.efi_memmap_t) (a v : Nat)
    (h40 : SIZEOF_EFI_MEM_DESCR ≤ m.descr_size) (ha : a + m.descr_size ≤ U32) (hv : v < U64) :
    (m.set_attribute a v).entry a = { m.entry a with attr := v } := by
  have h40n : 40 ≤ m.descr_size := h40
  have hv1 : v % 256 ^ 8 = v := Nat.mod_eq_of_lt (by rw [show 256 ^ 8 = U64 by decide]; exact hv)
  simp only [Bytes.efi_memmap_t.entry, Bytes.efi_memmap_t.type,
    Bytes.efi_memmap_t.physical_start, Bytes.efi_memmap_t.num_pages,
    Bytes.efi_memmap_t.attribute, Bytes.efi_memmap_t.set_attribute]
  rw [bytes_load_store_same _ _ _ _ (by omega), hv1,
    bytes_load_store_other _ (a + 32) 8 v a 4 (by omega) (by omega) (by omega),
    bytes_load_store_other _ (a + 32) 8 v (a + 8) 8 (by omega) (by omega) (by omega),
    bytes_load_store_other _ (a + 32) 8 v (a + 24) 8 (by omega) (by omega) (by omega),
    bytes_load_store_other _ (a + 32) 8 v (a + 4) 4 (by omega) (by omega) (by omega),
    bytes_load_store_other _ (a + 32) 8 v (a + 16) 8 (by omega) (by omega) (by omega),
    bytes_load_store_other _ (a + 32) 8 v (a + 40) (m.descr_size - 40) (by omega) (by omega)
      (by omega)]

/-- The descriptor of a slot after `tb_memset(desc, 0, descr_size)`. -/
theorem bytes_entry_memset0 (sz ds : Nat) (bd : Nat → Nat) (a : Nat)
    (h40 : SIZEOF_EFI_MEM_DESCR ≤ ds) (ha : a + ds ≤ U32) :
    Bytes.efi_memmap_t.entry { size := sz, descr_size := ds, descr := Bytes.memset0 bd a ds } a =
      ⟨0, 0, 0, 0, 0⟩ := by
  have h40n : 40 ≤ ds := h40
  have z : ∀ off n, off + n ≤ ds → Bytes.load (Bytes.memset0 bd a ds) (a + off) n = 0 := by
    intro off n h
    exact bytes_load_zero _ _ _ (by omega)
      (fun j hj => bytes_memset0_apply_in bd a ds (a + off + j) ha (by omega) (by omega))
  have z0 := z 0 4 (by omega)
  rw [Nat.add_zero] at z0
  simp only [Bytes.efi_memmap_t.entry, Bytes.efi_memmap_t.type,
    Bytes.efi_memmap_t.physical_start, Bytes.efi_memmap_t.num_pages,
    Bytes.efi_memmap_t.attribute, z0, z 8 8 (by omega), z 24 8 (by omega), z 32 8 (by omega),
    z 4 4 (by omega), z 16 8 (by omega), z 40 (ds - 40) (by omega), Nat.mul_zero, Nat.add_zero]

/-- The clearing of a slot leaves the descriptors of the other slots as they were. -/
theorem bytes_entry_memset0_other (sz1 sz2 ds : Nat) (bd : Nat → Nat) (a b : Nat)
    (h40 : SIZEOF_EFI_MEM_DESCR ≤ ds) (ha : a + ds ≤ U32) (hb : b + ds ≤ U32)
    (hd : b + ds ≤ a ∨ a + ds ≤ b) :
    Bytes.efi_memmap_t.entry
        { size := sz1, descr_size := ds, descr := Bytes.memset0 bd a ds } b =
      Bytes.efi_memmap_t.entry { size := sz2, descr_size := ds, descr := bd } b :=
  bytes_entry_congr _ _ _ _ _ _ _ h40 hb hb
    (fun j hj => bytes_memset0_apply_out bd a ds (b + j) ha (by omega) (by omega))

/-- Two slots are the same slot or lie apart. -/
theorem slot_apart (ds k q : Nat) (h : k ≠ q) :
    k * ds + ds ≤ q * ds ∨ q * ds + ds ≤ k * ds := by
  rcases Nat.lt_or_gt_of_ne h with h1 | h1
  · left
    have := Nat.mul_le_mul_right ds (Nat.succ_le_of_lt h1)
    rw [Nat.succ_mul] at this
    exact this
  · right
    have := Nat.mul_le_mul_right ds (Nat.succ_le_of_lt h1)
    rw [Nat.succ_mul] at this
    exact this

/-- The storages agree after a write to one slot when the bytes of the slot read as the
record written and the other slots read as before. -/
theorem slots_agree_update (ds : Nat) (bd bd1 : Nat → Nat) (d : Nat → efi_mem_descr_t)
    (q : Nat) (e : efi_mem_descr_t) (hds : 0 < ds) (hag : slots_agree ds bd d)
    (hsame : (q + 1) * ds ≤ U32 →
      Bytes.efi_memmap_t.entry { size := 0, descr_size := ds, descr := bd1 } (q * ds) = e)
    (hother : ∀ k, (k + 1) * ds ≤ U32 → k ≠ q →
      Bytes.efi_memmap_t.entry { size := 0, descr_size := ds, descr := bd1 } (k * ds) =
        Bytes.efi_memmap_t.entry { size := 0, descr_size := ds, descr := bd } (k * ds)) :
    slots_agree ds bd1 (Function.update d (q * ds) e) := by
  intro k hk
  by_cases hkq : k = q
  · subst hkq
    rw [Function.update_same]
    exact hsame hk
  · have hne : k * ds ≠ q * ds := fun h => hkq (Nat.eq_of_mul_eq_mul_right hds h)
    rw [Function.update_noteq hne, hother k hk hkq]
    exact hag k hk

/-- The copy loop of `insert_after_region` on bytes and on slot records: from a slot
offset `j * ds` down, in slots that hold a descriptor, the two loops end alike and
leave storages that agree. -/
theorem shift_up_agree (ds pos : Nat) (h40 : SIZEOF_EFI_MEM_DESCR ≤ ds) :
    ∀ (fuel j : Nat) (bd : Nat → Nat) (d : Nat → efi_mem_descr_t),
      (j + 1) * ds ≤ U32 → slots_agree ds bd d →
      (shift_up ds pos fuel (j * ds) d = none →
        Bytes.shift_up ds pos fuel (j * ds) bd = none) ∧
      (∀ d1, shift_up ds pos fuel (j * ds) d = some d1 →
        ∃ bd1, Bytes.shift_up ds pos fuel (j * ds) bd = some bd1 ∧ slots_agree ds bd1 d1) := by
  have hds : 0 < ds := by
    have : 40 ≤ ds := h40
    omega
  intro fuel
  induction fuel with
  | zero =>
    intro j bd d _ _
    exact ⟨fun _ => rfl, fun d1 h => by simp [shift_up] at h⟩
  | succ fuel ih =>
    intro j bd d hj hag
    rw [shift_up, Bytes.shift_up]
    by_cases h1 : j * ds > pos
    · rw [if_pos h1, if_pos h1]
      by_cases h2 : j * ds < ds
      · rw [if_pos h2, if_pos h2]
        exact ⟨fun _ => rfl, fun d1 h => by simp at h⟩
      · rw [if_neg h2, if_neg h2]
        obtain ⟨i, rfl⟩ : ∃ i, j = i + 1 := by
          cases j with
          | zero => exact absurd (by simpa using hds) h2
          | succ i => exact ⟨i, rfl⟩
        have e1 : (i + 1) * ds - ds = i * ds := by rw [Nat.succ_mul, Nat.add_sub_cancel]
        have hi : (i + 1) * ds = i * ds + ds := Nat.succ_mul i ds
        have hj2 : (i + 1 + 1) * ds = i * ds + ds + ds := by rw [Nat.succ_mul, Nat.succ_mul]
        rw [e1]
        apply ih i _ _ (by omega)
        apply slots_agree_update ds bd _ d (i + 1) (d (i * ds)) hds hag
        · intro _
          have := bytes_entry_memcpy_same 0 0 ds bd ((i + 1) * ds) h40 (by omega) (by omega)
          rw [e1] at this
          rw [this]
          exact hag i (by omega)
        · intro k hk hne
          have hk1 : (k + 1) * ds = k * ds + ds := Nat.succ_mul k ds
          have hap := slot_apart ds k (i + 1) hne
          exact bytes_entry_memcpy_other 0 0 ds bd ((i + 1) * ds) (i * ds) (k * ds) h40
            (by omega) (by omega) hap
    · rw [if_neg h1, if_neg h1]
      refine ⟨fun h => by simp at h, fun d1 h => ⟨bd, rfl, ?_⟩⟩
      simp only [Option.some.injEq] at h
      rw [← h]
      exact hag

/-- The function `insert_after_region` on bytes and on slot records: on maps that agree,
stored in whole slots that hold a descriptor, with the new entry in a slot inside the
32-bit address space and values that fit their members, the two functions end alike
and leave maps that agree. -/
theorem insert_after_region_agree (maxEntries : Nat) (bm : Bytes.efi_memmap_t)
    (m : efi_memmap_t) (pos addr size type attr n q : Nat)
    (hag : maps_agree bm m) (h40 : SIZEOF_EFI_MEM_DESCR ≤ m.descr_size)
    (hsz : m.size = n * m.descr_size) (hfit : m.size + m.descr_size ≤ U32)
    (hq : ((pos * m.descr_size) % U32 + m.descr_size) % U32 = q * m.descr_size)
    (hqU : (q + 1) * m.descr_size ≤ U32)
    (htype : type < U32) (haddr : addr < U64) (hsize : size >>> EFI_PAGE_SHIFT < U64)
    (hattr : attr < U64) :
    same_outcome maps_agree (Bytes.insert_after_region maxEntries bm pos addr size type attr)
      (insert_after_region maxEntries m pos addr size type attr) := by
  obtain ⟨sz, ds, bd⟩ := bm
  obtain ⟨sz1, ds1, d⟩ := m
  obtain ⟨h1, h2, hsl⟩ := hag
  simp only at h1 h2 hsl h40 hsz hfit hq hqU
  subst h1 h2 hsz
  have h40n : 40 ≤ ds := h40
  have hds : 0 < ds := by omega
  have hds0 : ds ≠ 0 := by omega
  unfold Bytes.insert_after_region insert_after_region
  dsimp only
  rw [if_neg hds0, if_neg hds0]
  by_cases hcap : (n * ds / ds + 1) % U32 > maxEntries
  · rw [if_pos hcap, if_pos hcap]
    exact ⟨rfl, rfl, rfl, hsl⟩
  · rw [if_neg hcap, if_neg hcap]
    have hn1 : (n + 1) * ds = n * ds + ds := Nat.succ_mul n ds
    have hq1 : (q + 1) * ds = q * ds + ds := Nat.succ_mul q ds
    have hsh := shift_up_agree ds (pos * ds % U32) h40 (n * ds + 1) n bd d (by omega) hsl
    rcases hrec : shift_up ds (pos * ds % U32) (n * ds + 1) (n * ds) d with _ | d1
    · rw [hsh.1 hrec]
      trivial
    · obtain ⟨bd1, hb, hag1⟩ := hsh.2 d1 hrec
      rw [hb]
      dsimp only
      rw [hq]
      refine ⟨rfl, rfl, rfl, ?_⟩
      dsimp only
      apply slots_agree_update ds bd1 _ d1 q _ hds hag1
      · intro _
        show Bytes.efi_memmap_t.entry
          ((((({ size := 0, descr_size := ds, descr := Bytes.memset0 bd1 (q * ds) ds } :
            Bytes.efi_memmap_t).set_type (q * ds) type).set_physical_start (q * ds)
            addr).set_num_pages (q * ds) (size >>> EFI_PAGE_SHIFT)).set_attribute (q * ds) attr)
          (q * ds) = _
        rw [bytes_entry_set_attribute _ _ _ h40 (by show q * ds + ds ≤ U32; omega) hattr,
          bytes_entry_set_num_pages _ _ _ h40 (by show q * ds + ds ≤ U32; omega) hsize,
          bytes_entry_set_physical_start _ _ _ h40 (by show q * ds + ds ≤ U32; omega) haddr,
          bytes_entry_set_type _ _ _ h40 (by show q * ds + ds ≤ U32; omega) htype,
          bytes_entry_memset0 0 ds bd1 (q * ds) h40 (by omega)]
      · intro k hk hne
        have hk1 : (k + 1) * ds = k * ds + ds := Nat.succ_mul k ds
        have hap := slot_apart ds k q hne
        show Bytes.efi_memmap_t.entry
          { size := 0, descr_size := ds,
            descr := Bytes.store (Bytes.store (Bytes.store (Bytes.store
              (Bytes.memset0 bd1 (q * ds) ds) (q * ds) 4 type) (q * ds + 8) 8 addr)
              (q * ds + 24) 8 (size >>> EFI_PAGE_SHIFT)) (q * ds + 32) 8 attr } (k * ds) = _
        rw [bytes_entry_store_other 0 0 ds _ _ _ _ _ h40 (by omega) (by omega) (by omega),
          bytes_entry_store_other 0 0 ds _ _ _ _ _ h40 (by omega) (by omega) (by omega),
          bytes_entry_store_other 0 0 ds _ _ _ _ _ h40 (by omega) (by omega) (by omega),
          bytes_entry_store_other 0 0 ds _ _ _ _ _ h40 (by omega) (by omega) (by omega),
          bytes_entry_memset0_other 0 0 ds bd1 (q * ds) (k * ds) h40 (by omega) (by omega) hap]

/-- The members of a descriptor read from the bytes of a slot are the members of the
record of the slot. -/
theorem maps_agree_reads (bm : Bytes.efi_memmap_t) (m : efi_memmap_t) (k : Nat)
    (hag : maps_agree bm m) (hk : (k + 1) * m.descr_size ≤ U32) :
    bm.type (k * m.descr_size) = (m.descr (k * m.descr_size)).type ∧
    bm.physical_start (k * m.descr_size) = (m.descr (k * m.descr_size)).physical_start ∧
    bm.num_pages (k * m.descr_size) = (m.descr (k * m.descr_size)).num_pages ∧
    bm.attribute (k * m.descr_size) = (m.descr (k * m.descr_size)).attr := by
  have h := hag.2.2 k hk
  rw [← h]
  exact ⟨rfl, rfl, rfl, rfl⟩

/-- The members read from bytes fit their C types. -/
theorem bytes_members_lt (bm : Bytes.efi_memmap_t) (a : Nat) :
    bm.type a < U32 ∧ bm.physical_start a < U64 ∧ bm.num_pages a < U64 ∧
      bm.attribute a < U64 :=
  ⟨bytes_load_lt _ _ 4, bytes_load_lt _ _ 8, bytes_load_lt _ _ 8, bytes_load_lt _ _ 8⟩

/-- The maps agree after a write to one slot when the bytes of the slot read as the
record stored and the other slots read as before. -/
theorem maps_agree_store (bm bm1 : Bytes.efi_memmap_t) (m : efi_memmap_t) (q : Nat)
    (e : efi_mem_descr_t) (hag : maps_agree bm m) (hds : 0 < m.descr_size)
    (hsz : bm1.size = bm.size) (hds1 : bm1.descr_size = bm.descr_size)
    (hsame : (q + 1) * m.descr_size ≤ U32 →
      Bytes.efi_memmap_t.entry { size := 0, descr_size := m.descr_size, descr := bm1.descr }
        (q * m.descr_size) = e)
    (hother : ∀ k, (k + 1) * m.descr_size ≤ U32 → k ≠ q →
      Bytes.efi_memmap_t.entry { size := 0, descr_size := m.descr_size, descr := bm1.descr }
          (k * m.descr_size) =
        Bytes.efi_memmap_t.entry { size := 0, descr_size := m.descr_size, descr := bm.descr }
          (k * m.descr_size)) :
    maps_agree bm1 (m.store (q * m.descr_size) e) :=
  ⟨hsz.trans hag.1, hds1.trans hag.2.1,
    slots_agree_update m.descr_size bm.descr bm1.descr m.descr q e hds hag.2.2 hsame hother⟩

/-- The maps agree after `desc->type = v` in a slot. -/
theorem maps_agree_set_type (bm : Bytes.efi_memmap_t) (m : efi_memmap_t) (q v : Nat)
    (hag : maps_agree bm m) (h40 : SIZEOF_EFI_MEM_DESCR ≤ m.descr_size)
    (hq : (q + 1) * m.descr_size ≤ U32) (hv : v < U32) :
    maps_agree (bm.set_type (q * m.descr_size) v)
      (m.store (q * m.descr_size) { m.descr (q * m.descr_size) with type := v }) := by
  have h40n : 40 ≤ m.descr_size := h40
  have hq1 : (q + 1) * m.descr_size = q * m.descr_size + m.descr_size := Nat.succ_mul _ _
  apply maps_agree_store bm (bm.set_type (q * m.descr_size) v) m q _ hag (by omega) rfl rfl
  · intro _
    have h := bytes_entry_set_type
      { size := 0, descr_size := m.descr_size, descr := bm.descr } (q * m.descr_size) v h40
      (by show q * m.descr_size + m.descr_size ≤ U32; omega) hv
    rw [hag.2.2 q hq] at h
    exact h
  · intro k hk hne
    have hk1 : (k + 1) * m.descr_size = k * m.descr_size + m.descr_size := Nat.succ_mul _ _
    have hap := slot_apart m.descr_size k q hne
    exact bytes_entry_store_other 0 0 m.descr_size _ _ _ _ _ h40 (by omega) (by omega)
      (by omega)

/-- The maps agree after `desc->num_pages = v` in a slot. -/
theorem maps_agree_set_num_pages (bm : Bytes.efi_memmap_t) (m : efi_memmap_t) (q v : Nat)
    (hag : maps_agree bm m) (h40 : SIZEOF_EFI_MEM_DESCR ≤ m.descr_size)
    (hq : (q + 1) * m.descr_size ≤ U32) (hv : v < U64) :
    maps_agree (bm.set_num_pages (q * m.descr_size) v)
      (m.store (q * m.descr_size) { m.descr (q * m.descr_size) with num_pages := v }) := by
  have h40n : 40 ≤ m.descr_size := h40
  have hq1 : (q + 1) * m.descr_size = q * m.descr_size + m.descr_size := Nat.succ_mul _ _
  apply maps_agree_store bm (bm.set_num_pages (q * m.descr_size) v) m q _ hag (by omega) rfl
    rfl
  · intro _
    have h := bytes_entry_set_num_pages
      { size := 0, descr_size := m.descr_size, descr := bm.descr } (q * m.descr_size) v h40
      (by show q * m.descr_size + m.descr_size ≤ U32; omega) hv
    rw [hag.2.2 q hq] at h
    exact h
  · intro k hk hne
    have hk1 : (k + 1) * m.descr_size = k * m.descr_size + m.descr_size := Nat.succ_mul _ _
    have hap := slot_apart m.descr_size k q hne
    exact bytes_entry_store_other 0 0 m.descr_size _ _ _ _ _ h40 (by omega) (by omega)
      (by omega)

/-- The maps agree after `desc->physical_start = v; desc->num_pages = w` in a slot. -/
theorem maps_agree_set_start_pages (bm : Bytes.efi_memmap_t) (m : efi_memmap_t)
    (q v w : Nat) (hag : maps_agree bm m) (h40 : SIZEOF_EFI_MEM_DESCR ≤ m.descr_size)
    (hq : (q + 1) * m.descr_size ≤ U32) (hv : v < U64) (hw : w < U64) :
    maps_agree ((bm.set_physical_start (q * m.descr_size) v).set_num_pages
        (q * m.descr_size) w)
      (m.store (q * m.descr_size)
        { m.descr (q * m.descr_size) with physical_start := v, num_pages := w }) := by
  have h40n : 40 ≤ m.descr_size := h40
  have hq1 : (q + 1) * m.descr_size = q * m.descr_size + m.descr_size := Nat.succ_mul _ _
  apply maps_agree_store bm
    ((bm.set_physical_start (q * m.descr_size) v).set_num_pages (q * m.descr_size) w) m q _ hag
    (by omega) rfl rfl
  · intro _
    have h1 := bytes_entry_set_physical_start
      { size := 0, descr_size := m.descr_size, descr := bm.descr } (q * m.descr_size) v h40
      (by show q * m.descr_size + m.descr_size ≤ U32; omega) hv
    have h2 := bytes_entry_set_num_pages
      (Bytes.efi_memmap_t.set_physical_start
        { size := 0, descr_size := m.descr_size, descr := bm.descr } (q * m.descr_size) v)
      (q * m.descr_size) w h40
      (by show q * m.descr_size + m.descr_size ≤ U32; omega) hw
    rw [h1, hag.2.2 q hq] at h2
    exact h2
  · intro k hk hne
    have hk1 : (k + 1) * m.descr_size = k * m.descr_size + m.descr_size := Nat.succ_mul _ _
    have hap := slot_apart m.descr_size k q hne
    show Bytes.efi_memmap_t.entry
      { size := 0, descr_size := m.descr_size,
        descr := Bytes.store (Bytes.store bm.descr (q * m.descr_size + 8) 8 v)
          (q * m.descr_size + 24) 8 w } (k * m.descr_size) = _
    rw [bytes_entry_store_other 0 0 m.descr_size _ _ _ _ _ h40 (by omega) (by omega) (by omega),
      bytes_entry_store_other 0 0 m.descr_size _ _ _ _ _ h40 (by omega) (by omega) (by omega)]

/-- The function `efi_memmap_walk` takes the same step on states that agree. -/
theorem efi_memmap_walk_agree (bs : Bytes.efi_state) (s : efi_state) (prev : Option Nat)
    (hag : states_agree bs s) :
    Bytes.efi_memmap_walk bs prev = efi_memmap_walk s prev := by
  unfold Bytes.efi_memmap_walk efi_memmap_walk
  rw [hag.1, hag.2.1, hag.2.2.1]

/-- A call of `insert_after_region` that returns true on a well-formed map leaves a
well-formed map, longer by one slot. -/
theorem insert_after_region_well_formed {maxEntries : Nat} {m m1 : efi_memmap_t}
    {pos addr size type attr : Nat} (hwf : m.well_formed maxEntries)
    (h : insert_after_region maxEntries m pos addr size type attr = some (true, m1)) :
    m1.well_formed maxEntries ∧ m1.size = m.size + m.descr_size ∧
      m1.descr_size = m.descr_size := by
  obtain ⟨hds, hmul, hfit, hmax, hslot⟩ := hwf
  obtain ⟨_, hcap, hsz, hdsz⟩ := insert_after_region_true h
  have hU : U32 = 4294967296 := by decide
  have hdiv : m.size / m.descr_size * m.descr_size = m.size := Nat.div_mul_cancel
    (Nat.dvd_of_mod_eq_zero hmul)
  have hle : m.size / m.descr_size ≤ m.size := Nat.div_le_self _ _
  have hcap1 : m.size / m.descr_size + 1 ≤ maxEntries := by
    rw [Nat.mod_eq_of_lt (by omega)] at hcap
    exact hcap
  have hmul1 : (m.size / m.descr_size + 1) * m.descr_size ≤ maxEntries * m.descr_size :=
    Nat.mul_le_mul_right _ hcap1
  rw [Nat.succ_mul, hdiv] at hmul1
  have hmax1 : (maxEntries + 1) * m.descr_size = maxEntries * m.descr_size + m.descr_size :=
    Nat.succ_mul _ _
  have hsz1 : m1.size = m.size + m.descr_size := by
    rw [hsz, Nat.mod_eq_of_lt hfit]
  refine ⟨⟨by rw [hdsz]; exact hds, ?_, ?_, by rw [hdsz]; exact hmax, by rw [hdsz]; exact hslot⟩,
    hsz1, hdsz⟩
  · rw [hsz1, hdsz, Nat.add_mod_right]
    exact hmul
  · rw [hsz1, hdsz]
    omega

/-- The slot in front of the new entry: with `pos = i - 1` in 32-bit arithmetic (also
for `i = 0`), the new entry of `insert_after_region` lies in the slot of index `i`. -/
theorem slot_after_pred (i ds : Nat) (hds : 0 < ds) (h : i * ds + ds ≤ U32) :
    (((i + U32 - 1) % U32 * ds) % U32 + ds) % U32 = i * ds := by
  have hU : U32 = 4294967296 := by decide
  rw [hU] at h ⊢
  rcases Nat.eq_zero_or_pos i with rfl | hi
  · norm_num
    omega
  · have hle : i ≤ i * ds := Nat.le_mul_of_pos_right i hds
    have hle2 : ds ≤ i * ds := Nat.le_mul_of_pos_left ds hi
    have e : (i + 4294967296 - 1) % 4294967296 = i - 1 := by omega
    have e2 : (i - 1) * ds = i * ds - ds := by rw [Nat.sub_mul, Nat.one_mul]
    rw [e, e2]
    omega

/-- The slot of the new entry of `insert_after_region(i, ...)`. -/
theorem slot_after (i ds : Nat) (h : i * ds + ds < U32) :
    ((i * ds) % U32 + ds) % U32 = (i + 1) * ds := by
  have hU : U32 = 4294967296 := by decide
  rw [Nat.succ_mul]
  rw [hU] at h ⊢
  omega

theorem shiftRight_lt_U64 (x n : Nat) (h : x < U64) : x >>> n < U64 := by
  rw [Nat.shiftRight_eq_div_pow]
  exact lt_of_le_of_lt (Nat.div_le_self _ _) h

/-- The cursor of the scan loop: the descriptor that `efi_memmap_walk` hands out in
the loop condition lies in the slot of index `i`, inside the map. -/
theorem efi_memmap_walk_cursor {s : efi_state} {desc : Option Nat} {i d : Nat}
    (hfit : s.efi_mmap.size + s.efi_mmap.descr_size < U32) (hpos : 0 < s.efi_mmap.size)
    (hcur : (desc = none ∧ i = 0) ∨
      (∃ k, desc = some (k * s.efi_mmap.descr_size) ∧ i = k + 1 ∧
        k * s.efi_mmap.descr_size < s.efi_mmap.size))
    (hw : efi_memmap_walk s desc = some d) :
    d = i * s.efi_mmap.descr_size ∧ i * s.efi_mmap.descr_size < s.efi_mmap.size ∧
      s.efi_mmap_available = true := by
  have hU : U32 = 4294967296 := by decide
  unfold efi_memmap_walk at hw
  by_cases hav : s.efi_mmap_available = true
  · simp only [hav, Bool.not_true, Bool.false_eq_true, if_false] at hw
    rcases hcur with ⟨rfl, rfl⟩ | ⟨k, rfl, rfl, hk⟩
    · simp only [Option.some.injEq] at hw
      rw [← hw, Nat.zero_mul]
      exact ⟨rfl, hpos, hav⟩
    · simp only at hw
      have e : (k * s.efi_mmap.descr_size + s.efi_mmap.descr_size) % U32 =
          (k + 1) * s.efi_mmap.descr_size := by
        rw [Nat.succ_mul]
        exact Nat.mod_eq_of_lt (by omega)
      rw [e] at hw
      by_cases hlt : (k + 1) * s.efi_mmap.descr_size < s.efi_mmap.size
      · rw [if_pos hlt] at hw
        simp only [Option.some.injEq] at hw
        exact ⟨hw.symm, hlt, hav⟩
      · rw [if_neg hlt] at hw
        exact absurd hw (by simp)
  · simp [hav] at hw

/-- The step of `efi_memmap_walk` from the slot of index `i` inside a map. -/
theorem efi_memmap_walk_next {s : efi_state} {i : Nat}
    (hav : s.efi_mmap_available = true)
    (hnext : (i + 1) * s.efi_mmap.descr_size < s.efi_mmap.size)
    (hU : s.efi_mmap.size ≤ U32) :
    efi_memmap_walk s (some (i * s.efi_mmap.descr_size)) =
      some ((i + 1) * s.efi_mmap.descr_size) := by
  unfold efi_memmap_walk
  simp only [hav, Bool.not_true, Bool.false_eq_true, if_false]
  have e : (i * s.efi_mmap.descr_size + s.efi_mmap.descr_size) % U32 =
      (i + 1) * s.efi_mmap.descr_size := by
    rw [Nat.succ_mul] at hnext ⊢
    exact Nat.mod_eq_of_lt (by omega)
  rw [e, if_pos hnext]

/-- The scan loop of `efi_memmap_reserve` on bytes and on slot records. On states that
agree, with a well-formed map that is not empty, the cursor before the slot of index
`i` (or nowhere yet, with `i = 0`) and values that fit `uint64_t`, the two loops end
alike: both leave the model, or both return the same value in states that agree, with
a well-formed map. -/
theorem reserve_loop_agree (maxEntries base length end_ : Nat) (hbase : base < U64)
    (hlen : length < U64) (hend : end_ < U64) :
    ∀ (fuel : Nat) (bs : Bytes.efi_state) (s : efi_state) (desc : Option Nat) (i : Nat),
      states_agree bs s → s.efi_mmap.well_formed maxEntries → 0 < s.efi_mmap.size →
      ((desc = none ∧ i = 0) ∨
        (∃ k, desc = some (k * s.efi_mmap.descr_size) ∧ i = k + 1 ∧
          k * s.efi_mmap.descr_size < s.efi_mmap.size)) →
      same_outcome (fun bs1 s1 => states_agree bs1 s1 ∧ s1.efi_mmap.well_formed maxEntries)
        (Bytes.reserve_loop maxEntries base length end_ fuel bs desc i)
        (reserve_loop maxEntries base length end_ fuel s desc i) := by
  have hU : U32 = 4294967296 := by decide
  intro fuel
  induction fuel with
  | zero =>
    intro bs s desc i _ _ _ _
    simp [Bytes.reserve_loop, reserve_loop, same_outcome]
  | succ fuel ih =>
    intro bs s desc i hst hwf hpos hcur
    obtain ⟨hds, hmul, hfit, hmax, hslot⟩ := id hwf
    rw [Bytes.reserve_loop, reserve_loop, efi_memmap_walk_agree bs s desc hst]
    rcases hw : efi_memmap_walk s desc with _ | d
    · exact ⟨rfl, hst, hwf⟩
    · obtain ⟨rfl, hlt, hav⟩ := efi_memmap_walk_cursor hfit hpos hcur hw
      dsimp only
      have hdvd : s.efi_mmap.size = s.efi_mmap.size / s.efi_mmap.descr_size *
          s.efi_mmap.descr_size := (Nat.div_mul_cancel (Nat.dvd_of_mod_eq_zero hmul)).symm
      have hi1 : (i + 1) * s.efi_mmap.descr_size ≤ s.efi_mmap.size := by
        rw [hdvd] at hlt ⊢
        exact Nat.mul_le_mul_right _ (Nat.lt_of_mul_lt_mul_right hlt)
      have hi1e : (i + 1) * s.efi_mmap.descr_size =
          i * s.efi_mmap.descr_size + s.efi_mmap.descr_size := Nat.succ_mul _ _
      have hile : i ≤ i * s.efi_mmap.descr_size := Nat.le_mul_of_pos_right i hds
      have hmod : (i + 1) % U32 = i + 1 := Nat.mod_eq_of_lt (by omega)
      obtain ⟨r1, r2, r3, r4⟩ := maps_agree_reads bs.efi_mmap s.efi_mmap i hst.2 (by omega)
      obtain ⟨b1, b2, b3, b4⟩ := bytes_members_lt bs.efi_mmap (i * s.efi_mmap.descr_size)
      rw [r1] at b1
      rw [r2] at b2
      rw [r3] at b3
      rw [r4] at b4
      rw [r1, r2, r3, r4, hmod]
      have hnextcur : (some (i * s.efi_mmap.descr_size) = none ∧ i + 1 = 0) ∨
          (∃ k, some (i * s.efi_mmap.descr_size) = some (k * s.efi_mmap.descr_size) ∧
            i + 1 = k + 1 ∧ k * s.efi_mmap.descr_size < s.efi_mmap.size) :=
        Or.inr ⟨i, rfl, rfl, hlt⟩
      generalize hde : ((s.efi_mmap.descr (i * s.efi_mmap.descr_size)).physical_start +
        ((s.efi_mmap.descr (i * s.efi_mmap.descr_size)).num_pages <<< EFI_PAGE_SHIFT) % U64) %
          U64 = desc_end
      have hdel : desc_end < U64 := by
        rw [← hde]
        exact Nat.mod_lt _ (by decide)
      by_cases c1 : (s.efi_mmap.descr (i * s.efi_mmap.descr_size)).type < EFI_LOADER_CODE ∨
          (s.efi_mmap.descr (i * s.efi_mmap.descr_size)).type > EFI_CONVENTIONAL_MEMORY
      · rw [if_pos c1, if_pos c1]
        exact ih bs s _ _ hst hwf hpos hnextcur
      rw [if_neg c1, if_neg c1]
      by_cases c2 : end_ ≤ (s.efi_mmap.descr (i * s.efi_mmap.descr_size)).physical_start
      · rw [if_pos c2, if_pos c2]
        exact ih bs s _ _ hst hwf hpos hnextcur
      rw [if_neg c2, if_neg c2]
      by_cases c3 : base ≥ desc_end
      · rw [if_pos c3, if_pos c3]
        exact ih bs s _ _ hst hwf hpos hnextcur
      rw [if_neg c3, if_neg c3]
      by_cases c4 : base ≤ (s.efi_mmap.descr (i * s.efi_mmap.descr_size)).physical_start ∧
          desc_end ≤ end_
      · rw [if_pos c4, if_pos c4]
        exact ih _ _ _ _
          ⟨hst.1, maps_agree_set_type bs.efi_mmap s.efi_mmap i EFI_RESERVED_TYPE hst.2 hslot
            (by omega) (by decide)⟩ hwf hpos hnextcur
      rw [if_neg c4, if_neg c4]
      by_cases c5 : (s.efi_mmap.descr (i * s.efi_mmap.descr_size)).physical_start ≥ base ∧
          end_ > (s.efi_mmap.descr (i * s.efi_mmap.descr_size)).physical_start ∧
          desc_end > end_
      · rw [if_pos c5, if_pos c5]
        have hins := insert_after_region_agree maxEntries bs.efi_mmap s.efi_mmap
          ((i + U32 - 1) % U32) (s.efi_mmap.descr (i * s.efi_mmap.descr_size)).physical_start
          (end_ - (s.efi_mmap.descr (i * s.efi_mmap.descr_size)).physical_start)
          EFI_RESERVED_TYPE (s.efi_mmap.descr (i * s.efi_mmap.descr_size)).attr
          (s.efi_mmap.size / s.efi_mmap.descr_size) i hst.2 hslot hdvd (by omega)
          (slot_after_pred i s.efi_mmap.descr_size hds (by omega)) (by omega) (by decide) b2
          (shiftRight_lt_U64 _ _ (by omega)) b4
        generalize hrr : insert_after_region _ _ _ _ _ _ _ = rr at hins ⊢
        generalize Bytes.insert_after_region _ _ _ _ _ _ _ = rb at hins ⊢
        rcases rr with _ | ⟨b, m1⟩ <;> rcases rb with _ | ⟨bb, bm1⟩ <;>
          simp only [same_outcome] at hins
        · trivial
        obtain ⟨rfl, hag1⟩ := hins
        cases bb
        · refine ⟨rfl, ⟨hst.1, hag1⟩, ?_⟩
          rw [(insert_after_region_false hrr).2]
          exact hwf
        · obtain ⟨hwf1, hsz1, hdsz1⟩ := insert_after_region_well_formed hwf hrr
          obtain ⟨sz1, ds1, dd1⟩ := m1
          simp only at hsz1 hdsz1
          subst hsz1 hdsz1
          dsimp only
          have hst1 : states_agree
              { efi_mmap_available := bs.efi_mmap_available, efi_mmap := bm1 }
              { efi_mmap_available := s.efi_mmap_available,
                efi_mmap := { size := s.efi_mmap.size + s.efi_mmap.descr_size,
                              descr_size := s.efi_mmap.descr_size, descr := dd1 } } :=
            ⟨hst.1, hag1⟩
          rw [efi_memmap_walk_agree _ _ _ hst1]
          have hwn := @efi_memmap_walk_next
            { efi_mmap_available := s.efi_mmap_available,
              efi_mmap := { size := s.efi_mmap.size + s.efi_mmap.descr_size,
                            descr_size := s.efi_mmap.descr_size, descr := dd1 } } i hav
            (by show (i + 1) * s.efi_mmap.descr_size < s.efi_mmap.size + s.efi_mmap.descr_size
                omega)
            (by show s.efi_mmap.size + s.efi_mmap.descr_size ≤ U32
                omega)
          dsimp only at hwn
          rw [hwn]
          dsimp only
          exact ⟨rfl, ⟨hst.1, maps_agree_set_start_pages bm1 _ (i + 1) end_ _ hag1 hslot
            (by show (i + 1 + 1) * s.efi_mmap.descr_size ≤ U32
                have := hwf1.2.2.1
                simp only at this
                rw [Nat.succ_mul]
                omega) hend (shiftRight_lt_U64 _ _ (by omega))⟩, hwf1⟩
      rw [if_neg c5, if_neg c5]
      by_cases c6 : base > (s.efi_mmap.descr (i * s.efi_mmap.descr_size)).physical_start ∧
          desc_end > base ∧ end_ ≥ desc_end
      · rw [if_pos c6, if_pos c6]
        generalize hbm0 : Bytes.efi_memmap_t.set_num_pages bs.efi_mmap _ _ = bm0
        generalize hm0 : efi_memmap_t.store s.efi_mmap _ _ = m0
        have hag0 : maps_agree bm0 m0 := by
          rw [← hbm0, ← hm0]
          exact maps_agree_set_num_pages bs.efi_mmap s.efi_mmap i _ hst.2 hslot (by omega)
            (shiftRight_lt_U64 _ _ (by omega))
        have hwf0 : m0.well_formed maxEntries := by rw [← hm0]; exact hwf
        have hsz0 : m0.size = s.efi_mmap.size := by rw [← hm0]; rfl
        have hds0 : m0.descr_size = s.efi_mmap.descr_size := by rw [← hm0]; rfl
        clear hbm0 hm0
        obtain ⟨sz0, ds0, dd0⟩ := m0
        simp only at hsz0 hds0
        subst hsz0 hds0
        have rd0 := maps_agree_reads bm0 _ i hag0
          (by show (i + 1) * s.efi_mmap.descr_size ≤ U32; omega)
        dsimp only at rd0
        have bd0 := bytes_members_lt bm0 (i * s.efi_mmap.descr_size)
        rw [rd0.1, rd0.2.1, rd0.2.2.1, rd0.2.2.2] at bd0
        rw [rd0.2.2.2]
        dsimp only
        have hins := insert_after_region_agree maxEntries bm0
          { size := s.efi_mmap.size, descr_size := s.efi_mmap.descr_size, descr := dd0 }
          i base (desc_end - base) EFI_RESERVED_TYPE (dd0 (i * s.efi_mmap.descr_size)).attr
          (s.efi_mmap.size / s.efi_mmap.descr_size) (i + 1) hag0 hslot hdvd
          (by show s.efi_mmap.size + s.efi_mmap.descr_size ≤ U32; omega)
          (slot_after i s.efi_mmap.descr_size (by omega))
          (by show (i + 1 + 1) * s.efi_mmap.descr_size ≤ U32
              rw [Nat.succ_mul]
              omega) (by decide) hbase (shiftRight_lt_U64 _ _ (by omega)) bd0.2.2.2
        generalize hrr : insert_after_region _ _ _ _ _ _ _ = rr at hins ⊢
        generalize Bytes.insert_after_region _ _ _ _ _ _ _ = rb at hins ⊢
        rcases rr with _ | ⟨b, m1⟩ <;> rcases rb with _ | ⟨bb, bm1⟩ <;>
          simp only [same_outcome] at hins
        · trivial
        obtain ⟨rfl, hag1⟩ := hins
        cases bb
        · refine ⟨rfl, ⟨hst.1, hag1⟩, ?_⟩
          rw [(insert_after_region_false hrr).2]
          exact hwf0
        · obtain ⟨hwf1, hsz1, hdsz1⟩ := insert_after_region_well_formed hwf0 hrr
          obtain ⟨sz1, ds1, dd1⟩ := m1
          simp only at hsz1 hdsz1
          subst hsz1 hdsz1
          dsimp only
          have hst1 : states_agree
              { efi_mmap_available := bs.efi_mmap_available, efi_mmap := bm1 }
              { efi_mmap_available := s.efi_mmap_available,
                efi_mmap := { size := s.efi_mmap.size + s.efi_mmap.descr_size,
                              descr_size := s.efi_mmap.descr_size, descr := dd1 } } :=
            ⟨hst.1, hag1⟩
          rw [efi_memmap_walk_agree _ _ _ hst1]
          have hwn := @efi_memmap_walk_next
            { efi_mmap_available := s.efi_mmap_available,
              efi_mmap := { size := s.efi_mmap.size + s.efi_mmap.descr_size,
                            descr_size := s.efi_mmap.descr_size, descr := dd1 } } i hav
            (by show (i + 1) * s.efi_mmap.descr_size < s.efi_mmap.size + s.efi_mmap.descr_size
                omega)
            (by show s.efi_mmap.size + s.efi_mmap.descr_size ≤ U32
                omega)
          dsimp only at hwn
          have hmod2 : (i + 1 + 1) % U32 = i + 1 + 1 := Nat.mod_eq_of_lt (by omega)
          rw [hwn, hmod2]
          exact ih _ _ _ _ hst1 hwf1
            (by show 0 < s.efi_mmap.size + s.efi_mmap.descr_size; omega)
            (Or.inr ⟨i + 1, rfl, rfl, by
              show (i + 1) * s.efi_mmap.descr_size < s.efi_mmap.size + s.efi_mmap.descr_size
              omega⟩)
      rw [if_neg c6, if_neg c6]
      by_cases c7 : base > (s.efi_mmap.descr (i * s.efi_mmap.descr_size)).physical_start ∧
          desc_end > end_
      · rw [if_pos c7, if_pos c7]
        generalize hbm0 : Bytes.efi_memmap_t.set_num_pages bs.efi_mmap _ _ = bm0
        generalize hm0 : efi_memmap_t.store s.efi_mmap _ _ = m0
        have hag0 : maps_agree bm0 m0 := by
          rw [← hbm0, ← hm0]
          exact maps_agree_set_num_pages bs.efi_mmap s.efi_mmap i _ hst.2 hslot (by omega)
            (shiftRight_lt_U64 _ _ (by omega))
        have hwf0 : m0.well_formed maxEntries := by rw [← hm0]; exact hwf
        have hsz0 : m0.size = s.efi_mmap.size := by rw [← hm0]; rfl
        have hds0 : m0.descr_size = s.efi_mmap.descr_size := by rw [← hm0]; rfl
        clear hbm0 hm0
        obtain ⟨sz0, ds0, dd0⟩ := m0
        simp only at hsz0 hds0
        subst hsz0 hds0
        have rd0 := maps_agree_reads bm0 _ i hag0
          (by show (i + 1) * s.efi_mmap.descr_size ≤ U32; omega)
        dsimp only at rd0
        have bd0 := bytes_members_lt bm0 (i * s.efi_mmap.descr_size)
        rw [rd0.1, rd0.2.1, rd0.2.2.1, rd0.2.2.2] at bd0
        rw [rd0.2.2.2]
        dsimp only
        have hins := insert_after_region_agree maxEntries bm0
          { size := s.efi_mmap.size, descr_size := s.efi_mmap.descr_size, descr := dd0 }
          i base length EFI_RESERVED_TYPE (dd0 (i * s.efi_mmap.descr_size)).attr
          (s.efi_mmap.size / s.efi_mmap.descr_size) (i + 1) hag0 hslot hdvd
          (by show s.efi_mmap.size + s.efi_mmap.descr_size ≤ U32; omega)
          (slot_after i s.efi_mmap.descr_size (by omega))
          (by show (i + 1 + 1) * s.efi_mmap.descr_size ≤ U32
              rw [Nat.succ_mul]
              omega) (by decide) hbase (shiftRight_lt_U64 _ _ hlen) bd0.2.2.2
        generalize hrr : insert_after_region _ _ _ _ _ _ _ = rr at hins ⊢
        generalize Bytes.insert_after_region _ _ _ _ _ _ _ = rb at hins ⊢
        rcases rr with _ | ⟨b, m1⟩ <;> rcases rb with _ | ⟨bb, bm1⟩ <;>
          simp only [same_outcome] at hins
        · trivial
        obtain ⟨rfl, hag1⟩ := hins
        cases bb
        · refine ⟨rfl, ⟨hst.1, hag1⟩, ?_⟩
          rw [(insert_after_region_false hrr).2]
          exact hwf0
        · obtain ⟨hwf1, hsz1, hdsz1⟩ := insert_after_region_well_formed hwf0 hrr
          obtain ⟨sz1, ds1, dd1⟩ := m1
          simp only at hsz1 hdsz1
          subst hsz1 hdsz1
          dsimp only
          have hfit1 := hwf1.2.2.1
          dsimp only at hfit1
          have rd1 := maps_agree_reads bm1 _ i hag1
            (by show (i + 1) * s.efi_mmap.descr_size ≤ U32; omega)
          dsimp only at rd1
          have bd1 := bytes_members_lt bm1 (i * s.efi_mmap.descr_size)
          rw [rd1.1, rd1.2.1, rd1.2.2.1, rd1.2.2.2] at bd1
          rw [rd1.1, rd1.2.2.2]
          have hdvd1 : s.efi_mmap.size + s.efi_mmap.descr_size =
              (s.efi_mmap.size / s.efi_mmap.descr_size + 1) * s.efi_mmap.descr_size := by
            rw [Nat.succ_mul, ← hdvd]
          have hins2 := insert_after_region_agree maxEntries bm1
            { size := s.efi_mmap.size + s.efi_mmap.descr_size,
              descr_size := s.efi_mmap.descr_size, descr := dd1 }
            (i + 1) end_ (desc_end - end_) (dd1 (i * s.efi_mmap.descr_size)).type
            (dd1 (i * s.efi_mmap.descr_size)).attr
            (s.efi_mmap.size / s.efi_mmap.descr_size + 1) (i + 1 + 1) hag1 hslot hdvd1
            (by show s.efi_mmap.size + s.efi_mmap.descr_size + s.efi_mmap.descr_size ≤ U32
                omega)
            (slot_after (i + 1) s.efi_mmap.descr_size (by omega))
            (by show (i + 1 + 1 + 1) * s.efi_mmap.descr_size ≤ U32
                rw [Nat.succ_mul, Nat.succ_mul]
                omega) bd1.1 hend (shiftRight_lt_U64 _ _ (by omega)) bd1.2.2.2
          generalize hrr2 : insert_after_region _ _ _ _ _ _ _ = rr2 at hins2 ⊢
          generalize Bytes.insert_after_region _ _ _ _ _ _ _ = rb2 at hins2 ⊢
          rcases rr2 with _ | ⟨c, m2⟩ <;> rcases rb2 with _ | ⟨cc, bm2⟩ <;>
            simp only [same_outcome] at hins2
          · trivial
          obtain ⟨rfl, hag2⟩ := hins2
          cases cc
          · refine ⟨rfl, ⟨hst.1, hag2⟩, ?_⟩
            rw [(insert_after_region_false hrr2).2]
            exact hwf1
          · exact ⟨rfl, ⟨hst.1, hag2⟩, (insert_after_region_well_formed hwf1 hrr2).1⟩
      rw [if_neg c7, if_neg c7]
      exact ⟨rfl, hst, hwf⟩

theorem reserve_length_lt (length : Nat) (h : length < U64) : reserve_length length < U64 := by
  unfold reserve_length
  split
  · exact Nat.mod_lt _ (by decide)
  · exact h

theorem reserve_end_lt (base length : Nat) : reserve_end base length < U64 :=
  Nat.mod_lt _ (by decide)

/-- Maps that agree have the same entries. -/
theorem maps_agree_entries (bm : Bytes.efi_memmap_t) (m : efi_memmap_t)
    (hag : maps_agree bm m) (hfit : m.size ≤ U32) :
    bm.entries = m.entries := by
  obtain ⟨h1, h2, hsl⟩ := hag
  unfold Bytes.efi_memmap_t.entries efi_memmap_t.entries
  rw [h1, h2]
  apply List.map_congr_left
  intro k hk
  rw [List.mem_range] at hk
  have hle : (k + 1) * m.descr_size ≤ m.size / m.descr_size * m.descr_size :=
    Nat.mul_le_mul_right _ hk
  have hdiv : m.size / m.descr_size * m.descr_size ≤ m.size := Nat.div_mul_le_self _ _
  rw [← hsl k (by omega)]
  show Bytes.efi_memmap_t.entry
      { size := bm.size, descr_size := bm.descr_size, descr := bm.descr } _ = _
  rw [h2]
  rfl

/-- The bytes of a map agree with the records they hold. -/
theorem maps_agree_records (bm : Bytes.efi_memmap_t) : maps_agree bm bm.records :=
  ⟨rfl, rfl, fun _ _ => rfl⟩

/-- The function `efi_memmap_reserve` on bytes and on slot records. On states that
agree, with a well-formed map (whole slots that hold a descriptor) that is not empty
and a `length` that fits `uint64_t`, the function on the byte storage and the function
on the slot records end alike: both leave the model, or both return the same value in
states that agree, with a well-formed map. -/
theorem efi_memmap_reserve_agree (maxEntries fuel : Nat) (bs : Bytes.efi_state)
    (s : efi_state) (base length : Nat) (hst : states_agree bs s)
    (hwf : s.efi_mmap.well_formed maxEntries) (hpos : 0 < s.efi_mmap.size)
    (hlen : length < U64) :
    same_outcome (fun bs1 s1 => states_agree bs1 s1 ∧ s1.efi_mmap.well_formed maxEntries)
      (Bytes.efi_memmap_reserve maxEntries fuel bs base length)
      (efi_memmap_reserve maxEntries fuel s base length) := by
  unfold Bytes.efi_memmap_reserve efi_memmap_reserve
  rw [hst.1]
  by_cases h : length = 0 ∨ (!s.efi_mmap_available) = true
  · rw [if_pos h, if_pos h]
    exact ⟨rfl, hst, hwf⟩
  · rw [if_neg h, if_neg h]
    exact reserve_loop_agree maxEntries _ _ _ (reserve_base_lt base)
      (reserve_length_lt length hlen) (reserve_end_lt base length) fuel bs s none 0 hst hwf hpos
      (Or.inl ⟨rfl, rfl⟩)

/-- The slot records are the memory of the code in slots that hold a descriptor: for
every state on byte storage whose map is well-formed (`descr_size >=
sizeof(efi_mem_descr_t)`, whole slots, no 32-bit wrap) and not empty, a call
`efi_memmap_reserve(base, length)` on the bytes and the call on the slot records that
the bytes hold end alike, and when they return, they return the same value and leave
the same entries. -/
theorem efi_memmap_reserve_on_records (maxEntries fuel : Nat) (bs : Bytes.efi_state)
    (base length : Nat) (hwf : bs.records.efi_mmap.well_formed maxEntries)
    (hpos : 0 < bs.efi_mmap.size) (hlen : length < U64) :
    (efi_memmap_reserve maxEntries fuel bs.records base length = none →
      Bytes.efi_memmap_reserve maxEntries fuel bs base length = none) ∧
    (∀ r s1, efi_memmap_reserve maxEntries fuel bs.records base length = some (r, s1) →
      ∃ bs1, Bytes.efi_memmap_reserve maxEntries fuel bs base length = some (r, bs1) ∧
        bs1.efi_mmap_available = s1.efi_mmap_available ∧
        bs1.efi_mmap.size = s1.efi_mmap.size ∧
        bs1.efi_mmap.descr_size = s1.efi_mmap.descr_size ∧
        bs1.efi_mmap.entries = s1.efi_mmap.entries) := by
  have h := efi_memmap_reserve_agree maxEntries fuel bs bs.records base length
    ⟨rfl, maps_agree_records bs.efi_mmap⟩ hwf hpos hlen
  have hU : U32 = 4294967296 := by decide
  constructor
  · intro hn
    rw [hn] at h
    rcases hb : Bytes.efi_memmap_reserve maxEntries fuel bs base length with _ | ⟨b, bs1⟩
    · rfl
    · rw [hb] at h
      simp only [same_outcome] at h
  · intro r s1 hs
    rw [hs] at h
    rcases hb : Bytes.efi_memmap_reserve maxEntries fuel bs base length with _ | ⟨b, bs1⟩
    · rw [hb] at h
      simp only [same_outcome] at h
    · rw [hb] at h
      simp only [same_outcome] at h
      obtain ⟨rfl, ⟨hav, hag⟩, hwf1⟩ := h
      have hfit1 := hwf1.2.2.1
      exact ⟨bs1, rfl, hav, hag.1, hag.2.1, maps_agree_entries _ _ hag (by omega)⟩

/-- The call of `efi_memmap_reserve_interior_split_short_slots` in slots that hold a
descriptor: on `whole_slots_state` (`descr_size = 48`), the byte storage evaluated,
`efi_memmap_reserve(0x1000, 0x1000)` returns true and replaces the first entry by the
three entries of case 4, each with the attribute of the first entry; the entries
behind are unchanged. -/
theorem efi_memmap_reserve_interior_split_whole_slots :
    SIZEOF_EFI_MEM_DESCR ≤ whole_slots_state.efi_mmap.descr_size ∧
    whole_slots_state.efi_mmap.entries =
      [⟨EFI_CONVENTIONAL_MEMORY, 0x0, 4, 0xf, 0⟩, ⟨EFI_CONVENTIONAL_MEMORY, 0x4000, 4, 0xf, 0⟩,
       ⟨EFI_LOADER_DATA, 0x8000, 4, 0xf, 0⟩] ∧
    (Bytes.efi_memmap_reserve 128 8 whole_slots_state 0x1000 0x1000).map
        (fun r => (r.1, r.2.efi_mmap.size, r.2.efi_mmap.entries)) =
      some (true, 240,
        [⟨EFI_CONVENTIONAL_MEMORY, 0x0, 1, 0xf, 0⟩, ⟨EFI_RESERVED_TYPE, 0x1000, 1, 0xf, 0⟩,
         ⟨EFI_CONVENTIONAL_MEMORY, 0x2000, 2, 0xf, 0⟩, ⟨EFI_CONVENTIONAL_MEMORY, 0x4000, 4, 0xf, 0⟩,
         ⟨EFI_LOADER_DATA, 0x8000, 4, 0xf, 0⟩]) := by
  refine ⟨by decide, by decide!, by decide!⟩

/-- The theorem `efi_memmap_reserve_on_records` at `whole_slots_state` and the call
`efi_memmap_reserve(0x1000, 0x1000)`. -/
theorem efi_memmap_reserve_on_records_example :
    whole_slots_state.records.efi_mmap.well_formed 128 ∧
    0 < whole_slots_state.efi_mmap.size ∧
    ((efi_memmap_reserve 128 8 whole_slots_state.records 0x1000 0x1000 = none →
      Bytes.efi_memmap_reserve 128 8 whole_slots_state 0x1000 0x1000 = none) ∧
    (∀ r s1, efi_memmap_reserve 128 8 whole_slots_state.records 0x1000 0x1000 = some (r, s1) →
      ∃ bs1, Bytes.efi_memmap_reserve 128 8 whole_slots_state 0x1000 0x1000 = some (r, bs1) ∧
        bs1.efi_mmap_available = s1.efi_mmap_available ∧
        bs1.efi_mmap.size = s1.efi_mmap.size ∧
        bs1.efi_mmap.descr_size = s1.efi_mmap.descr_size ∧
        bs1.efi_mmap.entries = s1.efi_mmap.entries)) :=
  ⟨by decide, by decide,
    efi_memmap_reserve_on_records 128 8 whole_slots_state 0x1000 0x1000 (by decide) (by decide)
      (by decide)⟩

end Tboot
